import Mathlib

/-!
Verification of the span-augmented skip list (`skiplist.go`, REDIS-ZSET style).

The Go heap is modelled as an arena (`List Element`), node pointers as arena
indices (`Option ℕ`, `none` standing for Go's `nil`), `float64` scores as
rationals extended with the two infinities, and the `map[string]float64`
key index as an association list.  `Insert` takes the randomly drawn level
as an explicit argument; `generateLevel` is modelled separately from its
`uint64` input.  Loops in the source are modelled with explicit fuel; fuel
exhaustion and `nil`-pointer dereference (which would make the Go program
crash or diverge) make the model return the current intermediate value.
-/

set_option maxRecDepth 100000

namespace SkipListGo

/-- Source constant `MaxLevel = 25`. -/
def MaxLevel : ℕ := 25

/-- Source constant `Eps = 0.00001`.  Finite scores are modelled as exact
integer multiples of `10⁻⁶` (`fin q` denotes the real number `q · 10⁻⁶`),
so the tolerance is `10` units.  This grid is fine enough to express every
comparison the code performs and keeps all arithmetic kernel-computable. -/
def Eps : ℤ := 10

/-- Source constant `HeadNodeName`. -/
def HeadNodeName : String := "-inf-"

/-- Source constant `TailNodeName`. -/
def TailNodeName : String := "+inf+"

/-- A `float64` score: finite values are modelled as integer multiples of
`10⁻⁶`; the two sentinel nodes carry `math.Inf(-1)` and `math.Inf(1)`. -/
inductive EScore where
  | negInf
  | fin (q : ℤ)
  | posInf
deriving DecidableEq, Repr

/-- `math.Abs(a-b) > Eps` for two scores (spelled without `abs` so that it
kernel-reduces).  With one infinity involved the difference is infinite, so
the result is `true`; `Inf - Inf` is NaN in Go and every comparison on NaN
is `false`. -/
def absGtEps : EScore → EScore → Bool
  | .fin a, .fin b => decide (Eps < a - b) || decide (Eps < b - a)
  | .negInf, .negInf => false
  | .posInf, .posInf => false
  | _, _ => true

/-- `a < b` on `float64` (no NaN inputs arise in the model). -/
def escLt : EScore → EScore → Bool
  | .fin a, .fin b => decide (a < b)
  | .negInf, .fin _ => true
  | .negInf, .posInf => true
  | .fin _, .posInf => true
  | _, _ => false

/-- `a > b` on `float64`. -/
def escGt (a b : EScore) : Bool := escLt b a

/-- Source `greaterThan`: `a > b && math.Abs(a-b) > Eps`. -/
def greaterThan (a b : EScore) : Bool := escGt a b && absGtEps a b

/-- Source `lessThan`: `a < b && math.Abs(a-b) > Eps`. -/
def lessThan (a b : EScore) : Bool := escLt a b && absGtEps a b

/-- Source `equalFloat`: `math.Abs(a-b) <= Eps`.  If an infinity is involved
the difference is `±Inf` or NaN, and the comparison is `false`. -/
def equalFloat : EScore → EScore → Bool
  | .fin a, .fin b => decide (a - b ≤ Eps) && decide (b - a ≤ Eps)
  | _, _ => false

/-- Go's byte-lexicographic `<` on strings (codepoint-wise; identical to the
byte order on the ASCII names used throughout). -/
def strLtAux : List Char → List Char → Bool
  | [], [] => false
  | [], _ :: _ => true
  | _ :: _, [] => false
  | a :: as, b :: bs =>
    if a < b then true
    else if b < a then false
    else strLtAux as bs

/-- `a < b` on Go strings. -/
def strLt (a b : String) : Bool := strLtAux a.data b.data

/-- Source `Element`: per-level forward pointers and spans, the base-level
backward pointer, the unique name and the score.  Pointers are arena ids. -/
structure Element where
  next : List (Option ℕ)
  span : List ℤ
  prev : Option ℕ
  name : String
  score : EScore
deriving DecidableEq, Repr

/-- Source `Element.Less`: compare by score, by name on an epsilon-tie. -/
def Element.Less (e : Element) (score : EScore) (name : String) : Bool :=
  if absGtEps e.score score then escLt e.score score else strLt e.name name

/-- Source `Element.Equal`: scores within `Eps` and names equal. -/
def Element.Equal (e : Element) (score : EScore) (name : String) : Bool :=
  equalFloat e.score score && e.name == name

/-- Source `Element.Greater`. -/
def Element.Greater (e : Element) (score : EScore) (name : String) : Bool :=
  if absGtEps e.score score then escGt e.score score else strLt name e.name

/-- Source `SkipList`: the arena models the Go heap; id 0 is `headNode`,
id 1 is `tailNode`.  `elements` models the `map[string]float64` index. -/
structure SkipList where
  arena : List Element
  maxLevel : ℕ
  elements : List (String × EScore)
deriving DecidableEq, Repr

/-- Lookup in the key index (`t.elements[name]`). -/
def elemsLookup (l : List (String × EScore)) (n : String) : Option EScore :=
  (l.find? (fun p => p.1 == n)).map Prod.snd

/-- Map write `t.elements[name] = score`. -/
def elemsSet (l : List (String × EScore)) (n : String) (s : EScore) :
    List (String × EScore) :=
  if (l.find? (fun p => p.1 == n)).isSome then
    l.map (fun p => if p.1 == n then (n, s) else p)
  else l ++ [(n, s)]

/-- Map erase `delete(t.elements, name)`. -/
def elemsErase (l : List (String × EScore)) (n : String) :
    List (String × EScore) :=
  l.filter (fun p => ¬ p.1 == n)

/-- Dereferencing an id outside the arena yields this dummy node (the Go
program would have crashed on a dangling pointer; live ids never do). -/
def defaultElement : Element :=
  ⟨List.replicate MaxLevel none, List.replicate MaxLevel 0, none, "", .fin 0⟩

namespace SkipList

def get (t : SkipList) (i : ℕ) : Element := t.arena.getD i defaultElement

def nextOf (t : SkipList) (i L : ℕ) : Option ℕ := (t.get i).next.getD L none

def spanOf (t : SkipList) (i L : ℕ) : ℤ := (t.get i).span.getD L 0

def prevOf (t : SkipList) (i : ℕ) : Option ℕ := (t.get i).prev

def scoreOf (t : SkipList) (i : ℕ) : EScore := (t.get i).score

def nameOf (t : SkipList) (i : ℕ) : String := (t.get i).name

def modifyAt (t : SkipList) (i : ℕ) (f : Element → Element) : SkipList :=
  { t with arena := t.arena.set i (f (t.get i)) }

def setNext (t : SkipList) (i L : ℕ) (v : Option ℕ) : SkipList :=
  t.modifyAt i (fun e => { e with next := e.next.set L v })

def setSpan (t : SkipList) (i L : ℕ) (v : ℤ) : SkipList :=
  t.modifyAt i (fun e => { e with span := e.span.set L v })

def setPrev (t : SkipList) (i : ℕ) (v : Option ℕ) : SkipList :=
  t.modifyAt i (fun e => { e with prev := v })

end SkipList

/-- Source `NewSeed`: head node linking to the tail at every level with
span 1 (the random seeding has no counterpart in the model). -/
def headNode0 : Element :=
  ⟨List.replicate MaxLevel (some 1), List.replicate MaxLevel 1, none,
    HeadNodeName, .negInf⟩

/-- The `+inf+` tail node of `NewSeed`. -/
def tailNode0 : Element :=
  ⟨List.replicate MaxLevel none, List.replicate MaxLevel 0, some 0,
    TailNodeName, .posInf⟩

/-- The empty skip list produced by `NewSeed`. -/
def newList : SkipList := ⟨[headNode0, tailNode0], 0, []⟩

/-- The rightward walk shared by the descents of `Insert`, `Delete`, `Find`
and `GetRank`: follow level-`L` links while the next node is `Less` than the
target, accumulating the spans of the links walked
(`prevs[index].rank += currNode.span[index]`). -/
def advanceLess (t : SkipList) (L : ℕ) (score : EScore) (name : String) :
    ℕ → ℕ → ℤ → ℕ × ℤ
  | 0, curr, rank => (curr, rank)
  | fuel + 1, curr, rank =>
    match t.nextOf curr L with
    | none => (curr, rank)
    | some nxt =>
      if (t.get nxt).Less score name then
        advanceLess t L score name fuel nxt (rank + t.spanOf curr L)
      else (curr, rank)

/-- Per-level mutation of the `Delete` descent (source lines 354–369),
applied after the rightward walk stopped at `curr`: if `curr`'s successor is
the target, splice it out, fold its span into the predecessor, fix the base
`prev` link, drop the key from the index and shrink `maxLevel` on an emptied
level; otherwise just shorten the predecessor's span by one. -/
def deleteLevelStep (score : EScore) (name : String) (L : ℕ)
    (t : SkipList) (curr : ℕ) : SkipList :=
  match t.nextOf curr L with
  | some nid =>
    if (t.get nid).Equal score name then
      let t := t.setSpan curr L (t.spanOf curr L + t.spanOf nid L - 1)
      let t := t.setNext curr L (t.nextOf nid L)
      let t :=
        if L = 0 then
          let t :=
            match t.nextOf nid L with
            | some m => t.setPrev m (some curr)
            | none => t
          { t with elements := elemsErase t.elements name }
        else t
      if t.nextOf 0 L = some 1 ∧ 0 < L then { t with maxLevel := L - 1 }
      else t
    else t.setSpan curr L (t.spanOf curr L - 1)
  | none => t.setSpan curr L (t.spanOf curr L - 1)

/-- The level loop of the `Delete` descent (source lines 346–370). -/
def deleteLevels (score : EScore) (name : String) :
    List ℕ → SkipList → ℕ → SkipList × ℕ
  | [], t, curr => (t, curr)
  | L :: rest, t, curr =>
    let c := (advanceLess t L score name t.arena.length curr 0).1
    deleteLevels score name rest (deleteLevelStep score name L t c) c

/-- Final loop of `Delete` (source lines 373–375): shrink the head spans of
the unused levels. -/
def spanDecHead (t : SkipList) (i : ℕ) : SkipList :=
  t.setSpan 0 i (t.spanOf 0 i - 1)

/-- Source `SkipList.Delete`. -/
def Delete (t : SkipList) (name : String) : SkipList :=
  match elemsLookup t.elements name with
  | none => t
  | some score =>
    let t := (deleteLevels score name ((List.range (t.maxLevel + 1)).reverse) t 0).1
    ((List.range MaxLevel).filter (fun i => t.maxLevel < i)).foldl spanDecHead t

/-- Per-level splice of the `Insert` descent (source lines 216–224): on the
levels up to the drawn level, link the new node between the recorded
predecessor and its old successor, fixing base `prev` pointers at level 0. -/
def insertLevelStep (elemId elemLevel L : ℕ) (t : SkipList) (curr : ℕ) : SkipList :=
  if L ≤ elemLevel then
    let nxt := t.nextOf curr L
    let t := t.setNext elemId L nxt
    let t := t.setNext curr L (some elemId)
    if L = 0 then
      let t := t.setPrev elemId (some curr)
      match nxt with
      | some m => t.setPrev m (some elemId)
      | none => t
    else t
  else t

/-- The descent loop of `Insert` (source lines 210–238), per level: walk
right while `Less` accumulating rank, record the predecessor and its rank,
splice on the levels at most the drawn level, then go down one level
inheriting the rank. -/
def insertLevels (score : EScore) (name : String) (elemId elemLevel : ℕ) :
    List ℕ → SkipList → ℕ → ℤ → List (Option ℕ × ℤ) →
    SkipList × List (Option ℕ × ℤ)
  | [], t, _, _, prevs => (t, prevs)
  | L :: rest, t, curr, rank, prevs =>
    let p := advanceLess t L score name t.arena.length curr rank
    insertLevels score name elemId elemLevel rest
      (insertLevelStep elemId elemLevel L t p.1) p.1 p.2
      (prevs.set L (some p.1, p.2))

/-- Span recomputation for the levels the new node occupies (source lines
249–255): the new node takes over the part of its predecessor's old span
beyond its own rank, and the predecessor's span becomes the distance to the
new node. -/
def spanFixNew (prevs : List (Option ℕ × ℤ)) (elemId : ℕ) (elemRank : ℤ)
    (t : SkipList) (i : ℕ) : SkipList :=
  match (prevs.getD i (none, 0)).1 with
  | some pid =>
    (t.setSpan elemId i ((prevs.getD i (none, 0)).2 + t.spanOf pid i - elemRank + 1)).setSpan
      pid i (elemRank - (prevs.getD i (none, 0)).2)
  | none => t

/-- Span bump for the levels above the new node (source lines 258–260). -/
def spanFixAbove (prevs : List (Option ℕ × ℤ)) (t : SkipList) (i : ℕ) : SkipList :=
  match (prevs.getD i (none, 0)).1 with
  | some pid => t.setSpan pid i (t.spanOf pid i + 1)
  | none => t

/-- Span bump of the head node on the unused levels (source lines 263–265). -/
def spanIncHead (t : SkipList) (i : ℕ) : SkipList :=
  t.setSpan 0 i (t.spanOf 0 i + 1)

/-- Node allocation and index update of `Insert` (source lines 191–198),
together with the `maxLevel` raise of lines 186–189. -/
def insertAlloc (t : SkipList) (name : String) (score : EScore) (maxL : ℕ) :
    SkipList :=
  ⟨t.arena ++
      [⟨List.replicate MaxLevel none, List.replicate MaxLevel 0, none, name, score⟩],
    maxL, elemsSet t.elements name score⟩

/-- The fresh-key part of `Insert` (source lines 184–271), entered after the
guards with `name` not in the index: draw the level (capped at
`maxLevel + 1`), allocate the node, run the descent, then recompute the spans
from the recorded ranks. -/
def insertFresh (t : SkipList) (name : String) (score : EScore) (drawn : ℕ) :
    SkipList :=
  let elemLevel := if drawn > t.maxLevel then t.maxLevel + 1 else drawn
  let maxL := if drawn > t.maxLevel then t.maxLevel + 1 else t.maxLevel
  let elemId := t.arena.length
  let res := insertLevels score name elemId elemLevel
    ((List.range (maxL + 1)).reverse) (insertAlloc t name score maxL) 0 0
    (List.replicate MaxLevel (none, 0))
  let prevs := res.2
  let elemRank : ℤ := (prevs.getD 0 (none, 0)).2 + 1
  ((List.range MaxLevel).filter (fun i => maxL < i)).foldl spanIncHead
    ((((List.range (maxL + 1)).filter (fun i => elemLevel < i)).foldl
        (spanFixAbove prevs)
      ((List.range (elemLevel + 1)).foldl (spanFixNew prevs elemId elemRank) res.1)))

/-- Source `SkipList.Insert`, with the level drawn by `generateLevel` passed
explicitly.  The guards reject the sentinel names and the sentinel scores;
a key present with an epsilon-equal score is a no-op; a key present with a
different score is deleted first. -/
def Insert (t : SkipList) (name : String) (score : EScore) (drawn : ℕ) :
    SkipList :=
  if name = HeadNodeName ∨ name = TailNodeName then t
  else if score = t.scoreOf 0 ∨ score = t.scoreOf 1 then t
  else
    match elemsLookup t.elements name with
    | some curr =>
      if equalFloat curr score then t
      else insertFresh (Delete t name) name score drawn
    | none => insertFresh t name score drawn

/-- The per-level loop of `Find` (source lines 282–294). -/
def findLevels (t : SkipList) (score : EScore) (name : String) :
    List ℕ → ℕ → Option ℕ
  | [], _ => none
  | L :: rest, curr =>
    let c := (advanceLess t L score name t.arena.length curr 0).1
    match t.nextOf c L with
    | some nid =>
      if (t.get nid).Equal score name then some nid
      else findLevels t score name rest c
    | none => findLevels t score name rest c

/-- Source `SkipList.Find`. -/
def Find (t : SkipList) (name : String) : Option ℕ :=
  match elemsLookup t.elements name with
  | none => none
  | some score => findLevels t score name ((List.range (t.maxLevel + 1)).reverse) 0

/-- The per-level loop of `GetRank` (source lines 387–402): walk right
accumulating spans, and on a match return the accumulated rank plus the span
of the final predecessor. -/
def getRankLevels (t : SkipList) (score : EScore) (name : String) :
    List ℕ → ℕ → ℤ → ℤ × Bool
  | [], _, _ => (0, false)
  | L :: rest, curr, rank =>
    let p := advanceLess t L score name t.arena.length curr rank
    match t.nextOf p.1 L with
    | some nid =>
      if (t.get nid).Equal score name then (p.2 + t.spanOf p.1 L, true)
      else getRankLevels t score name rest p.1 p.2
    | none => getRankLevels t score name rest p.1 p.2

/-- Source `SkipList.GetRank`. -/
def GetRank (t : SkipList) (name : String) : ℤ × Bool :=
  match elemsLookup t.elements name with
  | none => (0, false)
  | some score => getRankLevels t score name ((List.range (t.maxLevel + 1)).reverse) 0 0

/-- The rightward walk of `FindByRank` at one level (source lines 416–424):
advance while the next node is not the tail and taking its span does not
overshoot the target rank. -/
def fbrAdvance (t : SkipList) (L : ℕ) (rank : ℤ) : ℕ → ℕ → ℤ → ℕ × ℤ
  | 0, curr, er => (curr, er)
  | fuel + 1, curr, er =>
    match t.nextOf curr L with
    | some nid =>
      if nid ≠ 1 then
        let nr := er + t.spanOf curr L
        if nr ≤ rank then fbrAdvance t L rank fuel nid nr else (curr, er)
      else (curr, er)
    | none => (curr, er)

/-- The per-level loop of `FindByRank` (source lines 414–430). -/
def fbrLevels (t : SkipList) (rank : ℤ) : List ℕ → ℕ → ℤ → Option ℕ
  | [], _, _ => none
  | L :: rest, curr, er =>
    let p := fbrAdvance t L rank t.arena.length curr er
    if p.2 = rank then some p.1 else fbrLevels t rank rest p.1 p.2

/-- Source `SkipList.FindByRank`. -/
def FindByRank (t : SkipList) (rank : ℤ) : Option ℕ :=
  if rank < 1 ∨ rank > (t.elements.length : ℤ) then none
  else fbrLevels t rank ((List.range (t.maxLevel + 1)).reverse) 0 0

/-- Source `SkipList.IsEmpty`. -/
def IsEmpty (t : SkipList) : Bool := t.nextOf 0 0 == some 1

/-- Source `SkipList.GetSmallestNode`. -/
def GetSmallestNode (t : SkipList) : Option ℕ :=
  if IsEmpty t then none else t.nextOf 0 0

/-- Source `SkipList.GetLargestNode`. -/
def GetLargestNode (t : SkipList) : Option ℕ :=
  if IsEmpty t then none else t.prevOf 1

/-- Source `SkipList.GetNodeCount`: the size of the key index. -/
def GetNodeCount (t : SkipList) : ℕ := t.elements.length

/-- Source `SkipList.GetScore` (`(0, false)` on a missing key, Go zero value). -/
def GetScore (t : SkipList) (name : String) : EScore × Bool :=
  match elemsLookup t.elements name with
  | some s => (s, true)
  | none => (.fin 0, false)

/-- The score-only rightward walk of `FindGreaterOrEqual` (lines 318–323). -/
def fgeAdvance (t : SkipList) (L : ℕ) (score : EScore) : ℕ → ℕ → ℕ
  | 0, curr => curr
  | fuel + 1, curr =>
    match t.nextOf curr L with
    | some nid =>
      if lessThan (t.scoreOf nid) score then fgeAdvance t L score fuel nid
      else curr
    | none => curr

/-- The base-level linear scan of `FindGreaterOrEqual` (lines 327–332). -/
def fgeScan (t : SkipList) (score : EScore) : ℕ → ℕ → Option ℕ
  | 0, _ => none
  | fuel + 1, curr =>
    if curr = 1 then none
    else if ¬ lessThan (t.scoreOf curr) score then some curr
    else
      match t.nextOf curr 0 with
      | some nid => fgeScan t score fuel nid
      | none => none

/-- The per-level loop of `FindGreaterOrEqual` (lines 316–334). -/
def fgeLevels (t : SkipList) (score : EScore) : List ℕ → ℕ → Option ℕ
  | [], _ => none
  | L :: rest, curr =>
    let c := fgeAdvance t L score t.arena.length curr
    if L = 0 then fgeScan t score t.arena.length c
    else fgeLevels t score rest c

/-- Source `SkipList.FindGreaterOrEqual` with its three edge guards. -/
def FindGreaterOrEqual (t : SkipList) (score : EScore) : Option ℕ :=
  if IsEmpty t then none
  else
    match t.nextOf 0 0 with
    | none => none
    | some f =>
      if ¬ greaterThan score (t.scoreOf f) then some f
      else
        match t.prevOf 1 with
        | none => none
        | some l =>
          if greaterThan score (t.scoreOf l) then none
          else fgeLevels t score ((List.range (t.maxLevel + 1)).reverse) 0

/-- Source `bits.TrailingZeros64` restricted to the masked 24-bit value
(`64` on input `0`, as in Go). -/
def trailingZeros64 (x : ℕ) : ℕ :=
  ((List.range 64).find? (fun i => x.testBit i)).getD 64

/-- Source `generateLevel`, as a function of the drawn `uint64`. -/
def generateLevel (x : ℕ) : ℕ :=
  let m := (x % 2 ^ 64) &&& (2 ^ (MaxLevel - 1) - 1)
  let zeroes := trailingZeros64 m
  if zeroes < MaxLevel then zeroes else MaxLevel - 1

/-- One mutating API call: an `Insert` with its drawn level, or a `Delete`. -/
inductive Op where
  | ins (name : String) (score : EScore) (lvl : ℕ)
  | del (name : String)
deriving DecidableEq, Repr

/-- Apply one operation. -/
def applyOp (t : SkipList) : Op → SkipList
  | .ins n s l => Insert t n s l
  | .del n => Delete t n

/-- The state reached from a fresh list by a sequence of operations. -/
def runOps (ops : List Op) : SkipList := ops.foldl applyOp newList

/-- All drawn levels lie in the range of `generateLevel`. -/
def validOpsB (ops : List Op) : Bool :=
  ops.all (fun op => match op with | .ins _ _ l => decide (l < MaxLevel) | .del _ => true)

/-- The scores handed to the `Insert` operations of a run. -/
def insScores (ops : List Op) : List EScore :=
  ops.filterMap (fun op => match op with | .ins _ s _ => some s | .del _ => none)

/-- Two scores are separation-compatible when they are equal or further than
`Eps` apart; on such score sets the epsilon comparisons of the source form a
genuine total order. -/
def scoreCompat (a b : EScore) : Bool := a == b || absGtEps a b

/-- Every pair of inserted scores of the run is separation-compatible. -/
def sepOpsB (ops : List Op) : Bool :=
  (insScores ops).all (fun a => (insScores ops).all (fun b => scoreCompat a b))

/-! ### Observers on the linked structure

These walk the actual pointer graph of a state; they are the vocabulary the
claims are stated in.  All walks carry fuel bounded by the arena size, which
suffices on any state whose level lists are acyclic. -/

/-- Ids of the real nodes on the level-`L` list strictly after node `i`,
up to (excluding) the tail. -/
def levelWalk (t : SkipList) (L : ℕ) : ℕ → ℕ → List ℕ
  | 0, _ => []
  | fuel + 1, i =>
    match t.nextOf i L with
    | some j => if j = 1 then [] else j :: levelWalk t L fuel j
    | none => []

/-- Ids of the real nodes on the level-`L` list, in list order. -/
def levelIds (t : SkipList) (L : ℕ) : List ℕ :=
  levelWalk t L t.arena.length 0

/-- Does the level-`L` list, followed from node `i`, reach the tail? -/
def levelClosedFrom (t : SkipList) (L : ℕ) : ℕ → ℕ → Bool
  | 0, _ => false
  | fuel + 1, i =>
    if i = 1 then true
    else
      match t.nextOf i L with
      | some j => levelClosedFrom t L fuel j
      | none => false

/-- The level-`L` list starting at the head reaches the tail. -/
def levelClosed (t : SkipList) (L : ℕ) : Bool :=
  levelClosedFrom t L (t.arena.length + 1) 0

/-- Base-level position of id `i`: the head sentinel sits at 0, the `k`-th
real node at `k`, the tail one past the last real node. -/
def basePos (t : SkipList) (i : ℕ) : ℤ :=
  ((0 :: levelIds t 0 ++ [1]).findIdx (· = i) : ℤ)

/-- The span invariant, read off the pointer graph: every level list closes
at the tail, and on every level the span of each link equals the number of
base-level edges it jumps over. -/
def spanInvB (t : SkipList) : Bool :=
  (List.range MaxLevel).all (fun L =>
    levelClosed t L &&
    (0 :: levelIds t L).all (fun i =>
      match t.nextOf i L with
      | some j => t.spanOf i L == basePos t j - basePos t i
      | none => false))

/-- Every live node's rank as computed by the span-accumulating descent
(`GetRank`) equals its base-level position. -/
def rankDescentB (t : SkipList) : Bool :=
  (levelIds t 0).all (fun i => GetRank t (t.nameOf i) == (basePos t i, true))

/-- The exact (score, key) lexicographic order ("the total order" of the
spec; on separation-compatible scores it agrees with the epsilon
comparisons of the source). -/
def keyLtB (a b : EScore × String) : Bool :=
  escLt a.1 b.1 || (a.1 == b.1 && strLt a.2 b.2)

/-- The (score, name) key of a node. -/
def keyOfId (t : SkipList) (i : ℕ) : EScore × String := (t.scoreOf i, t.nameOf i)

/-- Adjacent-pairs check. -/
def adjAllB (f : ℕ → ℕ → Bool) : List ℕ → Bool
  | [] => true
  | [_] => true
  | a :: b :: rest => f a b && adjAllB f (b :: rest)

/-- The base-level traversal is sorted in the sense of the source's own
epsilon comparison: each node is `Less` than its successor (ascending by
score up to `Eps`, and by key on an epsilon tie). -/
def sortedEpsB (t : SkipList) : Bool :=
  levelClosed t 0 &&
  adjAllB (fun a b => (t.get a).Less (t.scoreOf b) (t.nameOf b)) (levelIds t 0)

/-- The base-level traversal is strictly sorted in the exact (score, key)
lexicographic order. -/
def sortedStrictB (t : SkipList) : Bool :=
  levelClosed t 0 &&
  adjAllB (fun a b => keyLtB (keyOfId t a) (keyOfId t b)) (levelIds t 0)

/-- Each live key appears exactly once on the base chain. -/
def namesNodupB (t : SkipList) : Bool :=
  decide (((levelIds t 0).map t.nameOf).Nodup)

/-- Index–structure consistency: the key→score index and the base chain
carry exactly the same keys with the same scores, and the node count is the
chain length. -/
def consistentB (t : SkipList) : Bool :=
  levelClosed t 0 &&
  namesNodupB t &&
  decide ((t.elements.map Prod.fst).Nodup) &&
  t.elements.length == (levelIds t 0).length &&
  (levelIds t 0).all (fun i => elemsLookup t.elements (t.nameOf i) == some (t.scoreOf i)) &&
  t.elements.all (fun p => (levelIds t 0).any (fun i => t.nameOf i == p.1))

/-- The chain node carrying a given name, if any. -/
def idOfName (t : SkipList) (n : String) : Option ℕ :=
  (levelIds t 0).find? (fun i => t.nameOf i == n)

/-- Number of chain nodes strictly preceding node `i` in the (score, key)
total order. -/
def lexPredCount (t : SkipList) (i : ℕ) : ℕ :=
  ((levelIds t 0).filter (fun j => keyLtB (keyOfId t j) (keyOfId t i))).length

/-! ### Node identity preservation

Every state update performed by the operations either rewires links
(`setNext`/`setSpan`/`setPrev`), appends a fresh node, or replaces the
`maxLevel`/`elements` fields; no update ever changes the name or score of an
existing node.  The sentinel identities at ids 0 and 1 are therefore fixed
across every run. -/

theorem SkipList.get_modifyAt (t : SkipList) (i : ℕ) (f : Element → Element) (j : ℕ) :
    (t.modifyAt i f).get j = if j = i ∧ j < t.arena.length then f (t.get j) else t.get j := by
  by_cases h : j < t.arena.length
  · by_cases hij : j = i
    · rw [if_pos ⟨hij, h⟩, hij]
      show (t.arena.set i (f (t.get i))).getD i defaultElement = f (t.get i)
      rw [List.getD_eq_getElem _ _ (by simpa using hij ▸ h), List.getElem_set, if_pos rfl]
    · rw [if_neg (fun hc => hij hc.1)]
      show (t.arena.set i (f (t.get i))).getD j defaultElement = t.get j
      rw [List.getD_eq_getElem _ _ (by simpa using h), List.getElem_set,
        if_neg (fun hc => hij hc.symm)]
      exact (List.getD_eq_getElem _ _ h).symm
  · rw [if_neg (fun hc => absurd hc.2 h)]
    show (t.arena.set i (f (t.get i))).getD j defaultElement = t.get j
    rw [List.getD_eq_default _ _ (by simpa using Nat.le_of_not_lt h)]
    exact (List.getD_eq_default _ _ (Nat.le_of_not_lt h)).symm

theorem SkipList.length_modifyAt (t : SkipList) (i : ℕ) (f : Element → Element) :
    (t.modifyAt i f).arena.length = t.arena.length := by
  simp [SkipList.modifyAt]

/-- `t'` keeps every node of `t` with its name and score. -/
def NodesPres (t t' : SkipList) : Prop :=
  t.arena.length ≤ t'.arena.length ∧
  ∀ j, j < t.arena.length → t'.nameOf j = t.nameOf j ∧ t'.scoreOf j = t.scoreOf j

theorem NodesPres.here (t : SkipList) : NodesPres t t :=
  ⟨le_refl _, fun _ _ => ⟨Eq.refl _, Eq.refl _⟩⟩

theorem NodesPres.comp {a b c : SkipList} (h1 : NodesPres a b) (h2 : NodesPres b c) :
    NodesPres a c := by
  refine ⟨le_trans h1.1 h2.1, fun j hj => ?_⟩
  have hb := h1.2 j hj
  have hc := h2.2 j (lt_of_lt_of_le hj h1.1)
  exact ⟨hc.1.trans hb.1, hc.2.trans hb.2⟩

theorem NodesPres.modify (t : SkipList) (i : ℕ) (f : Element → Element)
    (hf : ∀ e, (f e).name = e.name ∧ (f e).score = e.score) :
    NodesPres t (t.modifyAt i f) := by
  refine ⟨le_of_eq (t.length_modifyAt i f).symm, fun j hj => ?_⟩
  unfold SkipList.nameOf SkipList.scoreOf
  rw [SkipList.get_modifyAt]
  split
  · exact ⟨(hf _).1, (hf _).2⟩
  · exact ⟨Eq.refl _, Eq.refl _⟩

theorem NodesPres.stepNext {t t' : SkipList} (i L : ℕ) (v : Option ℕ)
    (h : NodesPres t t') : NodesPres t (t'.setNext i L v) :=
  NodesPres.comp h (NodesPres.modify t' i _ (fun _ => ⟨Eq.refl _, Eq.refl _⟩))

theorem NodesPres.stepSpan {t t' : SkipList} (i L : ℕ) (v : ℤ)
    (h : NodesPres t t') : NodesPres t (t'.setSpan i L v) :=
  NodesPres.comp h (NodesPres.modify t' i _ (fun _ => ⟨Eq.refl _, Eq.refl _⟩))

theorem NodesPres.stepPrev {t t' : SkipList} (i : ℕ) (v : Option ℕ)
    (h : NodesPres t t') : NodesPres t (t'.setPrev i v) :=
  NodesPres.comp h (NodesPres.modify t' i _ (fun _ => ⟨Eq.refl _, Eq.refl _⟩))

theorem NodesPres.stepFields {t t' : SkipList} (m : ℕ) (el : List (String × EScore))
    (h : NodesPres t t') : NodesPres t ⟨t'.arena, m, el⟩ :=
  NodesPres.comp h ⟨le_refl _, fun _ _ => ⟨Eq.refl _, Eq.refl _⟩⟩

theorem NodesPres.stepAppend {t t' : SkipList} (e : Element) (m : ℕ)
    (el : List (String × EScore)) (h : NodesPres t t') :
    NodesPres t ⟨t'.arena ++ [e], m, el⟩ := by
  refine NodesPres.comp h ⟨by simp, fun j hj => ?_⟩
  unfold SkipList.nameOf SkipList.scoreOf SkipList.get
  simp only
  rw [List.getD_append _ _ _ _ hj]
  exact ⟨Eq.refl _, Eq.refl _⟩

theorem NodesPres.foldl {α : Type} (f : SkipList → α → SkipList)
    (hf : ∀ t a, NodesPres t (f t a)) :
    ∀ (l : List α) (t : SkipList), NodesPres t (List.foldl f t l) := by
  intro l
  induction l with
  | nil => intro t; exact NodesPres.here t
  | cons a l ih => intro t; exact NodesPres.comp (hf t a) (ih (f t a))

theorem NodesPres.deleteLevelStep (score : EScore) (name : String) (L : ℕ)
    (t : SkipList) (curr : ℕ) :
    NodesPres t (deleteLevelStep score name L t curr) := by
  simp only [SkipListGo.deleteLevelStep]
  repeat' first
    | split
    | exact NodesPres.here _
    | apply NodesPres.stepNext
    | apply NodesPres.stepSpan
    | apply NodesPres.stepPrev
    | apply NodesPres.stepFields

theorem NodesPres.deleteLevels (score : EScore) (name : String) :
    ∀ (ls : List ℕ) (t : SkipList) (curr : ℕ),
      NodesPres t (deleteLevels score name ls t curr).1 := by
  intro ls
  induction ls with
  | nil => intro t curr; exact NodesPres.here t
  | cons L rest ih =>
    intro t curr
    exact NodesPres.comp (NodesPres.deleteLevelStep score name L t _) (ih _ _)

theorem NodesPres.insertLevelStep (elemId elemLevel L : ℕ) (t : SkipList) (curr : ℕ) :
    NodesPres t (insertLevelStep elemId elemLevel L t curr) := by
  simp only [SkipListGo.insertLevelStep]
  repeat' first
    | split
    | exact NodesPres.here _
    | apply NodesPres.stepNext
    | apply NodesPres.stepSpan
    | apply NodesPres.stepPrev

theorem NodesPres.insertLevels (score : EScore) (name : String) (elemId elemLevel : ℕ) :
    ∀ (ls : List ℕ) (t : SkipList) (curr : ℕ) (rank : ℤ) (prevs : List (Option ℕ × ℤ)),
      NodesPres t (insertLevels score name elemId elemLevel ls t curr rank prevs).1 := by
  intro ls
  induction ls with
  | nil => intro t curr rank prevs; exact NodesPres.here t
  | cons L rest ih =>
    intro t curr rank prevs
    exact NodesPres.comp (NodesPres.insertLevelStep elemId elemLevel L t _) (ih _ _ _ _)

theorem NodesPres.spanFixNew (prevs : List (Option ℕ × ℤ)) (elemId : ℕ)
    (elemRank : ℤ) (t : SkipList) (i : ℕ) :
    NodesPres t (spanFixNew prevs elemId elemRank t i) := by
  simp only [SkipListGo.spanFixNew]
  repeat' first
    | split
    | exact NodesPres.here _
    | apply NodesPres.stepSpan

theorem NodesPres.spanFixAbove (prevs : List (Option ℕ × ℤ)) (t : SkipList) (i : ℕ) :
    NodesPres t (spanFixAbove prevs t i) := by
  simp only [SkipListGo.spanFixAbove]
  repeat' first
    | split
    | exact NodesPres.here _
    | apply NodesPres.stepSpan

theorem NodesPres.insertFresh (t : SkipList) (name : String) (score : EScore)
    (drawn : ℕ) : NodesPres t (insertFresh t name score drawn) := by
  simp only [SkipListGo.insertFresh]
  refine NodesPres.comp ?_
    (NodesPres.foldl _ (fun t a => NodesPres.stepSpan _ _ _ (NodesPres.here t)) _ _)
  refine NodesPres.comp ?_ (NodesPres.foldl _ (NodesPres.spanFixAbove _) _ _)
  refine NodesPres.comp ?_ (NodesPres.foldl _ (NodesPres.spanFixNew _ _ _) _ _)
  refine NodesPres.comp ?_ (NodesPres.insertLevels _ _ _ _ _ _ _ _ _)
  exact NodesPres.stepAppend _ _ _ (NodesPres.here t)

theorem NodesPres.Delete (t : SkipList) (name : String) :
    NodesPres t (Delete t name) := by
  rw [SkipListGo.Delete]
  split
  · exact NodesPres.here t
  · exact NodesPres.comp (NodesPres.deleteLevels _ _ _ _ _)
      (NodesPres.foldl _ (fun t a => NodesPres.stepSpan _ _ _ (NodesPres.here t)) _ _)

theorem NodesPres.Insert (t : SkipList) (name : String) (score : EScore) (drawn : ℕ) :
    NodesPres t (Insert t name score drawn) := by
  rw [SkipListGo.Insert]
  split
  · exact NodesPres.here t
  split
  · exact NodesPres.here t
  split
  · split
    · exact NodesPres.here t
    · exact NodesPres.comp (NodesPres.Delete t _) (NodesPres.insertFresh _ _ _ _)
  · exact NodesPres.insertFresh _ _ _ _

theorem NodesPres.applyOp (t : SkipList) (op : Op) : NodesPres t (applyOp t op) := by
  cases op with
  | ins n s l => exact NodesPres.Insert t n s l
  | del n => exact NodesPres.Delete t n

theorem NodesPres.runOps (ops : List Op) : NodesPres newList (runOps ops) :=
  NodesPres.foldl _ NodesPres.applyOp ops newList

/-- The head sentinel of any reachable state carries `HeadNodeName` and
`-∞`; similarly for the tail. -/
theorem sentinels_runOps (ops : List Op) :
    (runOps ops).nameOf 0 = HeadNodeName ∧ (runOps ops).scoreOf 0 = EScore.negInf ∧
    (runOps ops).nameOf 1 = TailNodeName ∧ (runOps ops).scoreOf 1 = EScore.posInf := by
  have h := NodesPres.runOps ops
  have h0 := h.2 0 (by decide)
  have h1 := h.2 1 (by decide)
  refine ⟨h0.1.trans (by decide), h0.2.trans (by decide), h1.1.trans (by decide),
    h1.2.trans (by decide)⟩

/-! ### The `elements` and `maxLevel` fields along an insert -/

theorem foldl_field {α β : Type} (g : SkipList → β) (f : SkipList → α → SkipList)
    (hf : ∀ t a, g (f t a) = g t) :
    ∀ (l : List α) (t : SkipList), g (List.foldl f t l) = g t := by
  intro l
  induction l with
  | nil => intro t; rfl
  | cons a l ih => intro t; rw [List.foldl_cons, ih, hf]

theorem elements_insertLevelStep (elemId elemLevel L : ℕ) (t : SkipList) (curr : ℕ) :
    (insertLevelStep elemId elemLevel L t curr).elements = t.elements := by
  simp only [SkipListGo.insertLevelStep]
  repeat' first
    | split
    | rfl

theorem maxLevel_insertLevelStep (elemId elemLevel L : ℕ) (t : SkipList) (curr : ℕ) :
    (insertLevelStep elemId elemLevel L t curr).maxLevel = t.maxLevel := by
  simp only [SkipListGo.insertLevelStep]
  repeat' first
    | split
    | rfl

theorem elements_insertLevels (score : EScore) (name : String) (elemId elemLevel : ℕ) :
    ∀ (ls : List ℕ) (t : SkipList) (curr : ℕ) (rank : ℤ) (prevs : List (Option ℕ × ℤ)),
      (insertLevels score name elemId elemLevel ls t curr rank prevs).1.elements =
        t.elements := by
  intro ls
  induction ls with
  | nil => intro t _ _ _; rfl
  | cons L rest ih =>
    intro t curr rank prevs
    rw [show insertLevels score name elemId elemLevel (L :: rest) t curr rank prevs =
      insertLevels score name elemId elemLevel rest
        (insertLevelStep elemId elemLevel L t
          (advanceLess t L score name t.arena.length curr rank).1)
        (advanceLess t L score name t.arena.length curr rank).1
        (advanceLess t L score name t.arena.length curr rank).2
        (prevs.set L (some (advanceLess t L score name t.arena.length curr rank).1,
          (advanceLess t L score name t.arena.length curr rank).2)) from rfl]
    rw [ih, elements_insertLevelStep]

theorem maxLevel_insertLevels (score : EScore) (name : String) (elemId elemLevel : ℕ) :
    ∀ (ls : List ℕ) (t : SkipList) (curr : ℕ) (rank : ℤ) (prevs : List (Option ℕ × ℤ)),
      (insertLevels score name elemId elemLevel ls t curr rank prevs).1.maxLevel =
        t.maxLevel := by
  intro ls
  induction ls with
  | nil => intro t _ _ _; rfl
  | cons L rest ih =>
    intro t curr rank prevs
    rw [show insertLevels score name elemId elemLevel (L :: rest) t curr rank prevs =
      insertLevels score name elemId elemLevel rest
        (insertLevelStep elemId elemLevel L t
          (advanceLess t L score name t.arena.length curr rank).1)
        (advanceLess t L score name t.arena.length curr rank).1
        (advanceLess t L score name t.arena.length curr rank).2
        (prevs.set L (some (advanceLess t L score name t.arena.length curr rank).1,
          (advanceLess t L score name t.arena.length curr rank).2)) from rfl]
    rw [ih, maxLevel_insertLevelStep]

theorem elements_spanFixNew (prevs : List (Option ℕ × ℤ)) (elemId : ℕ) (elemRank : ℤ)
    (t : SkipList) (i : ℕ) :
    (spanFixNew prevs elemId elemRank t i).elements = t.elements := by
  simp only [SkipListGo.spanFixNew]
  repeat' first
    | split
    | rfl

theorem maxLevel_spanFixNew (prevs : List (Option ℕ × ℤ)) (elemId : ℕ) (elemRank : ℤ)
    (t : SkipList) (i : ℕ) :
    (spanFixNew prevs elemId elemRank t i).maxLevel = t.maxLevel := by
  simp only [SkipListGo.spanFixNew]
  repeat' first
    | split
    | rfl

theorem elements_spanFixAbove (prevs : List (Option ℕ × ℤ)) (t : SkipList) (i : ℕ) :
    (spanFixAbove prevs t i).elements = t.elements := by
  simp only [SkipListGo.spanFixAbove]
  repeat' first
    | split
    | rfl

theorem maxLevel_spanFixAbove (prevs : List (Option ℕ × ℤ)) (t : SkipList) (i : ℕ) :
    (spanFixAbove prevs t i).maxLevel = t.maxLevel := by
  simp only [SkipListGo.spanFixAbove]
  repeat' first
    | split
    | rfl

theorem elements_insertFresh (t : SkipList) (name : String) (score : EScore)
    (drawn : ℕ) : (insertFresh t name score drawn).elements =
      elemsSet t.elements name score := by
  simp only [SkipListGo.insertFresh]
  rw [foldl_field SkipList.elements spanIncHead (fun t a => rfl),
    foldl_field SkipList.elements (spanFixAbove _) (elements_spanFixAbove _),
    foldl_field SkipList.elements (spanFixNew _ _ _) (elements_spanFixNew _ _ _),
    elements_insertLevels]
  rfl

theorem maxLevel_insertFresh (t : SkipList) (name : String) (score : EScore)
    (drawn : ℕ) : (insertFresh t name score drawn).maxLevel =
      if t.maxLevel < drawn then t.maxLevel + 1 else t.maxLevel := by
  simp only [SkipListGo.insertFresh]
  rw [foldl_field SkipList.maxLevel spanIncHead (fun t a => rfl),
    foldl_field SkipList.maxLevel (spanFixAbove _) (maxLevel_spanFixAbove _),
    foldl_field SkipList.maxLevel (spanFixNew _ _ _) (maxLevel_spanFixNew _ _ _),
    maxLevel_insertLevels]
  rfl

theorem elemsLookup_elemsSet_self (l : List (String × EScore)) (n : String)
    (s : EScore) : elemsLookup (elemsSet l n s) n = some s := by
  unfold elemsSet
  split
  case isTrue h =>
    induction l with
    | nil => simp [List.find?] at h
    | cons p rest ih =>
      by_cases hp : p.1 == n
      · simp [elemsLookup, List.find?, hp]
      · simp only [List.find?, hp] at h
        simpa [elemsLookup, List.find?, hp] using ih h
  case isFalse h =>
    induction l with
    | nil => simp [elemsLookup, List.find?]
    | cons p rest ih =>
      by_cases hp : p.1 == n
      · exact absurd (by simp [List.find?, hp]) h
      · simp only [List.find?, hp] at h
        simpa [elemsLookup, List.find?, hp] using ih h

theorem equalFloat_fin_self (q : ℤ) : equalFloat (.fin q) (.fin q) = true := by
  simp [equalFloat, Eps]

/-- `scoreOf 0 = -∞` forces the arena to contain the head node (the default
node carries a finite score). -/
theorem arena_pos_of_sentinels {t : SkipList} (h0 : t.scoreOf 0 = EScore.negInf)
    (h1 : t.scoreOf 1 = EScore.posInf) : 1 < t.arena.length := by
  by_contra h
  have hd : t.get 1 = defaultElement := by
    unfold SkipList.get
    exact List.getD_eq_default _ _ (Nat.le_of_not_lt h)
  rw [SkipList.scoreOf, hd] at h1
  exact absurd h1 (by decide)

end SkipListGo

namespace SkipListGo

/-! ### Claims settled without the separation hypothesis -/

/-- An `Insert` of a key already indexed with an epsilon-equal score is a
no-op on the whole state. -/
theorem insert_present_equal_noop (t : SkipList) (n : String) (s s' : EScore)
    (lvl : ℕ) (hl : elemsLookup t.elements n = some s)
    (he : equalFloat s s' = true) : Insert t n s' lvl = t := by
  rw [SkipListGo.Insert]
  split
  · rfl
  · split
    · rfl
    · simp [hl, he]

/-- C6.  Insert idempotence on an epsilon-equal score: if `key` is indexed
with score `s` and `|s - s'| ≤ Eps` then `Insert key s'` leaves the entire
state (arena links, spans, `maxLevel`, index) unchanged; in particular, with
genuine `±∞` sentinels in place, inserting the same (key, score) pair twice
leaves the state after the second insert equal to the state after the
first. -/
theorem C6_insert_equal_noop :
    (∀ (t : SkipList) (n : String) (s s' : EScore) (lvl : ℕ),
        elemsLookup t.elements n = some s → equalFloat s s' = true →
        Insert t n s' lvl = t) ∧
    (∀ (t : SkipList) (n : String) (s : EScore) (lvl lvl' : ℕ),
        t.scoreOf 0 = EScore.negInf → t.scoreOf 1 = EScore.posInf →
        Insert (Insert t n s lvl) n s lvl' = Insert t n s lvl) := by
  constructor
  · exact insert_present_equal_noop
  · intro t n s lvl lvl' h0 h1
    by_cases hname : n = HeadNodeName ∨ n = TailNodeName
    · have hinner : Insert t n s lvl = t := by rw [SkipListGo.Insert, if_pos hname]
      rw [hinner]
      rw [SkipListGo.Insert, if_pos hname]
    by_cases hscore : s = t.scoreOf 0 ∨ s = t.scoreOf 1
    · have hinner : Insert t n s lvl = t := by
        rw [SkipListGo.Insert, if_neg hname, if_pos hscore]
      rw [hinner]
      rw [SkipListGo.Insert, if_neg hname, if_pos hscore]
    have hs0 : s ≠ EScore.negInf := fun hs => hscore (Or.inl (by rw [hs, h0]))
    have hs1 : s ≠ EScore.posInf := fun hs => hscore (Or.inr (by rw [hs, h1]))
    obtain ⟨q, rfl⟩ : ∃ q, s = EScore.fin q := by
      cases s with
      | negInf => exact absurd rfl hs0
      | fin q => exact ⟨q, rfl⟩
      | posInf => exact absurd rfl hs1
    rcases hl : elemsLookup t.elements n with _ | c
    · have ht1 : Insert t n (EScore.fin q) lvl = insertFresh t n (EScore.fin q) lvl := by
        rw [SkipListGo.Insert, if_neg hname, if_neg hscore]
        simp only [hl]
      have hlook : elemsLookup (Insert t n (EScore.fin q) lvl).elements n =
          some (EScore.fin q) := by
        rw [ht1, elements_insertFresh]
        exact elemsLookup_elemsSet_self _ _ _
      exact insert_present_equal_noop _ n _ (EScore.fin q) lvl' hlook
        (equalFloat_fin_self q)
    · by_cases heq : equalFloat c (EScore.fin q)
      · have ht1 : Insert t n (EScore.fin q) lvl = t := by
          rw [SkipListGo.Insert, if_neg hname, if_neg hscore]
          simp only [hl]
          rw [if_pos heq]
        rw [ht1]
        rw [SkipListGo.Insert, if_neg hname, if_neg hscore]
        simp only [hl]
        rw [if_pos heq]
      · have ht1 : Insert t n (EScore.fin q) lvl =
            insertFresh (Delete t n) n (EScore.fin q) lvl := by
          rw [SkipListGo.Insert, if_neg hname, if_neg hscore]
          simp only [hl]
          rw [if_neg heq]
        have hlook : elemsLookup (Insert t n (EScore.fin q) lvl).elements n =
            some (EScore.fin q) := by
          rw [ht1, elements_insertFresh]
          exact elemsLookup_elemsSet_self _ _ _
        exact insert_present_equal_noop _ n _ (EScore.fin q) lvl' hlook
          (equalFloat_fin_self q)

/-- Witness for C6 at a concrete state: key "A" indexed with score
`5·10⁻⁶`, re-inserted with score `9·10⁻⁶` (within the `10⁻⁵` tolerance). -/
theorem C6_insert_equal_noop_witness :
    elemsLookup (runOps [.ins "A" (.fin 5) 0]).elements "A" = some (.fin 5) ∧
    equalFloat (.fin 5) (.fin 9) = true ∧
    Insert (runOps [.ins "A" (.fin 5) 0]) "A" (.fin 9) 3 =
      runOps [.ins "A" (.fin 5) 0] ∧
    Insert (Insert (runOps []) "B" (.fin 7) 2) "B" (.fin 7) 0 =
      Insert (runOps []) "B" (.fin 7) 2 :=
  ⟨by decide, by decide,
    C6_insert_equal_noop.1 (runOps [.ins "A" (.fin 5) 0]) "A" (.fin 5) (.fin 9) 3
      (by decide) (by decide),
    C6_insert_equal_noop.2 (runOps []) "B" (.fin 7) 2 0 (by decide) (by decide)⟩

/-- C9.  Insert rejection atomicity: on any reachable state, `Insert` with a
sentinel identity as key, or with a score equal to the reserved `−∞`/`+∞`
sentinel values, returns the state unchanged (links, spans, `maxLevel`,
index, node count). -/
theorem C9_insert_reject_unchanged :
    ∀ (ops : List Op) (n : String) (s : EScore) (lvl : ℕ),
      (n = HeadNodeName ∨ n = TailNodeName ∨ s = EScore.negInf ∨ s = EScore.posInf) →
      Insert (runOps ops) n s lvl = runOps ops := by
  intro ops n s lvl h
  obtain ⟨-, h0, -, h1⟩ := sentinels_runOps ops
  by_cases hname : n = HeadNodeName ∨ n = TailNodeName
  · rw [SkipListGo.Insert, if_pos hname]
  · have hs : s = (runOps ops).scoreOf 0 ∨ s = (runOps ops).scoreOf 1 := by
      rcases h with h | h | h | h
      · exact absurd (Or.inl h) hname
      · exact absurd (Or.inr h) hname
      · exact Or.inl (by rw [h, h0])
      · exact Or.inr (by rw [h, h1])
    rw [SkipListGo.Insert, if_neg hname, if_pos hs]

/-- Witness for C9: rejecting the head identity and a `−∞` score on a
one-element list leaves it unchanged. -/
theorem C9_insert_reject_unchanged_witness :
    Insert (runOps [.ins "A" (.fin 7) 0]) "-inf-" (.fin 3) 0 =
      runOps [.ins "A" (.fin 7) 0] ∧
    Insert (runOps [.ins "A" (.fin 7) 0]) "X" .negInf 2 =
      runOps [.ins "A" (.fin 7) 0] :=
  ⟨C9_insert_reject_unchanged [.ins "A" (.fin 7) 0] "-inf-" (.fin 3) 0 (Or.inl rfl),
    C9_insert_reject_unchanged [.ins "A" (.fin 7) 0] "X" .negInf 2
      (Or.inr (Or.inr (Or.inl rfl)))⟩

/-! ### Counterexamples

The epsilon comparison of the source is not transitive: scores `0`,
`8·10⁻⁶` and `16·10⁻⁶` are pairwise within the tolerance for the first two
adjacent pairs, but the outer pair differs by more than `Eps`.  Insert and
delete sequences over such scores drive the structure into states that
falsify the unrestricted claims. -/

/-- C1 (counterexample): after `A:16µ, C:0, B:8µ` are inserted (all at
level 0) and `C` and then `A` are deleted, the delete of `A` misfires (the
epsilon order is broken, so the descent stops early), and the head's
level-0 span no longer counts the base edges: the span invariant fails. -/
theorem C1_span_invariant_counterexample :
    validOpsB [.ins "A" (.fin 16) 0, .ins "C" (.fin 0) 0, .ins "B" (.fin 8) 0,
      .del "C", .del "A"] = true ∧
    spanInvB (runOps [.ins "A" (.fin 16) 0, .ins "C" (.fin 0) 0,
      .ins "B" (.fin 8) 0, .del "C", .del "A"]) = false := by
  decide

/-- C2 (counterexample): in the same state, key "A" is still present in the
index but `GetRank` returns `exist = false`. -/
theorem C2_getRank_counterexample :
    validOpsB [.ins "A" (.fin 16) 0, .ins "C" (.fin 0) 0, .ins "B" (.fin 8) 0,
      .del "C", .del "A"] = true ∧
    (elemsLookup (runOps [.ins "A" (.fin 16) 0, .ins "C" (.fin 0) 0,
      .ins "B" (.fin 8) 0, .del "C", .del "A"]).elements "A").isSome = true ∧
    GetRank (runOps [.ins "A" (.fin 16) 0, .ins "C" (.fin 0) 0,
      .ins "B" (.fin 8) 0, .del "C", .del "A"]) "A" = (0, false) := by
  decide

/-- C3 (counterexample): in the same state `FindByRank 1` returns the node
named "A" (rank 1 is inside `[1, nodeCount] = [1, 2]`), but
`GetRank "A" ≠ (1, true)` — the round trip fails. -/
theorem C3_findByRank_counterexample :
    validOpsB [.ins "A" (.fin 16) 0, .ins "C" (.fin 0) 0, .ins "B" (.fin 8) 0,
      .del "C", .del "A"] = true ∧
    GetNodeCount (runOps [.ins "A" (.fin 16) 0, .ins "C" (.fin 0) 0,
      .ins "B" (.fin 8) 0, .del "C", .del "A"]) = 2 ∧
    (FindByRank (runOps [.ins "A" (.fin 16) 0, .ins "C" (.fin 0) 0,
      .ins "B" (.fin 8) 0, .del "C", .del "A"]) 1).map
        (runOps [.ins "A" (.fin 16) 0, .ins "C" (.fin 0) 0, .ins "B" (.fin 8) 0,
          .del "C", .del "A"]).nameOf = some "A" ∧
    GetRank (runOps [.ins "A" (.fin 16) 0, .ins "C" (.fin 0) 0,
      .ins "B" (.fin 8) 0, .del "C", .del "A"]) "A" ≠ (1, true) := by
  decide

/-- C4 (counterexample): insert `C:0, B:8µ, A:16µ` (each lands in front of
the previous one under the epsilon comparison), then delete `B`: the base
traversal is `A(16µ), C(0)` — descending by more than `Eps`, so the
traversal is not sorted even in the source's own epsilon order. -/
theorem C4_total_order_counterexample :
    validOpsB [.ins "C" (.fin 0) 0, .ins "B" (.fin 8) 0, .ins "A" (.fin 16) 0,
      .del "B"] = true ∧
    sortedEpsB (runOps [.ins "C" (.fin 0) 0, .ins "B" (.fin 8) 0,
      .ins "A" (.fin 16) 0, .del "B"]) = false ∧
    ((levelIds (runOps [.ins "C" (.fin 0) 0, .ins "B" (.fin 8) 0,
      .ins "A" (.fin 16) 0, .del "B"]) 0).map
        (runOps [.ins "C" (.fin 0) 0, .ins "B" (.fin 8) 0, .ins "A" (.fin 16) 0,
          .del "B"]).scoreOf) = [.fin 16, .fin 0] := by
  decide

/-- C5 (counterexample): with the chain `A(16µ), B(8µ), C(0)` (insert-only
state), `FindGreaterOrEqual 0` returns the first chain node `A` with score
`16µ`, although the argument `0` is less than or equal to every stored score
and the minimum node is `C` with score `0`. -/
theorem C5_fge_counterexample :
    validOpsB [.ins "C" (.fin 0) 0, .ins "B" (.fin 8) 0, .ins "A" (.fin 16) 0] = true ∧
    ((runOps [.ins "C" (.fin 0) 0, .ins "B" (.fin 8) 0,
      .ins "A" (.fin 16) 0]).elements.all
        (fun p => escLt (EScore.fin 0) p.2 || decide (EScore.fin 0 = p.2))) = true ∧
    elemsLookup (runOps [.ins "C" (.fin 0) 0, .ins "B" (.fin 8) 0,
      .ins "A" (.fin 16) 0]).elements "C" = some (.fin 0) ∧
    (FindGreaterOrEqual (runOps [.ins "C" (.fin 0) 0, .ins "B" (.fin 8) 0,
      .ins "A" (.fin 16) 0]) (.fin 0)).map
        (runOps [.ins "C" (.fin 0) 0, .ins "B" (.fin 8) 0,
          .ins "A" (.fin 16) 0]).nameOf = some "A" ∧
    (FindGreaterOrEqual (runOps [.ins "C" (.fin 0) 0, .ins "B" (.fin 8) 0,
      .ins "A" (.fin 16) 0]) (.fin 0)).map
        (runOps [.ins "C" (.fin 0) 0, .ins "B" (.fin 8) 0,
          .ins "A" (.fin 16) 0]).scoreOf = some (.fin 16) := by
  decide

/-- C7 (counterexample): key "A" is present with score `16µ`; re-scoring it
to `1.0` (beyond the tolerance) runs the internal delete, which misfires on
the broken epsilon order, and the fresh insert then creates a second node
named "A": key uniqueness on the chain is violated. -/
theorem C7_rescore_counterexample :
    validOpsB [.ins "A" (.fin 16) 0, .ins "C" (.fin 0) 0, .ins "B" (.fin 8) 0,
      .del "C", .del "A", .ins "A" (.fin 1000000) 0] = true ∧
    elemsLookup (runOps [.ins "A" (.fin 16) 0, .ins "C" (.fin 0) 0,
      .ins "B" (.fin 8) 0, .del "C", .del "A"]).elements "A" = some (.fin 16) ∧
    absGtEps (.fin 16) (.fin 1000000) = true ∧
    ((levelIds (runOps [.ins "A" (.fin 16) 0, .ins "C" (.fin 0) 0,
      .ins "B" (.fin 8) 0, .del "C", .del "A", .ins "A" (.fin 1000000) 0]) 0).map
        (runOps [.ins "A" (.fin 16) 0, .ins "C" (.fin 0) 0, .ins "B" (.fin 8) 0,
          .del "C", .del "A", .ins "A" (.fin 1000000) 0]).nameOf) = ["B", "A", "A"] ∧
    namesNodupB (runOps [.ins "A" (.fin 16) 0, .ins "C" (.fin 0) 0,
      .ins "B" (.fin 8) 0, .del "C", .del "A", .ins "A" (.fin 1000000) 0]) = false := by
  decide

/-- C8 (counterexample): `maxLevel` is 2 after two inserts, and a single
re-scoring `Insert` of key "B" (drawn level 0) lowers it to 1 — an `Insert`
can decrease `maxLevel` through its internal delete. -/
theorem C8_maxLevel_counterexample :
    validOpsB [.ins "A" (.fin 1000000) 1, .ins "B" (.fin 2000000) 5,
      .ins "B" (.fin 3000000) 0] = true ∧
    (runOps [.ins "A" (.fin 1000000) 1, .ins "B" (.fin 2000000) 5]).maxLevel = 2 ∧
    (runOps [.ins "A" (.fin 1000000) 1, .ins "B" (.fin 2000000) 5,
      .ins "B" (.fin 3000000) 0]).maxLevel = 1 := by
  decide

/-- C10 (counterexample): after the duplicated insert of "A" the index has
2 keys but the base chain has 3 nodes, and the stale "A" node carries score
`16µ` while the index maps "A" to `1.0`. -/
theorem C10_consistency_counterexample :
    validOpsB [.ins "A" (.fin 16) 0, .ins "C" (.fin 0) 0, .ins "B" (.fin 8) 0,
      .del "C", .del "A", .ins "A" (.fin 1000000) 0] = true ∧
    consistentB (runOps [.ins "A" (.fin 16) 0, .ins "C" (.fin 0) 0,
      .ins "B" (.fin 8) 0, .del "C", .del "A", .ins "A" (.fin 1000000) 0]) = false ∧
    GetNodeCount (runOps [.ins "A" (.fin 16) 0, .ins "C" (.fin 0) 0,
      .ins "B" (.fin 8) 0, .del "C", .del "A", .ins "A" (.fin 1000000) 0]) = 2 ∧
    (levelIds (runOps [.ins "A" (.fin 16) 0, .ins "C" (.fin 0) 0,
      .ins "B" (.fin 8) 0, .del "C", .del "A", .ins "A" (.fin 1000000) 0]) 0).length = 3 ∧
    ((levelIds (runOps [.ins "A" (.fin 16) 0, .ins "C" (.fin 0) 0,
      .ins "B" (.fin 8) 0, .del "C", .del "A", .ins "A" (.fin 1000000) 0]) 0).map
        (runOps [.ins "A" (.fin 16) 0, .ins "C" (.fin 0) 0, .ins "B" (.fin 8) 0,
          .del "C", .del "A", .ins "A" (.fin 1000000) 0]).scoreOf) =
      [.fin 8, .fin 16, .fin 1000000] ∧
    elemsLookup (runOps [.ins "A" (.fin 16) 0, .ins "C" (.fin 0) 0,
      .ins "B" (.fin 8) 0, .del "C", .del "A",
      .ins "A" (.fin 1000000) 0]).elements "A" = some (.fin 1000000) := by
  decide

end SkipListGo

namespace SkipListGo

/-! ### Abstract model

A reachable well-separated state is abstracted by its base chain: one `Row`
per live node, in base order, carrying the node's arena id, name, score and
height (the top level it is linked on).  `Models` relates a concrete state
to its abstraction; every separated run maintains it. -/

/-- Abstract view of one live node. -/
structure Row where
  id : ℕ
  name : String
  score : ℤ
  height : ℕ
deriving DecidableEq, Repr

/-- The exact (score, key) lexicographic order on keys. -/
def rowLt (a b : ℤ × String) : Prop :=
  a.1 < b.1 ∨ (a.1 = b.1 ∧ strLt a.2 b.2 = true)

instance (a b : ℤ × String) : Decidable (rowLt a b) := by
  unfold rowLt
  infer_instance

/-- The key of a row. -/
def Row.key (r : Row) : ℤ × String := (r.score, r.name)

/-- Two finite scores are separated: equal or more than `Eps` apart. -/
def sepScore (a b : ℤ) : Prop := a = b ∨ Eps < a - b ∨ Eps < b - a

/-- A set of finite scores on which the epsilon comparisons are an order. -/
def SepSet (S : List ℤ) : Prop := ∀ a ∈ S, ∀ b ∈ S, sepScore a b

/-- Last element of a list, with a default for the empty list. -/
def lastOf {α : Type} : List α → α → α
  | [], d => d
  | x :: xs, _ => lastOf xs x

/-- Annotate rows with consecutive base positions starting at `p`. -/
def annotAll : List Row → ℤ → List (Row × ℤ)
  | [], _ => []
  | r :: rs, p => (r, p) :: annotAll rs (p + 1)

/-- (id, base position) of the rows linked on level `L`, in base order. -/
def levelEntries (rows : List Row) (L : ℕ) : List (ℕ × ℤ) :=
  ((annotAll rows 1).filter (fun x => L ≤ x.1.height)).map (fun x => (x.1.id, x.2))

/-- The level-`L` list without its final tail node: head at position 0,
then the level's rows.  The link into the tail is kept apart because
`Delete` leaves its span short on levels it empties (the head-span loop of
source lines 373–375 runs with the already-reduced `maxLevel`, decrementing
the merged span a second time); no query ever reads the span of a link into
the tail, so the invariant constrains only the pointer of that link. -/
def fullLevel (rows : List Row) (L : ℕ) : List (ℕ × ℤ) :=
  (0, 0) :: levelEntries rows L

/-- One forward link of the concrete state, with the span demanded by the
span invariant: the distance between the two base positions. -/
def linkRel (t : SkipList) (L : ℕ) (x y : ℕ × ℤ) : Prop :=
  t.nextOf x.1 L = some y.1 ∧ t.spanOf x.1 L = y.2 - x.2

/-- The state `t` is a well-formed skip list presenting the base chain
`rows`, with all live scores drawn from `S`. -/
structure Models (S : List ℤ) (t : SkipList) (rows : List Row) : Prop where
  hlen : 2 ≤ t.arena.length
  hcard : rows.length + 2 ≤ t.arena.length
  harena : ∀ e ∈ t.arena, e.next.length = MaxLevel ∧ e.span.length = MaxLevel
  hheadname : t.nameOf 0 = HeadNodeName
  hheadscore : t.scoreOf 0 = EScore.negInf
  htailname : t.nameOf 1 = TailNodeName
  htailscore : t.scoreOf 1 = EScore.posInf
  hid : ∀ r ∈ rows, 2 ≤ r.id ∧ r.id < t.arena.length
  hidnodup : (rows.map Row.id).Nodup
  hname : ∀ r ∈ rows, t.nameOf r.id = r.name
  hscore : ∀ r ∈ rows, t.scoreOf r.id = EScore.fin r.score
  hnotsent : ∀ r ∈ rows, r.name ≠ HeadNodeName ∧ r.name ≠ TailNodeName
  hnamenodup : (rows.map Row.name).Nodup
  hheight : ∀ r ∈ rows, r.height ≤ t.maxLevel
  hsorted : rows.Pairwise (fun a b => rowLt a.key b.key)
  hS : ∀ r ∈ rows, r.score ∈ S
  hmaxLt : t.maxLevel < MaxLevel
  hmaxTop : t.maxLevel = 0 ∨ ∃ r ∈ rows, t.maxLevel ≤ r.height
  hlinks : ∀ L, L < MaxLevel → List.Chain' (linkRel t L) (fullLevel rows L)
  htail : ∀ L, L < MaxLevel →
    t.nextOf (lastOf (levelEntries rows L) ((0 : ℕ), (0 : ℤ))).1 L = some 1
  hprev : List.Chain' (fun a b => t.prevOf b = some a) (0 :: (rows.map Row.id ++ [1]))
  hkeysnodup : (t.elements.map Prod.fst).Nodup
  helemlen : t.elements.length = rows.length
  helemsome : ∀ r ∈ rows, elemsLookup t.elements r.name = some (EScore.fin r.score)
  helemnone : ∀ n : String, (∀ r ∈ rows, r.name ≠ n) → elemsLookup t.elements n = none

/-- Sorted insertion of a fresh row at its key position. -/
def absIns (rows : List Row) (nid : ℕ) (name : String) (q : ℤ) (h : ℕ) :
    List Row :=
  rows.takeWhile (fun r => decide (rowLt r.key (q, name))) ++
    ⟨nid, name, q, h⟩ :: rows.dropWhile (fun r => decide (rowLt r.key (q, name)))

/-- Removal of the row with a given name. -/
def absDel (rows : List Row) (name : String) : List Row :=
  rows.filter (fun r => decide (r.name ≠ name))

theorem getD_replicate {α : Type} (a d : α) (n i : ℕ) (h : i < n) :
    (List.replicate n a).getD i d = a := by
  rw [List.getD_eq_getElem _ _ (by simpa using h)]
  exact List.getElem_replicate _ _

theorem newList_nextOf_head (L : ℕ) (hL : L < MaxLevel) :
    newList.nextOf 0 L = some 1 := by
  show ((newList.get 0).next).getD L none = some 1
  exact getD_replicate _ _ _ _ hL

theorem newList_spanOf_head (L : ℕ) (hL : L < MaxLevel) :
    newList.spanOf 0 L = 1 := by
  show ((newList.get 0).span).getD L 0 = 1
  exact getD_replicate _ _ _ _ hL

/-- The empty list models the empty chain. -/
theorem models_newList (S : List ℤ) : Models S newList [] := by
  refine ⟨by decide, by decide, ?_, by decide, by decide, by decide, by decide,
    fun r hr => absurd hr (List.not_mem_nil r),
    List.nodup_nil,
    fun r hr => absurd hr (List.not_mem_nil r),
    fun r hr => absurd hr (List.not_mem_nil r),
    fun r hr => absurd hr (List.not_mem_nil r),
    List.nodup_nil,
    fun r hr => absurd hr (List.not_mem_nil r),
    List.Pairwise.nil,
    fun r hr => absurd hr (List.not_mem_nil r),
    by decide, Or.inl rfl, ?_, ?_, ?_, List.nodup_nil, rfl,
    fun r hr => absurd hr (List.not_mem_nil r),
    fun n _ => rfl⟩
  · intro e he
    rcases List.mem_cons.mp he with rfl | he
    · exact ⟨by simp [headNode0], by simp [headNode0]⟩
    · rcases List.mem_cons.mp he with rfl | he
      · exact ⟨by simp [tailNode0], by simp [tailNode0]⟩
      · exact absurd he (List.not_mem_nil e)
  · intro L _
    show List.Chain' (linkRel newList L) [(0, 0)]
    exact List.chain'_singleton _
  · intro L hL
    show newList.nextOf 0 L = some 1
    exact newList_nextOf_head L hL
  · show List.Chain' _ [0, 1]
    refine List.chain'_cons.mpr ⟨?_, List.chain'_singleton _⟩
    decide

end SkipListGo

namespace SkipListGo

/-! ### Order facts about the string and key comparisons -/

theorem strLtAux_irrefl : ∀ l : List Char, strLtAux l l = false
  | [] => rfl
  | a :: as => by
    simp only [strLtAux, if_neg (lt_irrefl a)]
    exact strLtAux_irrefl as

theorem strLtAux_trans : ∀ l m k : List Char,
    strLtAux l m = true → strLtAux m k = true → strLtAux l k = true := by
  intro l
  induction l with
  | nil =>
    intro m k h1 h2
    cases m with
    | nil => exact absurd h1 (by simp [strLtAux])
    | cons b bs =>
      cases k with
      | nil => exact absurd h2 (by simp [strLtAux])
      | cons c cs => rfl
  | cons a as ih =>
    intro m k h1 h2
    cases m with
    | nil => exact absurd h1 (by simp [strLtAux])
    | cons b bs =>
      cases k with
      | nil => exact absurd h2 (by simp [strLtAux])
      | cons c cs =>
        simp only [strLtAux] at h1 h2 ⊢
        by_cases hab : a < b
        · by_cases hbc : b < c
          · rw [if_pos (lt_trans hab hbc)]
          · rw [if_neg hbc] at h2
            by_cases hcb : c < b
            · rw [if_pos hcb] at h2
              exact absurd h2 (by simp)
            · have hbceq : b = c := le_antisymm (not_lt.mp hcb) (not_lt.mp hbc)
              rw [if_pos (hbceq ▸ hab)]
        · rw [if_neg hab] at h1
          by_cases hba : b < a
          · rw [if_pos hba] at h1
            exact absurd h1 (by simp)
          · have habeq : a = b := le_antisymm (not_lt.mp hba) (not_lt.mp hab)
            rw [if_neg hba] at h1
            by_cases hbc : b < c
            · rw [if_pos (habeq ▸ hbc)]
            · rw [if_neg hbc] at h2
              by_cases hcb : c < b
              · rw [if_pos hcb] at h2
                exact absurd h2 (by simp)
              · have hbceq : b = c := le_antisymm (not_lt.mp hcb) (not_lt.mp hbc)
                have hac : a = c := habeq.trans hbceq
                rw [if_neg hcb] at h2
                rw [if_neg (hac ▸ lt_irrefl a), if_neg (hac ▸ lt_irrefl a)]
                exact ih bs cs h1 h2

theorem strLtAux_eq_of_not : ∀ l m : List Char,
    strLtAux l m = false → strLtAux m l = false → l = m := by
  intro l
  induction l with
  | nil =>
    intro m h1 _
    cases m with
    | nil => rfl
    | cons b bs => exact absurd h1 (by simp [strLtAux])
  | cons a as ih =>
    intro m h1 h2
    cases m with
    | nil => exact absurd h2 (by simp [strLtAux])
    | cons b bs =>
      simp only [strLtAux] at h1 h2
      by_cases hab : a < b
      · rw [if_pos hab] at h1
        exact absurd h1 (by simp)
      · by_cases hba : b < a
        · rw [if_pos hba] at h2
          exact absurd h2 (by simp)
        · rw [if_neg hab, if_neg hba] at h1
          rw [if_neg hba, if_neg hab] at h2
          have hh : a = b := le_antisymm (not_lt.mp hba) (not_lt.mp hab)
          rw [hh, ih bs h1 h2]

theorem strEq_of_data {a b : String} (h : a.data = b.data) : a = b := by
  cases a
  cases b
  exact congrArg String.mk (by simpa using h)

theorem strLt_irrefl (s : String) : strLt s s = false := strLtAux_irrefl s.data

theorem strLt_trans {a b c : String} (h1 : strLt a b = true) (h2 : strLt b c = true) :
    strLt a c = true := strLtAux_trans a.data b.data c.data h1 h2

theorem strLt_eq_of_not {a b : String} (h1 : strLt a b = false)
    (h2 : strLt b a = false) : a = b :=
  strEq_of_data (strLtAux_eq_of_not a.data b.data h1 h2)

theorem strLt_asymm {a b : String} (h : strLt a b = true) : strLt b a = false := by
  cases hb : strLt b a with
  | false => rfl
  | true => exact absurd (strLt_trans h hb) (by rw [strLt_irrefl]; simp)

theorem rowLt_irrefl (k : ℤ × String) : ¬ rowLt k k := by
  intro h
  rcases h with h | ⟨-, h⟩
  · exact lt_irrefl _ h
  · rw [strLt_irrefl] at h
    exact absurd h (by simp)

theorem rowLt_trans {a b c : ℤ × String} (h1 : rowLt a b) (h2 : rowLt b c) :
    rowLt a c := by
  rcases h1 with h1 | ⟨h1e, h1s⟩
  · rcases h2 with h2 | ⟨h2e, _⟩
    · exact Or.inl (lt_trans h1 h2)
    · exact Or.inl (h2e ▸ h1)
  · rcases h2 with h2 | ⟨h2e, h2s⟩
    · exact Or.inl (h1e ▸ h2)
    · exact Or.inr ⟨h1e.trans h2e, strLt_trans h1s h2s⟩

theorem rowLt_asymm {a b : ℤ × String} (h : rowLt a b) : ¬ rowLt b a := by
  intro h2
  exact rowLt_irrefl a (rowLt_trans h h2)

theorem keys_eq_of_not_rowLt {a b : ℤ × String} (h1 : ¬ rowLt a b)
    (h2 : ¬ rowLt b a) : a = b := by
  rcases lt_trichotomy a.1 b.1 with h | h | h
  · exact absurd (Or.inl h) h1
  · cases hs : strLt a.2 b.2 with
    | true => exact absurd (Or.inr ⟨h, hs⟩) h1
    | false =>
      cases hs2 : strLt b.2 a.2 with
      | true => exact absurd (Or.inr ⟨h.symm, hs2⟩) h2
      | false =>
        have := strLt_eq_of_not hs hs2
        exact Prod.ext h this
  · exact absurd (Or.inl h) h2

/-! ### Comparison of live elements under separation -/

theorem sep_absGtEps {a q : ℤ} (h : sepScore a q) :
    absGtEps (.fin a) (.fin q) = (decide (a ≠ q)) := by
  rcases h with rfl | h | h
  · rw [decide_eq_false (fun hc => hc rfl)]
    simp only [absGtEps, sub_self]
    decide
  · have hne : a ≠ q := by
      intro hc
      rw [hc, sub_self] at h
      exact absurd h (by decide)
    rw [decide_eq_true hne]
    simp only [absGtEps, Bool.or_eq_true, decide_eq_true_eq]
    exact Or.inl h
  · have hne : a ≠ q := by
      intro hc
      rw [hc, sub_self] at h
      exact absurd h (by decide)
    rw [decide_eq_true hne]
    simp only [absGtEps, Bool.or_eq_true, decide_eq_true_eq]
    exact Or.inr h

theorem elemLess_negInf {e : Element} (h : e.score = .negInf) (q : EScore)
    (hq : q ≠ .negInf) (n : String) : e.Less q n = true := by
  cases q with
  | negInf => exact absurd rfl hq
  | fin q => simp [Element.Less, h, absGtEps, escLt]
  | posInf => simp [Element.Less, h, absGtEps, escLt]

theorem elemLess_posInf {e : Element} (h : e.score = .posInf) (q : ℤ)
    (n : String) : e.Less (.fin q) n = false := by
  simp [Element.Less, h, absGtEps, escLt]

theorem elemEqual_negInf {e : Element} (h : e.score = .negInf) (q : ℤ)
    (n : String) : e.Equal (.fin q) n = false := by
  simp [Element.Equal, h, equalFloat]

theorem elemEqual_posInf {e : Element} (h : e.score = .posInf) (q : ℤ)
    (n : String) : e.Equal (.fin q) n = false := by
  simp [Element.Equal, h, equalFloat]

theorem elemLess_row {e : Element} {a : ℤ} {nm : String} (hs : e.score = .fin a)
    (hn : e.name = nm) (q : ℤ) (n : String) (hsep : sepScore a q) :
    e.Less (.fin q) n = decide (rowLt (a, nm) (q, n)) := by
  unfold Element.Less
  rw [hs, hn, sep_absGtEps hsep]
  by_cases heq : a = q
  · subst heq
    rw [if_neg (by simp : ¬ (decide (a ≠ a) = true))]
    cases hlt : strLt nm n with
    | true =>
      exact (decide_eq_true (show rowLt (a, nm) (a, n) from Or.inr ⟨rfl, hlt⟩)).symm
    | false =>
      refine Eq.symm (decide_eq_false (show ¬ rowLt (a, nm) (a, n) from ?_))
      rintro (hc | ⟨-, hc⟩)
      · exact lt_irrefl a hc
      · rw [hlt] at hc
        exact absurd hc (by simp)
  · rw [if_pos (by rw [decide_eq_true heq])]
    show decide (a < q) = _
    by_cases hlt : a < q
    · rw [decide_eq_true hlt]
      exact (decide_eq_true (show rowLt (a, nm) (q, n) from Or.inl hlt)).symm
    · rw [decide_eq_false hlt]
      refine Eq.symm (decide_eq_false (show ¬ rowLt (a, nm) (q, n) from ?_))
      rintro (hc | ⟨hc, -⟩)
      · exact hlt hc
      · exact heq hc

theorem elemEqual_row {e : Element} {a : ℤ} {nm : String} (hs : e.score = .fin a)
    (hn : e.name = nm) (q : ℤ) (n : String) (hsep : sepScore a q) :
    e.Equal (.fin q) n = (decide (a = q) && (nm == n)) := by
  unfold Element.Equal
  rw [hs, hn]
  by_cases heq : a = q
  · subst heq
    rw [equalFloat_fin_self, decide_eq_true rfl]
  · have hgap : Eps < a - q ∨ Eps < q - a := by
      rcases hsep with rfl | h | h
      · exact absurd rfl heq
      · exact Or.inl h
      · exact Or.inr h
    have hef : equalFloat (EScore.fin a) (EScore.fin q) = false := by
      simp only [equalFloat, Bool.and_eq_false_iff, decide_eq_false_iff_not, not_le]
      rcases hgap with h | h
      · exact Or.inl h
      · exact Or.inr h
    rw [hef, decide_eq_false heq]

end SkipListGo

namespace SkipListGo

/-! ### List machinery for the descent characterization -/

theorem lastOf_map {α β : Type} (f : α → β) :
    ∀ (l : List α) (d : α), lastOf (l.map f) (f d) = f (lastOf l d) := by
  intro l
  induction l with
  | nil => intro d; rfl
  | cons x xs ih => intro d; exact ih x

theorem lastOf_append_cons {α : Type} :
    ∀ (pre : List α) (x : α) (ls : List α) (d : α),
      lastOf (pre ++ x :: ls) d = lastOf ls x := by
  intro pre
  induction pre with
  | nil => intro x ls d; rfl
  | cons p ps ih => intro x ls d; exact ih x ls p

theorem lastOf_indep {α : Type} : ∀ (l : List α) (d d' : α), l ≠ [] →
    lastOf l d = lastOf l d' := by
  intro l d d' h
  cases l with
  | nil => exact absurd rfl h
  | cons x xs => rfl

theorem lastOf_mem_or {α : Type} : ∀ (l : List α) (d : α),
    lastOf l d ∈ l ∨ lastOf l d = d := by
  intro l
  induction l with
  | nil => intro d; exact Or.inr rfl
  | cons x xs ih =>
    intro d
    rcases ih x with h | h
    · exact Or.inl (List.mem_cons_of_mem _ h)
    · refine Or.inl ?_
      rw [show lastOf (x :: xs) d = lastOf xs x from rfl, h]
      exact List.mem_cons_self _ _

/-- In a link chain `c :: (ls ++ m :: rest)`, the last node of `c :: ls` is
linked to `m`. -/
theorem chain'_last_rel {α : Type} {R : α → α → Prop} :
    ∀ (ls : List α) (c m : α) (rest : List α),
      List.Chain' R (c :: (ls ++ m :: rest)) → R (lastOf ls c) m := by
  intro ls
  induction ls with
  | nil =>
    intro c m rest h
    exact (List.chain'_cons.mp h).1
  | cons a as ih =>
    intro c m rest h
    exact ih a m rest (List.chain'_cons.mp h).2

theorem annotAll_map_fst : ∀ (l : List Row) (p : ℤ),
    (annotAll l p).map Prod.fst = l := by
  intro l
  induction l with
  | nil => intro p; rfl
  | cons r rs ih => intro p; simp [annotAll, ih]

theorem mem_annotAll_fst {x : Row × ℤ} :
    ∀ {l : List Row} {p : ℤ}, x ∈ annotAll l p → x.1 ∈ l := by
  intro l
  induction l with
  | nil => intro p h; exact absurd h (List.not_mem_nil x)
  | cons r rs ih =>
    intro p h
    rcases List.mem_cons.mp h with h | h
    · rw [h]; exact List.mem_cons_self _ _
    · exact List.mem_cons_of_mem _ (ih h)

theorem annotAll_pairwise {R : Row → Row → Prop} :
    ∀ {l : List Row} (p : ℤ), l.Pairwise R →
      (annotAll l p).Pairwise (fun x y => R x.1 y.1) := by
  intro l
  induction l with
  | nil => intro p _; exact List.Pairwise.nil
  | cons r rs ih =>
    intro p h
    rcases List.pairwise_cons.mp h with ⟨hr, hrs⟩
    refine List.pairwise_cons.mpr ⟨?_, ih (p + 1) hrs⟩
    intro y hy
    exact hr y.1 (mem_annotAll_fst hy)

theorem length_annotAll : ∀ (l : List Row) (p : ℤ),
    (annotAll l p).length = l.length := by
  intro l
  induction l with
  | nil => intro p; rfl
  | cons r rs ih => intro p; simp [annotAll, ih]

/-- On a list sorted by `R`, with `P` downward closed along `R`, the
`P`-elements of any `Q`-filter form its prefix. -/
theorem filter_split_prefix {α : Type} {R : α → α → Prop} (P Q : α → Bool) :
    ∀ (l : List α), l.Pairwise R → (∀ a b, R a b → P b = true → P a = true) →
      l.filter Q = l.filter (fun x => Q x && P x) ++ l.filter (fun x => Q x && !P x) := by
  intro l
  induction l with
  | nil => intro _ _; rfl
  | cons a l ih =>
    intro hp hdc
    rcases List.pairwise_cons.mp hp with ⟨ha, hl⟩
    cases hQ : Q a with
    | false =>
      rw [List.filter_cons_of_neg (by simp [hQ]), List.filter_cons_of_neg (by simp [hQ]),
        List.filter_cons_of_neg (by simp [hQ])]
      exact ih hl hdc
    | true =>
      cases hP : P a with
      | true =>
        rw [List.filter_cons_of_pos (by simp [hQ]),
          List.filter_cons_of_pos (by simp [hQ, hP]),
          List.filter_cons_of_neg (by simp [hQ, hP]),
          List.cons_append, ih hl hdc]
      | false =>
        have hall : ∀ b ∈ l, P b = false := by
          intro b hb
          cases hPb : P b with
          | false => rfl
          | true => exact absurd (hdc a b (ha b hb) hPb) (by rw [hP]; simp)
        have h1 : l.filter (fun x => Q x && P x) = [] := by
          rw [List.filter_eq_nil]
          intro b hb
          rw [hall b hb]
          simp
        have h2 : l.filter (fun x => Q x && !P x) = l.filter Q := by
          apply List.filter_congr
          intro b hb
          rw [hall b hb]
          simp [hQ]
        rw [List.filter_cons_of_pos (by simp [hQ]),
          List.filter_cons_of_neg (by simp [hQ, hP]),
          List.filter_cons_of_pos (by simp [hQ, hP]), h1, h2]
        rfl

/-- The segment of a list after the last `P`-element contains no
`P`-element. -/
theorem last_filter_split {α : Type} (P : α → Bool) (d : α) :
    ∀ (l : List α), l.filter P ≠ [] →
      ∃ pre ls, l = pre ++ (lastOf (l.filter P) d :: ls) ∧ ∀ y ∈ ls, P y = false := by
  intro l
  induction l with
  | nil => intro h; exact absurd rfl h
  | cons a l ih =>
    intro h
    cases hP : P a with
    | true =>
      rcases hfl : l.filter P with _ | ⟨b, fl⟩
      · refine ⟨[], l, ?_, ?_⟩
        · simp only [List.filter_cons, hP, if_pos rfl, hfl]
          rfl
        · intro y hy
          simpa using List.filter_eq_nil.mp hfl y hy
      · have hne : l.filter P ≠ [] := by rw [hfl]; simp
        rcases ih hne with ⟨pre, ls, heq, hls⟩
        refine ⟨a :: pre, ls, ?_, hls⟩
        have hlast : lastOf ((a :: l).filter P) d = lastOf (l.filter P) d := by
          simp only [List.filter_cons, hP, if_pos rfl]
          rw [hfl]
          show lastOf (b :: fl) a = lastOf (b :: fl) d
          exact lastOf_indep _ _ _ (by simp)
        rw [hlast, List.cons_append, ← heq]
    | false =>
      have hfe : (a :: l).filter P = l.filter P :=
        List.filter_cons_of_neg (by simp [hP])
      rw [hfe] at h ⊢
      rcases ih h with ⟨pre, ls, heq, hls⟩
      exact ⟨a :: pre, ls, by rw [List.cons_append, ← heq], hls⟩

theorem chain'_transfer {α : Type} {R S : α → α → Prop} :
    ∀ (l : List α), (∀ x ∈ l, ∀ y ∈ l, R x y → S x y) →
      List.Chain' R l → List.Chain' S l := by
  intro l
  induction l with
  | nil => intro _ _; exact List.chain'_nil
  | cons a l ih =>
    intro himp hch
    cases l with
    | nil => exact List.chain'_singleton a
    | cons b l2 =>
      rcases List.chain'_cons.mp hch with ⟨hab, hrest⟩
      refine List.chain'_cons.mpr ⟨?_, ?_⟩
      · exact himp a (by simp) b (by simp) hab
      · exact ih (fun x hx y hy h => himp x (List.mem_cons_of_mem _ hx)
          y (List.mem_cons_of_mem _ hy) h) hrest

/-- The rightward walk: starting at `c`, with a chain of correctly-spanned
links through the `Less` segment `ls` and a pointer from its last node to a
non-`Less` node `m1`, it traverses exactly `ls` and stops before `m1`,
returning the last `Less` node and the rank advanced by the distance
walked.  The span of the final link into `m1` is never read. -/
theorem advanceLess_spec (t : SkipList) (L : ℕ) (q : EScore) (nm : String) :
    ∀ (ls : List (ℕ × ℤ)) (c : ℕ × ℤ) (m1 : ℕ) (fuel : ℕ) (rank : ℤ),
      List.Chain' (linkRel t L) (c :: ls) →
      t.nextOf (lastOf ls c).1 L = some m1 →
      (∀ y ∈ ls, (t.get y.1).Less q nm = true) →
      (t.get m1).Less q nm = false →
      ls.length + 1 ≤ fuel →
      advanceLess t L q nm fuel c.1 rank =
        ((lastOf ls c).1, rank + ((lastOf ls c).2 - c.2)) := by
  intro ls
  induction ls with
  | nil =>
    intro c m1 fuel rank _ hnm hls hm hf
    cases fuel with
    | zero => omega
    | succ f =>
      show advanceLess t L q nm (f + 1) c.1 rank = (c.1, rank + (c.2 - c.2))
      rw [show advanceLess t L q nm (f + 1) c.1 rank =
        (match t.nextOf c.1 L with
         | none => (c.1, rank)
         | some nxt =>
           if (t.get nxt).Less q nm then
             advanceLess t L q nm f nxt (rank + t.spanOf c.1 L)
           else (c.1, rank)) from rfl]
      rw [show t.nextOf c.1 L = some m1 from hnm]
      simp only [hm, Bool.false_eq_true, if_false]
      rw [sub_self, add_zero]
  | cons y ls' ih =>
    intro c m1 fuel rank hch hnm hls hm hf
    cases fuel with
    | zero => simp at hf
    | succ f =>
      have hcy := List.chain'_cons.mp hch
      show advanceLess t L q nm (f + 1) c.1 rank = _
      rw [show advanceLess t L q nm (f + 1) c.1 rank =
        (match t.nextOf c.1 L with
         | none => (c.1, rank)
         | some nxt =>
           if (t.get nxt).Less q nm then
             advanceLess t L q nm f nxt (rank + t.spanOf c.1 L)
           else (c.1, rank)) from rfl]
      rw [hcy.1.1]
      simp only [hls y (List.mem_cons_self y ls'), if_true]
      rw [hcy.1.2]
      rw [ih y m1 f (rank + (y.2 - c.2)) hcy.2 hnm
        (fun z hz => hls z (List.mem_cons_of_mem _ hz)) hm (by simpa using hf)]
      show ((lastOf ls' y).1, _) = ((lastOf ls' y).1, _)
      refine Prod.ext rfl ?_
      show rank + (y.2 - c.2) + ((lastOf ls' y).2 - y.2) =
        rank + ((lastOf ls' y).2 - c.2)
      omega

end SkipListGo

namespace SkipListGo

/-! ### The per-level descent characterization -/

/-- Entry (id, position) of an annotated row. -/
def eOf (x : Row × ℤ) : ℕ × ℤ := (x.1.id, x.2)

/-- The annotated rows living on level `L`. -/
def levelRows (rows : List Row) (L : ℕ) : List (Row × ℤ) :=
  (annotAll rows 1).filter (fun x => L ≤ x.1.height)

/-- The level-`L` rows whose key precedes `k`. -/
def lessRows (rows : List Row) (L : ℕ) (k : ℤ × String) : List (Row × ℤ) :=
  (annotAll rows 1).filter
    (fun x => decide (L ≤ x.1.height) && decide (rowLt x.1.key k))

/-- The level-`L` rows whose key does not precede `k`. -/
def geRows (rows : List Row) (L : ℕ) (k : ℤ × String) : List (Row × ℤ) :=
  (annotAll rows 1).filter
    (fun x => decide (L ≤ x.1.height) && !(decide (rowLt x.1.key k)))

/-- The stop point of the level-`L` walk towards `k`: the last level-`L`
node preceding `k`, the head entry if there is none. -/
def lastLessE (rows : List Row) (L : ℕ) (k : ℤ × String) : ℕ × ℤ :=
  lastOf ((lessRows rows L k).map eOf) (0, 0)

theorem levelEntries_eq (rows : List Row) (L : ℕ) :
    levelEntries rows L = (levelRows rows L).map eOf := rfl

theorem levelRows_split {rows : List Row}
    (hs : rows.Pairwise (fun a b => rowLt a.key b.key)) (L : ℕ) (k : ℤ × String) :
    levelRows rows L = lessRows rows L k ++ geRows rows L k := by
  have hp := annotAll_pairwise (R := fun a b => rowLt a.key b.key) 1 hs
  exact filter_split_prefix (R := fun x y => rowLt x.1.key y.1.key)
    (fun x => decide (rowLt x.1.key k)) (fun x => decide (L ≤ x.1.height))
    (annotAll rows 1) hp
    (fun a b hR hPb => decide_eq_true (rowLt_trans hR (of_decide_eq_true hPb)))

theorem lessRows_succ (rows : List Row) (L : ℕ) (k : ℤ × String) :
    lessRows rows (L + 1) k =
      (lessRows rows L k).filter (fun x => decide (L + 1 ≤ x.1.height)) := by
  unfold lessRows
  rw [List.filter_filter]
  apply List.filter_congr
  intro x _
  by_cases h1 : L + 1 ≤ x.1.height
  · have h0 : L ≤ x.1.height := by omega
    simp [h1, h0]
  · simp [h1]

theorem mem_lessRows {rows : List Row} {L : ℕ} {k : ℤ × String} {x : Row × ℤ}
    (h : x ∈ lessRows rows L k) : x.1 ∈ rows ∧ rowLt x.1.key k := by
  rcases List.mem_filter.mp h with ⟨hmem, hcond⟩
  simp only [Bool.and_eq_true, decide_eq_true_eq] at hcond
  exact ⟨mem_annotAll_fst hmem, hcond.2⟩

theorem mem_geRows {rows : List Row} {L : ℕ} {k : ℤ × String} {x : Row × ℤ}
    (h : x ∈ geRows rows L k) : x.1 ∈ rows ∧ ¬ rowLt x.1.key k := by
  rcases List.mem_filter.mp h with ⟨hmem, hcond⟩
  simp only [Bool.and_eq_true, Bool.not_eq_true', decide_eq_false_iff_not] at hcond
  exact ⟨mem_annotAll_fst hmem, hcond.2⟩

theorem mem_levelRows {rows : List Row} {L : ℕ} {x : Row × ℤ}
    (h : x ∈ levelRows rows L) : x.1 ∈ rows :=
  mem_annotAll_fst (List.mem_filter.mp h).1

theorem mem_fullLevel_id {S : List ℤ} {t : SkipList} {rows : List Row}
    (M : Models S t rows) {L : ℕ} {x : ℕ × ℤ} (h : x ∈ fullLevel rows L) :
    x.1 < t.arena.length := by
  rcases List.mem_cons.mp h with h | h
  · rw [h]
    exact Nat.lt_of_lt_of_le (by decide) M.hlen
  · rw [levelEntries_eq] at h
    rcases List.mem_map.mp h with ⟨y, hy, rfl⟩
    exact (M.hid y.1 (mem_levelRows hy)).2

end SkipListGo

namespace SkipListGo

/-- A default annotated row (used only as a `lastOf` placeholder). -/
def dRow : Row × ℤ := (⟨0, "", 0, 0⟩, 0)

/-- The master descent step: on any state that agrees with a modelled state
on level `L`, the rightward walk started at the level-`L+1` stop point ends
at the level-`L` stop point, advancing the rank by the distance between the
two base positions. -/
theorem advance_at_level {S : List ℤ} {t : SkipList} {rows : List Row}
    (M : Models S t rows) (t' : SkipList) (L : ℕ) (hL : L < MaxLevel)
    (q : ℤ) (nm : String)
    (hnext : ∀ j, j < t.arena.length → t'.nextOf j L = t.nextOf j L)
    (hspan : ∀ j, j < t.arena.length → t'.spanOf j L = t.spanOf j L)
    (hns : ∀ j, j < t.arena.length →
      (t'.get j).name = (t.get j).name ∧ (t'.get j).score = (t.get j).score)
    (hsep : ∀ r ∈ rows, sepScore r.score q)
    (fuel : ℕ) (hfuel : rows.length + 1 ≤ fuel) (rank : ℤ) :
    advanceLess t' L (.fin q) nm fuel (lastLessE rows (L + 1) (q, nm)).1 rank =
      ((lastLessE rows L (q, nm)).1,
        rank + ((lastLessE rows L (q, nm)).2 - (lastLessE rows (L + 1) (q, nm)).2)) := by
  have hchain : List.Chain' (linkRel t' L) (fullLevel rows L) := by
    refine chain'_transfer _ ?_ (M.hlinks L hL)
    intro x hx y _ hxy
    refine ⟨?_, ?_⟩
    · rw [hnext x.1 (mem_fullLevel_id M hx)]
      exact hxy.1
    · rw [hspan x.1 (mem_fullLevel_id M hx)]
      exact hxy.2
  have hLessOfRow : ∀ x : Row × ℤ, x.1 ∈ rows →
      (t'.get (eOf x).1).Less (.fin q) nm = decide (rowLt x.1.key (q, nm)) := by
    intro x hx
    have hid := M.hid x.1 hx
    exact elemLess_row
      (by simp only [eOf]; rw [(hns x.1.id hid.2).2]; exact M.hscore x.1 hx)
      (by simp only [eOf]; rw [(hns x.1.id hid.2).1]; exact M.hname x.1 hx)
      q nm (hsep x.1 hx)
  have hLessA : ∀ y ∈ (lessRows rows L (q, nm)).map eOf,
      (t'.get y.1).Less (.fin q) nm = true := by
    intro y hy
    rcases List.mem_map.mp hy with ⟨x, hx, rfl⟩
    rcases mem_lessRows hx with ⟨hmem, hlt⟩
    rw [hLessOfRow x hmem]
    exact decide_eq_true hlt
  have hfull : fullLevel rows L =
      (0, 0) :: (((lessRows rows L (q, nm)).map eOf) ++
        (geRows rows L (q, nm)).map eOf) := by
    unfold fullLevel
    rw [levelEntries_eq, levelRows_split M.hsorted L (q, nm), List.map_append]
  have hstop : ∃ m1 : ℕ,
      t'.nextOf (lastOf ((lessRows rows L (q, nm)).map eOf)
        ((0 : ℕ), (0 : ℤ))).1 L = some m1 ∧
      (t'.get m1).Less (.fin q) nm = false := by
    rcases hG : geRows rows L (q, nm) with _ | ⟨g, gs⟩
    · refine ⟨1, ?_, ?_⟩
      · have hent : levelEntries rows L = (lessRows rows L (q, nm)).map eOf := by
          rw [levelEntries_eq, levelRows_split M.hsorted L (q, nm), hG,
            List.append_nil]
        have hidlt : (lastOf ((lessRows rows L (q, nm)).map eOf)
            ((0 : ℕ), (0 : ℤ))).1 < t.arena.length := by
          rcases lastOf_mem_or ((lessRows rows L (q, nm)).map eOf)
              ((0 : ℕ), (0 : ℤ)) with h | h
          · exact mem_fullLevel_id M (by
              rw [hfull]
              exact List.mem_cons_of_mem _ (List.mem_append.mpr (Or.inl h)))
          · rw [h]
            exact Nat.lt_of_lt_of_le (by decide) M.hlen
        rw [hnext _ hidlt, ← hent]
        exact M.htail L hL
      · exact elemLess_posInf
          (by rw [(hns 1 (Nat.lt_of_lt_of_le (by decide) M.hlen)).2]
              exact M.htailscore) q nm
    · refine ⟨g.1.id, ?_, ?_⟩
      · have hch2 : List.Chain' (linkRel t' L)
            (((0 : ℕ), (0 : ℤ)) :: (((lessRows rows L (q, nm)).map eOf) ++
              (eOf g :: gs.map eOf))) := by
          have h := hchain
          rw [hfull, hG, List.map_cons] at h
          exact h
        exact (chain'_last_rel _ _ _ _ hch2).1
      · have hgmem : g ∈ geRows rows L (q, nm) := by
          rw [hG]
          exact List.mem_cons_self _ _
        rcases mem_geRows hgmem with ⟨hmem, hnlt⟩
        have h := hLessOfRow g hmem
        simp only [eOf] at h
        rw [h]
        exact decide_eq_false hnlt
  obtain ⟨m1, hstopNext, hstopLess⟩ := hstop
  have hlenA : ((lessRows rows L (q, nm)).map eOf).length + 1 ≤ fuel := by
    rw [List.length_map]
    have h1 : (lessRows rows L (q, nm)).length ≤ (annotAll rows 1).length :=
      List.length_filter_le _ _
    rw [length_annotAll] at h1
    omega
  rcases hsucc : lessRows rows (L + 1) (q, nm) with _ | ⟨s0, ss⟩
  · have hstart : lastLessE rows (L + 1) (q, nm) = (0, 0) := by
      unfold lastLessE
      rw [hsucc]
      rfl
    rw [hstart]
    have hchain1 : List.Chain' (linkRel t' L)
        (((0 : ℕ), (0 : ℤ)) :: ((lessRows rows L (q, nm)).map eOf)) := by
      have h := hchain
      rw [hfull] at h
      exact (List.chain'_append.mp
        (show List.Chain' (linkRel t' L)
          (((((0 : ℕ), (0 : ℤ))) :: ((lessRows rows L (q, nm)).map eOf)) ++
            (geRows rows L (q, nm)).map eOf) from h)).1
    have hres := advanceLess_spec t' L (.fin q) nm
      ((lessRows rows L (q, nm)).map eOf) ((0 : ℕ), (0 : ℤ)) m1 fuel rank
      hchain1 hstopNext hLessA hstopLess hlenA
    rw [hres]
    unfold lastLessE
    rfl
  · have hAne : lessRows rows (L + 1) (q, nm) ≠ [] := by
      rw [hsucc]
      simp
    have hfilter := lessRows_succ rows L (q, nm)
    have hfne : (lessRows rows L (q, nm)).filter
        (fun x => decide (L + 1 ≤ x.1.height)) ≠ [] := by
      rw [← hfilter]
      exact hAne
    obtain ⟨pre, ls', heq, -⟩ :=
      last_filter_split (fun x => decide (L + 1 ≤ x.1.height)) dRow
        (lessRows rows L (q, nm)) hfne
    have hstart : lastLessE rows (L + 1) (q, nm) =
        eOf (lastOf ((lessRows rows L (q, nm)).filter
          (fun x => decide (L + 1 ≤ x.1.height))) dRow) := by
      unfold lastLessE
      rw [hfilter]
      rw [lastOf_indep _ _ (eOf dRow) (by
        intro hc
        exact hfne (List.map_eq_nil.mp hc))]
      rw [lastOf_map]
    generalize hc : lastOf ((lessRows rows L (q, nm)).filter
      (fun x => decide (L + 1 ≤ x.1.height))) dRow = cx at heq hstart
    have hsuffix : (eOf cx :: (ls'.map eOf ++ (geRows rows L (q, nm)).map eOf))
        <:+ fullLevel rows L := by
      refine ⟨(0, 0) :: pre.map eOf, ?_⟩
      rw [hfull, heq]
      simp [List.append_assoc]
    have hchain2 : List.Chain' (linkRel t' L) (eOf cx :: ls'.map eOf) := by
      have h := hchain.suffix hsuffix
      exact (List.chain'_append.mp
        (show List.Chain' (linkRel t' L)
          ((eOf cx :: ls'.map eOf) ++ (geRows rows L (q, nm)).map eOf)
            from h)).1
    have hlast0 : lastOf ((lessRows rows L (q, nm)).map eOf) ((0 : ℕ), (0 : ℤ)) =
        lastOf (ls'.map eOf) (eOf cx) := by
      rw [heq, List.map_append, List.map_cons, lastOf_append_cons]
    have hstopNext2 : t'.nextOf (lastOf (ls'.map eOf) (eOf cx)).1 L = some m1 := by
      rw [← hlast0]
      exact hstopNext
    have hLessls : ∀ y ∈ ls'.map eOf, (t'.get y.1).Less (.fin q) nm = true := by
      intro y hy
      rcases List.mem_map.mp hy with ⟨x, hx, rfl⟩
      refine hLessA (eOf x) (List.mem_map_of_mem eOf ?_)
      rw [heq]
      exact List.mem_append.mpr (Or.inr (List.mem_cons_of_mem _ hx))
    have hlenls : (ls'.map eOf).length + 1 ≤ fuel := by
      have h2 : (lessRows rows L (q, nm)).length =
          pre.length + (ls'.length + 1) := by
        rw [heq]
        simp
      have h1 : (lessRows rows L (q, nm)).length ≤ (annotAll rows 1).length :=
        List.length_filter_le _ _
      rw [length_annotAll] at h1
      rw [List.length_map]
      omega
    have hres := advanceLess_spec t' L (.fin q) nm (ls'.map eOf)
      (eOf cx) m1 fuel rank hchain2 hstopNext2 hLessls hstopLess hlenls
    rw [hstart, hres]
    have hlast : lastOf (ls'.map eOf) (eOf cx) = lastLessE rows L (q, nm) := by
      unfold lastLessE
      exact hlast0.symm
    rw [hlast]

end SkipListGo

namespace SkipListGo

/-! ### Characterization of the read-only descents under `Models` -/

theorem range_reverse_succ (n : ℕ) :
    (List.range (n + 1)).reverse = n :: (List.range n).reverse := by
  rw [List.range_succ, List.reverse_append]
  rfl

/-- In a list pairwise-sorted by the strict key order, keys identify
entries. -/
theorem pairwise_key_unique {l : List (Row × ℤ)}
    (hp : l.Pairwise (fun a b => rowLt a.1.key b.1.key)) :
    ∀ x ∈ l, ∀ y ∈ l, x.1.key = y.1.key → x = y := by
  induction l with
  | nil => intro x hx; exact absurd hx (List.not_mem_nil x)
  | cons a as ih =>
    rcases List.pairwise_cons.mp hp with ⟨ha, has⟩
    intro x hx y hy hkey
    rcases List.mem_cons.mp hx with hxa | hx'
    · rcases List.mem_cons.mp hy with hya | hy'
      · rw [hxa, hya]
      · have hlt := ha y hy'
        rw [hxa] at hkey
        rw [hkey] at hlt
        exact absurd hlt (rowLt_irrefl _)
    · rcases List.mem_cons.mp hy with hya | hy'
      · have hlt := ha x hx'
        rw [hya] at hkey
        rw [← hkey] at hlt
        exact absurd hlt (rowLt_irrefl _)
      · exact ih has x hx' y hy' hkey

theorem mem_geRows_self {rows : List Row} {L : ℕ} {x : Row × ℤ}
    (hx : x ∈ annotAll rows 1) (hh : L ≤ x.1.height) :
    x ∈ geRows rows L x.1.key := by
  refine List.mem_filter.mpr ⟨hx, ?_⟩
  simp [hh, rowLt_irrefl]

theorem mem_annot_of_geRows {rows : List Row} {L : ℕ} {k : ℤ × String}
    {x : Row × ℤ} (h : x ∈ geRows rows L k) : x ∈ annotAll rows 1 :=
  (List.mem_filter.mp h).1

/-- A level-`L` row with the target key heads the non-less segment. -/
theorem geRows_head {rows : List Row}
    (hs : rows.Pairwise (fun a b => rowLt a.key b.key)) {L : ℕ} {x : Row × ℤ}
    (hx : x ∈ annotAll rows 1) (hh : L ≤ x.1.height) :
    ∃ gs, geRows rows L x.1.key = x :: gs := by
  have hxg := mem_geRows_self hx hh
  have hp : (geRows rows L x.1.key).Pairwise
      (fun a b => rowLt a.1.key b.1.key) :=
    (annotAll_pairwise (R := fun a b => rowLt a.key b.key) 1 hs).filter _
  rcases hG : geRows rows L x.1.key with _ | ⟨g, gs⟩
  · rw [hG] at hxg
    exact absurd hxg (List.not_mem_nil x)
  · rw [hG] at hxg hp
    rcases List.mem_cons.mp hxg with rfl | hxgs
    · exact ⟨gs, rfl⟩
    · exfalso
      have hlt := (List.pairwise_cons.mp hp).1 x hxgs
      have := mem_geRows (by rw [hG]; exact List.mem_cons_self g gs)
      exact this.2 hlt

/-- Above every live height the less-segment is empty. -/
theorem lessRows_empty_of_high {rows : List Row} {L : ℕ}
    (h : ∀ r ∈ rows, r.height < L) (k : ℤ × String) :
    lessRows rows L k = [] := by
  unfold lessRows
  rw [List.filter_eq_nil_iff]
  intro x hx
  have hr := mem_annotAll_fst hx
  have hlt := h x.1 hr
  simp only [Bool.and_eq_true, decide_eq_true_eq, not_and]
  intro hc
  exact absurd hc (by omega)

/-- The link out of the level-`L` stop node: to the head of the non-less
segment with an exact span, or to the tail (pointer only). -/
theorem stop_link {S : List ℤ} {t : SkipList} {rows : List Row}
    (M : Models S t rows) (L : ℕ) (hL : L < MaxLevel) (k : ℤ × String) :
    (∀ g gs, geRows rows L k = g :: gs →
      t.nextOf (lastLessE rows L k).1 L = some g.1.id ∧
      t.spanOf (lastLessE rows L k).1 L = g.2 - (lastLessE rows L k).2) ∧
    (geRows rows L k = [] → t.nextOf (lastLessE rows L k).1 L = some 1) := by
  have hfull : fullLevel rows L =
      (0, 0) :: (((lessRows rows L k).map eOf) ++ (geRows rows L k).map eOf) := by
    unfold fullLevel
    rw [levelEntries_eq, levelRows_split M.hsorted L k, List.map_append]
  constructor
  · intro g gs hG
    have hch := M.hlinks L hL
    rw [hfull, hG, List.map_cons] at hch
    have hrel := chain'_last_rel _ _ _ _ hch
    exact ⟨hrel.1, hrel.2⟩
  · intro hG
    have hent : levelEntries rows L = (lessRows rows L k).map eOf := by
      rw [levelEntries_eq, levelRows_split M.hsorted L k, hG, List.append_nil]
    have := M.htail L hL
    rw [hent] at this
    exact this

end SkipListGo

namespace SkipListGo

/-- The `GetRank` level loop (source lines 387–402), started at the
level-`L+1` stop point of a present target key with that point's base
position as the accumulated rank, returns the target's base position. -/
theorem getRankLevels_descend {S : List ℤ} {t : SkipList} {rows : List Row}
    (M : Models S t rows) {x : Row × ℤ} (hx : x ∈ annotAll rows 1)
    (hsep : ∀ r ∈ rows, sepScore r.score x.1.score) :
    ∀ L : ℕ, L < MaxLevel →
      getRankLevels t (.fin x.1.score) x.1.name ((List.range (L + 1)).reverse)
        (lastLessE rows (L + 1) (x.1.score, x.1.name)).1
        (lastLessE rows (L + 1) (x.1.score, x.1.name)).2 =
      (x.2, true) := by
  have hxmem : x.1 ∈ rows := mem_annotAll_fst hx
  have hstep : ∀ L : ℕ, L < MaxLevel → ∀ rest : List ℕ,
      getRankLevels t (.fin x.1.score) x.1.name (L :: rest)
        (lastLessE rows (L + 1) (x.1.score, x.1.name)).1
        (lastLessE rows (L + 1) (x.1.score, x.1.name)).2 =
      (if x.1.height < L then
        getRankLevels t (.fin x.1.score) x.1.name rest
          (lastLessE rows L (x.1.score, x.1.name)).1
          (lastLessE rows L (x.1.score, x.1.name)).2
       else (x.2, true)) := by
    intro L hL rest
    have hadv := advance_at_level M t L hL x.1.score x.1.name
      (fun j _ => rfl) (fun j _ => rfl) (fun j _ => ⟨rfl, rfl⟩) hsep
      t.arena.length (by have := M.hcard; omega)
      (lastLessE rows (L + 1) (x.1.score, x.1.name)).2
    have hadv2 : advanceLess t L (.fin x.1.score) x.1.name t.arena.length
        (lastLessE rows (L + 1) (x.1.score, x.1.name)).1
        (lastLessE rows (L + 1) (x.1.score, x.1.name)).2 =
        ((lastLessE rows L (x.1.score, x.1.name)).1,
         (lastLessE rows L (x.1.score, x.1.name)).2) := by
      rw [hadv]
      simp only [Prod.mk.injEq]
      exact ⟨trivial, by omega⟩
    simp only [getRankLevels]
    rw [hadv2]
    rcases Nat.lt_or_ge x.1.height L with hh | hh
    · rw [if_pos hh]
      rcases hG : geRows rows L (x.1.score, x.1.name) with _ | ⟨g, gs⟩
      · rw [(stop_link M L hL (x.1.score, x.1.name)).2 hG]
        have hEq : (t.get 1).Equal (.fin x.1.score) x.1.name = false :=
          elemEqual_posInf M.htailscore _ _
        simp only [hEq, Bool.false_eq_true, if_false]
      · have hlink := (stop_link M L hL (x.1.score, x.1.name)).1 g gs hG
        rw [hlink.1]
        have hgmemG : g ∈ geRows rows L (x.1.score, x.1.name) := by
          rw [hG]
          exact List.mem_cons_self g gs
        have hgannot := mem_annot_of_geRows hgmemG
        have hgrow : g.1 ∈ rows := mem_annotAll_fst hgannot
        have hglev : L ≤ g.1.height := by
          have := (List.mem_filter.mp hgmemG).2
          simp only [Bool.and_eq_true, decide_eq_true_eq] at this
          exact this.1
        have hkeyne : g.1.key ≠ (x.1.score, x.1.name) := by
          intro hc
          have hgx : g = x :=
            pairwise_key_unique
              (annotAll_pairwise (R := fun a b => rowLt a.key b.key) 1 M.hsorted)
              g hgannot x hx hc
          rw [hgx] at hglev
          omega
        have hEq : (t.get g.1.id).Equal (.fin x.1.score) x.1.name = false := by
          rw [elemEqual_row (M.hscore g.1 hgrow) (M.hname g.1 hgrow) _ _
            (hsep g.1 hgrow)]
          by_cases hsc : g.1.score = x.1.score
          · have hnm : g.1.name ≠ x.1.name := by
              intro hc
              exact hkeyne (by unfold Row.key; rw [hsc, hc])
            simp [hnm]
          · simp [hsc]
        simp only [hEq, Bool.false_eq_true, if_false]
    · rw [if_neg (by omega)]
      obtain ⟨gs, hG⟩ := geRows_head M.hsorted hx hh
      have hG' : geRows rows L (x.1.score, x.1.name) = x :: gs := hG
      have hlink := (stop_link M L hL (x.1.score, x.1.name)).1 x gs hG'
      rw [hlink.1]
      have hEq : (t.get x.1.id).Equal (.fin x.1.score) x.1.name = true := by
        rw [elemEqual_row (M.hscore x.1 hxmem) (M.hname x.1 hxmem) _ _
          (hsep x.1 hxmem)]
        simp
      simp only [hEq, if_true]
      rw [hlink.2]
      simp only [Prod.mk.injEq]
      exact ⟨by omega, trivial⟩
  intro L
  induction L with
  | zero =>
    intro h0
    rw [range_reverse_succ 0]
    rw [hstep 0 h0 ((List.range 0).reverse), if_neg (by omega)]
  | succ L ih =>
    intro hL
    rw [range_reverse_succ (L + 1)]
    rw [hstep (L + 1) hL ((List.range (L + 1)).reverse)]
    rcases Nat.lt_or_ge x.1.height (L + 1) with hh | hh
    · rw [if_pos hh]
      exact ih (by omega)
    · rw [if_neg (by omega)]

end SkipListGo

namespace SkipListGo

/-- `GetRank` on a present key returns the key's base-chain position. -/
theorem GetRank_models_present {S : List ℤ} {t : SkipList} {rows : List Row}
    (M : Models S t rows) {x : Row × ℤ} (hx : x ∈ annotAll rows 1)
    (hsep : ∀ r ∈ rows, sepScore r.score x.1.score) :
    GetRank t x.1.name = (x.2, true) := by
  unfold GetRank
  rw [M.helemsome x.1 (mem_annotAll_fst hx)]
  have hstart : lastLessE rows (t.maxLevel + 1) (x.1.score, x.1.name) =
      ((0 : ℕ), (0 : ℤ)) := by
    unfold lastLessE
    rw [lessRows_empty_of_high
      (fun r hr => by have := M.hheight r hr; omega) (x.1.score, x.1.name)]
    rfl
  have h := getRankLevels_descend M hx hsep t.maxLevel M.hmaxLt
  rw [hstart] at h
  exact h

/-- `GetRank` on an absent key returns `(0, false)`. -/
theorem GetRank_models_absent {S : List ℤ} {t : SkipList} {rows : List Row}
    (M : Models S t rows) (n : String) (h : ∀ r ∈ rows, r.name ≠ n) :
    GetRank t n = (0, false) := by
  unfold GetRank
  rw [M.helemnone n h]

end SkipListGo

namespace SkipListGo

/-! ### List machinery for the mutation proofs -/

/-- Transfer a chain along an implication available for adjacent pairs. -/
theorem chain'_imp_adj {α : Type} {R S : α → α → Prop} :
    ∀ l : List α, List.Chain' R l →
      (∀ pre x y suf, l = pre ++ x :: y :: suf → R x y → S x y) →
      List.Chain' S l := by
  intro l
  induction l with
  | nil => intro _ _; exact List.chain'_nil
  | cons a l' ih =>
    intro hch himp
    cases l' with
    | nil => exact List.chain'_singleton a
    | cons b l'' =>
      rcases List.chain'_cons.mp hch with ⟨hab, htl⟩
      refine List.chain'_cons.mpr ⟨himp [] a b l'' rfl hab, ?_⟩
      exact ih htl (fun pre x y suf heq hR =>
        himp (a :: pre) x y suf (by rw [heq]; rfl) hR)

theorem annotAll_append : ∀ (xs ys : List Row) (p : ℤ),
    annotAll (xs ++ ys) p = annotAll xs p ++ annotAll ys (p + xs.length) := by
  intro xs
  induction xs with
  | nil => intro ys p; simp [annotAll]
  | cons x xs ih =>
    intro ys p
    have harith : p + 1 + (xs.length : ℤ) = p + (((xs.length + 1 : ℕ)) : ℤ) := by
      push_cast
      ring
    show (x, p) :: annotAll (xs ++ ys) (p + 1) =
      (x, p) :: annotAll xs (p + 1) ++ annotAll ys (p + ((xs.length + 1 : ℕ) : ℤ))
    rw [ih ys (p + 1), harith]
    rfl

/-- On a sorted list, `takeWhile` of a downward-closed key predicate is
`filter`. -/
theorem sorted_takeWhile_eq_filter {P : Row → Bool}
    (hdc : ∀ a b : Row, rowLt a.key b.key → P b = true → P a = true) :
    ∀ l : List Row, l.Pairwise (fun a b => rowLt a.key b.key) →
      (l.takeWhile P = l.filter P ∧ l.dropWhile P = l.filter (fun r => !(P r))) := by
  intro l
  induction l with
  | nil => intro _; exact ⟨rfl, rfl⟩
  | cons a l' ih =>
    intro hp
    rcases List.pairwise_cons.mp hp with ⟨ha, htl⟩
    rcases ih htl with ⟨ih1, ih2⟩
    cases hPa : P a with
    | true =>
      rw [List.takeWhile_cons_of_pos hPa, List.dropWhile_cons_of_pos hPa,
        List.filter_cons_of_pos hPa, ih1, ih2,
        List.filter_cons_of_neg (by simp [hPa])]
      exact ⟨rfl, rfl⟩
    | false =>
      have hnone : ∀ b ∈ l', P b = false := by
        intro b hb
        cases hPb : P b with
        | false => rfl
        | true => exact absurd (hdc a b (ha b hb) hPb) (by rw [hPa]; simp)
      have hfilt : l'.filter P = [] := by
        rw [List.filter_eq_nil_iff]
        intro b hb
        simp [hnone b hb]
      have hfilt2 : l'.filter (fun r => !(P r)) = l' := by
        rw [List.filter_eq_self]
        intro b hb
        simp [hnone b hb]
      constructor
      · rw [List.takeWhile_cons_of_neg (by simp [hPa]),
          List.filter_cons_of_neg (by simp [hPa]), hfilt]
      · rw [List.dropWhile_cons_of_neg (by simp [hPa]),
          List.filter_cons_of_pos (by simp [hPa]), hfilt2]

end SkipListGo

namespace SkipListGo

/-! ### Pointwise effect of the link editors -/

theorem getD_set_self {α : Type} (l : List α) (i : ℕ) (v d : α) (h : i < l.length) :
    (l.set i v).getD i d = v := by
  rw [List.getD_eq_getElem _ _ (by simpa using h), List.getElem_set, if_pos rfl]

theorem getD_set_other {α : Type} (l : List α) (i j : ℕ) (v d : α) (h : j ≠ i) :
    (l.set i v).getD j d = l.getD j d := by
  by_cases hj : j < l.length
  · rw [List.getD_eq_getElem _ _ (by simpa using hj), List.getElem_set,
      if_neg (fun hc => h hc.symm), List.getD_eq_getElem _ _ hj]
  · rw [List.getD_eq_default _ _ (by simpa using Nat.le_of_not_lt hj),
      List.getD_eq_default _ _ (Nat.le_of_not_lt hj)]

theorem nextOf_setSpan (t : SkipList) (i L : ℕ) (v : ℤ) (j M : ℕ) :
    (t.setSpan i L v).nextOf j M = t.nextOf j M := by
  show ((t.modifyAt i _).get j).next.getD M none = _
  rw [SkipList.get_modifyAt]
  by_cases h : j = i ∧ j < t.arena.length
  · rw [if_pos h]
    rfl
  · rw [if_neg h]
    rfl

theorem prevOf_setSpan (t : SkipList) (i L : ℕ) (v : ℤ) (j : ℕ) :
    (t.setSpan i L v).prevOf j = t.prevOf j := by
  show ((t.modifyAt i _).get j).prev = _
  rw [SkipList.get_modifyAt]
  by_cases h : j = i ∧ j < t.arena.length
  · rw [if_pos h]
    rfl
  · rw [if_neg h]
    rfl

theorem spanOf_setNext (t : SkipList) (i L : ℕ) (v : Option ℕ) (j M : ℕ) :
    (t.setNext i L v).spanOf j M = t.spanOf j M := by
  show ((t.modifyAt i _).get j).span.getD M 0 = _
  rw [SkipList.get_modifyAt]
  by_cases h : j = i ∧ j < t.arena.length
  · rw [if_pos h]
    rfl
  · rw [if_neg h]
    rfl

theorem prevOf_setNext (t : SkipList) (i L : ℕ) (v : Option ℕ) (j : ℕ) :
    (t.setNext i L v).prevOf j = t.prevOf j := by
  show ((t.modifyAt i _).get j).prev = _
  rw [SkipList.get_modifyAt]
  by_cases h : j = i ∧ j < t.arena.length
  · rw [if_pos h]
    rfl
  · rw [if_neg h]
    rfl

theorem spanOf_setPrev (t : SkipList) (i : ℕ) (v : Option ℕ) (j M : ℕ) :
    (t.setPrev i v).spanOf j M = t.spanOf j M := by
  show ((t.modifyAt i _).get j).span.getD M 0 = _
  rw [SkipList.get_modifyAt]
  by_cases h : j = i ∧ j < t.arena.length
  · rw [if_pos h]
    rfl
  · rw [if_neg h]
    rfl

theorem nextOf_setPrev (t : SkipList) (i : ℕ) (v : Option ℕ) (j M : ℕ) :
    (t.setPrev i v).nextOf j M = t.nextOf j M := by
  show ((t.modifyAt i _).get j).next.getD M none = _
  rw [SkipList.get_modifyAt]
  by_cases h : j = i ∧ j < t.arena.length
  · rw [if_pos h]
    rfl
  · rw [if_neg h]
    rfl

theorem spanOf_setSpan_self (t : SkipList) (i L : ℕ) (v : ℤ)
    (hi : i < t.arena.length) (hL : L < (t.get i).span.length) :
    (t.setSpan i L v).spanOf i L = v := by
  show ((t.modifyAt i _).get i).span.getD L 0 = v
  rw [SkipList.get_modifyAt, if_pos ⟨rfl, hi⟩]
  exact getD_set_self _ _ _ _ hL

theorem spanOf_setSpan_other (t : SkipList) (i L : ℕ) (v : ℤ) (j M : ℕ)
    (h : j ≠ i ∨ M ≠ L) :
    (t.setSpan i L v).spanOf j M = t.spanOf j M := by
  show ((t.modifyAt i _).get j).span.getD M 0 = _
  rw [SkipList.get_modifyAt]
  by_cases hj : j = i ∧ j < t.arena.length
  · rw [if_pos hj]
    show ((t.get j).span.set L v).getD M 0 = _
    rcases h with h | h
    · exact absurd hj.1 h
    · exact getD_set_other _ _ _ _ _ h
  · rw [if_neg hj]
    rfl

theorem nextOf_setNext_self (t : SkipList) (i L : ℕ) (v : Option ℕ)
    (hi : i < t.arena.length) (hL : L < (t.get i).next.length) :
    (t.setNext i L v).nextOf i L = v := by
  show ((t.modifyAt i _).get i).next.getD L none = v
  rw [SkipList.get_modifyAt, if_pos ⟨rfl, hi⟩]
  exact getD_set_self _ _ _ _ hL

theorem nextOf_setNext_other (t : SkipList) (i L : ℕ) (v : Option ℕ) (j M : ℕ)
    (h : j ≠ i ∨ M ≠ L) :
    (t.setNext i L v).nextOf j M = t.nextOf j M := by
  show ((t.modifyAt i _).get j).next.getD M none = _
  rw [SkipList.get_modifyAt]
  by_cases hj : j = i ∧ j < t.arena.length
  · rw [if_pos hj]
    show ((t.get j).next.set L v).getD M none = _
    rcases h with h | h
    · exact absurd hj.1 h
    · exact getD_set_other _ _ _ _ _ h
  · rw [if_neg hj]
    rfl

theorem prevOf_setPrev_self (t : SkipList) (i : ℕ) (v : Option ℕ)
    (hi : i < t.arena.length) :
    (t.setPrev i v).prevOf i = v := by
  show ((t.modifyAt i _).get i).prev = v
  rw [SkipList.get_modifyAt, if_pos ⟨rfl, hi⟩]

theorem prevOf_setPrev_other (t : SkipList) (i : ℕ) (v : Option ℕ) (j : ℕ)
    (h : j ≠ i) :
    (t.setPrev i v).prevOf j = t.prevOf j := by
  show ((t.modifyAt i _).get j).prev = _
  rw [SkipList.get_modifyAt]
  by_cases hj : j = i ∧ j < t.arena.length
  · exact absurd hj.1 h
  · rw [if_neg hj]
    rfl

theorem nameOf_modifyAt_linkedit (t : SkipList) (i : ℕ) (f : Element → Element)
    (hf : ∀ e, (f e).name = e.name ∧ (f e).score = e.score ∧
      (f e).next.length = e.next.length ∧ (f e).span.length = e.span.length)
    (j : ℕ) :
    (t.modifyAt i f).nameOf j = t.nameOf j ∧
    (t.modifyAt i f).scoreOf j = t.scoreOf j ∧
    ((t.modifyAt i f).get j).next.length = (t.get j).next.length ∧
    ((t.modifyAt i f).get j).span.length = (t.get j).span.length := by
  show ((t.modifyAt i f).get j).name = _ ∧ ((t.modifyAt i f).get j).score = _ ∧ _
  rw [SkipList.get_modifyAt]
  by_cases h : j = i ∧ j < t.arena.length
  · rw [if_pos h]
    exact ⟨(hf _).1, (hf _).2.1, (hf _).2.2.1, (hf _).2.2.2⟩
  · rw [if_neg h]
    exact ⟨rfl, rfl, rfl, rfl⟩

end SkipListGo

namespace SkipListGo

/-- The frame preserved by every pure link edit: arena size, the identity
fields of every node, the field widths, the key index and `maxLevel`. -/
def LinkPres (t t' : SkipList) : Prop :=
  t'.arena.length = t.arena.length ∧
  t'.maxLevel = t.maxLevel ∧
  t'.elements = t.elements ∧
  ∀ j, (t'.get j).name = (t.get j).name ∧ (t'.get j).score = (t.get j).score ∧
    (t'.get j).next.length = (t.get j).next.length ∧
    (t'.get j).span.length = (t.get j).span.length

theorem LinkPres.same (t : SkipList) : LinkPres t t :=
  ⟨rfl, rfl, rfl, fun _ => ⟨rfl, rfl, rfl, rfl⟩⟩

theorem LinkPres.chain {a b c : SkipList} (h1 : LinkPres a b) (h2 : LinkPres b c) :
    LinkPres a c := by
  refine ⟨h2.1.trans h1.1, h2.2.1.trans h1.2.1, h2.2.2.1.trans h1.2.2.1, fun j => ?_⟩
  rcases h1.2.2.2 j with ⟨a1, a2, a3, a4⟩
  rcases h2.2.2.2 j with ⟨b1, b2, b3, b4⟩
  exact ⟨b1.trans a1, b2.trans a2, b3.trans a3, b4.trans a4⟩

theorem LinkPres.modif (t : SkipList) (i : ℕ) (f : Element → Element)
    (hf : ∀ e, (f e).name = e.name ∧ (f e).score = e.score ∧
      (f e).next.length = e.next.length ∧ (f e).span.length = e.span.length) :
    LinkPres t (t.modifyAt i f) := by
  refine ⟨SkipList.length_modifyAt t i f, rfl, rfl, fun j => ?_⟩
  rw [SkipList.get_modifyAt]
  by_cases h : j = i ∧ j < t.arena.length
  · rw [if_pos h]
    exact hf _
  · rw [if_neg h]
    exact ⟨rfl, rfl, rfl, rfl⟩

theorem LinkPres.setNext (t : SkipList) (i L : ℕ) (v : Option ℕ) :
    LinkPres t (t.setNext i L v) :=
  LinkPres.modif t i _ (fun e => ⟨rfl, rfl, by simp, rfl⟩)

theorem LinkPres.setSpan (t : SkipList) (i L : ℕ) (v : ℤ) :
    LinkPres t (t.setSpan i L v) :=
  LinkPres.modif t i _ (fun e => ⟨rfl, rfl, rfl, by simp⟩)

theorem LinkPres.setPrev (t : SkipList) (i : ℕ) (v : Option ℕ) :
    LinkPres t (t.setPrev i v) :=
  LinkPres.modif t i _ (fun e => ⟨rfl, rfl, rfl, rfl⟩)

/-- Field widths of an in-arena node of a modelled state. -/
theorem get_widths {S : List ℤ} {t : SkipList} {rows : List Row}
    (M : Models S t rows) {j : ℕ} (h : j < t.arena.length) :
    (t.get j).next.length = MaxLevel ∧ (t.get j).span.length = MaxLevel := by
  have hmem : t.get j ∈ t.arena := by
    show t.arena.getD j defaultElement ∈ t.arena
    rw [List.getD_eq_getElem _ _ h]
    exact List.getElem_mem _
  exact M.harena _ hmem

end SkipListGo

namespace SkipListGo

/-- Identifier bounds for the stop point of a walk. -/
theorem lastLessE_bounds {S : List ℤ} {told : SkipList} {rows : List Row}
    (M : Models S told rows) (l : ℕ) (k : ℤ × String) :
    (lastLessE rows l k).1 < told.arena.length ∧ (lastLessE rows l k).1 ≠ 1 := by
  rcases lastOf_mem_or ((lessRows rows l k).map eOf) ((0 : ℕ), (0 : ℤ)) with hm | hd
  · rcases List.mem_map.mp hm with ⟨x, hx, hxe⟩
    have hid := M.hid x.1 (mem_lessRows hx).1
    have h1 : (lastLessE rows l k).1 = x.1.id := by
      show (lastOf ((lessRows rows l k).map eOf) ((0 : ℕ), (0 : ℤ))).1 = x.1.id
      rw [← hxe]
      rfl
    rw [h1]
    exact ⟨hid.2, by omega⟩
  · have h1 : lastLessE rows l k = ((0 : ℕ), (0 : ℤ)) := hd
    rw [h1]
    exact ⟨Nat.lt_of_lt_of_le (by decide) M.hlen, by decide⟩

/-- Pointwise effects of the level-`L` splice of `Insert` (source lines
216–224). -/
theorem insertLevelStep_spec (t : SkipList) (nid h L : ℕ) (c1 : ℕ)
    (hL : L < MaxLevel) (hc1 : c1 < t.arena.length) (hnid : nid < t.arena.length)
    (hcne : c1 ≠ nid)
    (hwc : (t.get c1).next.length = MaxLevel)
    (hwn : (t.get nid).next.length = MaxLevel)
    (hmne : L = 0 → ∀ m, t.nextOf c1 0 = some m → m ≠ nid ∧ m ≠ c1)
    (hmlt : L = 0 → ∀ m, t.nextOf c1 0 = some m → m < t.arena.length) :
    LinkPres t (insertLevelStep nid h L t c1) ∧
    (∀ j l', (insertLevelStep nid h L t c1).spanOf j l' = t.spanOf j l') ∧
    (L ≤ h → (insertLevelStep nid h L t c1).nextOf c1 L = some nid ∧
      (insertLevelStep nid h L t c1).nextOf nid L = t.nextOf c1 L) ∧
    (∀ j l', ¬(L ≤ h) ∨ l' ≠ L ∨ (j ≠ c1 ∧ j ≠ nid) →
      (insertLevelStep nid h L t c1).nextOf j l' = t.nextOf j l') ∧
    (L ≤ h → L = 0 → (insertLevelStep nid h L t c1).prevOf nid = some c1 ∧
      (∀ m, t.nextOf c1 0 = some m →
        (insertLevelStep nid h L t c1).prevOf m = some nid)) ∧
    (∀ j, j ≠ nid → (∀ m, t.nextOf c1 0 = some m → j ≠ m) →
      (insertLevelStep nid h L t c1).prevOf j = t.prevOf j) ∧
    (¬(L ≤ h) ∨ L ≠ 0 → ∀ j, (insertLevelStep nid h L t c1).prevOf j = t.prevOf j) := by
  by_cases hLh : L ≤ h
  · simp only [insertLevelStep, if_pos hLh]
    by_cases hL0 : L = 0
    · subst hL0
      rw [if_pos rfl]
      have hmne' := hmne rfl
      have hmlt' := hmlt rfl
      rcases hnx : t.nextOf c1 0 with _ | m
      · have P1 := LinkPres.setNext t nid 0 (none : Option ℕ)
        have P2 := LinkPres.setNext (t.setNext nid 0 none) c1 0 (some nid)
        have P3 := LinkPres.setPrev
          ((t.setNext nid 0 none).setNext c1 0 (some nid)) nid (some c1)
        have hP := (P1.chain P2).chain P3
        refine ⟨hP, ?_, ?_, ?_, ?_, ?_, ?_⟩
        · intro j l'
          rw [spanOf_setPrev, spanOf_setNext, spanOf_setNext]
        · intro _
          constructor
          · rw [nextOf_setPrev,
              nextOf_setNext_self _ c1 0 (some nid)
                (by rw [P1.1]; exact hc1)
                (by rw [(P1.2.2.2 c1).2.2.1, hwc]; decide)]
          · rw [nextOf_setPrev,
              nextOf_setNext_other _ c1 0 (some nid) nid 0
                (Or.inl (fun hc => hcne hc.symm)),
              nextOf_setNext_self t nid 0 _ hnid (by rw [hwn]; decide)]
        · intro j l' hd
          rcases hd with hc | hd
          · exact absurd hLh hc
          rcases hd with hl | hjj
          · rw [nextOf_setPrev, nextOf_setNext_other _ _ _ _ _ _ (Or.inr hl),
              nextOf_setNext_other _ _ _ _ _ _ (Or.inr hl)]
          · rw [nextOf_setPrev, nextOf_setNext_other _ _ _ _ _ _ (Or.inl hjj.1),
              nextOf_setNext_other _ _ _ _ _ _ (Or.inl hjj.2)]
        · intro _ _
          constructor
          · rw [prevOf_setPrev_self _ nid (some c1)
              (by rw [P2.1, P1.1]; exact hnid)]
          · intro m hm
            exact absurd hm (by simp)
        · intro j hjn _
          rw [prevOf_setPrev_other _ _ _ _ hjn, prevOf_setNext, prevOf_setNext]
        · intro hd
          rcases hd with hc | hc
          · exact absurd hLh hc
          · exact absurd rfl hc
      · have P1 := LinkPres.setNext t nid 0 (some m)
        have P2 := LinkPres.setNext (t.setNext nid 0 (some m)) c1 0 (some nid)
        rcases hmne' m hnx with ⟨hmn, hmc⟩
        have P3 := LinkPres.setPrev
          ((t.setNext nid 0 (some m)).setNext c1 0 (some nid)) nid (some c1)
        have P4 := LinkPres.setPrev
          (((t.setNext nid 0 (some m)).setNext c1 0 (some nid)).setPrev nid
            (some c1)) m (some nid)
        have hP := ((P1.chain P2).chain P3).chain P4
        refine ⟨hP, ?_, ?_, ?_, ?_, ?_, ?_⟩
        · intro j l'
          rw [spanOf_setPrev, spanOf_setPrev, spanOf_setNext, spanOf_setNext]
        · intro _
          constructor
          · rw [nextOf_setPrev, nextOf_setPrev,
              nextOf_setNext_self _ c1 0 (some nid)
                (by rw [P1.1]; exact hc1)
                (by rw [(P1.2.2.2 c1).2.2.1, hwc]; decide)]
          · rw [nextOf_setPrev, nextOf_setPrev,
              nextOf_setNext_other _ c1 0 (some nid) nid 0
                (Or.inl (fun hc => hcne hc.symm)),
              nextOf_setNext_self t nid 0 _ hnid (by rw [hwn]; decide)]
        · intro j l' hd
          rcases hd with hc | hd
          · exact absurd hLh hc
          rcases hd with hl | hjj
          · rw [nextOf_setPrev, nextOf_setPrev,
              nextOf_setNext_other _ _ _ _ _ _ (Or.inr hl),
              nextOf_setNext_other _ _ _ _ _ _ (Or.inr hl)]
          · rw [nextOf_setPrev, nextOf_setPrev,
              nextOf_setNext_other _ _ _ _ _ _ (Or.inl hjj.1),
              nextOf_setNext_other _ _ _ _ _ _ (Or.inl hjj.2)]
        · intro _ _
          constructor
          · rw [prevOf_setPrev_other _ _ _ _ (fun hc => hmn hc.symm),
              prevOf_setPrev_self _ nid (some c1)
                (by rw [P2.1, P1.1]; exact hnid)]
          · intro m' hm'
            have hmm : m' = m := (Option.some.inj hm').symm
            subst hmm
            rw [prevOf_setPrev_self _ m' (some nid)
              (by rw [P3.1, P2.1, P1.1]; exact hmlt' m' hnx)]
        · intro j hjn hjm
          rw [prevOf_setPrev_other _ _ _ _ (hjm m rfl),
            prevOf_setPrev_other _ _ _ _ hjn, prevOf_setNext, prevOf_setNext]
        · intro hd
          rcases hd with hc | hc
          · exact absurd hLh hc
          · exact absurd rfl hc
    · rw [if_neg hL0]
      have P1 := LinkPres.setNext t nid L (t.nextOf c1 L)
      have P2 := LinkPres.setNext (t.setNext nid L (t.nextOf c1 L)) c1 L (some nid)
      have hP := P1.chain P2
      refine ⟨hP, ?_, ?_, ?_, fun _ hc0 => absurd hc0 hL0, ?_, ?_⟩
      · intro j l'
        rw [spanOf_setNext, spanOf_setNext]
      · intro _
        constructor
        · rw [nextOf_setNext_self _ c1 L (some nid)
            (by rw [P1.1]; exact hc1)
            (by rw [(P1.2.2.2 c1).2.2.1, hwc]; exact hL)]
        · rw [nextOf_setNext_other _ c1 L (some nid) nid L
            (Or.inl (fun hc => hcne hc.symm)),
            nextOf_setNext_self t nid L _ hnid (by rw [hwn]; exact hL)]
      · intro j l' hd
        rcases hd with hc | hd
        · exact absurd hLh hc
        rcases hd with hl | hjj
        · rw [nextOf_setNext_other _ _ _ _ _ _ (Or.inr hl),
            nextOf_setNext_other _ _ _ _ _ _ (Or.inr hl)]
        · rw [nextOf_setNext_other _ _ _ _ _ _ (Or.inl hjj.1),
            nextOf_setNext_other _ _ _ _ _ _ (Or.inl hjj.2)]
      · intro j _ _
        rw [prevOf_setNext, prevOf_setNext]
      · intro _ j
        rw [prevOf_setNext, prevOf_setNext]
  · simp only [insertLevelStep, if_neg hLh]
    refine ⟨LinkPres.same t, fun _ _ => trivial, fun hc => absurd hc hLh,
      fun _ _ _ => trivial, fun hc => absurd hc hLh, fun _ _ _ => trivial,
      fun _ _ => trivial⟩

end SkipListGo

namespace SkipListGo

/-- Entries of the annotation are identified by their ids. -/
theorem annot_id_inj {rows : List Row} (hnodup : (rows.map Row.id).Nodup) :
    ∀ x ∈ annotAll rows 1, ∀ y ∈ annotAll rows 1, x.1.id = y.1.id → x = y := by
  apply List.inj_on_of_nodup_map
  have hmap : (annotAll rows 1).map (fun e : Row × ℤ => e.1.id) =
      rows.map Row.id := by
    have h1 : (annotAll rows 1).map (fun e : Row × ℤ => e.1.id) =
        ((annotAll rows 1).map Prod.fst).map Row.id := by
      rw [List.map_map]
      rfl
    rw [h1, annotAll_map_fst]
  rw [hmap]
  exact hnodup

/-- The walk's stop successor is a distinct in-arena node. -/
theorem stop_succ {S : List ℤ} {told : SkipList} {rows : List Row}
    (M : Models S told rows) (L : ℕ) (hL : L < MaxLevel) (k : ℤ × String)
    {m : ℕ} (hm : told.nextOf (lastLessE rows L k).1 L = some m) :
    m < told.arena.length ∧ m ≠ (lastLessE rows L k).1 := by
  rcases hG : geRows rows L k with _ | ⟨g, gs⟩
  · have h1 := (stop_link M L hL k).2 hG
    rw [h1] at hm
    have hm1 : m = 1 := (Option.some.inj hm).symm
    subst hm1
    exact ⟨Nat.lt_of_lt_of_le (by decide) M.hlen,
      fun hc => (lastLessE_bounds M L k).2 hc.symm⟩
  · have h1 := ((stop_link M L hL k).1 g gs hG).1
    rw [h1] at hm
    have hmg : m = g.1.id := (Option.some.inj hm).symm
    subst hmg
    have hgmem : g ∈ geRows rows L k := by
      rw [hG]
      exact List.mem_cons_self g gs
    have hgrow := (mem_geRows hgmem).1
    have hid := M.hid g.1 hgrow
    refine ⟨hid.2, ?_⟩
    rcases lastOf_mem_or ((lessRows rows L k).map eOf) ((0 : ℕ), (0 : ℤ)) with hmm | hd
    · rcases List.mem_map.mp hmm with ⟨x, hx, hxe⟩
      have h2 : (lastLessE rows L k).1 = x.1.id := by
        show (lastOf ((lessRows rows L k).map eOf) ((0 : ℕ), (0 : ℤ))).1 = x.1.id
        rw [← hxe]
        rfl
      rw [h2]
      intro hc
      have hxg : x = g :=
        annot_id_inj M.hidnodup x (List.mem_filter.mp hx).1 g
          (mem_annot_of_geRows hgmem) hc.symm
      rcases mem_lessRows hx with ⟨-, hlt⟩
      rcases mem_geRows hgmem with ⟨-, hnlt⟩
      rw [hxg] at hlt
      exact hnlt hlt
    · have h2 : lastLessE rows L k = ((0 : ℕ), (0 : ℤ)) := hd
      rw [h2]
      intro hc
      omega

end SkipListGo

namespace SkipListGo

/-- Full characterization of the `Insert` descent loop (source lines
210–238) run from the level-`L+1` stop point: it splices the new node after
the per-level stop points on the levels up to the drawn level, records the
stop points with their base positions in `prevs`, changes no spans, and
leaves every other link alone. -/
theorem insertLevels_spec {S : List ℤ} {told : SkipList} {rows : List Row}
    (M : Models S told rows) (q : ℤ) (nm : String)
    (hsep : ∀ r ∈ rows, sepScore r.score q)
    (nid h : ℕ) (hnid : nid = told.arena.length) :
    ∀ L : ℕ, L < MaxLevel →
    ∀ (t : SkipList) (prevs : List (Option ℕ × ℤ)),
      t.arena.length = told.arena.length + 1 →
      (∀ l, l ≤ L → ∀ j, j < told.arena.length → t.nextOf j l = told.nextOf j l) →
      (∀ j l', j < told.arena.length → t.spanOf j l' = told.spanOf j l') →
      (∀ j, j < told.arena.length →
        (t.get j).name = (told.get j).name ∧ (t.get j).score = (told.get j).score) →
      (∀ j, (t.get j).next.length = MaxLevel ∧ (t.get j).span.length = MaxLevel) →
      prevs.length = MaxLevel →
      LinkPres t (insertLevels (.fin q) nm nid h ((List.range (L + 1)).reverse) t
          (lastLessE rows (L + 1) (q, nm)).1 (lastLessE rows (L + 1) (q, nm)).2
          prevs).1 ∧
      (∀ j l', (insertLevels (.fin q) nm nid h ((List.range (L + 1)).reverse) t
          (lastLessE rows (L + 1) (q, nm)).1 (lastLessE rows (L + 1) (q, nm)).2
          prevs).1.spanOf j l' = t.spanOf j l') ∧
      (∀ l, l ≤ L → l ≤ h →
        (insertLevels (.fin q) nm nid h ((List.range (L + 1)).reverse) t
          (lastLessE rows (L + 1) (q, nm)).1 (lastLessE rows (L + 1) (q, nm)).2
          prevs).1.nextOf (lastLessE rows l (q, nm)).1 l = some nid ∧
        (insertLevels (.fin q) nm nid h ((List.range (L + 1)).reverse) t
          (lastLessE rows (L + 1) (q, nm)).1 (lastLessE rows (L + 1) (q, nm)).2
          prevs).1.nextOf nid l = told.nextOf (lastLessE rows l (q, nm)).1 l) ∧
      (∀ l j, (l ≤ L → l ≤ h → j ≠ nid ∧ j ≠ (lastLessE rows l (q, nm)).1) →
        (insertLevels (.fin q) nm nid h ((List.range (L + 1)).reverse) t
          (lastLessE rows (L + 1) (q, nm)).1 (lastLessE rows (L + 1) (q, nm)).2
          prevs).1.nextOf j l = t.nextOf j l) ∧
      ((insertLevels (.fin q) nm nid h ((List.range (L + 1)).reverse) t
          (lastLessE rows (L + 1) (q, nm)).1 (lastLessE rows (L + 1) (q, nm)).2
          prevs).1.prevOf nid = some (lastLessE rows 0 (q, nm)).1) ∧
      (∀ m, told.nextOf (lastLessE rows 0 (q, nm)).1 0 = some m →
        (insertLevels (.fin q) nm nid h ((List.range (L + 1)).reverse) t
          (lastLessE rows (L + 1) (q, nm)).1 (lastLessE rows (L + 1) (q, nm)).2
          prevs).1.prevOf m = some nid) ∧
      (∀ j, j ≠ nid →
        (∀ m, told.nextOf (lastLessE rows 0 (q, nm)).1 0 = some m → j ≠ m) →
        (insertLevels (.fin q) nm nid h ((List.range (L + 1)).reverse) t
          (lastLessE rows (L + 1) (q, nm)).1 (lastLessE rows (L + 1) (q, nm)).2
          prevs).1.prevOf j = t.prevOf j) ∧
      (∀ l, l ≤ L →
        (insertLevels (.fin q) nm nid h ((List.range (L + 1)).reverse) t
          (lastLessE rows (L + 1) (q, nm)).1 (lastLessE rows (L + 1) (q, nm)).2
          prevs).2.getD l (none, 0) =
          (some (lastLessE rows l (q, nm)).1, (lastLessE rows l (q, nm)).2)) ∧
      (∀ l, L < l →
        (insertLevels (.fin q) nm nid h ((List.range (L + 1)).reverse) t
          (lastLessE rows (L + 1) (q, nm)).1 (lastLessE rows (L + 1) (q, nm)).2
          prevs).2.getD l (none, 0) = prevs.getD l (none, 0)) ∧
      (insertLevels (.fin q) nm nid h ((List.range (L + 1)).reverse) t
          (lastLessE rows (L + 1) (q, nm)).1 (lastLessE rows (L + 1) (q, nm)).2
          prevs).2.length = prevs.length := by
  intro L
  induction L with
  | zero =>
    intro h0 t prevs hlen' hag hsp hns hwid hplen
    rw [range_reverse_succ 0]
    have hadv := advance_at_level M t 0 h0 q nm
      (fun j hj => hag 0 (le_refl 0) j hj) (fun j hj => hsp j 0 hj)
      (fun j hj => hns j hj) hsep t.arena.length
      (by have := M.hcard; omega) (lastLessE rows (0 + 1) (q, nm)).2
    have hadv2 : advanceLess t 0 (.fin q) nm t.arena.length
        (lastLessE rows (0 + 1) (q, nm)).1 (lastLessE rows (0 + 1) (q, nm)).2 =
        ((lastLessE rows 0 (q, nm)).1, (lastLessE rows 0 (q, nm)).2) := by
      rw [hadv]
      simp only [Prod.mk.injEq]
      exact ⟨trivial, by omega⟩
    simp only [insertLevels]
    rw [hadv2]
    have hc1lt : (lastLessE rows 0 (q, nm)).1 < told.arena.length :=
      (lastLessE_bounds M 0 (q, nm)).1
    have hstep := insertLevelStep_spec t nid h 0 (lastLessE rows 0 (q, nm)).1
      h0 (by omega) (by omega) (by omega)
      (hwid (lastLessE rows 0 (q, nm)).1).1 (hwid nid).1
      (fun _ m hm => by
        rw [hag 0 (le_refl 0) _ hc1lt] at hm
        rcases stop_succ M 0 h0 (q, nm) hm with ⟨hlt, hne⟩
        exact ⟨by omega, hne⟩)
      (fun _ m hm => by
        rw [hag 0 (le_refl 0) _ hc1lt] at hm
        rcases stop_succ M 0 h0 (q, nm) hm with ⟨hlt, -⟩
        omega)
    rcases hstep with ⟨hP, hsp2, hnx2, hfr2, hpv2, hpfr2, -⟩
    refine ⟨hP, hsp2, ?_, ?_, ?_, ?_, ?_, ?_, ?_, ?_⟩
    · intro l hl hlh
      have hl0 : l = 0 := by omega
      subst hl0
      rcases hnx2 (by omega) with ⟨ha, hb⟩
      exact ⟨ha, by rw [hb, hag 0 (le_refl 0) _ hc1lt]⟩
    · intro l j hcond
      by_cases hl0 : l = 0
      · subst hl0
        by_cases hlh : 0 ≤ h
        · rcases hcond (le_refl 0) hlh with ⟨hj1, hj2⟩
          exact hfr2 j 0 (Or.inr (Or.inr ⟨hj2, hj1⟩))
        · omega
      · exact hfr2 j l (Or.inr (Or.inl hl0))
    · exact (hpv2 (by omega) rfl).1
    · intro m hm
      refine (hpv2 (by omega) rfl).2 m ?_
      rw [hag 0 (le_refl 0) _ hc1lt]
      exact hm
    · intro j hjn hjm
      refine hpfr2 j hjn ?_
      intro m hm
      refine hjm m ?_
      rw [← hag 0 (le_refl 0) _ hc1lt]
      exact hm
    · intro l hl
      have hl0 : l = 0 := by omega
      subst hl0
      exact getD_set_self _ _ _ _ (by rw [hplen]; decide)
    · intro l hl
      exact getD_set_other _ _ _ _ _ (by omega)
    · rw [List.length_set]
  | succ L ih =>
    intro hL t prevs hlen' hag hsp hns hwid hplen
    rw [range_reverse_succ (L + 1)]
    have hadv := advance_at_level M t (L + 1) hL q nm
      (fun j hj => hag (L + 1) (le_refl _) j hj) (fun j hj => hsp j (L + 1) hj)
      (fun j hj => hns j hj) hsep t.arena.length
      (by have := M.hcard; omega) (lastLessE rows (L + 1 + 1) (q, nm)).2
    have hadv2 : advanceLess t (L + 1) (.fin q) nm t.arena.length
        (lastLessE rows (L + 1 + 1) (q, nm)).1
        (lastLessE rows (L + 1 + 1) (q, nm)).2 =
        ((lastLessE rows (L + 1) (q, nm)).1, (lastLessE rows (L + 1) (q, nm)).2) := by
      rw [hadv]
      simp only [Prod.mk.injEq]
      exact ⟨trivial, by omega⟩
    simp only [insertLevels]
    rw [hadv2]
    have hc1lt : (lastLessE rows (L + 1) (q, nm)).1 < told.arena.length :=
      (lastLessE_bounds M (L + 1) (q, nm)).1
    have hstep := insertLevelStep_spec t nid h (L + 1)
      (lastLessE rows (L + 1) (q, nm)).1 hL (by omega) (by omega) (by omega)
      (hwid (lastLessE rows (L + 1) (q, nm)).1).1 (hwid nid).1
      (fun hc _ _ => absurd hc (by omega)) (fun hc _ _ => absurd hc (by omega))
    rcases hstep with ⟨hP, hsp2, hnx2, hfr2, -, -, hpall2⟩
    have hpall2' := hpall2 (Or.inr (by omega))
    have hrec := ih (by omega)
      (insertLevelStep nid h (L + 1) t (lastLessE rows (L + 1) (q, nm)).1)
      (prevs.set (L + 1)
        (some (lastLessE rows (L + 1) (q, nm)).1, (lastLessE rows (L + 1) (q, nm)).2))
      (by rw [hP.1, hlen'])
      (fun l hl j hj => by
        rw [hfr2 j l (Or.inr (Or.inl (by omega)))]
        exact hag l (by omega) j hj)
      (fun j l' hj => by rw [hsp2 j l']; exact hsp j l' hj)
      (fun j hj => by
        rcases hP.2.2.2 j with ⟨h1, h2, -, -⟩
        rw [h1, h2]
        exact hns j hj)
      (fun j => by
        rcases hP.2.2.2 j with ⟨-, -, h3, h4⟩
        rw [h3, h4]
        exact hwid j)
      (by rw [List.length_set]; exact hplen)
    rcases hrec with ⟨rP, rsp, rnx, rfr, rpv, rpm, rpfr, rgd, rgo, rlen⟩
    refine ⟨hP.chain rP, ?_, ?_, ?_, rpv, rpm, ?_, ?_, ?_, ?_⟩
    · intro j l'
      rw [rsp j l', hsp2 j l']
    · intro l hl hlh
      by_cases hlL : l ≤ L
      · exact rnx l hlL hlh
      · have hlq : l = L + 1 := by omega
        rw [hlq] at hlh ⊢
        constructor
        · rw [rfr (L + 1) (lastLessE rows (L + 1) (q, nm)).1
            (fun hc _ => absurd hc (by omega))]
          exact (hnx2 hlh).1
        · rw [rfr (L + 1) nid (fun hc _ => absurd hc (by omega))]
          rw [(hnx2 hlh).2]
          exact hag (L + 1) (le_refl _) _ hc1lt
    · intro l j hcond
      by_cases hlL : l ≤ L
      · by_cases hlh : l ≤ h
        · rcases hcond (by omega) hlh with ⟨hj1, hj2⟩
          rw [rfr l j (fun _ _ => ⟨hj1, hj2⟩)]
          exact hfr2 j l (Or.inr (Or.inl (by omega)))
        · rw [rfr l j (fun _ hc => absurd hc hlh)]
          exact hfr2 j l (Or.inr (Or.inl (by omega)))
      · rw [rfr l j (fun hc _ => absurd hc hlL)]
        by_cases hlq : l = L + 1
        · rw [hlq] at hcond ⊢
          by_cases hlh : L + 1 ≤ h
          · rcases hcond (le_refl _) hlh with ⟨hj1, hj2⟩
            exact hfr2 j (L + 1) (Or.inr (Or.inr ⟨hj2, hj1⟩))
          · exact hfr2 j (L + 1) (Or.inl hlh)
        · exact hfr2 j l (Or.inr (Or.inl hlq))
    · intro j hjn hjm
      rw [rpfr j hjn hjm]
      exact hpall2' j
    · intro l hl
      by_cases hlL : l ≤ L
      · exact rgd l hlL
      · have hlq : l = L + 1 := by omega
        rw [hlq]
        rw [rgo (L + 1) (by omega)]
        exact getD_set_self _ _ _ _ (by rw [hplen]; exact hL)
    · intro l hl
      rw [rgo l (by omega)]
      exact getD_set_other _ _ _ _ _ (by omega)
    · rw [rlen, List.length_set]

end SkipListGo

namespace SkipListGo

/-- Effects of the span recomputation loop for the levels the new node
occupies (source lines 249–255). -/
theorem spanFixNew_foldl (prevs : List (Option ℕ × ℤ)) (nid : ℕ) (elemRank : ℤ) :
    ∀ (l : List ℕ) (t : SkipList), l.Nodup →
      (∀ j, (t.get j).span.length = MaxLevel) →
      nid < t.arena.length →
      (∀ i ∈ l, ∀ pid, (prevs.getD i (none, 0)).1 = some pid →
        pid < t.arena.length ∧ pid ≠ nid) →
      (∀ i ∈ l, i < MaxLevel) →
      LinkPres t (l.foldl (spanFixNew prevs nid elemRank) t) ∧
      (∀ j l', (l.foldl (spanFixNew prevs nid elemRank) t).nextOf j l' =
        t.nextOf j l') ∧
      (∀ j, (l.foldl (spanFixNew prevs nid elemRank) t).prevOf j = t.prevOf j) ∧
      (∀ j l', l' ∉ l →
        (l.foldl (spanFixNew prevs nid elemRank) t).spanOf j l' = t.spanOf j l') ∧
      (∀ i ∈ l, ∀ pid, (prevs.getD i (none, 0)).1 = some pid →
        (l.foldl (spanFixNew prevs nid elemRank) t).spanOf nid i =
          (prevs.getD i (none, 0)).2 + t.spanOf pid i - elemRank + 1 ∧
        (l.foldl (spanFixNew prevs nid elemRank) t).spanOf pid i =
          elemRank - (prevs.getD i (none, 0)).2) ∧
      (∀ i ∈ l, ∀ j, ((prevs.getD i (none, 0)).1 = none ∨
          (j ≠ nid ∧ (prevs.getD i (none, 0)).1 ≠ some j)) →
        (l.foldl (spanFixNew prevs nid elemRank) t).spanOf j i = t.spanOf j i) := by
  intro l
  induction l with
  | nil =>
    intro t _ _ _ _ _
    exact ⟨LinkPres.same t, fun _ _ => rfl, fun _ => rfl, fun _ _ _ => rfl,
      fun i hi => absurd hi (List.not_mem_nil i),
      fun i hi => absurd hi (List.not_mem_nil i)⟩
  | cons a l' ih =>
    intro t hnd hwid hnid hpid hlev
    rcases List.nodup_cons.mp hnd with ⟨hna, hnd'⟩
    have hstep : LinkPres t (spanFixNew prevs nid elemRank t a) ∧
        (∀ j l', (spanFixNew prevs nid elemRank t a).nextOf j l' = t.nextOf j l') ∧
        (∀ j, (spanFixNew prevs nid elemRank t a).prevOf j = t.prevOf j) ∧
        (∀ j l', l' ≠ a →
          (spanFixNew prevs nid elemRank t a).spanOf j l' = t.spanOf j l') ∧
        (∀ pid, (prevs.getD a (none, 0)).1 = some pid →
          (spanFixNew prevs nid elemRank t a).spanOf nid a =
            (prevs.getD a (none, 0)).2 + t.spanOf pid a - elemRank + 1 ∧
          (spanFixNew prevs nid elemRank t a).spanOf pid a =
            elemRank - (prevs.getD a (none, 0)).2) ∧
        (∀ j, ((prevs.getD a (none, 0)).1 = none ∨
            (j ≠ nid ∧ (prevs.getD a (none, 0)).1 ≠ some j)) →
          (spanFixNew prevs nid elemRank t a).spanOf j a = t.spanOf j a) := by
      rcases hpv : (prevs.getD a (none, 0)).1 with _ | pid
      · simp only [spanFixNew, hpv]
        exact ⟨LinkPres.same t, fun _ _ => trivial, fun _ => trivial,
          fun _ _ _ => trivial,
          fun pid hc => absurd hc (by simp),
          fun j _ => trivial⟩
      · rcases hpid a (List.mem_cons_self a l') pid hpv with ⟨hplt, hpne⟩
        have haM : a < MaxLevel := hlev a (List.mem_cons_self a l')
        simp only [spanFixNew, hpv]
        have P1 := LinkPres.setSpan t nid a
          ((prevs.getD a (none, 0)).2 + t.spanOf pid a - elemRank + 1)
        have P2 := LinkPres.setSpan
          (t.setSpan nid a ((prevs.getD a (none, 0)).2 + t.spanOf pid a - elemRank + 1))
          pid a (elemRank - (prevs.getD a (none, 0)).2)
        refine ⟨P1.chain P2, ?_, ?_, ?_, ?_, ?_⟩
        · intro j l'
          rw [nextOf_setSpan, nextOf_setSpan]
        · intro j
          rw [prevOf_setSpan, prevOf_setSpan]
        · intro j l' hl'
          rw [spanOf_setSpan_other _ _ _ _ _ _ (Or.inr hl'),
            spanOf_setSpan_other _ _ _ _ _ _ (Or.inr hl')]
        · intro pid' hpv'
          have hpp : pid' = pid := (Option.some.inj hpv').symm
          subst hpp
          constructor
          · rw [spanOf_setSpan_other _ _ _ _ _ _ (Or.inl (fun hc => hpne hc.symm)),
              spanOf_setSpan_self t nid a _ hnid (by rw [hwid nid]; exact haM)]
          · rw [spanOf_setSpan_self _ pid' a _ (by rw [P1.1]; exact hplt)
              (by rw [(P1.2.2.2 pid').2.2.2, hwid pid']; exact haM)]
        · intro j hj
          rcases hj with hj | hjj
          · exact absurd hj (by simp)
          · have hj3 : j ≠ pid := fun hc => hjj.2 (by rw [hc])
            rw [spanOf_setSpan_other _ _ _ _ _ _ (Or.inl hj3),
              spanOf_setSpan_other _ _ _ _ _ _ (Or.inl hjj.1)]
    rcases hstep with ⟨sP, snx, spv, sfr, sset, soth⟩
    have hrec := ih (spanFixNew prevs nid elemRank t a) hnd'
      (fun j => by rw [(sP.2.2.2 j).2.2.2]; exact hwid j)
      (by rw [sP.1]; exact hnid)
      (fun i hi pid hpv => by
        rw [sP.1]
        exact hpid i (List.mem_cons_of_mem a hi) pid hpv)
      (fun i hi => hlev i (List.mem_cons_of_mem a hi))
    rcases hrec with ⟨rP, rnx, rpv, rfr, rset, roth⟩
    have hfold : (a :: l').foldl (spanFixNew prevs nid elemRank) t =
        l'.foldl (spanFixNew prevs nid elemRank) (spanFixNew prevs nid elemRank t a) :=
      rfl
    rw [hfold]
    refine ⟨sP.chain rP, ?_, ?_, ?_, ?_, ?_⟩
    · intro j l'
      rw [rnx j l', snx j l']
    · intro j
      rw [rpv j, spv j]
    · intro j l' hl'
      rw [rfr j l' (fun hc => hl' (List.mem_cons_of_mem a hc)),
        sfr j l' (fun hc => hl' (hc ▸ List.mem_cons_self a _))]
    · intro i hi pid hpv
      rcases List.mem_cons.mp hi with rfl | hi'
      · rcases sset pid hpv with ⟨s1, s2⟩
        constructor
        · rw [rfr nid i (fun hc => hna hc), s1]
        · rw [rfr pid i (fun hc => hna hc), s2]
      · rcases rset i hi' pid hpv with ⟨r1, r2⟩
        refine ⟨?_, r2⟩
        rw [r1, sfr pid i (fun hc => hna (hc ▸ hi'))]
    · intro i hi j hj
      rcases List.mem_cons.mp hi with rfl | hi'
      · rw [rfr j i (fun hc => hna hc)]
        exact soth j hj
      · rw [roth i hi' j hj]
        exact sfr j i (fun hc => hna (hc ▸ hi'))

end SkipListGo

namespace SkipListGo

/-- Effects of the span bump loop for the levels above the new node
(source lines 258–260). -/
theorem spanFixAbove_foldl (prevs : List (Option ℕ × ℤ)) :
    ∀ (l : List ℕ) (t : SkipList), l.Nodup →
      (∀ j, (t.get j).span.length = MaxLevel) →
      (∀ i ∈ l, ∀ pid, (prevs.getD i (none, 0)).1 = some pid →
        pid < t.arena.length) →
      (∀ i ∈ l, i < MaxLevel) →
      LinkPres t (l.foldl (spanFixAbove prevs) t) ∧
      (∀ j l', (l.foldl (spanFixAbove prevs) t).nextOf j l' = t.nextOf j l') ∧
      (∀ j, (l.foldl (spanFixAbove prevs) t).prevOf j = t.prevOf j) ∧
      (∀ j l', l' ∉ l →
        (l.foldl (spanFixAbove prevs) t).spanOf j l' = t.spanOf j l') ∧
      (∀ i ∈ l, ∀ pid, (prevs.getD i (none, 0)).1 = some pid →
        (l.foldl (spanFixAbove prevs) t).spanOf pid i = t.spanOf pid i + 1) ∧
      (∀ i ∈ l, ∀ j, ((prevs.getD i (none, 0)).1 = none ∨
          (prevs.getD i (none, 0)).1 ≠ some j) →
        (l.foldl (spanFixAbove prevs) t).spanOf j i = t.spanOf j i) := by
  intro l
  induction l with
  | nil =>
    intro t _ _ _ _
    exact ⟨LinkPres.same t, fun _ _ => rfl, fun _ => rfl, fun _ _ _ => rfl,
      fun i hi => absurd hi (List.not_mem_nil i),
      fun i hi => absurd hi (List.not_mem_nil i)⟩
  | cons a l' ih =>
    intro t hnd hwid hpid hlev
    rcases List.nodup_cons.mp hnd with ⟨hna, hnd'⟩
    have hstep : LinkPres t (spanFixAbove prevs t a) ∧
        (∀ j l', (spanFixAbove prevs t a).nextOf j l' = t.nextOf j l') ∧
        (∀ j, (spanFixAbove prevs t a).prevOf j = t.prevOf j) ∧
        (∀ j l', l' ≠ a → (spanFixAbove prevs t a).spanOf j l' = t.spanOf j l') ∧
        (∀ pid, (prevs.getD a (none, 0)).1 = some pid →
          (spanFixAbove prevs t a).spanOf pid a = t.spanOf pid a + 1) ∧
        (∀ j, ((prevs.getD a (none, 0)).1 = none ∨
            (prevs.getD a (none, 0)).1 ≠ some j) →
          (spanFixAbove prevs t a).spanOf j a = t.spanOf j a) := by
      rcases hpv : (prevs.getD a (none, 0)).1 with _ | pid
      · simp only [spanFixAbove, hpv]
        exact ⟨LinkPres.same t, fun _ _ => trivial, fun _ => trivial,
          fun _ _ _ => trivial,
          fun pid hc => absurd hc (by simp),
          fun j _ => trivial⟩
      · have hplt := hpid a (List.mem_cons_self a l') pid hpv
        have haM : a < MaxLevel := hlev a (List.mem_cons_self a l')
        simp only [spanFixAbove, hpv]
        have P1 := LinkPres.setSpan t pid a (t.spanOf pid a + 1)
        refine ⟨P1, ?_, ?_, ?_, ?_, ?_⟩
        · intro j l'
          rw [nextOf_setSpan]
        · intro j
          rw [prevOf_setSpan]
        · intro j l' hl'
          rw [spanOf_setSpan_other _ _ _ _ _ _ (Or.inr hl')]
        · intro pid' hpv'
          have hpp : pid' = pid := (Option.some.inj hpv').symm
          subst hpp
          rw [spanOf_setSpan_self t pid' a _ hplt (by rw [hwid pid']; exact haM)]
        · intro j hj
          rcases hj with hj | hj
          · exact absurd hj (by simp)
          · have hj3 : j ≠ pid := fun hc => hj (by rw [hc])
            rw [spanOf_setSpan_other _ _ _ _ _ _ (Or.inl hj3)]
    rcases hstep with ⟨sP, snx, spv, sfr, sset, soth⟩
    have hrec := ih (spanFixAbove prevs t a) hnd'
      (fun j => by rw [(sP.2.2.2 j).2.2.2]; exact hwid j)
      (fun i hi pid hpv => by
        rw [sP.1]
        exact hpid i (List.mem_cons_of_mem a hi) pid hpv)
      (fun i hi => hlev i (List.mem_cons_of_mem a hi))
    rcases hrec with ⟨rP, rnx, rpv, rfr, rset, roth⟩
    have hfold : (a :: l').foldl (spanFixAbove prevs) t =
        l'.foldl (spanFixAbove prevs) (spanFixAbove prevs t a) := rfl
    rw [hfold]
    refine ⟨sP.chain rP, ?_, ?_, ?_, ?_, ?_⟩
    · intro j l'
      rw [rnx j l', snx j l']
    · intro j
      rw [rpv j, spv j]
    · intro j l' hl'
      rw [rfr j l' (fun hc => hl' (List.mem_cons_of_mem a hc)),
        sfr j l' (fun hc => hl' (hc ▸ List.mem_cons_self a _))]
    · intro i hi pid hpv
      rcases List.mem_cons.mp hi with rfl | hi'
      · rw [rfr pid i (fun hc => hna hc)]
        exact sset pid hpv
      · rw [rset i hi' pid hpv, sfr pid i (fun hc => hna (hc ▸ hi'))]
    · intro i hi j hj
      rcases List.mem_cons.mp hi with rfl | hi'
      · rw [rfr j i (fun hc => hna hc)]
        exact soth j hj
      · rw [roth i hi' j hj]
        exact sfr j i (fun hc => hna (hc ▸ hi'))

/-- Effects of the head-span bump loop for the unused levels (source lines
263–265). -/
theorem spanIncHead_foldl :
    ∀ (l : List ℕ) (t : SkipList), l.Nodup →
      (∀ j, (t.get j).span.length = MaxLevel) →
      0 < t.arena.length →
      (∀ i ∈ l, i < MaxLevel) →
      LinkPres t (l.foldl spanIncHead t) ∧
      (∀ j l', (l.foldl spanIncHead t).nextOf j l' = t.nextOf j l') ∧
      (∀ j, (l.foldl spanIncHead t).prevOf j = t.prevOf j) ∧
      (∀ j l', l' ∉ l → (l.foldl spanIncHead t).spanOf j l' = t.spanOf j l') ∧
      (∀ i ∈ l, (l.foldl spanIncHead t).spanOf 0 i = t.spanOf 0 i + 1) ∧
      (∀ i ∈ l, ∀ j, j ≠ 0 → (l.foldl spanIncHead t).spanOf j i = t.spanOf j i) := by
  intro l
  induction l with
  | nil =>
    intro t _ _ _ _
    exact ⟨LinkPres.same t, fun _ _ => rfl, fun _ => rfl, fun _ _ _ => rfl,
      fun i hi => absurd hi (List.not_mem_nil i),
      fun i hi => absurd hi (List.not_mem_nil i)⟩
  | cons a l' ih =>
    intro t hnd hwid h0 hlev
    rcases List.nodup_cons.mp hnd with ⟨hna, hnd'⟩
    have haM : a < MaxLevel := hlev a (List.mem_cons_self a l')
    have P1 : LinkPres t (spanIncHead t a) :=
      LinkPres.setSpan t 0 a (t.spanOf 0 a + 1)
    have hfold : (a :: l').foldl spanIncHead t =
        l'.foldl spanIncHead (spanIncHead t a) := rfl
    have hsfr : ∀ j l', l' ≠ a → (spanIncHead t a).spanOf j l' = t.spanOf j l' := by
      intro j l' hl'
      show (t.setSpan 0 a _).spanOf j l' = t.spanOf j l'
      rw [spanOf_setSpan_other _ _ _ _ _ _ (Or.inr hl')]
    have hsset : (spanIncHead t a).spanOf 0 a = t.spanOf 0 a + 1 := by
      show (t.setSpan 0 a _).spanOf 0 a = t.spanOf 0 a + 1
      rw [spanOf_setSpan_self t 0 a _ h0 (by rw [hwid 0]; exact haM)]
    have hsoth : ∀ j, j ≠ 0 → (spanIncHead t a).spanOf j a = t.spanOf j a := by
      intro j hj
      show (t.setSpan 0 a _).spanOf j a = t.spanOf j a
      rw [spanOf_setSpan_other _ _ _ _ _ _ (Or.inl hj)]
    have hsnx : ∀ j l', (spanIncHead t a).nextOf j l' = t.nextOf j l' := by
      intro j l'
      show (t.setSpan 0 a _).nextOf j l' = t.nextOf j l'
      rw [nextOf_setSpan]
    have hspv : ∀ j, (spanIncHead t a).prevOf j = t.prevOf j := by
      intro j
      show (t.setSpan 0 a _).prevOf j = t.prevOf j
      rw [prevOf_setSpan]
    have hrec := ih (spanIncHead t a) hnd'
      (fun j => by rw [(P1.2.2.2 j).2.2.2]; exact hwid j)
      (by rw [P1.1]; exact h0)
      (fun i hi => hlev i (List.mem_cons_of_mem a hi))
    rcases hrec with ⟨rP, rnx, rpv, rfr, rset, roth⟩
    rw [hfold]
    refine ⟨P1.chain rP, ?_, ?_, ?_, ?_, ?_⟩
    · intro j l'
      rw [rnx j l', hsnx j l']
    · intro j
      rw [rpv j, hspv j]
    · intro j l' hl'
      rw [rfr j l' (fun hc => hl' (List.mem_cons_of_mem a hc)),
        hsfr j l' (fun hc => hl' (hc ▸ List.mem_cons_self a _))]
    · intro i hi
      rcases List.mem_cons.mp hi with rfl | hi'
      · rw [rfr 0 i (fun hc => hna hc)]
        exact hsset
      · rw [rset i hi', hsfr 0 i (fun hc => hna (hc ▸ hi'))]
    · intro i hi j hj
      rcases List.mem_cons.mp hi with rfl | hi'
      · rw [rfr j i (fun hc => hna hc)]
        exact hsoth j hj
      · rw [roth i hi' j hj]
        exact hsfr j i (fun hc => hna (hc ▸ hi'))

end SkipListGo

namespace SkipListGo

theorem annotAll_shift : ∀ (l : List Row) (p : ℤ),
    annotAll l (p + 1) = (annotAll l p).map (fun x => (x.1, x.2 + 1)) := by
  intro l
  induction l with
  | nil => intro p; rfl
  | cons x xs ih =>
    intro p
    show (x, p + 1) :: annotAll xs (p + 1 + 1) = (x, p + 1) :: _
    rw [ih (p + 1)]

theorem annotAll_last : ∀ (l : List Row) (p : ℤ) (d : Row × ℤ), l ≠ [] →
    (lastOf (annotAll l p) d).2 = p + l.length - 1 := by
  intro l
  induction l with
  | nil => intro p d h; exact absurd rfl h
  | cons x xs ih =>
    intro p d _
    cases hxs : xs with
    | nil =>
      show ((x, p) : Row × ℤ).2 = p + (1 : ℕ) - 1
      push_cast
      ring
    | cons y ys =>
      have h1 : lastOf (annotAll (x :: y :: ys) p) d =
          lastOf (annotAll (y :: ys) (p + 1)) (x, p) := rfl
      rw [h1, ← hxs, ih (p + 1) (x, p) (by rw [hxs]; simp)]
      rw [hxs]
      simp only [List.length_cons]
      push_cast
      ring

/-- With the target key fresh and separated, the less/non-less split of the
annotation is exactly the sorted-insertion split of the row list. -/
theorem lessRows_of_split {rows : List Row} {pre suf : List Row}
    (hsplit : rows = pre ++ suf) (k : ℤ × String)
    (hpre : ∀ r ∈ pre, rowLt r.key k) (hsuf : ∀ r ∈ suf, ¬ rowLt r.key k)
    (L : ℕ) :
    lessRows rows L k =
      (annotAll pre 1).filter (fun x => decide (L ≤ x.1.height)) ∧
    geRows rows L k =
      (annotAll suf (1 + pre.length)).filter (fun x => decide (L ≤ x.1.height)) := by
  have hann : annotAll rows 1 = annotAll pre 1 ++ annotAll suf (1 + pre.length) := by
    rw [hsplit, annotAll_append]
  constructor
  · unfold lessRows
    rw [hann, List.filter_append]
    have h2 : (annotAll suf (1 + pre.length)).filter
        (fun x => decide (L ≤ x.1.height) && decide (rowLt x.1.key k)) = [] := by
      rw [List.filter_eq_nil_iff]
      intro x hx
      have hr := hsuf x.1 (mem_annotAll_fst hx)
      simp [hr]
    rw [h2, List.append_nil]
    apply List.filter_congr
    intro x hx
    have hr := hpre x.1 (mem_annotAll_fst hx)
    simp [hr]
  · unfold geRows
    rw [hann, List.filter_append]
    have h1 : (annotAll pre 1).filter
        (fun x => decide (L ≤ x.1.height) && !(decide (rowLt x.1.key k))) = [] := by
      rw [List.filter_eq_nil_iff]
      intro x hx
      have hr := hpre x.1 (mem_annotAll_fst hx)
      simp [hr]
    rw [h1, List.nil_append]
    apply List.filter_congr
    intro x hx
    have hr := hsuf x.1 (mem_annotAll_fst hx)
    simp [hr]

end SkipListGo

namespace SkipListGo

theorem getD_append_lt {α : Type} (l l' : List α) (j : ℕ) (d : α)
    (h : j < l.length) : (l ++ l').getD j d = l.getD j d := by
  rw [List.getD_eq_getElem _ _ (by simp; omega), List.getElem_append_left h,
    List.getD_eq_getElem _ _ h]

theorem getD_append_self {α : Type} (l : List α) (e : α) (d : α) :
    (l ++ [e]).getD l.length d = e := by
  rw [List.getD_eq_getElem _ _ (by simp)]
  rw [List.getElem_append_right (le_refl _)]
  simp

theorem insertAlloc_facts (t : SkipList) (nm : String) (sc : EScore) (maxL : ℕ) :
    (insertAlloc t nm sc maxL).arena.length = t.arena.length + 1 ∧
    (∀ j, j < t.arena.length → (insertAlloc t nm sc maxL).get j = t.get j) ∧
    (insertAlloc t nm sc maxL).get t.arena.length =
      ⟨List.replicate MaxLevel none, List.replicate MaxLevel 0, none, nm, sc⟩ ∧
    (insertAlloc t nm sc maxL).maxLevel = maxL ∧
    (insertAlloc t nm sc maxL).elements = elemsSet t.elements nm sc := by
  refine ⟨by simp [insertAlloc], ?_, ?_, rfl, rfl⟩
  · intro j hj
    show (t.arena ++ [_]).getD j defaultElement = t.arena.getD j defaultElement
    exact getD_append_lt _ _ _ _ hj
  · show (t.arena ++ [_]).getD t.arena.length defaultElement = _
    exact getD_append_self _ _ _

end SkipListGo

namespace SkipListGo

/-- The level the new node occupies (source lines 185–189). -/
def insLevel (t : SkipList) (drawn : ℕ) : ℕ :=
  if drawn > t.maxLevel then t.maxLevel + 1 else drawn

/-- The `maxLevel` after the raise of source lines 185–189. -/
def insMaxL (t : SkipList) (drawn : ℕ) : ℕ :=
  if drawn > t.maxLevel then t.maxLevel + 1 else t.maxLevel

/-- `insertFresh` unfolded into its descent and span-fix phases. -/
theorem insertFresh_eq (t : SkipList) (nm : String) (sc : EScore) (drawn : ℕ) :
    insertFresh t nm sc drawn =
      ((List.range MaxLevel).filter (fun i => insMaxL t drawn < i)).foldl
        spanIncHead
        ((((List.range (insMaxL t drawn + 1)).filter
            (fun i => insLevel t drawn < i)).foldl
          (spanFixAbove (insertLevels sc nm t.arena.length (insLevel t drawn)
              ((List.range (insMaxL t drawn + 1)).reverse)
              (insertAlloc t nm sc (insMaxL t drawn)) 0 0
              (List.replicate MaxLevel (none, 0))).2)
          ((List.range (insLevel t drawn + 1)).foldl
            (spanFixNew
              (insertLevels sc nm t.arena.length (insLevel t drawn)
                ((List.range (insMaxL t drawn + 1)).reverse)
                (insertAlloc t nm sc (insMaxL t drawn)) 0 0
                (List.replicate MaxLevel (none, 0))).2
              t.arena.length
              ((((insertLevels sc nm t.arena.length (insLevel t drawn)
                  ((List.range (insMaxL t drawn + 1)).reverse)
                  (insertAlloc t nm sc (insMaxL t drawn)) 0 0
                  (List.replicate MaxLevel (none, 0))).2).getD 0 (none, 0)).2 + 1))
            (insertLevels sc nm t.arena.length (insLevel t drawn)
              ((List.range (insMaxL t drawn + 1)).reverse)
              (insertAlloc t nm sc (insMaxL t drawn)) 0 0
              (List.replicate MaxLevel (none, 0))).1))) := rfl

end SkipListGo

namespace SkipListGo

/-- Widths of every slot of the allocation state. -/
theorem insertAlloc_widths {S : List ℤ} {told : SkipList} {rows : List Row}
    (M : Models S told rows) (nm : String) (sc : EScore) (maxL : ℕ) :
    ∀ j, ((insertAlloc told nm sc maxL).get j).next.length = MaxLevel ∧
      ((insertAlloc told nm sc maxL).get j).span.length = MaxLevel := by
  rcases insertAlloc_facts told nm sc maxL with ⟨hAlen, hAget, hAnid, -, -⟩
  intro j
  rcases Nat.lt_trichotomy j told.arena.length with hj | hj | hj
  · rw [hAget j hj]
    exact get_widths M hj
  · rw [hj, hAnid]
    constructor <;> simp
  · have hout : (insertAlloc told nm sc maxL).get j = defaultElement := by
      show (insertAlloc told nm sc maxL).arena.getD j defaultElement = defaultElement
      exact List.getD_eq_default _ _ (by omega)
    rw [hout]
    constructor <;> simp [defaultElement]

/-- The walk's per-level stop points lie strictly inside the old arena. -/
theorem insertFresh_state {S : List ℤ} {told : SkipList} {rows : List Row}
    (M : Models S told rows) (q : ℤ) (nm : String) (drawn : ℕ)
    (hsep : ∀ r ∈ rows, sepScore r.score q)
    (hmm : insMaxL told drawn < MaxLevel) :
    (insertFresh told nm (.fin q) drawn).arena.length = told.arena.length + 1 ∧
    (insertFresh told nm (.fin q) drawn).maxLevel = insMaxL told drawn ∧
    (insertFresh told nm (.fin q) drawn).elements =
      elemsSet told.elements nm (.fin q) ∧
    (∀ j, j < told.arena.length →
      ((insertFresh told nm (.fin q) drawn).get j).name = (told.get j).name ∧
      ((insertFresh told nm (.fin q) drawn).get j).score = (told.get j).score) ∧
    ((insertFresh told nm (.fin q) drawn).get told.arena.length).name = nm ∧
    ((insertFresh told nm (.fin q) drawn).get told.arena.length).score = .fin q ∧
    (∀ j, ((insertFresh told nm (.fin q) drawn).get j).next.length = MaxLevel ∧
      ((insertFresh told nm (.fin q) drawn).get j).span.length = MaxLevel) ∧
    (∀ l, l ≤ insLevel told drawn →
      (insertFresh told nm (.fin q) drawn).nextOf (lastLessE rows l (q, nm)).1 l =
        some told.arena.length ∧
      (insertFresh told nm (.fin q) drawn).nextOf told.arena.length l =
        told.nextOf (lastLessE rows l (q, nm)).1 l) ∧
    (∀ l j, j ≠ told.arena.length → (l ≤ insLevel told drawn →
        j ≠ (lastLessE rows l (q, nm)).1) →
      (insertFresh told nm (.fin q) drawn).nextOf j l = told.nextOf j l) ∧
    (∀ l, insLevel told drawn < l →
      (insertFresh told nm (.fin q) drawn).nextOf told.arena.length l = none) ∧
    (∀ l, l ≤ insLevel told drawn →
      (insertFresh told nm (.fin q) drawn).spanOf told.arena.length l =
        (lastLessE rows l (q, nm)).2 +
          told.spanOf (lastLessE rows l (q, nm)).1 l -
          ((lastLessE rows 0 (q, nm)).2 + 1) + 1 ∧
      (insertFresh told nm (.fin q) drawn).spanOf (lastLessE rows l (q, nm)).1 l =
        ((lastLessE rows 0 (q, nm)).2 + 1) - (lastLessE rows l (q, nm)).2) ∧
    (∀ l, insLevel told drawn < l → l ≤ insMaxL told drawn →
      (insertFresh told nm (.fin q) drawn).spanOf (lastLessE rows l (q, nm)).1 l =
        told.spanOf (lastLessE rows l (q, nm)).1 l + 1) ∧
    (∀ l, insMaxL told drawn < l → l < MaxLevel →
      (insertFresh told nm (.fin q) drawn).spanOf 0 l =
        told.spanOf 0 l + 1) ∧
    (∀ l j, j ≠ told.arena.length →
      (l ≤ insMaxL told drawn → j ≠ (lastLessE rows l (q, nm)).1) →
      (insMaxL told drawn < l → l < MaxLevel → j ≠ 0) →
      (insertFresh told nm (.fin q) drawn).spanOf j l = told.spanOf j l) ∧
    ((insertFresh told nm (.fin q) drawn).prevOf told.arena.length =
      some (lastLessE rows 0 (q, nm)).1) ∧
    (∀ m, told.nextOf (lastLessE rows 0 (q, nm)).1 0 = some m →
      (insertFresh told nm (.fin q) drawn).prevOf m = some told.arena.length) ∧
    (∀ j, j ≠ told.arena.length →
      (∀ m, told.nextOf (lastLessE rows 0 (q, nm)).1 0 = some m → j ≠ m) →
      (insertFresh told nm (.fin q) drawn).prevOf j = told.prevOf j) := by
  rcases insertAlloc_facts told nm (.fin q) (insMaxL told drawn) with
    ⟨hAlen, hAget, hAnid, hAmax, hAel⟩
  have hwidA := insertAlloc_widths M nm (.fin q) (insMaxL told drawn)
  have hstart : lastLessE rows (insMaxL told drawn + 1) (q, nm) =
      ((0 : ℕ), (0 : ℤ)) := by
    unfold lastLessE
    rw [lessRows_empty_of_high (fun r hr => by
      have h1 := M.hheight r hr
      have h2 : told.maxLevel ≤ insMaxL told drawn := by
        unfold insMaxL
        by_cases hd : drawn > told.maxLevel
        · rw [if_pos hd]; omega
        · rw [if_neg hd]
      omega) (q, nm)]
    rfl
  have hspec := insertLevels_spec M q nm hsep told.arena.length
    (insLevel told drawn) rfl (insMaxL told drawn) hmm
    (insertAlloc told nm (.fin q) (insMaxL told drawn))
    (List.replicate MaxLevel (none, 0))
    hAlen
    (fun l _ j hj => by
      show ((insertAlloc told nm (.fin q) (insMaxL told drawn)).get j).next.getD l none = _
      rw [hAget j hj]
      rfl)
    (fun j l' hj => by
      show ((insertAlloc told nm (.fin q) (insMaxL told drawn)).get j).span.getD l' 0 = _
      rw [hAget j hj]
      rfl)
    (fun j hj => by rw [hAget j hj]; exact ⟨rfl, rfl⟩)
    hwidA
    (by simp)
  rw [hstart] at hspec
  dsimp only at hspec
  rw [insertFresh_eq]
  rcases hspec with ⟨C1, C2, C3, C4, C5, C6, C7, C8, -, -⟩
  have hHHMM : insLevel told drawn ≤ insMaxL told drawn := by
    unfold insLevel insMaxL
    by_cases hd : drawn > told.maxLevel
    · rw [if_pos hd, if_pos hd]
    · rw [if_neg hd, if_neg hd]
      omega
  have hER : ((insertLevels (.fin q) nm told.arena.length (insLevel told drawn)
      ((List.range (insMaxL told drawn + 1)).reverse)
      (insertAlloc told nm (.fin q) (insMaxL told drawn)) 0 0
      (List.replicate MaxLevel (none, 0))).2.getD 0 (none, 0)).2 =
      (lastLessE rows 0 (q, nm)).2 := by
    rw [C8 0 (Nat.zero_le _)]
  have htallocnx : ∀ j l, j ≠ told.arena.length →
      (insertAlloc told nm (.fin q) (insMaxL told drawn)).nextOf j l =
        told.nextOf j l := by
    intro j l hj
    rcases Nat.lt_or_ge j told.arena.length with hlt | hge
    · show ((insertAlloc told nm (.fin q) (insMaxL told drawn)).get j).next.getD l none = _
      rw [hAget j hlt]
      rfl
    · have hgt : told.arena.length + 1 ≤ j := by omega
      have h1 : (insertAlloc told nm (.fin q) (insMaxL told drawn)).get j =
          defaultElement := by
        show (insertAlloc told nm (.fin q) (insMaxL told drawn)).arena.getD j _ = _
        exact List.getD_eq_default _ _ (by omega)
      have h2 : told.get j = defaultElement := by
        show told.arena.getD j _ = _
        exact List.getD_eq_default _ _ (by omega)
      show ((insertAlloc told nm (.fin q) (insMaxL told drawn)).get j).next.getD l none =
        (told.get j).next.getD l none
      rw [h1, h2]
  have htallocsp : ∀ j l, j ≠ told.arena.length →
      (insertAlloc told nm (.fin q) (insMaxL told drawn)).spanOf j l =
        told.spanOf j l := by
    intro j l hj
    rcases Nat.lt_or_ge j told.arena.length with hlt | hge
    · show ((insertAlloc told nm (.fin q) (insMaxL told drawn)).get j).span.getD l 0 = _
      rw [hAget j hlt]
      rfl
    · have h1 : (insertAlloc told nm (.fin q) (insMaxL told drawn)).get j =
          defaultElement := by
        show (insertAlloc told nm (.fin q) (insMaxL told drawn)).arena.getD j _ = _
        exact List.getD_eq_default _ _ (by omega)
      have h2 : told.get j = defaultElement := by
        show told.arena.getD j _ = _
        exact List.getD_eq_default _ _ (by omega)
      show ((insertAlloc told nm (.fin q) (insMaxL told drawn)).get j).span.getD l 0 =
        (told.get j).span.getD l 0
      rw [h1, h2]
  have htallocpv : ∀ j, j ≠ told.arena.length →
      (insertAlloc told nm (.fin q) (insMaxL told drawn)).prevOf j =
        told.prevOf j := by
    intro j hj
    rcases Nat.lt_or_ge j told.arena.length with hlt | hge
    · show ((insertAlloc told nm (.fin q) (insMaxL told drawn)).get j).prev = _
      rw [hAget j hlt]
      rfl
    · have h1 : (insertAlloc told nm (.fin q) (insMaxL told drawn)).get j =
          defaultElement := by
        show (insertAlloc told nm (.fin q) (insMaxL told drawn)).arena.getD j _ = _
        exact List.getD_eq_default _ _ (by omega)
      have h2 : told.get j = defaultElement := by
        show told.arena.getD j _ = _
        exact List.getD_eq_default _ _ (by omega)
      show ((insertAlloc told nm (.fin q) (insMaxL told drawn)).get j).prev =
        (told.get j).prev
      rw [h1, h2]
  have hF1 := spanFixNew_foldl
    (insertLevels (.fin q) nm told.arena.length (insLevel told drawn)
      ((List.range (insMaxL told drawn + 1)).reverse)
      (insertAlloc told nm (.fin q) (insMaxL told drawn)) 0 0
      (List.replicate MaxLevel (none, 0))).2
    told.arena.length
    (((insertLevels (.fin q) nm told.arena.length (insLevel told drawn)
      ((List.range (insMaxL told drawn + 1)).reverse)
      (insertAlloc told nm (.fin q) (insMaxL told drawn)) 0 0
      (List.replicate MaxLevel (none, 0))).2.getD 0 (none, 0)).2 + 1)
    (List.range (insLevel told drawn + 1))
    (insertLevels (.fin q) nm told.arena.length (insLevel told drawn)
      ((List.range (insMaxL told drawn + 1)).reverse)
      (insertAlloc told nm (.fin q) (insMaxL told drawn)) 0 0
      (List.replicate MaxLevel (none, 0))).1
    (List.nodup_range _)
    (fun j => by
      rw [(C1.2.2.2 j).2.2.2]
      exact (hwidA j).2)
    (by rw [C1.1, hAlen]; omega)
    (fun i hi pid hpv => by
      have hi' : i ≤ insMaxL told drawn := by
        have := List.mem_range.mp hi
        omega
      rw [C8 i hi'] at hpv
      have hpd : pid = (lastLessE rows i (q, nm)).1 := (Option.some.inj hpv).symm
      subst hpd
      rw [C1.1, hAlen]
      have := (lastLessE_bounds M i (q, nm)).1
      omega)
    (fun i hi => by
      have := List.mem_range.mp hi
      omega)
  rcases hF1 with ⟨F1P, F1nx, F1pv, F1fr, F1set, F1oth⟩
  have hF2 := spanFixAbove_foldl
    (insertLevels (.fin q) nm told.arena.length (insLevel told drawn)
      ((List.range (insMaxL told drawn + 1)).reverse)
      (insertAlloc told nm (.fin q) (insMaxL told drawn)) 0 0
      (List.replicate MaxLevel (none, 0))).2
    ((List.range (insMaxL told drawn + 1)).filter
      (fun i => insLevel told drawn < i))
    ((List.range (insLevel told drawn + 1)).foldl
      (spanFixNew
        (insertLevels (.fin q) nm told.arena.length (insLevel told drawn)
          ((List.range (insMaxL told drawn + 1)).reverse)
          (insertAlloc told nm (.fin q) (insMaxL told drawn)) 0 0
          (List.replicate MaxLevel (none, 0))).2
        told.arena.length
        (((insertLevels (.fin q) nm told.arena.length (insLevel told drawn)
          ((List.range (insMaxL told drawn + 1)).reverse)
          (insertAlloc told nm (.fin q) (insMaxL told drawn)) 0 0
          (List.replicate MaxLevel (none, 0))).2.getD 0 (none, 0)).2 + 1))
      (insertLevels (.fin q) nm told.arena.length (insLevel told drawn)
        ((List.range (insMaxL told drawn + 1)).reverse)
        (insertAlloc told nm (.fin q) (insMaxL told drawn)) 0 0
        (List.replicate MaxLevel (none, 0))).1)
    ((List.nodup_range _).filter _)
    (fun j => by
      rw [(F1P.2.2.2 j).2.2.2, (C1.2.2.2 j).2.2.2]
      exact (hwidA j).2)
    (fun i hi pid hpv => by
      have hi' : i ≤ insMaxL told drawn := by
        have := List.mem_range.mp (List.mem_of_mem_filter hi)
        omega
      rw [C8 i hi'] at hpv
      have hpd : pid = (lastLessE rows i (q, nm)).1 := (Option.some.inj hpv).symm
      subst hpd
      rw [F1P.1, C1.1, hAlen]
      have := (lastLessE_bounds M i (q, nm)).1
      omega)
    (fun i hi => by
      have := List.mem_range.mp (List.mem_of_mem_filter hi)
      omega)
  rcases hF2 with ⟨F2P, F2nx, F2pv, F2fr, F2set, F2oth⟩
  have hF3 := spanIncHead_foldl
    ((List.range MaxLevel).filter (fun i => insMaxL told drawn < i))
    (((List.range (insMaxL told drawn + 1)).filter
        (fun i => insLevel told drawn < i)).foldl
      (spanFixAbove (insertLevels (.fin q) nm told.arena.length (insLevel told drawn)
          ((List.range (insMaxL told drawn + 1)).reverse)
          (insertAlloc told nm (.fin q) (insMaxL told drawn)) 0 0
          (List.replicate MaxLevel (none, 0))).2)
      ((List.range (insLevel told drawn + 1)).foldl
        (spanFixNew
          (insertLevels (.fin q) nm told.arena.length (insLevel told drawn)
            ((List.range (insMaxL told drawn + 1)).reverse)
            (insertAlloc told nm (.fin q) (insMaxL told drawn)) 0 0
            (List.replicate MaxLevel (none, 0))).2
          told.arena.length
          (((insertLevels (.fin q) nm told.arena.length (insLevel told drawn)
            ((List.range (insMaxL told drawn + 1)).reverse)
            (insertAlloc told nm (.fin q) (insMaxL told drawn)) 0 0
            (List.replicate MaxLevel (none, 0))).2.getD 0 (none, 0)).2 + 1))
        (insertLevels (.fin q) nm told.arena.length (insLevel told drawn)
          ((List.range (insMaxL told drawn + 1)).reverse)
          (insertAlloc told nm (.fin q) (insMaxL told drawn)) 0 0
          (List.replicate MaxLevel (none, 0))).1))
    ((List.nodup_range _).filter _)
    (fun j => by
      rw [(F2P.2.2.2 j).2.2.2, (F1P.2.2.2 j).2.2.2, (C1.2.2.2 j).2.2.2]
      exact (hwidA j).2)
    (by rw [F2P.1, F1P.1, C1.1, hAlen]; omega)
    (fun i hi => List.mem_range.mp (List.mem_of_mem_filter hi))
  rcases hF3 with ⟨F3P, F3nx, F3pv, F3fr, F3set, F3oth⟩
  have hallP := ((C1.chain F1P).chain F2P).chain F3P
  have hNID2 : 2 ≤ told.arena.length := M.hlen
  have hnotmem3 : ∀ l, l ≤ insMaxL told drawn →
      l ∉ (List.range MaxLevel).filter (fun i => insMaxL told drawn < i) := by
    intro l hl hc
    have := of_decide_eq_true (List.mem_filter.mp hc).2
    omega
  have hnotmem2 : ∀ l, l ≤ insLevel told drawn ∨ insMaxL told drawn < l →
      l ∉ (List.range (insMaxL told drawn + 1)).filter
        (fun i => insLevel told drawn < i) := by
    intro l hl hc
    rcases List.mem_filter.mp hc with ⟨hr, hcond⟩
    have h1 := List.mem_range.mp hr
    have h2 := of_decide_eq_true hcond
    omega
  have hnotmem1 : ∀ l, insLevel told drawn < l →
      l ∉ List.range (insLevel told drawn + 1) := by
    intro l hl hc
    have := List.mem_range.mp hc
    omega
  have hpidne : ∀ l, (lastLessE rows l (q, nm)).1 ≠ told.arena.length := by
    intro l
    have := (lastLessE_bounds M l (q, nm)).1
    omega
  refine ⟨?_, ?_, ?_, ?_, ?_, ?_, ?_, ?_, ?_, ?_, ?_, ?_, ?_, ?_, ?_, ?_, ?_⟩
  · rw [hallP.1, hAlen]
  · rw [hallP.2.1, hAmax]
  · rw [hallP.2.2.1, hAel]
  · intro j hj
    constructor
    · rw [(hallP.2.2.2 j).1, hAget j hj]
    · rw [(hallP.2.2.2 j).2.1, hAget j hj]
  · rw [(hallP.2.2.2 told.arena.length).1, hAnid]
  · rw [(hallP.2.2.2 told.arena.length).2.1, hAnid]
  · intro j
    constructor
    · rw [(hallP.2.2.2 j).2.2.1]
      exact (hwidA j).1
    · rw [(hallP.2.2.2 j).2.2.2]
      exact (hwidA j).2
  · intro l hl
    constructor
    · rw [F3nx, F2nx, F1nx]
      exact (C3 l (le_trans hl hHHMM) hl).1
    · rw [F3nx, F2nx, F1nx]
      exact (C3 l (le_trans hl hHHMM) hl).2
  · intro l j hjn hjp
    rw [F3nx, F2nx, F1nx, C4 l j (fun _ hlh => ⟨hjn, hjp hlh⟩)]
    exact htallocnx j l hjn
  · intro l hl
    rw [F3nx, F2nx, F1nx, C4 l told.arena.length
      (fun _ hlh => absurd hlh (by omega))]
    show ((insertAlloc told nm (.fin q) (insMaxL told drawn)).get
      told.arena.length).next.getD l none = none
    rw [hAnid]
    rcases Nat.lt_or_ge l MaxLevel with hlM | hlM
    · show (List.replicate MaxLevel (none : Option ℕ)).getD l none = none
      exact getD_replicate _ _ _ _ hlM
    · show (List.replicate MaxLevel (none : Option ℕ)).getD l none = none
      exact List.getD_eq_default _ _ (by simpa using hlM)
  · intro l hl
    have hmem1 : l ∈ List.range (insLevel told drawn + 1) :=
      List.mem_range.mpr (by omega)
    have hgd := C8 l (le_trans hl hHHMM)
    have hgd1 : ((insertLevels (.fin q) nm told.arena.length (insLevel told drawn)
        ((List.range (insMaxL told drawn + 1)).reverse)
        (insertAlloc told nm (.fin q) (insMaxL told drawn)) 0 0
        (List.replicate MaxLevel (none, 0))).2.getD l (none, 0)).1 =
        some (lastLessE rows l (q, nm)).1 := by
      rw [hgd]
    have hgd2 : ((insertLevels (.fin q) nm told.arena.length (insLevel told drawn)
        ((List.range (insMaxL told drawn + 1)).reverse)
        (insertAlloc told nm (.fin q) (insMaxL told drawn)) 0 0
        (List.replicate MaxLevel (none, 0))).2.getD l (none, 0)).2 =
        (lastLessE rows l (q, nm)).2 := by
      rw [hgd]
    constructor
    · rw [F3fr _ l (hnotmem3 l (le_trans hl hHHMM)),
        F2fr _ l (hnotmem2 l (Or.inl hl)),
        (F1set l hmem1 _ hgd1).1]
      simp only [hgd2, hER, C2]
      rw [htallocsp (lastLessE rows l (q, nm)).1 l (hpidne l)]
    · rw [F3fr _ l (hnotmem3 l (le_trans hl hHHMM)),
        F2fr _ l (hnotmem2 l (Or.inl hl)),
        (F1set l hmem1 _ hgd1).2]
      simp only [hgd2, hER]
  · intro l hl1 hl2
    have hmem2 : l ∈ (List.range (insMaxL told drawn + 1)).filter
        (fun i => insLevel told drawn < i) :=
      List.mem_filter.mpr ⟨List.mem_range.mpr (by omega), by simpa using hl1⟩
    have hgd := C8 l hl2
    have hgd1 : ((insertLevels (.fin q) nm told.arena.length (insLevel told drawn)
        ((List.range (insMaxL told drawn + 1)).reverse)
        (insertAlloc told nm (.fin q) (insMaxL told drawn)) 0 0
        (List.replicate MaxLevel (none, 0))).2.getD l (none, 0)).1 =
        some (lastLessE rows l (q, nm)).1 := by
      rw [hgd]
    rw [F3fr _ l (hnotmem3 l hl2), F2set l hmem2 _ hgd1,
      F1fr _ l (hnotmem1 l hl1), C2,
      htallocsp (lastLessE rows l (q, nm)).1 l (hpidne l)]
  · intro l hl1 hl2
    have hmem3 : l ∈ (List.range MaxLevel).filter
        (fun i => insMaxL told drawn < i) :=
      List.mem_filter.mpr ⟨List.mem_range.mpr hl2, by simpa using hl1⟩
    rw [F3set l hmem3, F2fr _ l (hnotmem2 l (Or.inr hl1)),
      F1fr _ l (hnotmem1 l (by omega)), C2,
      htallocsp 0 l (by omega)]
  · intro l j hjn hc1 hc2
    have h3 : ∀ tmid, ((List.range MaxLevel).filter
        (fun i => insMaxL told drawn < i)).foldl spanIncHead tmid = _ := fun _ => rfl
    by_cases hm3 : l ∈ (List.range MaxLevel).filter (fun i => insMaxL told drawn < i)
    · have hcm := List.mem_filter.mp hm3
      have hlt := List.mem_range.mp hcm.1
      have hgt := of_decide_eq_true hcm.2
      rw [F3oth l hm3 j (hc2 hgt hlt),
        F2fr _ l (hnotmem2 l (Or.inr hgt)),
        F1fr _ l (hnotmem1 l (by omega)), C2, htallocsp j l hjn]
    · rw [F3fr _ l hm3]
      by_cases hm2 : l ∈ (List.range (insMaxL told drawn + 1)).filter
          (fun i => insLevel told drawn < i)
      · have hcm := List.mem_filter.mp hm2
        have hlt := List.mem_range.mp hcm.1
        have hgt := of_decide_eq_true hcm.2
        have hgd := C8 l (by omega)
        refine Eq.trans (F2oth l hm2 j (Or.inr ?_)) ?_
        · rw [hgd]
          intro hc
          exact (hc1 (by omega)) (Option.some.inj hc).symm
        · rw [F1fr _ l (hnotmem1 l hgt), C2, htallocsp j l hjn]
      · rw [F2fr _ l hm2]
        by_cases hm1 : l ∈ List.range (insLevel told drawn + 1)
        · have hll : l ≤ insLevel told drawn := by
            have := List.mem_range.mp hm1
            omega
          have hgd := C8 l (le_trans hll hHHMM)
          refine Eq.trans (F1oth l hm1 j (Or.inr ⟨hjn, ?_⟩)) ?_
          · rw [hgd]
            intro hc
            exact (hc1 (le_trans hll hHHMM)) (Option.some.inj hc).symm
          · rw [C2, htallocsp j l hjn]
        · rw [F1fr _ l hm1, C2, htallocsp j l hjn]
  · rw [F3pv, F2pv, F1pv]
    exact C5
  · intro m hm
    rw [F3pv, F2pv, F1pv]
    exact C6 m hm
  · intro j hjn hjm
    rw [F3pv, F2pv, F1pv, C7 j hjn hjm]
    exact htallocpv j hjn

end SkipListGo

namespace SkipListGo

theorem getLast?_eq_lastOf {α : Type} : ∀ (l : List α) (c : α),
    (c :: l).getLast? = some (lastOf l c) := by
  intro l
  induction l with
  | nil => intro c; rfl
  | cons x xs ih =>
    intro c
    rw [show ((c :: x :: xs).getLast? : Option α) = (x :: xs).getLast? from rfl,
      ih x]
    rfl

theorem lastOf_append {α : Type} : ∀ (X Y : List α) (d : α),
    lastOf (X ++ Y) d = lastOf Y (lastOf X d) := by
  intro X
  induction X with
  | nil => intro Y d; rfl
  | cons x xs ih =>
    intro Y d
    show lastOf (xs ++ Y) x = _
    rw [ih Y x]
    rfl

/-- In an id-nodup entry list, an entry that is followed by another entry is
not the last one. -/
theorem adj_id_ne_last {l : List (ℕ × ℤ)} (hnd : (l.map Prod.fst).Nodup)
    {pre : List (ℕ × ℤ)} {x y : ℕ × ℤ} {suf : List (ℕ × ℤ)}
    (heq : l = pre ++ x :: y :: suf) (d : ℕ × ℤ) :
    x.1 ≠ (lastOf l d).1 := by
  have hndl : l.Nodup := hnd.of_map
  have hlast : lastOf l d = lastOf suf y := by
    rw [heq, lastOf_append_cons]
    rfl
  have hmem : lastOf suf y ∈ y :: suf := by
    rcases lastOf_mem_or suf y with h | h
    · exact List.mem_cons_of_mem _ h
    · rw [h]
      exact List.mem_cons_self _ _
  have hxnm : x ∉ y :: suf := by
    rw [heq] at hndl
    have h2 : (x :: y :: suf).Nodup := (List.nodup_append.mp hndl).2.1
    exact (List.nodup_cons.mp h2).1
  intro hc
  have hxl : x ∈ l := by
    rw [heq]
    exact List.mem_append.mpr (Or.inr (List.mem_cons_self _ _))
  have hll : lastOf l d ∈ l := by
    rw [hlast, heq]
    exact List.mem_append.mpr (Or.inr (List.mem_cons_of_mem _ hmem))
  have hxeq : x = lastOf l d :=
    List.inj_on_of_nodup_map hnd hxl hll hc
  rw [hxeq, hlast] at hxnm
  exact hxnm hmem

end SkipListGo

namespace SkipListGo

theorem elemsSet_absent (l : List (String × EScore)) (n : String) (s : EScore)
    (h : elemsLookup l n = none) : elemsSet l n s = l ++ [(n, s)] := by
  unfold elemsSet
  rw [if_neg]
  intro hc
  rcases Option.isSome_iff_exists.mp hc with ⟨p, hp⟩
  unfold elemsLookup at h
  rw [hp] at h
  exact absurd h (by simp)

theorem elemsLookup_append_self (l : List (String × EScore)) (n : String)
    (s : EScore) (h : elemsLookup l n = none) :
    elemsLookup (l ++ [(n, s)]) n = some s := by
  unfold elemsLookup at h ⊢
  have hf : l.find? (fun p => p.1 == n) = none := by
    rcases hfind : l.find? (fun p => p.1 == n) with _ | p
    · exact hfind
    · rw [hfind] at h
      exact absurd h (by simp)
  rw [List.find?_append, hf]
  simp [List.find?]

theorem elemsLookup_append_other (l : List (String × EScore)) (n n' : String)
    (s : EScore) (h : n' ≠ n) :
    elemsLookup (l ++ [(n, s)]) n' = elemsLookup l n' := by
  unfold elemsLookup
  rw [List.find?_append]
  have hone : (([(n, s)] : List (String × EScore)).find?
      (fun p => p.1 == n')) = none := by
    rw [List.find?_eq_none]
    intro p hp
    have hps := List.mem_singleton.mp hp
    subst hps
    show ¬((n : String) == n') = true
    simp only [beq_iff_eq]
    exact fun hc => h hc.symm
  rw [hone, Option.or_none]

theorem elemsLookup_none_keys (l : List (String × EScore)) (n : String)
    (h : elemsLookup l n = none) : n ∉ l.map Prod.fst := by
  intro hc
  rcases List.mem_map.mp hc with ⟨p, hp, hpn⟩
  unfold elemsLookup at h
  rcases hfind : l.find? (fun q => q.1 == n) with _ | q
  · have := List.find?_eq_none.mp hfind p hp
    simp [hpn] at this
  · rw [hfind] at h
    exact absurd h (by simp)

end SkipListGo

namespace SkipListGo

/-- The annotated level entries of a sorted insertion: the prefix keeps its
positions, the new node sits at position `pre.length + 1` when the level is
low enough, and the suffix shifts up by one. -/
theorem levelEntries_absIns (pre suf : List Row) (nid : ℕ) (nm : String)
    (q : ℤ) (hh : ℕ) (L : ℕ) :
    levelEntries (pre ++ (⟨nid, nm, q, hh⟩ : Row) :: suf) L =
      ((annotAll pre 1).filter (fun x => decide (L ≤ x.1.height))).map eOf ++
      ((if L ≤ hh then [((nid : ℕ), 1 + (pre.length : ℤ))] else []) ++
       (((annotAll suf (1 + (pre.length : ℤ))).filter
          (fun x => decide (L ≤ x.1.height))).map eOf).map
            (fun e => (e.1, e.2 + 1))) := by
  unfold levelEntries
  rw [annotAll_append, List.filter_append, List.map_append]
  congr 1
  rw [show annotAll ((⟨nid, nm, q, hh⟩ : Row) :: suf) (1 + (pre.length : ℤ)) =
    (⟨nid, nm, q, hh⟩, 1 + (pre.length : ℤ)) ::
      annotAll suf (1 + (pre.length : ℤ) + 1) from rfl]
  rw [annotAll_shift suf (1 + (pre.length : ℤ))]
  by_cases hLh : L ≤ hh
  · rw [List.filter_cons_of_pos (by simpa using hLh), List.map_cons, if_pos hLh]
    rw [List.filter_map, List.map_map, List.map_map]
    rfl
  · rw [List.filter_cons_of_neg (by simpa using hLh), if_neg hLh, List.nil_append]
    rw [List.filter_map, List.map_map, List.map_map]
    rfl

end SkipListGo

namespace SkipListGo

theorem filter_height_zero (l : List (Row × ℤ)) :
    l.filter (fun x => decide ((0 : ℕ) ≤ x.1.height)) = l := by
  apply List.filter_eq_self.mpr
  intro x _
  simp

theorem mem_tail_of_decomp {α : Type} {a : α} {rest pre suf : List α} {x y : α}
    (heq : a :: rest = pre ++ x :: y :: suf) : y ∈ rest := by
  cases pre with
  | nil =>
    injection heq with h1 h2
    rw [h2]
    exact List.mem_cons_self _ _
  | cons p ps =>
    injection heq with h1 h2
    rw [h2]
    exact List.mem_append.mpr (Or.inr (List.mem_cons_of_mem _
      (List.mem_cons_self _ _)))

theorem fullLevel_ids_nodup {S : List ℤ} {t : SkipList} {rows : List Row}
    (M : Models S t rows) (L : ℕ) :
    ((fullLevel rows L).map Prod.fst).Nodup := by
  unfold fullLevel levelEntries
  rw [List.map_cons]
  refine List.nodup_cons.mpr ⟨?_, ?_⟩
  · intro hc
    rw [List.map_map] at hc
    rcases List.mem_map.mp hc with ⟨x, hx, hxe⟩
    have hid := M.hid x.1 (mem_annotAll_fst (List.mem_filter.mp hx).1)
    have hx0 : x.1.id = 0 := hxe
    omega
  · rw [List.map_map]
    show (((annotAll rows 1).filter (fun x => L ≤ x.1.height)).map
      (fun x : Row × ℤ => x.1.id)).Nodup
    have hsub : (((annotAll rows 1).filter (fun x => L ≤ x.1.height)).map
        (fun x : Row × ℤ => x.1.id)).Sublist
        ((annotAll rows 1).map (fun x : Row × ℤ => x.1.id)) :=
      (List.filter_sublist _).map _
    have hmap : (annotAll rows 1).map (fun e : Row × ℤ => e.1.id) =
        rows.map Row.id := by
      have h1 : (annotAll rows 1).map (fun e : Row × ℤ => e.1.id) =
          ((annotAll rows 1).map Prod.fst).map Row.id := by
        rw [List.map_map]
        rfl
      rw [h1, annotAll_map_fst]
    rw [hmap] at hsub
    exact M.hidnodup.sublist hsub

theorem ge_ne_lastLessE {S : List ℤ} {t : SkipList} {rows : List Row}
    (M : Models S t rows) (L : ℕ) (k : ℤ × String) {x : ℕ × ℤ}
    (hx : x ∈ (geRows rows L k).map eOf) :
    x.1 ≠ (lastLessE rows L k).1 := by
  have hnd := fullLevel_ids_nodup M L
  have hfull : fullLevel rows L =
      ((0, 0) :: (lessRows rows L k).map eOf) ++ (geRows rows L k).map eOf := by
    unfold fullLevel
    rw [levelEntries_eq, levelRows_split M.hsorted L k, List.map_append]
    rfl
  have hndl : (fullLevel rows L).Nodup := hnd.of_map
  rw [hfull] at hnd hndl
  have hdisj := (List.nodup_append.mp hndl).2.2
  have hlmem : lastLessE rows L k ∈ (0, 0) :: (lessRows rows L k).map eOf := by
    rcases lastOf_mem_or ((lessRows rows L k).map eOf) ((0 : ℕ), (0 : ℤ)) with hm | hd
    · exact List.mem_cons_of_mem _ hm
    · rw [show lastLessE rows L k =
        lastOf ((lessRows rows L k).map eOf) ((0 : ℕ), (0 : ℤ)) from rfl, hd]
      exact List.mem_cons_self _ _
  intro hc
  have hxl : x ∈ ((0, 0) :: (lessRows rows L k).map eOf) ++
      (geRows rows L k).map eOf := List.mem_append.mpr (Or.inr hx)
  have hll : lastLessE rows L k ∈ ((0, 0) :: (lessRows rows L k).map eOf) ++
      (geRows rows L k).map eOf := List.mem_append.mpr (Or.inl hlmem)
  have hxeq : x = lastLessE rows L k := List.inj_on_of_nodup_map hnd hxl hll hc
  rw [hxeq] at hx
  exact hdisj hlmem hx

theorem mem_eOf_lessRows {rows : List Row} {L : ℕ} {k : ℤ × String} {x : ℕ × ℤ}
    (hx : x ∈ (lessRows rows L k).map eOf) : ∃ r ∈ rows, x.1 = r.id := by
  rcases List.mem_map.mp hx with ⟨y, hy, hye⟩
  exact ⟨y.1, (mem_lessRows hy).1, by rw [← hye]; rfl⟩

theorem mem_eOf_geRows {rows : List Row} {L : ℕ} {k : ℤ × String} {x : ℕ × ℤ}
    (hx : x ∈ (geRows rows L k).map eOf) : ∃ r ∈ rows, x.1 = r.id := by
  rcases List.mem_map.mp hx with ⟨y, hy, hye⟩
  exact ⟨y.1, (mem_geRows hy).1, by rw [← hye]; rfl⟩

theorem levelEntries_nil_of_high {rows : List Row} {L : ℕ}
    (h : ∀ r ∈ rows, r.height < L) : levelEntries rows L = [] := by
  unfold levelEntries
  have h2 : (annotAll rows 1).filter (fun x => L ≤ x.1.height) = [] := by
    rw [List.filter_eq_nil_iff]
    intro x hx
    have := h x.1 (mem_annotAll_fst hx)
    simp only [decide_eq_true_eq]
    omega
  rw [h2]
  rfl

theorem lastOf_annot_rank : ∀ (l : List Row) (p : ℤ) (d : ℕ × ℤ),
    d.2 = p - 1 → (lastOf ((annotAll l p).map eOf) d).2 = p + l.length - 1 := by
  intro l
  induction l with
  | nil =>
    intro p d hd
    show d.2 = p + ((0 : ℕ) : ℤ) - 1
    rw [hd]
    omega
  | cons r rs ih =>
    intro p d hd
    show (lastOf ((annotAll rs (p + 1)).map eOf) (eOf (r, p))).2 =
      p + ((rs.length + 1 : ℕ) : ℤ) - 1
    rw [ih (p + 1) (eOf (r, p)) (by show p = p + 1 - 1; omega)]
    push_cast
    omega

theorem lastOf_annot_id : ∀ (l : List Row) (p : ℤ) (d : ℕ × ℤ),
    (lastOf ((annotAll l p).map eOf) d).1 = lastOf (l.map Row.id) d.1 := by
  intro l
  induction l with
  | nil => intro p d; rfl
  | cons r rs ih =>
    intro p d
    show (lastOf ((annotAll rs (p + 1)).map eOf) (eOf (r, p))).1 =
      lastOf (rs.map Row.id) r.id
    exact ih (p + 1) (eOf (r, p))

theorem prevList_nodup {S : List ℤ} {t : SkipList} {rows : List Row}
    (M : Models S t rows) : (0 :: (rows.map Row.id ++ [1])).Nodup := by
  refine List.nodup_cons.mpr ⟨?_, ?_⟩
  · intro hc
    rcases List.mem_append.mp hc with h | h
    · rcases List.mem_map.mp h with ⟨r, hr, hid⟩
      have := (M.hid r hr).1
      omega
    · simp at h
  · rw [List.nodup_append]
    refine ⟨M.hidnodup, by simp, ?_⟩
    intro a ha hb
    rcases List.mem_map.mp ha with ⟨r, hr, hid⟩
    have := (M.hid r hr).1
    have hb1 : a = 1 := by simpa using hb
    omega

theorem insLevel_le_insMaxL (t : SkipList) (drawn : ℕ) :
    insLevel t drawn ≤ insMaxL t drawn := by
  unfold insLevel insMaxL
  by_cases hd : drawn > t.maxLevel
  · rw [if_pos hd, if_pos hd]
  · rw [if_neg hd, if_neg hd]
    omega

theorem maxLevel_le_insMaxL (t : SkipList) (drawn : ℕ) :
    t.maxLevel ≤ insMaxL t drawn := by
  unfold insMaxL
  by_cases hd : drawn > t.maxLevel
  · rw [if_pos hd]
    omega
  · rw [if_neg hd]

/-- A fresh, separated `insertFresh` refines the sorted insertion of the
abstract row list. -/
theorem insert_models {S : List ℤ} {told : SkipList} {rows : List Row}
    (M : Models S told rows) (q : ℤ) (nm : String) (drawn : ℕ)
    (hsep : ∀ r ∈ rows, sepScore r.score q)
    (hfresh : ∀ r ∈ rows, r.name ≠ nm)
    (hnm1 : nm ≠ HeadNodeName) (hnm2 : nm ≠ TailNodeName)
    (hqS : q ∈ S)
    (hmm : insMaxL told drawn < MaxLevel) :
    Models S (insertFresh told nm (.fin q) drawn)
      (absIns rows told.arena.length nm q (insLevel told drawn)) := by
  have hrowsplit := sorted_takeWhile_eq_filter
    (P := fun r => decide (rowLt r.key (q, nm)))
    (fun a b hab hPb => decide_eq_true (rowLt_trans hab (of_decide_eq_true hPb)))
    rows M.hsorted
  rw [show absIns rows told.arena.length nm q (insLevel told drawn) =
    rows.takeWhile (fun r => decide (rowLt r.key (q, nm))) ++
      (⟨told.arena.length, nm, q, insLevel told drawn⟩ : Row) ::
      rows.dropWhile (fun r => decide (rowLt r.key (q, nm))) from rfl]
  have hsplit : rows = rows.takeWhile (fun r => decide (rowLt r.key (q, nm))) ++
      rows.dropWhile (fun r => decide (rowLt r.key (q, nm))) :=
    (List.takeWhile_append_dropWhile _ _).symm
  generalize hPRE : rows.takeWhile (fun r => decide (rowLt r.key (q, nm))) = pre
    at hsplit hrowsplit ⊢
  generalize hSUF : rows.dropWhile (fun r => decide (rowLt r.key (q, nm))) = suf
    at hsplit hrowsplit ⊢
  have hpremem : ∀ r ∈ pre, r ∈ rows := by
    intro r hr
    rw [hsplit]
    exact List.mem_append.mpr (Or.inl hr)
  have hsufmem : ∀ r ∈ suf, r ∈ rows := by
    intro r hr
    rw [hsplit]
    exact List.mem_append.mpr (Or.inr hr)
  have hpre : ∀ r ∈ pre, rowLt r.key (q, nm) := by
    intro r hr
    rw [hrowsplit.1] at hr
    exact of_decide_eq_true (List.mem_filter.mp hr).2
  have hsuf : ∀ r ∈ suf, ¬ rowLt r.key (q, nm) := by
    intro r hr
    rw [hrowsplit.2] at hr
    have := (List.mem_filter.mp hr).2
    simp only [Bool.not_eq_true', decide_eq_false_iff_not] at this
    exact this
  have hsufgt : ∀ r ∈ suf, rowLt (q, nm) r.key := by
    intro r hr
    by_contra hc
    have hkeq := keys_eq_of_not_rowLt (hsuf r hr) hc
    have hnm' : r.name = nm := congrArg Prod.snd hkeq
    exact hfresh r (hsufmem r hr) hnm'
  have hlen' : pre.length + suf.length = rows.length := by
    have := congrArg List.length hsplit
    simp at this
    omega
  rcases insertFresh_state M q nm drawn hsep hmm with
    ⟨G1, G2, G3, G4, G5, G6, G7, G8, G9, G10, G11, G12, G13, G14, G15, G16, G17⟩
  have hset : (insertFresh told nm (.fin q) drawn).elements =
      told.elements ++ [(nm, .fin q)] := by
    rw [G3, elemsSet_absent _ _ _ (M.helemnone nm hfresh)]
  have hless0 : lessRows rows 0 (q, nm) = annotAll pre 1 := by
    rw [(lessRows_of_split hsplit (q, nm) hpre hsuf 0).1, filter_height_zero]
  have hge0 : geRows rows 0 (q, nm) = annotAll suf (1 + (pre.length : ℤ)) := by
    rw [(lessRows_of_split hsplit (q, nm) hpre hsuf 0).2, filter_height_zero]
  have hrank0 : (lastLessE rows 0 (q, nm)).2 = (pre.length : ℤ) := by
    show (lastOf ((lessRows rows 0 (q, nm)).map eOf) ((0 : ℕ), (0 : ℤ))).2 = _
    rw [hless0, lastOf_annot_rank pre 1 ((0 : ℕ), (0 : ℤ)) (by decide)]
    omega
  have hHH := insLevel_le_insMaxL told drawn
  have hML := maxLevel_le_insMaxL told drawn
  refine ⟨?_, ?_, ?_, ?_, ?_, ?_, ?_, ?_, ?_, ?_, ?_, ?_, ?_, ?_, ?_, ?_, ?_,
    ?_, ?_, ?_, ?_, ?_, ?_, ?_, ?_⟩
  · rw [G1]
    have := M.hlen
    omega
  · rw [G1]
    have := M.hcard
    simp only [List.length_append, List.length_cons]
    omega
  · intro e he
    rcases List.mem_iff_getElem.mp he with ⟨j, hj, hje⟩
    have hg : (insertFresh told nm (.fin q) drawn).get j = e := by
      show (insertFresh told nm (.fin q) drawn).arena.getD j _ = e
      rw [List.getD_eq_getElem _ _ hj]
      exact hje
    rw [← hg]
    exact G7 j
  · show ((insertFresh told nm (.fin q) drawn).get 0).name = _
    rw [(G4 0 (by have := M.hlen; omega)).1]
    exact M.hheadname
  · show ((insertFresh told nm (.fin q) drawn).get 0).score = _
    rw [(G4 0 (by have := M.hlen; omega)).2]
    exact M.hheadscore
  · show ((insertFresh told nm (.fin q) drawn).get 1).name = _
    rw [(G4 1 (by have := M.hlen; omega)).1]
    exact M.htailname
  · show ((insertFresh told nm (.fin q) drawn).get 1).score = _
    rw [(G4 1 (by have := M.hlen; omega)).2]
    exact M.htailscore
  · intro r hr
    rcases List.mem_append.mp hr with hr | hr
    · have := M.hid r (hpremem r hr)
      rw [G1]
      omega
    · rcases List.mem_cons.mp hr with rfl | hr'
      · refine ⟨M.hlen, ?_⟩
        show told.arena.length < _
        rw [G1]
        omega
      · have := M.hid r (hsufmem r hr')
        rw [G1]
        omega
  · rw [List.map_append, List.map_cons]
    rw [List.nodup_middle]
    refine List.nodup_cons.mpr ⟨?_, ?_⟩
    · rw [← List.map_append, ← hsplit]
      intro hc
      rcases List.mem_map.mp hc with ⟨r, hr, hid⟩
      have h2 : r.id = told.arena.length := hid
      have := (M.hid r hr).2
      show False
      omega
    · rw [← List.map_append, ← hsplit]
      exact M.hidnodup
  · intro r hr
    rcases List.mem_append.mp hr with hr | hr
    · show ((insertFresh told nm (.fin q) drawn).get r.id).name = r.name
      rw [(G4 r.id (M.hid r (hpremem r hr)).2).1]
      exact M.hname r (hpremem r hr)
    · rcases List.mem_cons.mp hr with rfl | hr'
      · exact G5
      · show ((insertFresh told nm (.fin q) drawn).get r.id).name = r.name
        rw [(G4 r.id (M.hid r (hsufmem r hr')).2).1]
        exact M.hname r (hsufmem r hr')
  · intro r hr
    rcases List.mem_append.mp hr with hr | hr
    · show ((insertFresh told nm (.fin q) drawn).get r.id).score = .fin r.score
      rw [(G4 r.id (M.hid r (hpremem r hr)).2).2]
      exact M.hscore r (hpremem r hr)
    · rcases List.mem_cons.mp hr with rfl | hr'
      · exact G6
      · show ((insertFresh told nm (.fin q) drawn).get r.id).score = .fin r.score
        rw [(G4 r.id (M.hid r (hsufmem r hr')).2).2]
        exact M.hscore r (hsufmem r hr')
  · intro r hr
    rcases List.mem_append.mp hr with hr | hr
    · exact M.hnotsent r (hpremem r hr)
    · rcases List.mem_cons.mp hr with rfl | hr'
      · exact ⟨hnm1, hnm2⟩
      · exact M.hnotsent r (hsufmem r hr')
  · rw [List.map_append, List.map_cons]
    rw [List.nodup_middle]
    refine List.nodup_cons.mpr ⟨?_, ?_⟩
    · rw [← List.map_append, ← hsplit]
      intro hc
      rcases List.mem_map.mp hc with ⟨r, hr, hid⟩
      exact hfresh r hr hid
    · rw [← List.map_append, ← hsplit]
      exact M.hnamenodup
  · intro r hr
    rw [G2]
    rcases List.mem_append.mp hr with hr | hr
    · exact le_trans (le_trans (M.hheight r (hpremem r hr))
        (maxLevel_le_insMaxL told drawn)) (le_refl _)
    · rcases List.mem_cons.mp hr with rfl | hr'
      · exact insLevel_le_insMaxL told drawn
      · exact le_trans (M.hheight r (hsufmem r hr'))
          (maxLevel_le_insMaxL told drawn)
  · have hpw := M.hsorted
    rw [hsplit] at hpw
    rcases List.pairwise_append.mp hpw with ⟨hpwpre, hpwsuf, hcross⟩
    refine List.pairwise_append.mpr ⟨hpwpre, ?_, ?_⟩
    · refine List.pairwise_cons.mpr ⟨?_, hpwsuf⟩
      intro r hr
      exact hsufgt r hr
    · intro a ha b hb
      rcases List.mem_cons.mp hb with rfl | hb'
      · exact hpre a ha
      · exact hcross a ha b hb'
  · intro r hr
    rcases List.mem_append.mp hr with hr | hr
    · exact M.hS r (hpremem r hr)
    · rcases List.mem_cons.mp hr with rfl | hr'
      · exact hqS
      · exact M.hS r (hsufmem r hr')
  · rw [G2]
    exact hmm
  · rw [G2]
    by_cases hd : drawn > told.maxLevel
    · refine Or.inr ⟨⟨told.arena.length, nm, q, insLevel told drawn⟩, ?_, ?_⟩
      · exact List.mem_append.mpr (Or.inr (List.mem_cons_self _ _))
      · show insMaxL told drawn ≤ insLevel told drawn
        unfold insLevel insMaxL
        rw [if_pos hd, if_pos hd]
    · rcases M.hmaxTop with h0 | ⟨r, hr, hge⟩
      · refine Or.inl ?_
        show insMaxL told drawn = 0
        unfold insMaxL
        rw [if_neg hd]
        exact h0
      · refine Or.inr ⟨r, ?_, ?_⟩
        · rw [hsplit] at hr
          rcases List.mem_append.mp hr with hr' | hr'
          · exact List.mem_append.mpr (Or.inl hr')
          · exact List.mem_append.mpr (Or.inr (List.mem_cons_of_mem _ hr'))
        · show insMaxL told drawn ≤ r.height
          unfold insMaxL
          rw [if_neg hd]
          exact hge
  · intro L hL
    unfold fullLevel
    by_cases hcase2 : L ≤ insMaxL told drawn
    · have hLS := lessRows_of_split hsplit (q, nm) hpre hsuf L
      have hEA := levelEntries_absIns pre suf told.arena.length nm q
        (insLevel told drawn) L
      rw [← hLS.1, ← hLS.2] at hEA
      rw [hEA]
      have hOld := M.hlinks L hL
      have hfull : fullLevel rows L =
          (((0 : ℕ), (0 : ℤ)) :: (lessRows rows L (q, nm)).map eOf) ++
            (geRows rows L (q, nm)).map eOf := by
        unfold fullLevel
        rw [levelEntries_eq, levelRows_split M.hsorted L (q, nm), List.map_append]
        rfl
      rw [hfull] at hOld
      rcases List.chain'_append.mp hOld with ⟨hOA, hOB, hOlink⟩
      have hndA : ((((0 : ℕ), (0 : ℤ)) :: (lessRows rows L (q, nm)).map eOf).map
          Prod.fst).Nodup := by
        have h1 := fullLevel_ids_nodup M L
        rw [hfull, List.map_append] at h1
        exact (List.nodup_append.mp h1).1
      have T1 : List.Chain' (linkRel (insertFresh told nm (.fin q) drawn) L)
          (((0 : ℕ), (0 : ℤ)) :: (lessRows rows L (q, nm)).map eOf) := by
        apply chain'_imp_adj _ hOA
        intro pre' x y suf' heq hR
        have hxlast : x.1 ≠ (lastLessE rows L (q, nm)).1 :=
          adj_id_ne_last hndA heq ((0 : ℕ), (0 : ℤ))
        have hxmem : x ∈ ((0 : ℕ), (0 : ℤ)) :: (lessRows rows L (q, nm)).map eOf := by
          rw [heq]
          exact List.mem_append.mpr (Or.inr (List.mem_cons_self _ _))
        have hxnid : x.1 ≠ told.arena.length := by
          rcases List.mem_cons.mp hxmem with h | h
          · rw [h]
            have := M.hlen
            show (0 : ℕ) ≠ told.arena.length
            omega
          · rcases mem_eOf_lessRows h with ⟨r, hr, hid⟩
            have := (M.hid r hr).2
            omega
        refine ⟨?_, ?_⟩
        · rw [G9 L x.1 hxnid (fun _ => hxlast)]
          exact hR.1
        · rw [G14 L x.1 hxnid (fun _ => hxlast)
            (fun hgt _ => absurd hcase2 (not_le.mpr hgt))]
          exact hR.2
      have TB : List.Chain' (linkRel (insertFresh told nm (.fin q) drawn) L)
          (((geRows rows L (q, nm)).map eOf).map
            (fun e : ℕ × ℤ => (e.1, e.2 + 1))) := by
        rw [List.chain'_map]
        refine chain'_transfer _ ?_ hOB
        intro x hx y hy hR
        rcases mem_eOf_geRows hx with ⟨r, hr, hid⟩
        have hxnid : x.1 ≠ told.arena.length := by
          have := (M.hid r hr).2
          omega
        have hxlast : x.1 ≠ (lastLessE rows L (q, nm)).1 :=
          ge_ne_lastLessE M L (q, nm) hx
        refine ⟨?_, ?_⟩
        · show (insertFresh told nm (.fin q) drawn).nextOf x.1 L = some y.1
          rw [G9 L x.1 hxnid (fun _ => hxlast)]
          exact hR.1
        · show (insertFresh told nm (.fin q) drawn).spanOf x.1 L =
            (y.2 + 1) - (x.2 + 1)
          rw [G14 L x.1 hxnid (fun _ => hxlast)
            (fun hgt _ => absurd hcase2 (not_le.mpr hgt))]
          rw [hR.2]
          ring
      by_cases hcase1 : L ≤ insLevel told drawn
      · rw [if_pos hcase1]
        show List.Chain' (linkRel (insertFresh told nm (.fin q) drawn) L)
          ((((0 : ℕ), (0 : ℤ)) :: (lessRows rows L (q, nm)).map eOf) ++
            (((told.arena.length : ℕ), 1 + (pre.length : ℤ)) ::
              ((geRows rows L (q, nm)).map eOf).map
                (fun e : ℕ × ℤ => (e.1, e.2 + 1))))
        refine List.chain'_append.mpr ⟨T1, ?_, ?_⟩
        · rcases hB : geRows rows L (q, nm) with _ | ⟨g, gs⟩
          · simp only [List.map_nil]
            exact List.chain'_singleton _
          · rw [List.map_cons, List.map_cons]
            refine List.chain'_cons.mpr ⟨?_, ?_⟩
            · have hSL := (stop_link M L hL (q, nm)).1 g gs hB
              refine ⟨?_, ?_⟩
              · show (insertFresh told nm (.fin q) drawn).nextOf
                  told.arena.length L = some g.1.id
                rw [(G8 L hcase1).2, hSL.1]
              · show (insertFresh told nm (.fin q) drawn).spanOf
                  told.arena.length L = (g.2 + 1) - (1 + (pre.length : ℤ))
                rw [(G11 L hcase1).1, hSL.2, hrank0]
                ring
            · have TB' := TB
              rw [hB, List.map_cons, List.map_cons] at TB'
              exact TB'
        · intro x hx y hy
          rw [getLast?_eq_lastOf] at hx
          have hxe : x = lastLessE rows L (q, nm) :=
            (Option.mem_some_iff.mp hx).symm
          rw [List.head?_cons] at hy
          have hye : y = ((told.arena.length : ℕ), 1 + (pre.length : ℤ)) :=
            (Option.mem_some_iff.mp hy).symm
          rw [hxe, hye]
          refine ⟨?_, ?_⟩
          · exact (G8 L hcase1).1
          · show (insertFresh told nm (.fin q) drawn).spanOf
              (lastLessE rows L (q, nm)).1 L =
                (1 + (pre.length : ℤ)) - (lastLessE rows L (q, nm)).2
            rw [(G11 L hcase1).2, hrank0]
            ring
      · rw [if_neg hcase1, List.nil_append]
        show List.Chain' (linkRel (insertFresh told nm (.fin q) drawn) L)
          ((((0 : ℕ), (0 : ℤ)) :: (lessRows rows L (q, nm)).map eOf) ++
            ((geRows rows L (q, nm)).map eOf).map
              (fun e : ℕ × ℤ => (e.1, e.2 + 1)))
        refine List.chain'_append.mpr ⟨T1, TB, ?_⟩
        intro x hx y hy
        rw [getLast?_eq_lastOf] at hx
        have hxe : x = lastLessE rows L (q, nm) :=
          (Option.mem_some_iff.mp hx).symm
        rcases hB : geRows rows L (q, nm) with _ | ⟨g, gs⟩
        · rw [hB] at hy
          simp at hy
        · rw [hB, List.map_cons, List.map_cons, List.head?_cons] at hy
          have hye : y = ((eOf g).1, (eOf g).2 + 1) :=
            (Option.mem_some_iff.mp hy).symm
          have hSL := (stop_link M L hL (q, nm)).1 g gs hB
          have hnl1 := (lastLessE_bounds M L (q, nm)).1
          have hlnid : (lastLessE rows L (q, nm)).1 ≠ told.arena.length := by
            omega
          have hgt1 : insLevel told drawn < L := not_le.mp hcase1
          rw [hxe, hye]
          refine ⟨?_, ?_⟩
          · show (insertFresh told nm (.fin q) drawn).nextOf
              (lastLessE rows L (q, nm)).1 L = some g.1.id
            rw [G9 L (lastLessE rows L (q, nm)).1 hlnid
              (fun hc => absurd hc hcase1)]
            exact hSL.1
          · show (insertFresh told nm (.fin q) drawn).spanOf
              (lastLessE rows L (q, nm)).1 L =
                (g.2 + 1) - (lastLessE rows L (q, nm)).2
            rw [G12 L hgt1 hcase2, hSL.2]
            ring
    · have hnil : levelEntries
          (pre ++ (⟨told.arena.length, nm, q, insLevel told drawn⟩ : Row) :: suf)
            L = [] := by
        apply levelEntries_nil_of_high
        intro r hr
        have hMM := not_le.mp hcase2
        rcases List.mem_append.mp hr with h | h
        · have := M.hheight r (hpremem r h)
          omega
        · rcases List.mem_cons.mp h with rfl | h'
          · show insLevel told drawn < L
            omega
          · have := M.hheight r (hsufmem r h')
            omega
      rw [hnil]
      exact List.chain'_singleton _
  · intro L hL
    by_cases hcase2 : L ≤ insMaxL told drawn
    · have hLS := lessRows_of_split hsplit (q, nm) hpre hsuf L
      have hEA := levelEntries_absIns pre suf told.arena.length nm q
        (insLevel told drawn) L
      rw [← hLS.1, ← hLS.2] at hEA
      rw [hEA]
      have hOldT := M.htail L hL
      have hentries : levelEntries rows L =
          (lessRows rows L (q, nm)).map eOf ++ (geRows rows L (q, nm)).map eOf := by
        rw [levelEntries_eq, levelRows_split M.hsorted L (q, nm), List.map_append]
      rw [hentries] at hOldT
      rcases hB : geRows rows L (q, nm) with _ | ⟨g, gs⟩
      · have hSL2 := (stop_link M L hL (q, nm)).2 hB
        by_cases hcase1 : L ≤ insLevel told drawn
        · rw [if_pos hcase1]
          simp only [List.map_nil]
          rw [lastOf_append]
          show (insertFresh told nm (.fin q) drawn).nextOf
            told.arena.length L = some 1
          rw [(G8 L hcase1).2]
          exact hSL2
        · rw [if_neg hcase1]
          simp only [List.map_nil, List.nil_append, List.append_nil]
          show (insertFresh told nm (.fin q) drawn).nextOf
            (lastLessE rows L (q, nm)).1 L = some 1
          have hnl1 := (lastLessE_bounds M L (q, nm)).1
          have hlnid : (lastLessE rows L (q, nm)).1 ≠ told.arena.length := by
            omega
          rw [G9 L (lastLessE rows L (q, nm)).1 hlnid
            (fun hc => absurd hc hcase1)]
          exact hSL2
      · have hz : lastOf ((g :: gs).map eOf) (eOf g) =
            eOf (lastOf (g :: gs) g) := lastOf_map eOf (g :: gs) g
        have hlast1 : lastOf ((lessRows rows L (q, nm)).map eOf ++
            ((if L ≤ insLevel told drawn then
                [((told.arena.length : ℕ), 1 + (pre.length : ℤ))] else []) ++
              (((g :: gs).map eOf).map (fun e : ℕ × ℤ => (e.1, e.2 + 1)))))
            ((0 : ℕ), (0 : ℤ)) =
            ((lastOf ((g :: gs).map eOf) (eOf g)).1,
              (lastOf ((g :: gs).map eOf) (eOf g)).2 + 1) := by
          rw [lastOf_append, lastOf_append]
          rw [lastOf_indep (((g :: gs).map eOf).map
            (fun e : ℕ × ℤ => (e.1, e.2 + 1))) _ ((eOf g).1, (eOf g).2 + 1)
            (by simp)]
          exact lastOf_map (fun e : ℕ × ℤ => (e.1, e.2 + 1))
            ((g :: gs).map eOf) (eOf g)
        rw [hlast1, hz]
        show (insertFresh told nm (.fin q) drawn).nextOf
          (lastOf (g :: gs) g).1.id L = some 1
        have hzmem : lastOf (g :: gs) g ∈ geRows rows L (q, nm) := by
          rw [hB]
          rcases lastOf_mem_or gs g with h | h
          · exact List.mem_cons_of_mem _ h
          · rw [show lastOf (g :: gs) g = lastOf gs g from rfl, h]
            exact List.mem_cons_self _ _
        have hzrow := (mem_geRows hzmem).1
        have hznid : (lastOf (g :: gs) g).1.id ≠ told.arena.length := by
          have := (M.hid _ hzrow).2
          omega
        have hzlast : (lastOf (g :: gs) g).1.id ≠ (lastLessE rows L (q, nm)).1 :=
          ge_ne_lastLessE M L (q, nm) (List.mem_map_of_mem eOf hzmem)
        rw [G9 L (lastOf (g :: gs) g).1.id hznid (fun _ => hzlast)]
        rw [hB, lastOf_append] at hOldT
        rw [lastOf_indep ((g :: gs).map eOf) _ (eOf g) (by simp)] at hOldT
        rw [hz] at hOldT
        exact hOldT
    · have hnilold : levelEntries rows L = [] := by
        apply levelEntries_nil_of_high
        intro r hr
        have := M.hheight r hr
        omega
      have hnil : levelEntries
          (pre ++ (⟨told.arena.length, nm, q, insLevel told drawn⟩ : Row) :: suf)
            L = [] := by
        apply levelEntries_nil_of_high
        intro r hr
        have hMM := not_le.mp hcase2
        rcases List.mem_append.mp hr with h | h
        · have := M.hheight r (hpremem r h)
          omega
        · rcases List.mem_cons.mp h with rfl | h'
          · show insLevel told drawn < L
            omega
          · have := M.hheight r (hsufmem r h')
            omega
      rw [hnil]
      show (insertFresh told nm (.fin q) drawn).nextOf 0 L = some 1
      have hOldT := M.htail L hL
      rw [hnilold] at hOldT
      have h0nid : (0 : ℕ) ≠ told.arena.length := by
        have := M.hlen
        omega
      rw [G9 L 0 h0nid (fun hc => absurd hc (by omega))]
      exact hOldT
  · have hid0 : (lastLessE rows 0 (q, nm)).1 = lastOf (pre.map Row.id) 0 := by
      show (lastOf ((lessRows rows 0 (q, nm)).map eOf) ((0 : ℕ), (0 : ℤ))).1 = _
      rw [hless0]
      exact lastOf_annot_id pre 1 ((0 : ℕ), (0 : ℤ))
    rcases suf with _ | ⟨s, ss⟩
    · have hge0n : geRows rows 0 (q, nm) = [] := by
        rw [hge0]
        rfl
      have hm : told.nextOf (lastLessE rows 0 (q, nm)).1 0 = some 1 :=
        (stop_link M 0 (by decide) (q, nm)).2 hge0n
      have hO := M.hprev
      rw [hsplit, List.map_append] at hO
      simp only [List.map_nil, List.append_nil] at hO
      have hO' : List.Chain' (fun a b => told.prevOf b = some a)
          ((0 :: pre.map Row.id) ++ [1]) := hO
      rcases List.chain'_append.mp hO' with ⟨hO1, -, -⟩
      rw [List.map_append, List.map_cons]
      simp only [List.map_nil]
      rw [List.append_assoc]
      show List.Chain' (fun a b =>
          (insertFresh told nm (.fin q) drawn).prevOf b = some a)
        ((0 :: pre.map Row.id) ++ (told.arena.length :: [1]))
      refine List.chain'_append.mpr ⟨?_, ?_, ?_⟩
      · apply chain'_imp_adj _ hO1
        intro pre' x y suf' heq hR
        have hymem : y ∈ 0 :: pre.map Row.id := by
          rw [heq]
          exact List.mem_append.mpr (Or.inr (List.mem_cons_of_mem _
            (List.mem_cons_self _ _)))
        have hyb : y = 0 ∨ ∃ r ∈ pre, y = r.id := by
          rcases List.mem_cons.mp hymem with h | h
          · exact Or.inl h
          · rcases List.mem_map.mp h with ⟨r, hr, hid⟩
            exact Or.inr ⟨r, hr, hid.symm⟩
        have hynid : y ≠ told.arena.length := by
          rcases hyb with rfl | ⟨r, hr, rfl⟩
          · have := M.hlen
            omega
          · have := (M.hid r (hpremem r hr)).2
            omega
        have hym : ∀ m', told.nextOf (lastLessE rows 0 (q, nm)).1 0 = some m' →
            y ≠ m' := by
          intro m' hm'
          rw [hm] at hm'
          cases Option.some.inj hm'
          rcases hyb with rfl | ⟨r, hr, rfl⟩
          · omega
          · have := (M.hid r (hpremem r hr)).1
            omega
        rw [G17 y hynid hym]
        exact hR
      · refine List.chain'_cons.mpr ⟨?_, List.chain'_singleton _⟩
        exact G16 1 hm
      · intro x hx y hy
        rw [getLast?_eq_lastOf] at hx
        have hxe : x = lastOf (pre.map Row.id) 0 :=
          (Option.mem_some_iff.mp hx).symm
        rw [List.head?_cons] at hy
        have hye : y = told.arena.length := (Option.mem_some_iff.mp hy).symm
        rw [hxe, hye, G15, hid0]
    · have hge0c : geRows rows 0 (q, nm) =
          (s, 1 + (pre.length : ℤ)) ::
            annotAll ss (1 + (pre.length : ℤ) + 1) := by
        rw [hge0]
        rfl
      have hm : told.nextOf (lastLessE rows 0 (q, nm)).1 0 = some s.id :=
        ((stop_link M 0 (by decide) (q, nm)).1 _ _ hge0c).1
      have hO := M.hprev
      rw [hsplit, List.map_append, List.map_cons, List.append_assoc] at hO
      have hO' : List.Chain' (fun a b => told.prevOf b = some a)
          ((0 :: pre.map Row.id) ++ ((s.id :: ss.map Row.id) ++ [1])) := hO
      rcases List.chain'_append.mp hO' with ⟨hO1, hO2, -⟩
      have hnd := prevList_nodup M
      rw [hsplit, List.map_append, List.map_cons, List.append_assoc] at hnd
      have htl := (List.nodup_cons.mp hnd).2
      have hdisj := (List.nodup_append.mp htl).2.2
      have hsufnd : (s.id :: (ss.map Row.id ++ [1])).Nodup :=
        (List.nodup_append.mp htl).2.1
      have hsnotin : s.id ∉ ss.map Row.id ++ [1] := (List.nodup_cons.mp hsufnd).1
      rw [List.map_append, List.map_cons, List.map_cons, List.append_assoc]
      show List.Chain' (fun a b =>
          (insertFresh told nm (.fin q) drawn).prevOf b = some a)
        ((0 :: pre.map Row.id) ++
          (told.arena.length :: ((s.id :: ss.map Row.id) ++ [1])))
      refine List.chain'_append.mpr ⟨?_, ?_, ?_⟩
      · apply chain'_imp_adj _ hO1
        intro pre' x y suf' heq hR
        have hymem : y ∈ 0 :: pre.map Row.id := by
          rw [heq]
          exact List.mem_append.mpr (Or.inr (List.mem_cons_of_mem _
            (List.mem_cons_self _ _)))
        have hyb : y = 0 ∨ ∃ r ∈ pre, y = r.id := by
          rcases List.mem_cons.mp hymem with h | h
          · exact Or.inl h
          · rcases List.mem_map.mp h with ⟨r, hr, hid⟩
            exact Or.inr ⟨r, hr, hid.symm⟩
        have hynid : y ≠ told.arena.length := by
          rcases hyb with rfl | ⟨r, hr, rfl⟩
          · have := M.hlen
            omega
          · have := (M.hid r (hpremem r hr)).2
            omega
        have hym : ∀ m', told.nextOf (lastLessE rows 0 (q, nm)).1 0 = some m' →
            y ≠ m' := by
          intro m' hm'
          rw [hm] at hm'
          cases Option.some.inj hm'
          rcases hyb with rfl | ⟨r, hr, rfl⟩
          · have := (M.hid s (hsufmem s (List.mem_cons_self _ _))).1
            omega
          · intro hc
            exact hdisj (List.mem_map_of_mem Row.id hr)
              (by rw [← hc]
                  exact List.mem_append.mpr
                    (Or.inl (List.mem_cons_self _ _)))
        rw [G17 y hynid hym]
        exact hR
      · show List.Chain' (fun a b =>
            (insertFresh told nm (.fin q) drawn).prevOf b = some a)
          (told.arena.length :: (s.id :: (ss.map Row.id ++ [1])))
        refine List.chain'_cons.mpr ⟨G16 s.id hm, ?_⟩
        have hO2' : List.Chain' (fun a b => told.prevOf b = some a)
            (s.id :: (ss.map Row.id ++ [1])) := hO2
        apply chain'_imp_adj _ hO2'
        intro pre' x y suf' heq hR
        have hymem : y ∈ ss.map Row.id ++ [1] := mem_tail_of_decomp heq
        have hyb : y = 1 ∨ ∃ r ∈ ss, y = r.id := by
          rcases List.mem_append.mp hymem with h | h
          · rcases List.mem_map.mp h with ⟨r, hr, hid⟩
            exact Or.inr ⟨r, hr, hid.symm⟩
          · exact Or.inl (by simpa using h)
        have hynid : y ≠ told.arena.length := by
          rcases hyb with rfl | ⟨r, hr, rfl⟩
          · have := M.hlen
            omega
          · have := (M.hid r (hsufmem r (List.mem_cons_of_mem _ hr))).2
            omega
        have hym : ∀ m', told.nextOf (lastLessE rows 0 (q, nm)).1 0 = some m' →
            y ≠ m' := by
          intro m' hm' hc
          rw [hm] at hm'
          cases Option.some.inj hm'
          rw [hc] at hymem
          exact hsnotin hymem
        rw [G17 y hynid hym]
        exact hR
      · intro x hx y hy
        rw [getLast?_eq_lastOf] at hx
        have hxe : x = lastOf (pre.map Row.id) 0 :=
          (Option.mem_some_iff.mp hx).symm
        rw [List.head?_cons] at hy
        have hye : y = told.arena.length := (Option.mem_some_iff.mp hy).symm
        rw [hxe, hye, G15, hid0]
  · rw [hset, List.map_append]
    rw [List.nodup_append]
    refine ⟨M.hkeysnodup, by simp, ?_⟩
    intro a ha hb
    have hanm : a = nm := by
      simpa using hb
    subst hanm
    exact elemsLookup_none_keys told.elements a (M.helemnone a hfresh) ha
  · rw [hset]
    simp only [List.length_append, List.length_cons, List.length_singleton,
      List.length_nil]
    rw [M.helemlen]
    omega
  · intro r hr
    rcases List.mem_append.mp hr with hr | hr
    · rw [hset, elemsLookup_append_other _ _ _ _ (hfresh r (hpremem r hr))]
      exact M.helemsome r (hpremem r hr)
    · rcases List.mem_cons.mp hr with rfl | hr'
      · rw [hset]
        exact elemsLookup_append_self _ _ _ (M.helemnone nm hfresh)
      · rw [hset, elemsLookup_append_other _ _ _ _ (hfresh r (hsufmem r hr'))]
        exact M.helemsome r (hsufmem r hr')
  · intro n hn
    have hnnm : nm ≠ n :=
      hn ⟨told.arena.length, nm, q, insLevel told drawn⟩
        (List.mem_append.mpr (Or.inr (List.mem_cons_self _ _)))
    rw [hset, elemsLookup_append_other _ _ _ _ (fun hc => hnnm hc.symm)]
    refine M.helemnone n ?_
    intro r hr
    rcases List.mem_append.mp (hsplit ▸ hr : r ∈ pre ++ suf) with hr' | hr'
    · exact hn r (List.mem_append.mpr (Or.inl hr'))
    · exact hn r (List.mem_append.mpr
        (Or.inr (List.mem_cons_of_mem _ hr')))

end SkipListGo

namespace SkipListGo

/-- Arena-shape preservation: length, names, scores and link-array widths
are unchanged (`maxLevel` and the index may move, unlike `LinkPres`). -/
def NodePres (t t' : SkipList) : Prop :=
  t'.arena.length = t.arena.length ∧
  ∀ j, (t'.get j).name = (t.get j).name ∧ (t'.get j).score = (t.get j).score ∧
    (t'.get j).next.length = (t.get j).next.length ∧
    (t'.get j).span.length = (t.get j).span.length

theorem NodePres.base (t : SkipList) : NodePres t t :=
  ⟨rfl, fun _ => ⟨rfl, rfl, rfl, rfl⟩⟩

theorem NodePres.seq {a b c : SkipList} (h1 : NodePres a b)
    (h2 : NodePres b c) : NodePres a c := by
  refine ⟨h2.1.trans h1.1, fun j => ?_⟩
  rcases h1.2 j with ⟨a1, a2, a3, a4⟩
  rcases h2.2 j with ⟨b1, b2, b3, b4⟩
  exact ⟨b1.trans a1, b2.trans a2, b3.trans a3, b4.trans a4⟩

theorem NodePres.ofLinkPres {t t' : SkipList} (h : LinkPres t t') :
    NodePres t t' := ⟨h.1, h.2.2.2⟩

theorem NodePres.maxLevelSet {t t' : SkipList} (h : NodePres t t') (v : ℕ) :
    NodePres t { t' with maxLevel := v } := h

theorem NodePres.elementsSet {t t' : SkipList} (h : NodePres t t')
    (es : List (String × EScore)) :
    NodePres t { t' with elements := es } := h

theorem nextOf_maxLevelSet (t : SkipList) (v : ℕ) (j l : ℕ) :
    ({ t with maxLevel := v } : SkipList).nextOf j l = t.nextOf j l := rfl

theorem spanOf_maxLevelSet (t : SkipList) (v : ℕ) (j l : ℕ) :
    ({ t with maxLevel := v } : SkipList).spanOf j l = t.spanOf j l := rfl

theorem prevOf_maxLevelSet (t : SkipList) (v : ℕ) (j : ℕ) :
    ({ t with maxLevel := v } : SkipList).prevOf j = t.prevOf j := rfl

theorem nextOf_elementsSet (t : SkipList) (es : List (String × EScore)) (j l : ℕ) :
    ({ t with elements := es } : SkipList).nextOf j l = t.nextOf j l := rfl

theorem spanOf_elementsSet (t : SkipList) (es : List (String × EScore)) (j l : ℕ) :
    ({ t with elements := es } : SkipList).spanOf j l = t.spanOf j l := rfl

theorem prevOf_elementsSet (t : SkipList) (es : List (String × EScore)) (j : ℕ) :
    ({ t with elements := es } : SkipList).prevOf j = t.prevOf j := rfl

/-- The not-found branch of the per-level `Delete` mutation: the walk's stop
node is not followed by the target, so only its span shrinks by one. -/
theorem deleteLevelStep_skip (t : SkipList) (q : ℤ) (nm : String) (l c nid : ℕ)
    (h1 : t.nextOf c l = some nid)
    (h2 : ((t.get nid).Equal (.fin q) nm) = false) :
    deleteLevelStep (.fin q) nm l t c = t.setSpan c l (t.spanOf c l - 1) := by
  unfold deleteLevelStep
  rw [h1]
  simp only [h2, Bool.false_eq_true, if_false]

end SkipListGo

namespace SkipListGo

/-- The found branch of the per-level `Delete` mutation (source lines
354–369): splice the target out of level `l`, folding its span into the stop
node, with the base `prev`/index fixes at level 0 and the conditional
`maxLevel` shrink. -/
theorem deleteLevelStep_splice (t : SkipList) (q : ℤ) (nm : String)
    (l c nid : ℕ)
    (h1 : t.nextOf c l = some nid)
    (h2 : ((t.get nid).Equal (.fin q) nm) = true)
    (hnc : nid ≠ c)
    (hclen : c < t.arena.length)
    (hL : l < MaxLevel)
    (hwc : (t.get c).next.length = MaxLevel)
    (hws : (t.get c).span.length = MaxLevel)
    (hm : ∀ m, t.nextOf nid l = some m → m < t.arena.length) :
    NodePres t (deleteLevelStep (.fin q) nm l t c) ∧
    (deleteLevelStep (.fin q) nm l t c).spanOf c l =
      t.spanOf c l + t.spanOf nid l - 1 ∧
    (deleteLevelStep (.fin q) nm l t c).nextOf c l = t.nextOf nid l ∧
    (∀ j l', j ≠ c ∨ l' ≠ l →
      (deleteLevelStep (.fin q) nm l t c).spanOf j l' = t.spanOf j l' ∧
      (deleteLevelStep (.fin q) nm l t c).nextOf j l' = t.nextOf j l') ∧
    (l = 0 →
      (deleteLevelStep (.fin q) nm l t c).elements = elemsErase t.elements nm ∧
      (∀ m, t.nextOf nid 0 = some m →
        (deleteLevelStep (.fin q) nm l t c).prevOf m = some c) ∧
      (∀ j, (∀ m, t.nextOf nid 0 = some m → j ≠ m) →
        (deleteLevelStep (.fin q) nm l t c).prevOf j = t.prevOf j)) ∧
    (l ≠ 0 →
      (deleteLevelStep (.fin q) nm l t c).elements = t.elements ∧
      ∀ j, (deleteLevelStep (.fin q) nm l t c).prevOf j = t.prevOf j) ∧
    (deleteLevelStep (.fin q) nm l t c).maxLevel =
      (if (if c = 0 then t.nextOf nid l else t.nextOf 0 l) = some 1 ∧ 0 < l
       then l - 1 else t.maxLevel) := by
  have P1 := LinkPres.setSpan t c l (t.spanOf c l + t.spanOf nid l - 1)
  simp only [deleteLevelStep, h1]
  rw [if_pos h2]
  rw [nextOf_setNext_other _ _ _ _ _ _ (Or.inl hnc), nextOf_setSpan]
  by_cases hl0 : l = 0
  · subst hl0
    rw [if_pos rfl]
    rcases hmv : t.nextOf nid 0 with _ | m
    · have P2 := LinkPres.setNext
        (t.setSpan c 0 (t.spanOf c 0 + t.spanOf nid 0 - 1)) c 0 (none : Option ℕ)
      have hP : NodePres t
          ((t.setSpan c 0 (t.spanOf c 0 + t.spanOf nid 0 - 1)).setNext c 0
            none) := NodePres.ofLinkPres (P1.chain P2)
      rw [if_neg (fun hcc => Nat.lt_irrefl 0 hcc.2)]
      rw [if_neg (fun hcc => Nat.lt_irrefl 0 hcc.2)]
      refine ⟨hP.elementsSet _, ?_, ?_, ?_, ?_, ?_, ?_⟩
      · show ((t.setSpan c 0 _).setNext c 0 none).spanOf c 0 = _
        rw [spanOf_setNext, spanOf_setSpan_self _ _ _ _ hclen (by omega)]
      · show ((t.setSpan c 0 _).setNext c 0 none).nextOf c 0 = _
        rw [nextOf_setNext_self _ c 0 none (by rw [P1.1]; exact hclen)
          (by rw [(P1.2.2.2 c).2.2.1, hwc]; omega)]
      · intro j l' hd
        constructor
        · show ((t.setSpan c 0 _).setNext c 0 none).spanOf j l' = _
          rw [spanOf_setNext, spanOf_setSpan_other _ _ _ _ _ _
            (by rcases hd with h | h
                · exact Or.inl h
                · exact Or.inr h)]
        · show ((t.setSpan c 0 _).setNext c 0 none).nextOf j l' = _
          rw [nextOf_setNext_other _ _ _ _ _ _
            (by rcases hd with h | h
                · exact Or.inl h
                · exact Or.inr h), nextOf_setSpan]
      · intro _
        refine ⟨rfl, ?_, ?_⟩
        · intro m hmeq
          exact absurd hmeq (by simp)
        · intro j _
          show ((t.setSpan c 0 _).setNext c 0 none).prevOf j = _
          rw [prevOf_setNext, prevOf_setSpan]
      · intro hcc
        exact absurd rfl hcc
      · rfl
    · have P2 := LinkPres.setNext
        (t.setSpan c 0 (t.spanOf c 0 + t.spanOf nid 0 - 1)) c 0 (some m)
      have P3 := LinkPres.setPrev
        ((t.setSpan c 0 (t.spanOf c 0 + t.spanOf nid 0 - 1)).setNext c 0
          (some m)) m (some c)
      have hP : NodePres t
          (((t.setSpan c 0 (t.spanOf c 0 + t.spanOf nid 0 - 1)).setNext c 0
            (some m)).setPrev m (some c)) :=
        NodePres.ofLinkPres ((P1.chain P2).chain P3)
      rw [if_neg (fun hcc => Nat.lt_irrefl 0 hcc.2)]
      rw [if_neg (fun hcc => Nat.lt_irrefl 0 hcc.2)]
      refine ⟨hP.elementsSet _, ?_, ?_, ?_, ?_, ?_, ?_⟩
      · show (((t.setSpan c 0 _).setNext c 0 (some m)).setPrev m
          (some c)).spanOf c 0 = _
        rw [spanOf_setPrev, spanOf_setNext,
          spanOf_setSpan_self _ _ _ _ hclen (by omega)]
      · show (((t.setSpan c 0 _).setNext c 0 (some m)).setPrev m
          (some c)).nextOf c 0 = _
        rw [nextOf_setPrev, nextOf_setNext_self _ c 0 (some m)
          (by rw [P1.1]; exact hclen)
          (by rw [(P1.2.2.2 c).2.2.1, hwc]; omega)]
      · intro j l' hd
        constructor
        · show (((t.setSpan c 0 _).setNext c 0 (some m)).setPrev m
            (some c)).spanOf j l' = _
          rw [spanOf_setPrev, spanOf_setNext, spanOf_setSpan_other _ _ _ _ _ _
            (by rcases hd with h | h
                · exact Or.inl h
                · exact Or.inr h)]
        · show (((t.setSpan c 0 _).setNext c 0 (some m)).setPrev m
            (some c)).nextOf j l' = _
          rw [nextOf_setPrev, nextOf_setNext_other _ _ _ _ _ _
            (by rcases hd with h | h
                · exact Or.inl h
                · exact Or.inr h), nextOf_setSpan]
      · intro _
        refine ⟨rfl, ?_, ?_⟩
        · intro m' hmeq
          have hmm : m = m' := Option.some.inj hmeq
          subst hmm
          show (((t.setSpan c 0 _).setNext c 0 (some m)).setPrev m
            (some c)).prevOf m = some c
          rw [prevOf_setPrev_self _ m (some c)
            (by rw [P2.1, P1.1]; exact hm m hmv)]
        · intro j hj
          show (((t.setSpan c 0 _).setNext c 0 (some m)).setPrev m
            (some c)).prevOf j = _
          rw [prevOf_setPrev_other _ _ _ _ (hj m rfl), prevOf_setNext,
            prevOf_setSpan]
      · intro hcc
        exact absurd rfl hcc
      · rfl
  · rw [if_neg hl0]
    have P2 := LinkPres.setNext
      (t.setSpan c l (t.spanOf c l + t.spanOf nid l - 1)) c l (t.nextOf nid l)
    have hP : NodePres t
        ((t.setSpan c l (t.spanOf c l + t.spanOf nid l - 1)).setNext c l
          (t.nextOf nid l)) := NodePres.ofLinkPres (P1.chain P2)
    have hval : ((t.setSpan c l (t.spanOf c l + t.spanOf nid l - 1)).setNext c l
        (t.nextOf nid l)).nextOf 0 l =
        (if c = 0 then t.nextOf nid l else t.nextOf 0 l) := by
      by_cases hc0 : c = 0
      · subst hc0
        rw [if_pos rfl]
        rw [nextOf_setNext_self _ 0 l (t.nextOf nid l)
          (by rw [P1.1]; exact hclen)
          (by rw [(P1.2.2.2 0).2.2.1, hwc]; omega)]
      · rw [if_neg hc0]
        rw [nextOf_setNext_other _ _ _ _ _ _ (Or.inl (fun hcc => hc0 hcc.symm)),
          nextOf_setSpan]
    simp only [hval]
    by_cases hcnd : (if c = 0 then t.nextOf nid l else t.nextOf 0 l) = some 1 ∧
        0 < l
    · rw [if_pos hcnd, if_pos hcnd]
      refine ⟨hP.maxLevelSet _, ?_, ?_, ?_, ?_, ?_, ?_⟩
      · show ((t.setSpan c l _).setNext c l (t.nextOf nid l)).spanOf c l = _
        rw [spanOf_setNext, spanOf_setSpan_self _ _ _ _ hclen
          (by rw [hws]; omega)]
      · show ((t.setSpan c l _).setNext c l (t.nextOf nid l)).nextOf c l = _
        rw [nextOf_setNext_self _ c l (t.nextOf nid l)
          (by rw [P1.1]; exact hclen)
          (by rw [(P1.2.2.2 c).2.2.1, hwc]; omega)]
      · intro j l' hd
        constructor
        · show ((t.setSpan c l _).setNext c l (t.nextOf nid l)).spanOf j l' = _
          rw [spanOf_setNext, spanOf_setSpan_other _ _ _ _ _ _
            (by rcases hd with h | h
                · exact Or.inl h
                · exact Or.inr h)]
        · show ((t.setSpan c l _).setNext c l (t.nextOf nid l)).nextOf j l' = _
          rw [nextOf_setNext_other _ _ _ _ _ _
            (by rcases hd with h | h
                · exact Or.inl h
                · exact Or.inr h), nextOf_setSpan]
      · intro hcc
        exact absurd hcc hl0
      · intro _
        refine ⟨rfl, fun j => ?_⟩
        show ((t.setSpan c l _).setNext c l (t.nextOf nid l)).prevOf j = _
        rw [prevOf_setNext, prevOf_setSpan]
      · rfl
    · rw [if_neg hcnd, if_neg hcnd]
      refine ⟨hP, ?_, ?_, ?_, ?_, ?_, ?_⟩
      · show ((t.setSpan c l _).setNext c l (t.nextOf nid l)).spanOf c l = _
        rw [spanOf_setNext, spanOf_setSpan_self _ _ _ _ hclen
          (by rw [hws]; omega)]
      · show ((t.setSpan c l _).setNext c l (t.nextOf nid l)).nextOf c l = _
        rw [nextOf_setNext_self _ c l (t.nextOf nid l)
          (by rw [P1.1]; exact hclen)
          (by rw [(P1.2.2.2 c).2.2.1, hwc]; omega)]
      · intro j l' hd
        constructor
        · show ((t.setSpan c l _).setNext c l (t.nextOf nid l)).spanOf j l' = _
          rw [spanOf_setNext, spanOf_setSpan_other _ _ _ _ _ _
            (by rcases hd with h | h
                · exact Or.inl h
                · exact Or.inr h)]
        · show ((t.setSpan c l _).setNext c l (t.nextOf nid l)).nextOf j l' = _
          rw [nextOf_setNext_other _ _ _ _ _ _
            (by rcases hd with h | h
                · exact Or.inl h
                · exact Or.inr h), nextOf_setSpan]
      · intro hcc
        exact absurd hcc hl0
      · intro _
        refine ⟨rfl, fun j => ?_⟩
        show ((t.setSpan c l _).setNext c l (t.nextOf nid l)).prevOf j = _
        rw [prevOf_setNext, prevOf_setSpan]
      · rfl

end SkipListGo

namespace SkipListGo

theorem elemEqual_congr {e e' : Element} (hs : e.score = e'.score)
    (hn : e.name = e'.name) (s : EScore) (n : String) :
    e.Equal s n = e'.Equal s n := by
  unfold Element.Equal
  rw [hs, hn]

theorem mem_annotAll_exists : ∀ (l : List Row) (p : ℤ) {r : Row}, r ∈ l →
    ∃ x ∈ annotAll l p, x.1 = r := by
  intro l
  induction l with
  | nil =>
    intro p r hr
    exact absurd hr (List.not_mem_nil r)
  | cons a as ih =>
    intro p r hr
    rcases List.mem_cons.mp hr with rfl | hr'
    · exact ⟨(r, p), List.mem_cons_self _ _, rfl⟩
    · rcases ih (p + 1) hr' with ⟨y, hy, hy1⟩
      exact ⟨y, List.mem_cons_of_mem _ hy, hy1⟩

theorem row_name_inj {S : List ℤ} {t : SkipList} {rows : List Row}
    (M : Models S t rows) {a b : Row} (ha : a ∈ rows) (hb : b ∈ rows)
    (h : a.name = b.name) : a = b :=
  List.inj_on_of_nodup_map M.hnamenodup ha hb h

theorem levelEntries_split_k (rows : List Row)
    (hs : rows.Pairwise (fun a b => rowLt a.key b.key)) (l : ℕ)
    (k : ℤ × String) :
    levelEntries rows l = (lessRows rows l k).map eOf ++
      (geRows rows l k).map eOf := by
  rw [levelEntries_eq, levelRows_split hs l k, List.map_append]

theorem lastLessE_empty (rows : List Row) (l : ℕ) (k : ℤ × String)
    (h : lessRows rows l k = []) : lastLessE rows l k = ((0 : ℕ), (0 : ℤ)) := by
  unfold lastLessE
  rw [h]
  rfl

theorem lastOf_mem {α : Type} : ∀ (l : List α) (d : α), l ≠ [] →
    lastOf l d ∈ l := by
  intro l d h
  cases l with
  | nil => exact absurd rfl h
  | cons a as =>
    rcases lastOf_mem_or as a with hh | hh
    · exact List.mem_cons_of_mem _ hh
    · rw [show lastOf (a :: as) d = lastOf as a from rfl, hh]
      exact List.mem_cons_self _ _

theorem lastLessE_ne0 {S : List ℤ} {t : SkipList} {rows : List Row}
    (M : Models S t rows) {l : ℕ} {k : ℤ × String}
    (h : lessRows rows l k ≠ []) : 2 ≤ (lastLessE rows l k).1 := by
  have hmapne : (lessRows rows l k).map eOf ≠ [] := fun hc =>
    h (List.map_eq_nil_iff.mp hc)
  have hm := lastOf_mem ((lessRows rows l k).map eOf) ((0 : ℕ), (0 : ℤ)) hmapne
  rcases List.mem_map.mp hm with ⟨y, hy, hye⟩
  have hid := M.hid y.1 (mem_lessRows hy).1
  have h1 : (lastLessE rows l k).1 = y.1.id := by
    show (lastOf ((lessRows rows l k).map eOf) ((0 : ℕ), (0 : ℤ))).1 = y.1.id
    rw [← hye]
    rfl
  omega

theorem first_link {S : List ℤ} {told : SkipList} {rows : List Row}
    (M : Models S told rows) {l : ℕ} (hL : l < MaxLevel) {e1 : ℕ × ℤ}
    {rest : List (ℕ × ℤ)} (hE : levelEntries rows l = e1 :: rest) :
    told.nextOf 0 l = some e1.1 := by
  have hch := M.hlinks l hL
  unfold fullLevel at hch
  rw [hE] at hch
  exact (List.chain'_cons.mp hch).1.1

theorem levelEntries_id {S : List ℤ} {told : SkipList} {rows : List Row}
    (M : Models S told rows) {l : ℕ} {e : ℕ × ℤ}
    (he : e ∈ levelEntries rows l) :
    2 ≤ e.1 ∧ e.1 < told.arena.length := by
  rcases List.mem_map.mp he with ⟨y, hy, hye⟩
  have hid := M.hid y.1 (mem_levelRows hy)
  have h1 : e.1 = y.1.id := by rw [← hye]
  omega

/-- The target's own forward link on a level it occupies: to the following
level entry with its exact span, or to the tail if it is the level's last. -/
theorem target_next_eq {S : List ℤ} {told : SkipList} {rows : List Row}
    (M : Models S told rows) {x : Row × ℤ} (hx : x ∈ annotAll rows 1)
    {l : ℕ} (hL : l < MaxLevel) (hl : l ≤ x.1.height) :
    ∃ gs, geRows rows l x.1.key = x :: gs ∧
      ((gs = [] ∧ told.nextOf x.1.id l = some 1) ∨
       (∃ g gs', gs = g :: gs' ∧ told.nextOf x.1.id l = some g.1.id ∧
         told.spanOf x.1.id l = g.2 - x.2)) := by
  rcases geRows_head M.hsorted hx hl with ⟨gs, hG⟩
  refine ⟨gs, hG, ?_⟩
  rcases gs with _ | ⟨g, gs'⟩
  · refine Or.inl ⟨rfl, ?_⟩
    have hE : levelEntries rows l =
        (lessRows rows l x.1.key).map eOf ++ [eOf x] := by
      rw [levelEntries_split_k rows M.hsorted l x.1.key, hG]
      rfl
    have ht := M.htail l hL
    rw [hE, lastOf_append] at ht
    exact ht
  · refine Or.inr ⟨g, gs', rfl, ?_⟩
    have hch := M.hlinks l hL
    have hE : fullLevel rows l =
        (((0 : ℕ), (0 : ℤ)) :: (lessRows rows l x.1.key).map eOf) ++
          (eOf x :: eOf g :: (gs'.map eOf)) := by
      unfold fullLevel
      rw [levelEntries_split_k rows M.hsorted l x.1.key, hG]
      rfl
    rw [hE] at hch
    have h2 := (List.chain'_append.mp hch).2.1
    have h3 := (List.chain'_cons.mp h2).1
    exact ⟨h3.1, h3.2⟩

/-- On an occupied level the walk's stop node links straight to the target. -/
theorem delete_target_link {S : List ℤ} {told : SkipList} {rows : List Row}
    (M : Models S told rows) {x : Row × ℤ} (hx : x ∈ annotAll rows 1)
    {l : ℕ} (hL : l < MaxLevel) (hl : l ≤ x.1.height) :
    told.nextOf (lastLessE rows l x.1.key).1 l = some x.1.id ∧
    told.spanOf (lastLessE rows l x.1.key).1 l =
      x.2 - (lastLessE rows l x.1.key).2 := by
  rcases geRows_head M.hsorted hx hl with ⟨gs, hG⟩
  exact (stop_link M l hL x.1.key).1 x gs hG

theorem delete_equal_self {S : List ℤ} {told : SkipList} {rows : List Row}
    (M : Models S told rows) {x : Row} (hx : x ∈ rows) :
    (told.get x.id).Equal (.fin x.score) x.name = true := by
  rw [elemEqual_row (M.hscore x hx) (M.hname x hx) x.score x.name (Or.inl rfl)]
  simp

/-- On a level above the target's height the stop node's successor fails the
`Equal` test. -/
theorem delete_equal_off {S : List ℤ} {told : SkipList} {rows : List Row}
    (M : Models S told rows) {x : Row × ℤ} (hx : x ∈ annotAll rows 1)
    (hsep : ∀ r ∈ rows, sepScore r.score x.1.score)
    {l : ℕ} (hL : l < MaxLevel) (hl : x.1.height < l) {nid : ℕ}
    (hnext : told.nextOf (lastLessE rows l x.1.key).1 l = some nid) :
    (told.get nid).Equal (.fin x.1.score) x.1.name = false := by
  rcases hG : geRows rows l x.1.key with _ | ⟨g, gs⟩
  · have h1 := (stop_link M l hL x.1.key).2 hG
    rw [h1] at hnext
    cases Option.some.inj hnext
    exact elemEqual_posInf M.htailscore x.1.score x.1.name
  · have h1 := ((stop_link M l hL x.1.key).1 g gs hG).1
    rw [h1] at hnext
    cases Option.some.inj hnext
    have hgmem : g ∈ geRows rows l x.1.key := by
      rw [hG]
      exact List.mem_cons_self g gs
    have hgrow := (mem_geRows hgmem).1
    have hgl : l ≤ g.1.height := by
      have := (List.mem_filter.mp hgmem).2
      simp only [Bool.and_eq_true, decide_eq_true_eq] at this
      exact this.1
    have hgx : g.1 ≠ x.1 := by
      intro hc
      rw [hc] at hgl
      omega
    have hgname : g.1.name ≠ x.1.name := fun hc =>
      hgx (row_name_inj M hgrow (mem_annotAll_fst hx) hc)
    rw [elemEqual_row (M.hscore g.1 hgrow) (M.hname g.1 hgrow) x.1.score
      x.1.name (hsep g.1 hgrow)]
    have hb : (g.1.name == x.1.name) = false := beq_eq_false_iff_ne.mpr hgname
    rw [hb, Bool.and_false]

/-- When every other key stops below `l`, the target is the only level-`l`
entry. -/
theorem delete_level_empty {S : List ℤ} {told : SkipList} {rows : List Row}
    (M : Models S told rows) {x : Row × ℤ} (hx : x ∈ annotAll rows 1)
    {H l : ℕ} (hHle : ∀ r ∈ rows, r.name ≠ x.1.name → r.height ≤ H)
    (hHl : H < l) (hlx : l ≤ x.1.height) :
    lessRows rows l x.1.key = [] ∧ geRows rows l x.1.key = [x] := by
  have hother : ∀ r ∈ rows, r ≠ x.1 → r.height < l := by
    intro r hr hrx
    have : r.name ≠ x.1.name := fun hc =>
      hrx (row_name_inj M hr (mem_annotAll_fst hx) hc)
    have := hHle r hr this
    omega
  constructor
  · unfold lessRows
    rw [List.filter_eq_nil_iff]
    intro e he
    have herow := mem_annotAll_fst he
    simp only [Bool.and_eq_true, decide_eq_true_eq, not_and]
    intro hcond hlt
    have hex : e.1 ≠ x.1 := by
      intro hc
      rw [hc] at hlt
      exact rowLt_irrefl x.1.key hlt
    have := hother e.1 herow hex
    omega
  · rcases geRows_head M.hsorted hx hlx with ⟨gs, hG⟩
    rcases gs with _ | ⟨g, gs'⟩
    · exact hG
    · exfalso
      have hgmem : g ∈ geRows rows l x.1.key := by
        rw [hG]
        exact List.mem_cons_of_mem _ (List.mem_cons_self g gs')
      have hgrow := (mem_geRows hgmem).1
      have hgl : l ≤ g.1.height := by
        have := (List.mem_filter.mp hgmem).2
        simp only [Bool.and_eq_true, decide_eq_true_eq] at this
        exact this.1
      have hp : (geRows rows l x.1.key).Pairwise
          (fun a b => rowLt a.1.key b.1.key) :=
        (annotAll_pairwise (R := fun a b => rowLt a.key b.key) 1
          M.hsorted).filter _
      rw [hG] at hp
      have hlt := (List.pairwise_cons.mp hp).1 g (List.mem_cons_self g gs')
      have hgx : g.1 ≠ x.1 := by
        intro hc
        rw [show g.1.key = x.1.key from by rw [hc]] at hlt
        exact rowLt_irrefl x.1.key hlt
      have := hother g.1 hgrow hgx
      omega

/-- When a surviving key reaches level `l`, the level keeps an entry other
than the target. -/
theorem delete_level_occupied {S : List ℤ} {told : SkipList} {rows : List Row}
    (M : Models S told rows) {x : Row × ℤ} (hx : x ∈ annotAll rows 1)
    {H l : ℕ} (hHw : ∃ r ∈ rows, r.name ≠ x.1.name ∧ H ≤ r.height)
    (hlH : l ≤ H) (hlx : l ≤ x.1.height) :
    lessRows rows l x.1.key ≠ [] ∨
      ∃ g gs', geRows rows l x.1.key = x :: g :: gs' := by
  rcases hHw with ⟨r, hr, hrn, hrh⟩
  rcases mem_annotAll_exists rows 1 hr with ⟨e, he, he1⟩
  have helev : e ∈ levelRows rows l := by
    rw [show levelRows rows l = (annotAll rows 1).filter
        (fun y => decide (l ≤ y.1.height)) from rfl]
    refine List.mem_filter.mpr ⟨he, ?_⟩
    rw [he1]
    simp only [decide_eq_true_eq]
    omega
  rw [levelRows_split M.hsorted l x.1.key] at helev
  rcases List.mem_append.mp helev with hel | heg
  · refine Or.inl ?_
    intro hc
    rw [hc] at hel
    exact List.not_mem_nil e hel
  · rcases geRows_head M.hsorted hx hlx with ⟨gs, hG⟩
    rcases gs with _ | ⟨g, gs'⟩
    · exfalso
      rw [hG] at heg
      rcases List.mem_cons.mp heg with hh | hh
      · exact hrn (by rw [← he1, hh])
      · exact List.not_mem_nil e hh
    · exact Or.inr ⟨g, gs', hG⟩

end SkipListGo

namespace SkipListGo

/-- The `Delete` descent loop (source lines 346–370), run from the top
level down: on each level the walk stops just before the target, the target
is spliced out on the levels it occupies and the stop span shrinks by one on
the levels it does not, with the index, base-`prev` and `maxLevel` updates
of the level-0 and emptied-level branches. -/
theorem deleteLevels_spec {S : List ℤ} {told : SkipList} {rows : List Row}
    (M : Models S told rows) {x : Row × ℤ} (hx : x ∈ annotAll rows 1)
    (hsep : ∀ r ∈ rows, sepScore r.score x.1.score)
    (H : ℕ)
    (hHle : ∀ r ∈ rows, r.name ≠ x.1.name → r.height ≤ H)
    (hHw : H = 0 ∨ ∃ r ∈ rows, r.name ≠ x.1.name ∧ H ≤ r.height) :
    ∀ L : ℕ, L ≤ told.maxLevel →
    ∀ t : SkipList,
      t.arena.length = told.arena.length →
      (∀ l, l ≤ L → ∀ j, j < told.arena.length → t.nextOf j l = told.nextOf j l) →
      (∀ l, l ≤ L → ∀ j, j < told.arena.length → t.spanOf j l = told.spanOf j l) →
      (∀ j, j < told.arena.length →
        (t.get j).name = (told.get j).name ∧
        (t.get j).score = (told.get j).score) →
      (∀ j, (t.get j).next.length = MaxLevel ∧ (t.get j).span.length = MaxLevel) →
      NodePres t (deleteLevels (.fin x.1.score) x.1.name
        ((List.range (L + 1)).reverse) t
        (lastLessE rows (L + 1) (x.1.score, x.1.name)).1).1 ∧
      (∀ l, l ≤ L → l ≤ x.1.height →
        (deleteLevels (.fin x.1.score) x.1.name ((List.range (L + 1)).reverse) t
          (lastLessE rows (L + 1) (x.1.score, x.1.name)).1).1.nextOf
            (lastLessE rows l (x.1.score, x.1.name)).1 l = told.nextOf x.1.id l ∧
        (deleteLevels (.fin x.1.score) x.1.name ((List.range (L + 1)).reverse) t
          (lastLessE rows (L + 1) (x.1.score, x.1.name)).1).1.spanOf
            (lastLessE rows l (x.1.score, x.1.name)).1 l =
          told.spanOf (lastLessE rows l (x.1.score, x.1.name)).1 l +
            told.spanOf x.1.id l - 1) ∧
      (∀ l, l ≤ L → x.1.height < l →
        (deleteLevels (.fin x.1.score) x.1.name ((List.range (L + 1)).reverse) t
          (lastLessE rows (L + 1) (x.1.score, x.1.name)).1).1.nextOf
            (lastLessE rows l (x.1.score, x.1.name)).1 l =
          told.nextOf (lastLessE rows l (x.1.score, x.1.name)).1 l ∧
        (deleteLevels (.fin x.1.score) x.1.name ((List.range (L + 1)).reverse) t
          (lastLessE rows (L + 1) (x.1.score, x.1.name)).1).1.spanOf
            (lastLessE rows l (x.1.score, x.1.name)).1 l =
          told.spanOf (lastLessE rows l (x.1.score, x.1.name)).1 l - 1) ∧
      (∀ l j, (l ≤ L → j ≠ (lastLessE rows l (x.1.score, x.1.name)).1) →
        (deleteLevels (.fin x.1.score) x.1.name ((List.range (L + 1)).reverse) t
          (lastLessE rows (L + 1) (x.1.score, x.1.name)).1).1.nextOf j l =
          t.nextOf j l ∧
        (deleteLevels (.fin x.1.score) x.1.name ((List.range (L + 1)).reverse) t
          (lastLessE rows (L + 1) (x.1.score, x.1.name)).1).1.spanOf j l =
          t.spanOf j l) ∧
      (deleteLevels (.fin x.1.score) x.1.name ((List.range (L + 1)).reverse) t
        (lastLessE rows (L + 1) (x.1.score, x.1.name)).1).1.elements =
        elemsErase t.elements x.1.name ∧
      ((∀ m, told.nextOf x.1.id 0 = some m →
        (deleteLevels (.fin x.1.score) x.1.name ((List.range (L + 1)).reverse) t
          (lastLessE rows (L + 1) (x.1.score, x.1.name)).1).1.prevOf m =
          some (lastLessE rows 0 (x.1.score, x.1.name)).1) ∧
       (∀ j, (∀ m, told.nextOf x.1.id 0 = some m → j ≠ m) →
        (deleteLevels (.fin x.1.score) x.1.name ((List.range (L + 1)).reverse) t
          (lastLessE rows (L + 1) (x.1.score, x.1.name)).1).1.prevOf j =
          t.prevOf j)) ∧
      (deleteLevels (.fin x.1.score) x.1.name ((List.range (L + 1)).reverse) t
        (lastLessE rows (L + 1) (x.1.score, x.1.name)).1).1.maxLevel =
        (if H < L then H else t.maxLevel) := by
  have hxid := M.hid x.1 (mem_annotAll_fst hx)
  intro L
  induction L with
  | zero =>
    intro h0 t hlen hag hsp hns hwid
    rw [range_reverse_succ 0]
    have hL0 : (0 : ℕ) < MaxLevel := by decide
    have hadv := advance_at_level M t 0 hL0 x.1.score x.1.name
      (fun j hj => hag 0 (le_refl 0) j hj)
      (fun j hj => hsp 0 (le_refl 0) j hj)
      (fun j hj => hns j hj) hsep t.arena.length
      (by have := M.hcard; omega) 0
    have hadv1 : (advanceLess t 0 (.fin x.1.score) x.1.name t.arena.length
        (lastLessE rows (0 + 1) (x.1.score, x.1.name)).1 0).1 =
        (lastLessE rows 0 (x.1.score, x.1.name)).1 := by
      rw [hadv]
    simp only [deleteLevels]
    rw [hadv1]
    have hc0lt : (lastLessE rows 0 (x.1.score, x.1.name)).1 < told.arena.length :=
      (lastLessE_bounds M 0 (x.1.score, x.1.name)).1
    have htl1 : told.nextOf (lastLessE rows 0 (x.1.score, x.1.name)).1 0 =
        some x.1.id := (delete_target_link M hx hL0 (Nat.zero_le _)).1
    have h1t : t.nextOf (lastLessE rows 0 (x.1.score, x.1.name)).1 0 =
        some x.1.id := by
      rw [hag 0 (le_refl 0) _ hc0lt]
      exact htl1
    have h2t : ((t.get x.1.id).Equal (.fin x.1.score) x.1.name) = true := by
      rw [elemEqual_congr (hns x.1.id hxid.2).2 (hns x.1.id hxid.2).1]
      exact delete_equal_self M (mem_annotAll_fst hx)
    have hnc := (stop_succ M 0 hL0 (x.1.score, x.1.name) htl1).2
    have hmlt : ∀ m, t.nextOf x.1.id 0 = some m → m < t.arena.length := by
      intro m hm
      rw [hag 0 (le_refl 0) x.1.id hxid.2] at hm
      rcases target_next_eq M hx hL0 (Nat.zero_le _) with ⟨gs, hG, hcase⟩
      rcases hcase with ⟨-, hnx⟩ | ⟨g, gs', hgs, hnx, -⟩
      · rw [hnx] at hm
        cases Option.some.inj hm
        rw [hlen]
        have := M.hlen
        omega
      · rw [hnx] at hm
        cases Option.some.inj hm
        have hgmem : g ∈ geRows rows 0 x.1.key := by
          rw [hG, hgs]
          exact List.mem_cons_of_mem _ (List.mem_cons_self _ _)
        have := (M.hid g.1 (mem_geRows hgmem).1).2
        rw [hlen]
        omega
    have hstep := deleteLevelStep_splice t x.1.score x.1.name 0
      (lastLessE rows 0 (x.1.score, x.1.name)).1 x.1.id h1t h2t hnc
      (by rw [hlen]; exact hc0lt) hL0
      (hwid (lastLessE rows 0 (x.1.score, x.1.name)).1).1
      (hwid (lastLessE rows 0 (x.1.score, x.1.name)).1).2
      hmlt
    rcases hstep with ⟨hP, hspv, hnxv, hfr, hl0, -, hml⟩
    have hl0' := hl0 rfl
    refine ⟨hP, ?_, ?_, ?_, hl0'.1, ⟨?_, ?_⟩, ?_⟩
    · intro l hl _
      have hl' : l = 0 := by omega
      subst hl'
      constructor
      · rw [hnxv, hag 0 (le_refl 0) x.1.id hxid.2]
      · rw [hspv, hsp 0 (le_refl 0) _ hc0lt, hsp 0 (le_refl 0) x.1.id hxid.2]
    · intro l hl hxl
      exact absurd hxl (by omega)
    · intro l j hj
      by_cases hl' : l = 0
      · subst hl'
        exact ⟨(hfr j 0 (Or.inl (hj (le_refl 0)))).2,
          (hfr j 0 (Or.inl (hj (le_refl 0)))).1⟩
      · exact ⟨(hfr j l (Or.inr hl')).2, (hfr j l (Or.inr hl')).1⟩
    · intro m hm
      apply hl0'.2.1
      rw [hag 0 (le_refl 0) x.1.id hxid.2]
      exact hm
    · intro j hj
      apply hl0'.2.2
      intro m hm
      apply hj
      rw [← hag 0 (le_refl 0) x.1.id hxid.2]
      exact hm
    · rw [hml, if_neg (fun hcc => Nat.lt_irrefl 0 hcc.2),
        if_neg (by omega : ¬ H < 0)]
  | succ L ih =>
    intro hLm t hlen hag hsp hns hwid
    have hL1 : L + 1 < MaxLevel := by
      have := M.hmaxLt
      omega
    rw [range_reverse_succ (L + 1)]
    have hadv := advance_at_level M t (L + 1) hL1 x.1.score x.1.name
      (fun j hj => hag (L + 1) (le_refl _) j hj)
      (fun j hj => hsp (L + 1) (le_refl _) j hj)
      (fun j hj => hns j hj) hsep t.arena.length
      (by have := M.hcard; omega) 0
    have hadv1 : (advanceLess t (L + 1) (.fin x.1.score) x.1.name t.arena.length
        (lastLessE rows (L + 1 + 1) (x.1.score, x.1.name)).1 0).1 =
        (lastLessE rows (L + 1) (x.1.score, x.1.name)).1 := by
      rw [hadv]
    simp only [deleteLevels]
    rw [hadv1]
    have hclt : (lastLessE rows (L + 1) (x.1.score, x.1.name)).1 <
        told.arena.length :=
      (lastLessE_bounds M (L + 1) (x.1.score, x.1.name)).1
    by_cases hon : L + 1 ≤ x.1.height
    · have htl1 : told.nextOf (lastLessE rows (L + 1) (x.1.score, x.1.name)).1
          (L + 1) = some x.1.id := (delete_target_link M hx hL1 hon).1
      have h1t : t.nextOf (lastLessE rows (L + 1) (x.1.score, x.1.name)).1
          (L + 1) = some x.1.id := by
        rw [hag (L + 1) (le_refl _) _ hclt]
        exact htl1
      have h2t : ((t.get x.1.id).Equal (.fin x.1.score) x.1.name) = true := by
        rw [elemEqual_congr (hns x.1.id hxid.2).2 (hns x.1.id hxid.2).1]
        exact delete_equal_self M (mem_annotAll_fst hx)
      have hnc := (stop_succ M (L + 1) hL1 (x.1.score, x.1.name) htl1).2
      have hmlt : ∀ m, t.nextOf x.1.id (L + 1) = some m →
          m < t.arena.length := by
        intro m hm
        rw [hag (L + 1) (le_refl _) x.1.id hxid.2] at hm
        rcases target_next_eq M hx hL1 hon with ⟨gs, hG, hcase⟩
        rcases hcase with ⟨-, hnx⟩ | ⟨g, gs', hgs, hnx, -⟩
        · rw [hnx] at hm
          cases Option.some.inj hm
          rw [hlen]
          have := M.hlen
          omega
        · rw [hnx] at hm
          cases Option.some.inj hm
          have hgmem : g ∈ geRows rows (L + 1) x.1.key := by
            rw [hG, hgs]
            exact List.mem_cons_of_mem _ (List.mem_cons_self _ _)
          have := (M.hid g.1 (mem_geRows hgmem).1).2
          rw [hlen]
          omega
      have hstep := deleteLevelStep_splice t x.1.score x.1.name (L + 1)
        (lastLessE rows (L + 1) (x.1.score, x.1.name)).1 x.1.id h1t h2t hnc
        (by rw [hlen]; exact hclt) hL1
        (hwid (lastLessE rows (L + 1) (x.1.score, x.1.name)).1).1
        (hwid (lastLessE rows (L + 1) (x.1.score, x.1.name)).1).2
        hmlt
      rcases hstep with ⟨hP, hspv, hnxv, hfr, -, hlne, hml⟩
      have hlne' := hlne (by omega)
      have hrec := ih (by omega)
        (deleteLevelStep (.fin x.1.score) x.1.name (L + 1) t
          (lastLessE rows (L + 1) (x.1.score, x.1.name)).1)
        (by rw [hP.1, hlen])
        (fun l hl j hj => by
          rw [(hfr j l (Or.inr (by omega))).2]
          exact hag l (by omega) j hj)
        (fun l hl j hj => by
          rw [(hfr j l (Or.inr (by omega))).1]
          exact hsp l (by omega) j hj)
        (fun j hj => by
          rcases hP.2 j with ⟨p1, p2, -, -⟩
          rw [p1, p2]
          exact hns j hj)
        (fun j => by
          rcases hP.2 j with ⟨-, -, p3, p4⟩
          rw [p3, p4]
          exact hwid j)
      rcases hrec with ⟨rP, rK2, rK3, rK4, rK5, rK6, rK7⟩
      refine ⟨hP.seq rP, ?_, ?_, ?_, ?_, ⟨?_, ?_⟩, ?_⟩
      · intro l hl hxl
        by_cases hlL : l ≤ L
        · exact rK2 l hlL hxl
        · have hlq : l = L + 1 := by omega
          rw [hlq]
          constructor
          · rw [(rK4 (L + 1) _ (fun hc => absurd hc (by omega))).1, hnxv,
              hag (L + 1) (le_refl _) x.1.id hxid.2]
          · rw [(rK4 (L + 1) _ (fun hc => absurd hc (by omega))).2, hspv,
              hsp (L + 1) (le_refl _) _ hclt,
              hsp (L + 1) (le_refl _) x.1.id hxid.2]
      · intro l hl hxl
        by_cases hlL : l ≤ L
        · exact rK3 l hlL hxl
        · have hlq : l = L + 1 := by omega
          rw [hlq] at hxl
          exact absurd hon (by omega)
      · intro l j hj
        by_cases hlL : l ≤ L
        · refine ⟨?_, ?_⟩
          · rw [(rK4 l j (fun _ => hj (by omega))).1]
            exact (hfr j l (Or.inr (by omega))).2
          · rw [(rK4 l j (fun _ => hj (by omega))).2]
            exact (hfr j l (Or.inr (by omega))).1
        · by_cases hlq : l = L + 1
          · subst hlq
            refine ⟨?_, ?_⟩
            · rw [(rK4 (L + 1) j (fun hc => absurd hc (by omega))).1]
              exact (hfr j (L + 1) (Or.inl (hj (le_refl _)))).2
            · rw [(rK4 (L + 1) j (fun hc => absurd hc (by omega))).2]
              exact (hfr j (L + 1) (Or.inl (hj (le_refl _)))).1
          · refine ⟨?_, ?_⟩
            · rw [(rK4 l j (fun hc => absurd hc hlL)).1]
              exact (hfr j l (Or.inr hlq)).2
            · rw [(rK4 l j (fun hc => absurd hc hlL)).2]
              exact (hfr j l (Or.inr hlq)).1
      · rw [rK5, hlne'.1]
      · exact rK6.1
      · intro j hj
        rw [rK6.2 j hj]
        exact hlne'.2 j
      · rw [rK7, hml]
        by_cases hHL : H ≤ L
        · rcases delete_level_empty M hx hHle (by omega) hon with ⟨hLe, hGe⟩
          have hc0 : (lastLessE rows (L + 1) (x.1.score, x.1.name)).1 = 0 := by
            have h2 := lastLessE_empty rows (L + 1) x.1.key hLe
            rw [show lastLessE rows (L + 1) (x.1.score, x.1.name) =
              lastLessE rows (L + 1) x.1.key from rfl, h2]
          rcases target_next_eq M hx hL1 hon with ⟨gs, hG, hcase⟩
          have hgs : gs = [] := by
            rw [hG] at hGe
            injection hGe
          rcases hcase with ⟨-, hnx1⟩ | ⟨g, gs', hgseq, -, -⟩
          · have hV : (if (lastLessE rows (L + 1) (x.1.score, x.1.name)).1 = 0
                then t.nextOf x.1.id (L + 1) else t.nextOf 0 (L + 1)) =
                some 1 := by
              rw [if_pos hc0, hag (L + 1) (le_refl _) x.1.id hxid.2]
              exact hnx1
            simp only [hV]
            rw [if_pos (show (True ∧ 0 < L + 1) from ⟨trivial, Nat.succ_pos L⟩)]
            rw [if_pos (show H < L + 1 by omega)]
            by_cases hHL2 : H < L
            · rw [if_pos hHL2]
            · rw [if_neg hHL2]
              omega
          · rw [hgs] at hgseq
            exact absurd hgseq (by simp)
        · have hw : ∃ r ∈ rows, r.name ≠ x.1.name ∧ H ≤ r.height := by
            rcases hHw with h00 | hw
            · exact absurd h00 (by omega)
            · exact hw
          by_cases hA : lessRows rows (L + 1) x.1.key = []
          · rcases delete_level_occupied M hx hw (by omega) hon with hA' |
              ⟨g, gs', hG⟩
            · exact absurd hA hA'
            · have hc0 : (lastLessE rows (L + 1) (x.1.score, x.1.name)).1 = 0 := by
                have h2 := lastLessE_empty rows (L + 1) x.1.key hA
                rw [show lastLessE rows (L + 1) (x.1.score, x.1.name) =
                  lastLessE rows (L + 1) x.1.key from rfl, h2]
              rcases target_next_eq M hx hL1 hon with ⟨gs2, hG2, hcase⟩
              have hgs2 : g :: gs' = gs2 := by
                rw [hG] at hG2
                injection hG2
              rcases hcase with ⟨hgsnil, -⟩ | ⟨g2, gs2', hgseq, hnx2, -⟩
              · rw [← hgs2] at hgsnil
                exact absurd hgsnil (by simp)
              · have hg2 : 2 ≤ g2.1.id := by
                  rw [← hgs2] at hgseq
                  injection hgseq with h1 h2
                  have hgmem : g ∈ geRows rows (L + 1) x.1.key := by
                    rw [hG]
                    exact List.mem_cons_of_mem _ (List.mem_cons_self _ _)
                  have := (M.hid g.1 (mem_geRows hgmem).1).1
                  rw [← h1]
                  omega
                have hV : (if (lastLessE rows (L + 1)
                    (x.1.score, x.1.name)).1 = 0
                    then t.nextOf x.1.id (L + 1) else t.nextOf 0 (L + 1)) =
                    some g2.1.id := by
                  rw [if_pos hc0, hag (L + 1) (le_refl _) x.1.id hxid.2]
                  exact hnx2
                simp only [hV]
                rw [if_neg (show ¬ ((some g2.1.id : Option ℕ) = some 1 ∧
                    0 < L + 1) from fun hcc => by
                  have := Option.some.inj hcc.1
                  omega)]
                rw [if_neg (by omega : ¬ H < L), if_neg (by omega : ¬ H < L + 1)]
          · have hc2 : 2 ≤ (lastLessE rows (L + 1) (x.1.score, x.1.name)).1 :=
              lastLessE_ne0 M hA
            rcases hle : lessRows rows (L + 1) x.1.key with _ | ⟨z, zs⟩
            · exact absurd hle hA
            · have hE : levelEntries rows (L + 1) = eOf z ::
                  (zs.map eOf ++ (geRows rows (L + 1) x.1.key).map eOf) := by
                rw [levelEntries_split_k rows M.hsorted (L + 1) x.1.key, hle]
                rfl
              have hfl := first_link M hL1 hE
              have hz2 : 2 ≤ (eOf z).1 := by
                have hzmem : z ∈ lessRows rows (L + 1) x.1.key := by
                  rw [hle]
                  exact List.mem_cons_self _ _
                have := (M.hid z.1 (mem_lessRows hzmem).1).1
                have h3 : (eOf z).1 = z.1.id := rfl
                omega
              have hV : (if (lastLessE rows (L + 1)
                  (x.1.score, x.1.name)).1 = 0
                  then t.nextOf x.1.id (L + 1) else t.nextOf 0 (L + 1)) =
                  some (eOf z).1 := by
                rw [if_neg (by omega), hag (L + 1) (le_refl _) 0
                  (by have := M.hlen; omega)]
                exact hfl
              simp only [hV]
              rw [if_neg (show ¬ ((some (eOf z).1 : Option ℕ) = some 1 ∧
                  0 < L + 1) from fun hcc => by
                have := Option.some.inj hcc.1
                omega)]
              rw [if_neg (by omega : ¬ H < L), if_neg (by omega : ¬ H < L + 1)]
    · have hsn : ∃ nid, told.nextOf
          (lastLessE rows (L + 1) (x.1.score, x.1.name)).1 (L + 1) =
          some nid := by
        rcases hG : geRows rows (L + 1) x.1.key with _ | ⟨g, gs⟩
        · exact ⟨1, (stop_link M (L + 1) hL1 x.1.key).2 hG⟩
        · exact ⟨g.1.id, ((stop_link M (L + 1) hL1 x.1.key).1 g gs hG).1⟩
      rcases hsn with ⟨nid, hsn⟩
      have hnidlt : nid < told.arena.length :=
        (stop_succ M (L + 1) hL1 (x.1.score, x.1.name) hsn).1
      have heqf : ((t.get nid).Equal (.fin x.1.score) x.1.name) = false := by
        rw [elemEqual_congr (hns nid hnidlt).2 (hns nid hnidlt).1]
        exact delete_equal_off M hx hsep hL1 (by omega) hsn
      have h1t : t.nextOf (lastLessE rows (L + 1) (x.1.score, x.1.name)).1
          (L + 1) = some nid := by
        rw [hag (L + 1) (le_refl _) _ hclt]
        exact hsn
      have hskip := deleteLevelStep_skip t x.1.score x.1.name (L + 1)
        (lastLessE rows (L + 1) (x.1.score, x.1.name)).1 nid h1t heqf
      rw [hskip]
      have hP : NodePres t (t.setSpan
          (lastLessE rows (L + 1) (x.1.score, x.1.name)).1 (L + 1)
          (t.spanOf (lastLessE rows (L + 1) (x.1.score, x.1.name)).1
            (L + 1) - 1)) :=
        NodePres.ofLinkPres (LinkPres.setSpan t _ _ _)
      have hrec := ih (by omega)
        (t.setSpan (lastLessE rows (L + 1) (x.1.score, x.1.name)).1 (L + 1)
          (t.spanOf (lastLessE rows (L + 1) (x.1.score, x.1.name)).1
            (L + 1) - 1))
        (by rw [hP.1, hlen])
        (fun l hl j hj => by
          rw [nextOf_setSpan]
          exact hag l (by omega) j hj)
        (fun l hl j hj => by
          rw [spanOf_setSpan_other _ _ _ _ _ _ (Or.inr (by omega : l ≠ L + 1))]
          exact hsp l (by omega) j hj)
        (fun j hj => by
          rcases hP.2 j with ⟨p1, p2, -, -⟩
          rw [p1, p2]
          exact hns j hj)
        (fun j => by
          rcases hP.2 j with ⟨-, -, p3, p4⟩
          rw [p3, p4]
          exact hwid j)
      rcases hrec with ⟨rP, rK2, rK3, rK4, rK5, rK6, rK7⟩
      have hHge : L + 1 ≤ H := by
        rcases M.hmaxTop with h00 | ⟨r, hr, hrh⟩
        · omega
        · have hrx : r ≠ x.1 := by
            intro hc
            rw [hc] at hrh
            omega
          have hrn : r.name ≠ x.1.name := fun hc =>
            hrx (row_name_inj M hr (mem_annotAll_fst hx) hc)
          have := hHle r hr hrn
          omega
      refine ⟨hP.seq rP, ?_, ?_, ?_, ?_, ⟨?_, ?_⟩, ?_⟩
      · intro l hl hxl
        exact rK2 l (by omega) hxl
      · intro l hl hxl
        by_cases hlL : l ≤ L
        · exact rK3 l hlL hxl
        · have hlq : l = L + 1 := by omega
          rw [hlq]
          constructor
          · rw [(rK4 (L + 1) _ (fun hc => absurd hc (by omega))).1,
              nextOf_setSpan, hag (L + 1) (le_refl _) _ hclt]
          · rw [(rK4 (L + 1) _ (fun hc => absurd hc (by omega))).2,
              spanOf_setSpan_self _ _ _ _ (by rw [hlen]; exact hclt)
                (by rw [(hwid _).2]; omega),
              hsp (L + 1) (le_refl _) _ hclt]
      · intro l j hj
        by_cases hlL : l ≤ L
        · refine ⟨?_, ?_⟩
          · rw [(rK4 l j (fun _ => hj (by omega))).1, nextOf_setSpan]
          · rw [(rK4 l j (fun _ => hj (by omega))).2,
              spanOf_setSpan_other _ _ _ _ _ _ (Or.inr (by omega : l ≠ L + 1))]
        · by_cases hlq : l = L + 1
          · subst hlq
            refine ⟨?_, ?_⟩
            · rw [(rK4 (L + 1) j (fun hc => absurd hc (by omega))).1,
                nextOf_setSpan]
            · rw [(rK4 (L + 1) j (fun hc => absurd hc (by omega))).2,
                spanOf_setSpan_other _ _ _ _ _ _ (Or.inl (hj (le_refl _)))]
          · refine ⟨?_, ?_⟩
            · rw [(rK4 l j (fun hc => absurd hc hlL)).1, nextOf_setSpan]
            · rw [(rK4 l j (fun hc => absurd hc hlL)).2,
                spanOf_setSpan_other _ _ _ _ _ _ (Or.inr hlq)]
      · rw [rK5]
        rfl
      · exact rK6.1
      · intro j hj
        rw [rK6.2 j hj, prevOf_setSpan]
      · rw [rK7]
        rw [if_neg (by omega : ¬ H < L), if_neg (by omega : ¬ H < L + 1)]
        rfl

end SkipListGo

namespace SkipListGo

/-- The final head-span loop of `Delete` (source lines 373–375) only moves
head spans on the listed levels. -/
theorem spanDecHead_foldl : ∀ (ls : List ℕ) (t : SkipList),
    NodePres t (ls.foldl spanDecHead t) ∧
    (ls.foldl spanDecHead t).maxLevel = t.maxLevel ∧
    (ls.foldl spanDecHead t).elements = t.elements ∧
    (∀ j l, (ls.foldl spanDecHead t).nextOf j l = t.nextOf j l) ∧
    (∀ j, (ls.foldl spanDecHead t).prevOf j = t.prevOf j) ∧
    (∀ j l, j ≠ 0 ∨ l ∉ ls →
      (ls.foldl spanDecHead t).spanOf j l = t.spanOf j l) := by
  intro ls
  induction ls with
  | nil =>
    intro t
    exact ⟨NodePres.base t, rfl, rfl, fun _ _ => rfl, fun _ => rfl,
      fun _ _ _ => rfl⟩
  | cons i is ih =>
    intro t
    rcases ih (spanDecHead t i) with ⟨hP, hm, he, hn, hp, hs⟩
    have hP0 : NodePres t (spanDecHead t i) :=
      NodePres.ofLinkPres (LinkPres.setSpan t 0 i (t.spanOf 0 i - 1))
    refine ⟨hP0.seq hP, ?_, ?_, ?_, ?_, ?_⟩
    · rw [show (i :: is).foldl spanDecHead t = is.foldl spanDecHead
        (spanDecHead t i) from rfl, hm]
      rfl
    · rw [show (i :: is).foldl spanDecHead t = is.foldl spanDecHead
        (spanDecHead t i) from rfl, he]
      rfl
    · intro j l
      rw [show (i :: is).foldl spanDecHead t = is.foldl spanDecHead
        (spanDecHead t i) from rfl, hn j l]
      exact nextOf_setSpan t 0 i _ j l
    · intro j
      rw [show (i :: is).foldl spanDecHead t = is.foldl spanDecHead
        (spanDecHead t i) from rfl, hp j]
      exact prevOf_setSpan t 0 i _ j
    · intro j l hd
      have hd2 : j ≠ 0 ∨ l ∉ is := by
        rcases hd with h | h
        · exact Or.inl h
        · exact Or.inr (fun hc => h (List.mem_cons_of_mem _ hc))
      rw [show (i :: is).foldl spanDecHead t = is.foldl spanDecHead
        (spanDecHead t i) from rfl, hs j l hd2]
      apply spanOf_setSpan_other
      rcases hd with h | h
      · exact Or.inl h
      · exact Or.inr (fun hc => h (hc ▸ List.mem_cons_self i is))

theorem elemsErase_cons_drop (p : String × EScore)
    (ps : List (String × EScore)) (n : String) (hp : p.1 = n) :
    elemsErase (p :: ps) n = elemsErase ps n := by
  unfold elemsErase
  rw [List.filter_cons]
  simp [hp]

theorem elemsErase_cons_keep (p : String × EScore)
    (ps : List (String × EScore)) (n : String) (hp : p.1 ≠ n) :
    elemsErase (p :: ps) n = p :: elemsErase ps n := by
  unfold elemsErase
  rw [List.filter_cons]
  simp [hp]

theorem elemsErase_all_other (l : List (String × EScore)) (n : String)
    (h : ∀ q ∈ l, q.1 ≠ n) : elemsErase l n = l := by
  induction l with
  | nil => rfl
  | cons p ps ih =>
    rw [elemsErase_cons_keep p ps n (h p (List.mem_cons_self _ _))]
    rw [ih (fun q hq => h q (List.mem_cons_of_mem _ hq))]

theorem elemsLookup_erase_other (l : List (String × EScore)) (n n' : String)
    (h : n' ≠ n) : elemsLookup (elemsErase l n) n' = elemsLookup l n' := by
  induction l with
  | nil => rfl
  | cons p ps ih =>
    by_cases hp : p.1 = n
    · rw [elemsErase_cons_drop p ps n hp, ih]
      unfold elemsLookup
      rw [List.find?_cons_of_neg _ (by
        intro hc
        exact h ((beq_iff_eq.mp hc).symm.trans hp))]
    · rw [elemsErase_cons_keep p ps n hp]
      unfold elemsLookup
      by_cases hpn : p.1 = n'
      · rw [List.find?_cons_of_pos _ (by simp [hpn]),
          List.find?_cons_of_pos _ (by simp [hpn])]
      · rw [List.find?_cons_of_neg _ (by simp [hpn]),
          List.find?_cons_of_neg _ (by simp [hpn])]
        exact ih

theorem elemsLookup_erase_self (l : List (String × EScore)) (n : String) :
    elemsLookup (elemsErase l n) n = none := by
  induction l with
  | nil => rfl
  | cons p ps ih =>
    by_cases hp : p.1 = n
    · rw [elemsErase_cons_drop p ps n hp]
      exact ih
    · rw [elemsErase_cons_keep p ps n hp]
      unfold elemsLookup
      rw [List.find?_cons_of_neg _ (by simp [hp])]
      exact ih

theorem elemsErase_length_of_mem : ∀ (l : List (String × EScore)) (n : String),
    (l.map Prod.fst).Nodup → elemsLookup l n ≠ none →
    (elemsErase l n).length + 1 = l.length := by
  intro l
  induction l with
  | nil =>
    intro n _ hmem
    exact absurd rfl hmem
  | cons p ps ih =>
    intro n hnd hmem
    rw [List.map_cons] at hnd
    by_cases hp : p.1 = n
    · rw [elemsErase_cons_drop p ps n hp]
      have hnone : ∀ q ∈ ps, q.1 ≠ n := by
        intro q hq hc
        apply (List.nodup_cons.mp hnd).1
        rw [hp, ← hc]
        exact List.mem_map_of_mem Prod.fst hq
      rw [elemsErase_all_other ps n hnone]
      simp
    · rw [elemsErase_cons_keep p ps n hp]
      have hmem2 : elemsLookup ps n ≠ none := by
        intro hc
        apply hmem
        unfold elemsLookup
        rw [List.find?_cons_of_neg _ (by simp [hp])]
        unfold elemsLookup at hc
        exact hc
      have hih := ih n (List.nodup_cons.mp hnd).2 hmem2
      show (elemsErase ps n).length + 1 + 1 = ps.length + 1
      omega

end SkipListGo

namespace SkipListGo

/-- Top occupied level of a row list. -/
def maxHeight (l : List Row) : ℕ := l.foldr (fun r m => max r.height m) 0

theorem le_maxHeight : ∀ (l : List Row) {r : Row}, r ∈ l →
    r.height ≤ maxHeight l := by
  intro l
  induction l with
  | nil =>
    intro r hr
    exact absurd hr (List.not_mem_nil r)
  | cons a as ih =>
    intro r hr
    rcases List.mem_cons.mp hr with rfl | hr'
    · exact le_max_left _ _
    · exact le_trans (ih hr') (le_max_right _ _)

theorem maxHeight_witness : ∀ (l : List Row),
    maxHeight l = 0 ∨ ∃ r ∈ l, maxHeight l ≤ r.height := by
  intro l
  induction l with
  | nil => exact Or.inl rfl
  | cons a as ih =>
    have hM : maxHeight (a :: as) = max a.height (maxHeight as) := rfl
    by_cases hc : maxHeight as ≤ a.height
    · refine Or.inr ⟨a, List.mem_cons_self _ _, ?_⟩
      rw [hM]
      exact max_le (le_refl _) hc
    · rcases ih with h0 | ⟨r, hr, hrh⟩
      · exact absurd (h0 ▸ Nat.zero_le a.height : maxHeight as ≤ a.height) hc
      · refine Or.inr ⟨r, List.mem_cons_of_mem _ hr, ?_⟩
        rw [hM]
        exact max_le (by omega) hrh

theorem levelEntries_append (pre suf : List Row) (l : ℕ) :
    levelEntries (pre ++ suf) l =
      ((annotAll pre 1).filter (fun x => decide (l ≤ x.1.height))).map eOf ++
      ((annotAll suf (1 + (pre.length : ℤ))).filter
        (fun x => decide (l ≤ x.1.height))).map eOf := by
  unfold levelEntries
  rw [annotAll_append, List.filter_append, List.map_append]
  rfl

theorem annot_filter_shift (suf : List Row) (P : ℤ) (l : ℕ) :
    ((annotAll suf (P + 1)).filter (fun y => decide (l ≤ y.1.height))).map eOf =
    (((annotAll suf P).filter (fun y => decide (l ≤ y.1.height))).map eOf).map
      (fun e : ℕ × ℤ => (e.1, e.2 + 1)) := by
  rw [annotAll_shift, List.filter_map, List.map_map, List.map_map]
  rfl

end SkipListGo

namespace SkipListGo

/-- Deleting a present, separated key refines the removal of its row. -/
theorem delete_models {S : List ℤ} {told : SkipList} {rows : List Row}
    (M : Models S told rows) {x : Row × ℤ} (hx : x ∈ annotAll rows 1)
    (hsep : ∀ r ∈ rows, sepScore r.score x.1.score) :
    Models S (Delete told x.1.name) (absDel rows x.1.name) := by
  have hxrow : x.1 ∈ rows := mem_annotAll_fst hx
  have hxid := M.hid x.1 hxrow
  rcases List.append_of_mem hxrow with ⟨pre, suf, hsplit⟩
  have hxpos : x = (x.1, 1 + (pre.length : ℤ)) := by
    have hxmem2 : ((x.1, 1 + (pre.length : ℤ)) : Row × ℤ) ∈ annotAll rows 1 := by
      rw [hsplit, annotAll_append]
      exact List.mem_append.mpr (Or.inr (List.mem_cons_self _ _))
    exact annot_id_inj M.hidnodup x hx _ hxmem2 rfl
  have hnamesplit := M.hnamenodup
  rw [hsplit, List.map_append, List.map_cons] at hnamesplit
  have hxnmid := List.nodup_middle.mp hnamesplit
  have hxnotin : x.1.name ∉ pre.map Row.name ++ suf.map Row.name :=
    (List.nodup_cons.mp hxnmid).1
  have hprename : ∀ r ∈ pre, r.name ≠ x.1.name := by
    intro r hr hc
    apply hxnotin
    rw [← hc]
    exact List.mem_append.mpr (Or.inl (List.mem_map_of_mem Row.name hr))
  have hsufname : ∀ r ∈ suf, r.name ≠ x.1.name := by
    intro r hr hc
    apply hxnotin
    rw [← hc]
    exact List.mem_append.mpr (Or.inr (List.mem_map_of_mem Row.name hr))
  have hHle : ∀ r ∈ rows, r.name ≠ x.1.name → r.height ≤ maxHeight (pre ++ suf) := by
    intro r hr hrn
    rw [hsplit] at hr
    rcases List.mem_append.mp hr with h | h
    · exact le_maxHeight (pre ++ suf) (List.mem_append.mpr (Or.inl h))
    · rcases List.mem_cons.mp h with rfl | h'
      · exact absurd rfl hrn
      · exact le_maxHeight (pre ++ suf) (List.mem_append.mpr (Or.inr h'))
  have hHw : maxHeight (pre ++ suf) = 0 ∨
      ∃ r ∈ rows, r.name ≠ x.1.name ∧ maxHeight (pre ++ suf) ≤ r.height := by
    rcases maxHeight_witness (pre ++ suf) with h0 | ⟨r, hr, hrh⟩
    · exact Or.inl h0
    · refine Or.inr ⟨r, ?_, ?_, hrh⟩
      · rw [hsplit]
        rcases List.mem_append.mp hr with h | h
        · exact List.mem_append.mpr (Or.inl h)
        · exact List.mem_append.mpr (Or.inr (List.mem_cons_of_mem _ h))
      · rcases List.mem_append.mp hr with h | h
        · exact hprename r h
        · exact hsufname r h
  have hHmax : maxHeight (pre ++ suf) ≤ told.maxLevel := by
    rcases hHw with h0 | ⟨r, hr, -, hrh⟩
    · omega
    · exact le_trans hrh (M.hheight r hr)
  have hlook : elemsLookup told.elements x.1.name = some (.fin x.1.score) :=
    M.helemsome x.1 hxrow
  have hDel : Delete told x.1.name =
      ((List.range MaxLevel).filter (fun i =>
        (deleteLevels (.fin x.1.score) x.1.name
          ((List.range (told.maxLevel + 1)).reverse) told 0).1.maxLevel < i)).foldl
        spanDecHead
        (deleteLevels (.fin x.1.score) x.1.name
          ((List.range (told.maxLevel + 1)).reverse) told 0).1 := by
    unfold Delete
    rw [hlook]
  have hcur : (lastLessE rows (told.maxLevel + 1) (x.1.score, x.1.name)).1 = 0 := by
    have h2 := lastLessE_empty rows (told.maxLevel + 1) (x.1.score, x.1.name)
      (lessRows_empty_of_high (fun r hr =>
        Nat.lt_succ_of_le (M.hheight r hr)) (x.1.score, x.1.name))
    rw [h2]
  have hspec := deleteLevels_spec M hx hsep (maxHeight (pre ++ suf)) hHle hHw
    told.maxLevel (le_refl _) told rfl
    (fun _ _ _ _ => rfl) (fun _ _ _ _ => rfl) (fun _ _ => ⟨rfl, rfl⟩)
    (fun j => by
      by_cases hj : j < told.arena.length
      · exact get_widths M hj
      · have hout : told.get j = defaultElement := by
          show told.arena.getD j defaultElement = defaultElement
          exact List.getD_eq_default _ _ (by omega)
        rw [hout]
        constructor <;> simp [defaultElement])
  rw [hcur] at hspec
  rcases hspec with ⟨DP, DK2, DK3, DK4, DK5, DK6, DK7⟩
  have habs : absDel rows x.1.name = pre ++ suf := by
    unfold absDel
    rw [hsplit, List.filter_append, List.filter_cons]
    have h1 : (decide (x.1.name ≠ x.1.name)) = false := by simp
    rw [h1, if_neg Bool.false_ne_true]
    rw [List.filter_eq_self.mpr (fun r hr => decide_eq_true (hprename r hr)),
      List.filter_eq_self.mpr (fun r hr => decide_eq_true (hsufname r hr))]
  rw [hDel, habs]
  generalize hD : (deleteLevels (.fin x.1.score) x.1.name
      ((List.range (told.maxLevel + 1)).reverse) told 0).1 = D
    at DP DK2 DK3 DK4 DK5 DK6 DK7 ⊢
  rcases spanDecHead_foldl ((List.range MaxLevel).filter
      (fun i => D.maxLevel < i)) D with ⟨FP, Fmax, Fel, Fnx, Fpv, Fsp⟩
  generalize hF : ((List.range MaxLevel).filter
      (fun i => D.maxLevel < i)).foldl spanDecHead D = F
    at FP Fmax Fel Fnx Fpv Fsp ⊢
  have hDmax : D.maxLevel = maxHeight (pre ++ suf) := by
    rw [DK7]
    by_cases h : maxHeight (pre ++ suf) < told.maxLevel
    · rw [if_pos h]
    · rw [if_neg h]
      omega
  have hFsp : ∀ j l, l ≤ maxHeight (pre ++ suf) →
      F.spanOf j l = D.spanOf j l := by
    intro j l hl
    refine Fsp j l (Or.inr ?_)
    intro hc
    have h2 := (List.mem_filter.mp hc).2
    rw [hDmax] at h2
    have h3 := of_decide_eq_true h2
    omega
  have hFlen : F.arena.length = told.arena.length := FP.1.trans DP.1
  have hFget : ∀ j, (F.get j).name = (told.get j).name ∧
      (F.get j).score = (told.get j).score ∧
      (F.get j).next.length = (told.get j).next.length ∧
      (F.get j).span.length = (told.get j).span.length := by
    intro j
    rcases FP.2 j with ⟨f1, f2, f3, f4⟩
    rcases DP.2 j with ⟨d1, d2, d3, d4⟩
    exact ⟨f1.trans d1, f2.trans d2, f3.trans d3, f4.trans d4⟩
  have hFmax : F.maxLevel = maxHeight (pre ++ suf) := Fmax.trans hDmax
  have hFel : F.elements = elemsErase told.elements x.1.name := Fel.trans DK5
  have hsublid : ((pre ++ suf).map Row.id).Sublist (rows.map Row.id) := by
    rw [hsplit, List.map_append, List.map_append, List.map_cons]
    exact List.Sublist.append_left (List.sublist_cons_self _ _) _
  have hsublnm : ((pre ++ suf).map Row.name).Sublist (rows.map Row.name) := by
    rw [hsplit, List.map_append, List.map_append, List.map_cons]
    exact List.Sublist.append_left (List.sublist_cons_self _ _) _
  have hsublrow : (pre ++ suf).Sublist rows := by
    rw [hsplit]
    exact List.Sublist.append_left (List.sublist_cons_self _ _) _
  have hmemrows : ∀ r ∈ pre ++ suf, r ∈ rows := fun r hr => hsublrow.mem hr
  have hlens : pre.length + suf.length + 1 = rows.length := by
    have := congrArg List.length hsplit
    simp at this
    omega
  rw [show ((x.1.score, x.1.name) : ℤ × String) = x.1.key from rfl]
    at DK2 DK3 DK4 DK6
  refine ⟨?_, ?_, ?_, ?_, ?_, ?_, ?_, ?_, ?_, ?_, ?_, ?_, ?_, ?_, ?_, ?_, ?_,
    ?_, ?_, ?_, ?_, ?_, ?_, ?_, ?_⟩
  · rw [hFlen]
    exact M.hlen
  · rw [hFlen]
    have := M.hcard
    simp only [List.length_append]
    omega
  · intro e he
    rcases List.mem_iff_getElem.mp he with ⟨j, hj, hje⟩
    have hjt : j < told.arena.length := by
      rw [← hFlen]
      exact hj
    have hg : F.get j = e := by
      show F.arena.getD j _ = e
      rw [List.getD_eq_getElem _ _ hj]
      exact hje
    rw [← hg]
    have htold : told.get j ∈ told.arena := by
      show told.arena.getD j _ ∈ _
      rw [List.getD_eq_getElem _ _ hjt]
      exact List.getElem_mem _
    have hw := M.harena (told.get j) htold
    exact ⟨((hFget j).2.2.1).trans hw.1, ((hFget j).2.2.2).trans hw.2⟩
  · show (F.get 0).name = _
    rw [(hFget 0).1]
    exact M.hheadname
  · show (F.get 0).score = _
    rw [(hFget 0).2.1]
    exact M.hheadscore
  · show (F.get 1).name = _
    rw [(hFget 1).1]
    exact M.htailname
  · show (F.get 1).score = _
    rw [(hFget 1).2.1]
    exact M.htailscore
  · intro r hr
    have := M.hid r (hmemrows r hr)
    rw [hFlen]
    exact this
  · exact M.hidnodup.sublist hsublid
  · intro r hr
    show (F.get r.id).name = r.name
    rw [(hFget r.id).1]
    exact M.hname r (hmemrows r hr)
  · intro r hr
    show (F.get r.id).score = _
    rw [(hFget r.id).2.1]
    exact M.hscore r (hmemrows r hr)
  · intro r hr
    exact M.hnotsent r (hmemrows r hr)
  · exact M.hnamenodup.sublist hsublnm
  · intro r hr
    rw [hFmax]
    exact le_maxHeight (pre ++ suf) hr
  · exact M.hsorted.sublist hsublrow
  · intro r hr
    exact M.hS r (hmemrows r hr)
  · rw [hFmax]
    exact lt_of_le_of_lt hHmax M.hmaxLt
  · rw [hFmax]
    exact maxHeight_witness (pre ++ suf)
  · intro l hL
    unfold fullLevel
    have hpw := M.hsorted
    rw [hsplit] at hpw
    rcases List.pairwise_append.mp hpw with ⟨-, hpwx, hcross⟩
    have hpreLt : ∀ r ∈ pre, rowLt r.key x.1.key := fun r hr =>
      hcross r hr x.1 (List.mem_cons_self _ _)
    have hsufnot : ∀ r ∈ x.1 :: suf, ¬ rowLt r.key x.1.key := by
      intro r hr
      rcases List.mem_cons.mp hr with rfl | hr'
      · exact rowLt_irrefl _
      · exact rowLt_asymm ((List.pairwise_cons.mp hpwx).1 r hr')
    by_cases hlH : l ≤ maxHeight (pre ++ suf)
    · have hml : l ≤ told.maxLevel := le_trans hlH hHmax
      have hLS := lessRows_of_split hsplit x.1.key hpreLt hsufnot l
      have hEA := levelEntries_append pre suf l
      rw [← hLS.1] at hEA
      rw [hEA]
      show List.Chain' (linkRel F l)
        ((((0 : ℕ), (0 : ℤ)) :: (lessRows rows l x.1.key).map eOf) ++
          ((annotAll suf (1 + (pre.length : ℤ))).filter
            (fun y => decide (l ≤ y.1.height))).map eOf)
      have hOld := M.hlinks l hL
      have hfullE : fullLevel rows l =
          (((0 : ℕ), (0 : ℤ)) :: (lessRows rows l x.1.key).map eOf) ++
            (geRows rows l x.1.key).map eOf := by
        unfold fullLevel
        rw [levelEntries_eq, levelRows_split M.hsorted l x.1.key, List.map_append]
        rfl
      rw [hfullE] at hOld
      rcases List.chain'_append.mp hOld with ⟨hOA, hOB, hOlink⟩
      have hndA : ((((0 : ℕ), (0 : ℤ)) ::
          (lessRows rows l x.1.key).map eOf).map Prod.fst).Nodup := by
        have h1 := fullLevel_ids_nodup M l
        rw [hfullE, List.map_append] at h1
        exact (List.nodup_append.mp h1).1
      have T1 : List.Chain' (linkRel F l)
          (((0 : ℕ), (0 : ℤ)) :: (lessRows rows l x.1.key).map eOf) := by
        apply chain'_imp_adj _ hOA
        intro pre2 a b suf2 heq hR
        have halast : a.1 ≠ (lastLessE rows l x.1.key).1 :=
          adj_id_ne_last hndA heq ((0 : ℕ), (0 : ℤ))
        refine ⟨?_, ?_⟩
        · rw [Fnx, (DK4 l a.1 (fun _ => halast)).1]
          exact hR.1
        · rw [hFsp a.1 l hlH, (DK4 l a.1 (fun _ => halast)).2]
          exact hR.2
      have hannx : annotAll (x.1 :: suf) (1 + (pre.length : ℤ)) =
          (x.1, 1 + (pre.length : ℤ)) ::
            annotAll suf (1 + (pre.length : ℤ) + 1) := rfl
      have hshift := annot_filter_shift suf (1 + (pre.length : ℤ)) l
      by_cases hxh : l ≤ x.1.height
      · have hgrows2 : geRows rows l x.1.key = (x.1, 1 + (pre.length : ℤ)) ::
            (annotAll suf (1 + (pre.length : ℤ) + 1)).filter
              (fun y => decide (l ≤ y.1.height)) := by
          rw [hLS.2, hannx, List.filter_cons,
            if_pos (show (fun y : Row × ℤ => decide (l ≤ y.1.height))
              (x.1, 1 + (pre.length : ℤ)) = true from decide_eq_true hxh)]
        have hgeqT : (geRows rows l x.1.key).map eOf =
            eOf (x.1, 1 + (pre.length : ℤ)) ::
              ((annotAll suf (1 + (pre.length : ℤ) + 1)).filter
                (fun y => decide (l ≤ y.1.height))).map eOf := by
          rw [hgrows2, List.map_cons]
        have hOB2 : List.Chain' (linkRel told l)
            ((((annotAll suf (1 + (pre.length : ℤ))).filter
              (fun y => decide (l ≤ y.1.height))).map eOf).map
                (fun e : ℕ × ℤ => (e.1, e.2 + 1))) := by
          have h2 := hOB
          rw [hgeqT, hshift] at h2
          exact h2.tail
        have TB : List.Chain' (linkRel F l)
            (((annotAll suf (1 + (pre.length : ℤ))).filter
              (fun y => decide (l ≤ y.1.height))).map eOf) := by
          rw [List.chain'_map] at hOB2
          refine chain'_transfer _ ?_ hOB2
          intro a ha b hb hR
          have hamem : (fun e : ℕ × ℤ => (e.1, e.2 + 1)) a ∈
              (geRows rows l x.1.key).map eOf := by
            rw [hgeqT]
            refine List.mem_cons_of_mem _ ?_
            rw [hshift]
            exact List.mem_map_of_mem _ ha
          have hane' := ge_ne_lastLessE M l x.1.key hamem
          have hane : a.1 ≠ (lastLessE rows l x.1.key).1 := hane'
          refine ⟨?_, ?_⟩
          · rw [Fnx, (DK4 l a.1 (fun _ => hane)).1]
            exact hR.1
          · rw [hFsp a.1 l hlH, (DK4 l a.1 (fun _ => hane)).2]
            have h3 : told.spanOf a.1 l = (b.2 + 1) - (a.2 + 1) := hR.2
            rw [h3]
            ring
        refine List.chain'_append.mpr ⟨T1, TB, ?_⟩
        intro u hu v hv
        rw [getLast?_eq_lastOf] at hu
        have hue : u = lastLessE rows l x.1.key := (Option.mem_some_iff.mp hu).symm
        rcases hBv : ((annotAll suf (1 + (pre.length : ℤ))).filter
            (fun y => decide (l ≤ y.1.height))).map eOf with _ | ⟨b0, bs⟩
        · rw [hBv] at hv
          simp at hv
        · rw [hBv, List.head?_cons] at hv
          have hve : v = b0 := (Option.mem_some_iff.mp hv).symm
          have hOldBeq : ((annotAll suf (1 + (pre.length : ℤ) + 1)).filter
              (fun y => decide (l ≤ y.1.height))).map eOf =
              (b0 :: bs).map (fun e : ℕ × ℤ => (e.1, e.2 + 1)) := by
            rw [hshift, hBv]
          have hOBx := hOB
          rw [hgrows2, List.map_cons, hOldBeq, List.map_cons] at hOBx
          have hxlink := (List.chain'_cons.mp hOBx).1
          have h1n : told.nextOf x.1.id l = some b0.1 := hxlink.1
          have h1s : told.spanOf x.1.id l =
              (b0.2 + 1) - (1 + (pre.length : ℤ)) := hxlink.2
          have hSL := (stop_link M l hL x.1.key).1 _ _ hgrows2
          have hSL2 : told.spanOf (lastLessE rows l x.1.key).1 l =
              (1 + (pre.length : ℤ)) - (lastLessE rows l x.1.key).2 := hSL.2
          rw [hue, hve]
          refine ⟨?_, ?_⟩
          · rw [Fnx, (DK2 l hml hxh).1]
            exact h1n
          · rw [hFsp _ _ hlH, (DK2 l hml hxh).2, hSL2, h1s]
            ring
      · have hgrows2 : geRows rows l x.1.key =
            (annotAll suf (1 + (pre.length : ℤ) + 1)).filter
              (fun y => decide (l ≤ y.1.height)) := by
          rw [hLS.2, hannx, List.filter_cons,
            if_neg (show ¬ ((fun y : Row × ℤ => decide (l ≤ y.1.height))
              (x.1, 1 + (pre.length : ℤ)) = true) from by
                simp only [decide_eq_true_eq]
                omega)]
        have hgeqT : (geRows rows l x.1.key).map eOf =
            (((annotAll suf (1 + (pre.length : ℤ))).filter
              (fun y => decide (l ≤ y.1.height))).map eOf).map
                (fun e : ℕ × ℤ => (e.1, e.2 + 1)) := by
          rw [hgrows2]
          exact hshift
        have hOB2 := hOB
        rw [hgeqT] at hOB2
        have TB : List.Chain' (linkRel F l)
            (((annotAll suf (1 + (pre.length : ℤ))).filter
              (fun y => decide (l ≤ y.1.height))).map eOf) := by
          rw [List.chain'_map] at hOB2
          refine chain'_transfer _ ?_ hOB2
          intro a ha b hb hR
          have hamem : (fun e : ℕ × ℤ => (e.1, e.2 + 1)) a ∈
              (geRows rows l x.1.key).map eOf := by
            rw [hgeqT]
            exact List.mem_map_of_mem _ ha
          have hane' := ge_ne_lastLessE M l x.1.key hamem
          have hane : a.1 ≠ (lastLessE rows l x.1.key).1 := hane'
          refine ⟨?_, ?_⟩
          · rw [Fnx, (DK4 l a.1 (fun _ => hane)).1]
            exact hR.1
          · rw [hFsp a.1 l hlH, (DK4 l a.1 (fun _ => hane)).2]
            have h3 : told.spanOf a.1 l = (b.2 + 1) - (a.2 + 1) := hR.2
            rw [h3]
            ring
        refine List.chain'_append.mpr ⟨T1, TB, ?_⟩
        intro u hu v hv
        rw [getLast?_eq_lastOf] at hu
        have hue : u = lastLessE rows l x.1.key := (Option.mem_some_iff.mp hu).symm
        rcases hBv : ((annotAll suf (1 + (pre.length : ℤ))).filter
            (fun y => decide (l ≤ y.1.height))).map eOf with _ | ⟨b0, bs⟩
        · rw [hBv] at hv
          simp at hv
        · rw [hBv, List.head?_cons] at hv
          have hve : v = b0 := (Option.mem_some_iff.mp hv).symm
          rcases hGf : geRows rows l x.1.key with _ | ⟨g, gs⟩
          · exfalso
            rw [hGf] at hgeqT
            rw [hBv, List.map_cons] at hgeqT
            exact List.noConfusion hgeqT
          · have hSL := (stop_link M l hL x.1.key).1 g gs hGf
            have hgh : eOf g = (fun e : ℕ × ℤ => (e.1, e.2 + 1)) b0 := by
              have h4 := hgeqT
              rw [hGf, List.map_cons, hBv, List.map_cons] at h4
              injection h4 with hh ht
            have hgid : g.1.id = b0.1 := congrArg Prod.fst hgh
            have hgrank : g.2 = b0.2 + 1 := congrArg Prod.snd hgh
            have hSL2 : told.spanOf (lastLessE rows l x.1.key).1 l =
                g.2 - (lastLessE rows l x.1.key).2 := hSL.2
            rw [hue, hve]
            refine ⟨?_, ?_⟩
            · rw [Fnx, (DK3 l hml (not_le.mp hxh)).1, hSL.1, hgid]
            · rw [hFsp _ _ hlH, (DK3 l hml (not_le.mp hxh)).2, hSL2, hgrank]
              ring
    · have hnil : levelEntries (pre ++ suf) l = [] := by
        apply levelEntries_nil_of_high
        intro r hr
        have := le_maxHeight (pre ++ suf) hr
        omega
      rw [hnil]
      exact List.chain'_singleton _
  · intro l hL
    have hpw := M.hsorted
    rw [hsplit] at hpw
    rcases List.pairwise_append.mp hpw with ⟨-, hpwx, hcross⟩
    have hpreLt : ∀ r ∈ pre, rowLt r.key x.1.key := fun r hr =>
      hcross r hr x.1 (List.mem_cons_self _ _)
    have hsufnot : ∀ r ∈ x.1 :: suf, ¬ rowLt r.key x.1.key := by
      intro r hr
      rcases List.mem_cons.mp hr with rfl | hr'
      · exact rowLt_irrefl _
      · exact rowLt_asymm ((List.pairwise_cons.mp hpwx).1 r hr')
    by_cases hlH : l ≤ maxHeight (pre ++ suf)
    · have hml : l ≤ told.maxLevel := le_trans hlH hHmax
      have hLS := lessRows_of_split hsplit x.1.key hpreLt hsufnot l
      have hEA := levelEntries_append pre suf l
      rw [← hLS.1] at hEA
      rw [hEA]
      have hannx : annotAll (x.1 :: suf) (1 + (pre.length : ℤ)) =
          (x.1, 1 + (pre.length : ℤ)) ::
            annotAll suf (1 + (pre.length : ℤ) + 1) := rfl
      have hshift := annot_filter_shift suf (1 + (pre.length : ℤ)) l
      have hOldT := M.htail l hL
      have hentries : levelEntries rows l =
          (lessRows rows l x.1.key).map eOf ++ (geRows rows l x.1.key).map eOf :=
        levelEntries_split_k rows M.hsorted l x.1.key
      rcases hBv : ((annotAll suf (1 + (pre.length : ℤ))).filter
          (fun y => decide (l ≤ y.1.height))).map eOf with _ | ⟨b0, bs⟩
      · rw [hBv, List.append_nil]
        show F.nextOf (lastLessE rows l x.1.key).1 l = some 1
        have hOldnil : ((annotAll suf (1 + (pre.length : ℤ) + 1)).filter
            (fun y => decide (l ≤ y.1.height))).map eOf = [] := by
          rw [hshift, hBv]
          rfl
        have hfnil : (annotAll suf (1 + (pre.length : ℤ) + 1)).filter
            (fun y => decide (l ≤ y.1.height)) = [] :=
          List.map_eq_nil_iff.mp hOldnil
        by_cases hxh : l ≤ x.1.height
        · have hgrows2 : geRows rows l x.1.key =
              [(x.1, 1 + (pre.length : ℤ))] := by
            rw [hLS.2, hannx, List.filter_cons,
              if_pos (show (fun y : Row × ℤ => decide (l ≤ y.1.height))
                (x.1, 1 + (pre.length : ℤ)) = true from decide_eq_true hxh), hfnil]
          have hOldT2 : told.nextOf x.1.id l = some 1 := by
            rw [hentries, hgrows2] at hOldT
            have h5 : (lastOf ((lessRows rows l x.1.key).map eOf ++
                ([(x.1, 1 + (pre.length : ℤ))]).map eOf)
                  ((0 : ℕ), (0 : ℤ))).1 = x.1.id := by
              rw [lastOf_append]
              rfl
            rw [h5] at hOldT
            exact hOldT
          rw [Fnx]
          have hD2 : D.nextOf (lastLessE rows l x.1.key).1 l =
              told.nextOf x.1.id l := (DK2 l hml hxh).1
          rw [hD2]
          exact hOldT2
        · have hgrows2 : geRows rows l x.1.key = [] := by
            rw [hLS.2, hannx, List.filter_cons,
              if_neg (show ¬ ((fun y : Row × ℤ => decide (l ≤ y.1.height))
                (x.1, 1 + (pre.length : ℤ)) = true) from by
                  simp only [decide_eq_true_eq]
                  omega), hfnil]
          have hOldT2 : told.nextOf (lastLessE rows l x.1.key).1 l = some 1 :=
            (stop_link M l hL x.1.key).2 hgrows2
          rw [Fnx, (DK3 l hml (not_le.mp hxh)).1]
          exact hOldT2
      · rw [hBv, lastOf_append_cons]
        have hzmem : lastOf bs b0 ∈ b0 :: bs := by
          rcases lastOf_mem_or bs b0 with h | h
          · exact List.mem_cons_of_mem _ h
          · rw [h]
            exact List.mem_cons_self _ _
        have hOldBeq : ((annotAll suf (1 + (pre.length : ℤ) + 1)).filter
            (fun y => decide (l ≤ y.1.height))).map eOf =
            (b0 :: bs).map (fun e : ℕ × ℤ => (e.1, e.2 + 1)) := by
          rw [hshift, hBv]
        by_cases hxh : l ≤ x.1.height
        · have hgrows2 : geRows rows l x.1.key = (x.1, 1 + (pre.length : ℤ)) ::
              (annotAll suf (1 + (pre.length : ℤ) + 1)).filter
                (fun y => decide (l ≤ y.1.height)) := by
            rw [hLS.2, hannx, List.filter_cons,
              if_pos (show (fun y : Row × ℤ => decide (l ≤ y.1.height))
                (x.1, 1 + (pre.length : ℤ)) = true from decide_eq_true hxh)]
          have hgeq2 : (geRows rows l x.1.key).map eOf =
              eOf (x.1, 1 + (pre.length : ℤ)) ::
                (b0 :: bs).map (fun e : ℕ × ℤ => (e.1, e.2 + 1)) := by
            rw [hgrows2, List.map_cons, hOldBeq]
          have hOldLast : (lastOf (levelEntries rows l) ((0 : ℕ), (0 : ℤ))).1 =
              (lastOf bs b0).1 := by
            rw [hentries, hgeq2, lastOf_append_cons, List.map_cons]
            show (lastOf (bs.map (fun e : ℕ × ℤ => (e.1, e.2 + 1)))
              ((fun e : ℕ × ℤ => (e.1, e.2 + 1)) b0)).1 = (lastOf bs b0).1
            rw [lastOf_map (fun e : ℕ × ℤ => (e.1, e.2 + 1)) bs b0]
          have hmemOld : (fun e : ℕ × ℤ => (e.1, e.2 + 1)) (lastOf bs b0) ∈
              (geRows rows l x.1.key).map eOf := by
            rw [hgeq2]
            exact List.mem_cons_of_mem _ (List.mem_map_of_mem _ hzmem)
          have hzne' := ge_ne_lastLessE M l x.1.key hmemOld
          have hzne : (lastOf bs b0).1 ≠ (lastLessE rows l x.1.key).1 := hzne'
          rw [Fnx, (DK4 l (lastOf bs b0).1 (fun _ => hzne)).1]
          rw [hOldLast] at hOldT
          exact hOldT
        · have hgrows2 : geRows rows l x.1.key =
              (annotAll suf (1 + (pre.length : ℤ) + 1)).filter
                (fun y => decide (l ≤ y.1.height)) := by
            rw [hLS.2, hannx, List.filter_cons,
              if_neg (show ¬ ((fun y : Row × ℤ => decide (l ≤ y.1.height))
                (x.1, 1 + (pre.length : ℤ)) = true) from by
                  simp only [decide_eq_true_eq]
                  omega)]
          have hgeq2 : (geRows rows l x.1.key).map eOf =
              (b0 :: bs).map (fun e : ℕ × ℤ => (e.1, e.2 + 1)) := by
            rw [hgrows2, hOldBeq]
          have hOldLast : (lastOf (levelEntries rows l) ((0 : ℕ), (0 : ℤ))).1 =
              (lastOf bs b0).1 := by
            rw [hentries, hgeq2, List.map_cons, lastOf_append_cons]
            show (lastOf (bs.map (fun e : ℕ × ℤ => (e.1, e.2 + 1)))
              ((fun e : ℕ × ℤ => (e.1, e.2 + 1)) b0)).1 = (lastOf bs b0).1
            rw [lastOf_map (fun e : ℕ × ℤ => (e.1, e.2 + 1)) bs b0]
          have hmemOld : (fun e : ℕ × ℤ => (e.1, e.2 + 1)) (lastOf bs b0) ∈
              (geRows rows l x.1.key).map eOf := by
            rw [hgeq2]
            exact List.mem_map_of_mem _ hzmem
          have hzne' := ge_ne_lastLessE M l x.1.key hmemOld
          have hzne : (lastOf bs b0).1 ≠ (lastLessE rows l x.1.key).1 := hzne'
          rw [Fnx, (DK4 l (lastOf bs b0).1 (fun _ => hzne)).1]
          rw [hOldLast] at hOldT
          exact hOldT
    · have hnil : levelEntries (pre ++ suf) l = [] := by
        apply levelEntries_nil_of_high
        intro r hr
        have := le_maxHeight (pre ++ suf) hr
        omega
      rw [hnil]
      show F.nextOf 0 l = some 1
      rw [Fnx]
      by_cases htm : l ≤ told.maxLevel
      · by_cases hxh : l ≤ x.1.height
        · have hde := delete_level_empty M hx hHle (not_le.mp hlH) hxh
          have hcl : lastLessE rows l x.1.key = ((0 : ℕ), (0 : ℤ)) :=
            lastLessE_empty rows l x.1.key hde.1
          have hD2 : D.nextOf 0 l = told.nextOf x.1.id l := by
            have h6 := (DK2 l htm hxh).1
            rw [hcl] at h6
            exact h6
          rw [hD2]
          have hOldT := M.htail l hL
          have hentries : levelEntries rows l =
              (lessRows rows l x.1.key).map eOf ++
                (geRows rows l x.1.key).map eOf :=
            levelEntries_split_k rows M.hsorted l x.1.key
          have hOldLast : (lastOf (levelEntries rows l) ((0 : ℕ), (0 : ℤ))).1 =
              x.1.id := by
            rw [hentries, hde.1, hde.2]
            rfl
          rw [hOldLast] at hOldT
          exact hOldT
        · have halllow : ∀ r ∈ rows, r.height < l := by
            intro r hr
            by_cases hrx : r.name = x.1.name
            · have h7 : r = x.1 := row_name_inj M hr hxrow hrx
              rw [h7]
              omega
            · have := hHle r hr hrx
              omega
          have hless : lessRows rows l x.1.key = [] :=
            lessRows_empty_of_high halllow x.1.key
          have hcl : lastLessE rows l x.1.key = ((0 : ℕ), (0 : ℤ)) :=
            lastLessE_empty rows l x.1.key hless
          have hD2 : D.nextOf 0 l = told.nextOf 0 l := by
            have h6 := (DK3 l htm (not_le.mp hxh)).1
            rw [hcl] at h6
            exact h6
          rw [hD2]
          have hOldT := M.htail l hL
          have holdnil : levelEntries rows l = [] :=
            levelEntries_nil_of_high halllow
          rw [holdnil] at hOldT
          exact hOldT
      · rw [(DK4 l 0 (fun hc => absurd hc htm)).1]
        have hOldT := M.htail l hL
        have holdnil : levelEntries rows l = [] := by
          apply levelEntries_nil_of_high
          intro r hr
          have := M.hheight r hr
          omega
        rw [holdnil] at hOldT
        exact hOldT
  · have hpw := M.hsorted
    rw [hsplit] at hpw
    rcases List.pairwise_append.mp hpw with ⟨-, hpwx, hcross⟩
    have hpreLt : ∀ r ∈ pre, rowLt r.key x.1.key := fun r hr =>
      hcross r hr x.1 (List.mem_cons_self _ _)
    have hsufnot : ∀ r ∈ x.1 :: suf, ¬ rowLt r.key x.1.key := by
      intro r hr
      rcases List.mem_cons.mp hr with rfl | hr'
      · exact rowLt_irrefl _
      · exact rowLt_asymm ((List.pairwise_cons.mp hpwx).1 r hr')
    have hLS0 := lessRows_of_split hsplit x.1.key hpreLt hsufnot 0
    have hless0 : lessRows rows 0 x.1.key = annotAll pre 1 := by
      rw [hLS0.1]
      exact List.filter_eq_self.mpr (fun y hy => decide_eq_true (Nat.zero_le _))
    have hge0 : geRows rows 0 x.1.key =
        annotAll (x.1 :: suf) (1 + (pre.length : ℤ)) := by
      rw [hLS0.2]
      exact List.filter_eq_self.mpr (fun y hy => decide_eq_true (Nat.zero_le _))
    have hid0 : (lastLessE rows 0 x.1.key).1 = lastOf (pre.map Row.id) 0 := by
      show (lastOf ((lessRows rows 0 x.1.key).map eOf) ((0 : ℕ), (0 : ℤ))).1 = _
      rw [hless0]
      exact lastOf_annot_id pre 1 ((0 : ℕ), (0 : ℤ))
    rw [List.map_append, List.append_assoc]
    show List.Chain' (fun a b => F.prevOf b = some a)
      ((0 :: pre.map Row.id) ++ (suf.map Row.id ++ [1]))
    have hO := M.hprev
    rw [hsplit, List.map_append, List.map_cons, List.append_assoc] at hO
    have hO' : List.Chain' (fun a b => told.prevOf b = some a)
        ((0 :: pre.map Row.id) ++ (x.1.id :: (suf.map Row.id ++ [1]))) := hO
    rcases List.chain'_append.mp hO' with ⟨hO1, hO2, hOjunc⟩
    have hnd := prevList_nodup M
    rw [hsplit, List.map_append, List.map_cons, List.append_assoc] at hnd
    have htl : (pre.map Row.id ++ (x.1.id :: (suf.map Row.id ++ [1]))).Nodup :=
      (List.nodup_cons.mp hnd).2
    have hdisj := (List.nodup_append.mp htl).2.2
    have hsufnd : (x.1.id :: (suf.map Row.id ++ [1])).Nodup :=
      (List.nodup_append.mp htl).2.1
    rcases suf with _ | ⟨s, ss⟩
    · have hge0x : geRows rows 0 x.1.key = [x] := by
        rw [hge0,
          show annotAll (x.1 :: ([] : List Row)) (1 + (pre.length : ℤ)) =
            [(x.1, 1 + (pre.length : ℤ))] from rfl,
          ← hxpos]
      have hm : told.nextOf x.1.id 0 = some 1 := by
        rcases target_next_eq M hx (by decide) (Nat.zero_le x.1.height)
          with ⟨gs, hG, hcase⟩
        rw [hge0x] at hG
        injection hG with h1 h2
        rcases hcase with ⟨-, hnx⟩ | ⟨g, gs', hgg, -, -⟩
        · exact hnx
        · rw [← h2] at hgg
          exact List.noConfusion hgg
      refine List.chain'_append.mpr ⟨?_, ?_, ?_⟩
      · apply chain'_imp_adj _ hO1
        intro pre2 a b suf2 heq hR
        have hbmem : b ∈ 0 :: pre.map Row.id := by
          rw [heq]
          exact List.mem_append.mpr (Or.inr (List.mem_cons_of_mem _
            (List.mem_cons_self _ _)))
        have hbb : b = 0 ∨ ∃ r ∈ pre, b = r.id := by
          rcases List.mem_cons.mp hbmem with h | h
          · exact Or.inl h
          · rcases List.mem_map.mp h with ⟨r, hr, hidr⟩
            exact Or.inr ⟨r, hr, hidr.symm⟩
        have hbm : ∀ m', told.nextOf x.1.id 0 = some m' → b ≠ m' := by
          intro m' hm'
          rw [hm] at hm'
          cases Option.some.inj hm'
          rcases hbb with rfl | ⟨r, hr, rfl⟩
          · omega
          · have := (M.hid r (hmemrows r (List.mem_append.mpr (Or.inl hr)))).1
            omega
        rw [Fpv, DK6.2 b hbm]
        exact hR
      · exact List.chain'_singleton _
      · intro u hu v hv
        rw [getLast?_eq_lastOf] at hu
        have hue : u = lastOf (pre.map Row.id) 0 :=
          (Option.mem_some_iff.mp hu).symm
        have hv' : v ∈ ([(1 : ℕ)]).head? := hv
        rw [List.head?_cons] at hv'
        have hve : v = 1 := (Option.mem_some_iff.mp hv').symm
        rw [hue, hve, Fpv, DK6.1 1 hm, hid0]
    · have hge0c : geRows rows 0 x.1.key =
          x :: (s, 1 + (pre.length : ℤ) + 1) ::
            annotAll ss (1 + (pre.length : ℤ) + 1 + 1) := by
        rw [hge0,
          show annotAll (x.1 :: s :: ss) (1 + (pre.length : ℤ)) =
            (x.1, 1 + (pre.length : ℤ)) :: (s, 1 + (pre.length : ℤ) + 1) ::
              annotAll ss (1 + (pre.length : ℤ) + 1 + 1) from rfl,
          ← hxpos]
      have hm : told.nextOf x.1.id 0 = some s.id := by
        rcases target_next_eq M hx (by decide) (Nat.zero_le x.1.height)
          with ⟨gs, hG, hcase⟩
        rw [hge0c] at hG
        injection hG with h1 h2
        rcases hcase with ⟨hgs, -⟩ | ⟨g, gs', hgg, hnx, -⟩
        · rw [← h2] at hgs
          exact List.noConfusion hgs
        · rw [← h2] at hgg
          injection hgg with h3 h4
          rw [← h3] at hnx
          exact hnx
      have hsufnd2 : (s.id :: (ss.map Row.id ++ [1])).Nodup :=
        (List.nodup_cons.mp hsufnd).2
      have hsnotin : s.id ∉ ss.map Row.id ++ [1] :=
        (List.nodup_cons.mp hsufnd2).1
      have hsmem : s.id ∈ x.1.id :: ((s :: ss).map Row.id ++ [1]) := by
        refine List.mem_cons_of_mem _ ?_
        rw [List.map_cons, List.cons_append]
        exact List.mem_cons_self _ _
      refine List.chain'_append.mpr ⟨?_, ?_, ?_⟩
      · apply chain'_imp_adj _ hO1
        intro pre2 a b suf2 heq hR
        have hbmem : b ∈ 0 :: pre.map Row.id := by
          rw [heq]
          exact List.mem_append.mpr (Or.inr (List.mem_cons_of_mem _
            (List.mem_cons_self _ _)))
        have hbb : b = 0 ∨ ∃ r ∈ pre, b = r.id := by
          rcases List.mem_cons.mp hbmem with h | h
          · exact Or.inl h
          · rcases List.mem_map.mp h with ⟨r, hr, hidr⟩
            exact Or.inr ⟨r, hr, hidr.symm⟩
        have hbm : ∀ m', told.nextOf x.1.id 0 = some m' → b ≠ m' := by
          intro m' hm'
          rw [hm] at hm'
          cases Option.some.inj hm'
          rcases hbb with rfl | ⟨r, hr, rfl⟩
          · have := (M.hid s (hmemrows s (List.mem_append.mpr (Or.inr
              (List.mem_cons_self _ _))))).1
            omega
          · intro hc
            apply hdisj (List.mem_map_of_mem Row.id hr)
            rw [hc]
            exact hsmem
        rw [Fpv, DK6.2 b hbm]
        exact hR
      · have hO2tail : List.Chain' (fun a b => told.prevOf b = some a)
            (s.id :: (ss.map Row.id ++ [1])) := hO2.tail
        have hchain2 : List.Chain' (fun a b => F.prevOf b = some a)
            (s.id :: (ss.map Row.id ++ [1])) := by
          apply chain'_imp_adj _ hO2tail
          intro pre2 a b suf2 heq hR
          have hbtl : b ∈ ss.map Row.id ++ [1] := mem_tail_of_decomp heq
          have hbne : b ≠ s.id := by
            intro hc
            rw [hc] at hbtl
            exact hsnotin hbtl
          have hbm : ∀ m', told.nextOf x.1.id 0 = some m' → b ≠ m' := by
            intro m' hm'
            rw [hm] at hm'
            cases Option.some.inj hm'
            exact hbne
          rw [Fpv, DK6.2 b hbm]
          exact hR
        exact hchain2
      · intro u hu v hv
        rw [getLast?_eq_lastOf] at hu
        have hue : u = lastOf (pre.map Row.id) 0 :=
          (Option.mem_some_iff.mp hu).symm
        have hv' : v ∈ (s.id :: (ss.map Row.id ++ [1])).head? := hv
        rw [List.head?_cons] at hv'
        have hve : v = s.id := (Option.mem_some_iff.mp hv').symm
        rw [hue, hve, Fpv, DK6.1 s.id hm, hid0]
  · rw [hFel]
    exact M.hkeysnodup.sublist ((List.filter_sublist _).map _)
  · rw [hFel]
    have h1 := elemsErase_length_of_mem told.elements x.1.name M.hkeysnodup
      (by rw [hlook]; exact fun hc => Option.noConfusion hc)
    have h2 := M.helemlen
    simp only [List.length_append]
    omega
  · intro r hr
    rw [hFel]
    have hrn : r.name ≠ x.1.name := by
      rcases List.mem_append.mp hr with h | h
      · exact hprename r h
      · exact hsufname r h
    rw [elemsLookup_erase_other _ _ _ hrn]
    exact M.helemsome r (hmemrows r hr)
  · intro n hn
    rw [hFel]
    by_cases hnx : n = x.1.name
    · rw [hnx]
      exact elemsLookup_erase_self _ _
    · rw [elemsLookup_erase_other _ _ _ hnx]
      refine M.helemnone n ?_
      intro r hr
      rw [hsplit] at hr
      rcases List.mem_append.mp hr with h | h
      · exact hn r (List.mem_append.mpr (Or.inl h))
      · rcases List.mem_cons.mp h with rfl | h'
        · exact fun hc => hnx hc.symm
        · exact hn r (List.mem_append.mpr (Or.inr h'))

/-- The finite score values handed to the run's inserts. -/
def finScores (ops : List Op) : List ℤ :=
  (insScores ops).filterMap
    (fun s => match s with | .fin q => some q | _ => none)

theorem mem_finScores {ops : List Op} {q : ℤ}
    (h : EScore.fin q ∈ insScores ops) : q ∈ finScores ops :=
  List.mem_filterMap.mpr ⟨EScore.fin q, h, rfl⟩

/-- Pairwise separation compatibility of the run's scores makes their
finite values a separated set. -/
theorem sepOpsB_sepSet {ops : List Op} (h : sepOpsB ops = true) :
    SepSet (finScores ops) := by
  intro a ha b hb
  rcases List.mem_filterMap.mp ha with ⟨sa, hsa, hsa2⟩
  rcases List.mem_filterMap.mp hb with ⟨sb, hsb, hsb2⟩
  have hsa' : sa = EScore.fin a := by
    cases sa with
    | fin z => rw [Option.some.inj hsa2]
    | negInf => exact Option.noConfusion hsa2
    | posInf => exact Option.noConfusion hsa2
  have hsb' : sb = EScore.fin b := by
    cases sb with
    | fin z => rw [Option.some.inj hsb2]
    | negInf => exact Option.noConfusion hsb2
    | posInf => exact Option.noConfusion hsb2
  unfold sepOpsB at h
  have h2 := List.all_eq_true.mp (List.all_eq_true.mp h sa hsa) sb hsb
  rw [hsa', hsb'] at h2
  simp only [scoreCompat, Bool.or_eq_true, beq_iff_eq, absGtEps,
    decide_eq_true_eq, EScore.fin.injEq] at h2
  exact h2

theorem insMaxL_lt {S : List ℤ} {t : SkipList} {rows : List Row}
    (M : Models S t rows) {l : ℕ} (hl : l < MaxLevel) :
    insMaxL t l < MaxLevel := by
  unfold insMaxL
  by_cases hd : l > t.maxLevel
  · rw [if_pos hd]
    omega
  · rw [if_neg hd]
    exact M.hmaxLt

/-- A `Delete` preserves the refinement and leaves no row with the deleted
name. -/
theorem delete_name_models {S : List ℤ} (hSep : SepSet S) {t : SkipList}
    {rows : List Row} (M : Models S t rows) (n : String) :
    ∃ rows', Models S (Delete t n) rows' ∧ ∀ r ∈ rows', r.name ≠ n := by
  by_cases hex : ∃ r ∈ rows, r.name = n
  · rcases hex with ⟨r, hr, hrn⟩
    rcases mem_annotAll_exists rows 1 hr with ⟨x, hx, hx1⟩
    have hsepx : ∀ r' ∈ rows, sepScore r'.score x.1.score := by
      intro r' hr'
      exact hSep _ (M.hS r' hr') _ (M.hS x.1 (by rw [hx1]; exact hr))
    have hD := delete_models M hx hsepx
    rw [hx1, hrn] at hD
    refine ⟨absDel rows n, hD, ?_⟩
    intro r' hr'
    have := (List.mem_filter.mp hr').2
    exact of_decide_eq_true this
  · push_neg at hex
    have hnone : elemsLookup t.elements n = none := M.helemnone n hex
    have hDel : Delete t n = t := by
      unfold Delete
      rw [hnone]
    rw [hDel]
    exact ⟨rows, M, hex⟩

/-- An `Insert` with a valid drawn level and a score from the separated set
preserves the refinement. -/
theorem insert_name_models {S : List ℤ} (hSep : SepSet S) {t : SkipList}
    {rows : List Row} (M : Models S t rows) (n : String) (s : EScore) (l : ℕ)
    (hl : l < MaxLevel) (hqS : ∀ q, s = EScore.fin q → q ∈ S) :
    ∃ rows', Models S (Insert t n s l) rows' := by
  by_cases hname : n = HeadNodeName ∨ n = TailNodeName
  · rw [SkipListGo.Insert, if_pos hname]
    exact ⟨rows, M⟩
  by_cases hscore : s = t.scoreOf 0 ∨ s = t.scoreOf 1
  · rw [SkipListGo.Insert, if_neg hname, if_pos hscore]
    exact ⟨rows, M⟩
  obtain ⟨q, rfl⟩ : ∃ q, s = EScore.fin q := by
    cases s with
    | fin q => exact ⟨q, rfl⟩
    | negInf => exact absurd (Or.inl M.hheadscore.symm) hscore
    | posInf => exact absurd (Or.inr M.htailscore.symm) hscore
  have hq : q ∈ S := hqS q rfl
  have hn1 : n ≠ HeadNodeName := fun hc => hname (Or.inl hc)
  have hn2 : n ≠ TailNodeName := fun hc => hname (Or.inr hc)
  rcases hl2 : elemsLookup t.elements n with _ | c
  · have hIns : Insert t n (EScore.fin q) l = insertFresh t n (EScore.fin q) l := by
      rw [SkipListGo.Insert, if_neg hname, if_neg hscore]
      simp only [hl2]
    rw [hIns]
    have hfresh : ∀ r ∈ rows, r.name ≠ n := by
      intro r hr hc
      have h3 := M.helemsome r hr
      rw [hc, hl2] at h3
      exact Option.noConfusion h3
    have hsep2 : ∀ r ∈ rows, sepScore r.score q := fun r hr =>
      hSep _ (M.hS r hr) _ hq
    exact ⟨_, insert_models M q n l hsep2 hfresh hn1 hn2 hq (insMaxL_lt M hl)⟩
  · by_cases heq : equalFloat c (EScore.fin q)
    · have hIns : Insert t n (EScore.fin q) l = t := by
        rw [SkipListGo.Insert, if_neg hname, if_neg hscore]
        simp only [hl2]
        rw [if_pos heq]
      rw [hIns]
      exact ⟨rows, M⟩
    · have hIns : Insert t n (EScore.fin q) l =
          insertFresh (Delete t n) n (EScore.fin q) l := by
        rw [SkipListGo.Insert, if_neg hname, if_neg hscore]
        simp only [hl2]
        rw [if_neg heq]
      rw [hIns]
      rcases delete_name_models hSep M n with ⟨rows1, M1, hfree1⟩
      have hsep2 : ∀ r ∈ rows1, sepScore r.score q := fun r hr =>
        hSep _ (M1.hS r hr) _ hq
      exact ⟨_, insert_models M1 q n l hsep2 hfree1 hn1 hn2 hq (insMaxL_lt M1 hl)⟩

/-- Folding a valid block of operations whose scores come from the
separated set `S` preserves the refinement. -/
theorem foldOps_models {S : List ℤ} (hSep : SepSet S) :
    ∀ (ops2 : List Op), validOpsB ops2 = true →
      (∀ q : ℤ, EScore.fin q ∈ insScores ops2 → q ∈ S) →
      ∀ (t : SkipList) (rows : List Row), Models S t rows →
      ∃ rows', Models S (ops2.foldl applyOp t) rows' := by
  intro ops2
  induction ops2 with
  | nil =>
    intro _ _ t rows M
    exact ⟨rows, M⟩
  | cons op ops2 ih =>
    intro hv2 hq2 t rows M
    have hvh : validOpsB ops2 = true := by
      unfold validOpsB at hv2
      rw [List.all_cons, Bool.and_eq_true] at hv2
      exact hv2.2
    have hqh : ∀ q : ℤ, EScore.fin q ∈ insScores ops2 → q ∈ S := by
      intro q hmem
      refine hq2 q ?_
      cases op with
      | ins n s lv =>
        rw [show insScores (Op.ins n s lv :: ops2) = s :: insScores ops2 from rfl]
        exact List.mem_cons_of_mem _ hmem
      | del n =>
        rw [show insScores (Op.del n :: ops2) = insScores ops2 from rfl]
        exact hmem
    have hstep : ∃ rows1, Models S (applyOp t op) rows1 := by
      cases op with
      | ins n s lv =>
        have hlv : lv < MaxLevel := by
          unfold validOpsB at hv2
          rw [List.all_cons, Bool.and_eq_true] at hv2
          exact of_decide_eq_true hv2.1
        have hqop : ∀ q, s = EScore.fin q → q ∈ S := by
          intro q hsq
          refine hq2 q ?_
          rw [show insScores (Op.ins n s lv :: ops2) = s :: insScores ops2
            from rfl, hsq]
          exact List.mem_cons_self _ _
        exact insert_name_models hSep M n s lv hlv hqop
      | del n =>
        rcases delete_name_models hSep M n with ⟨rows1, M1, -⟩
        exact ⟨rows1, M1⟩
    rcases hstep with ⟨rows1, M1⟩
    rw [show (op :: ops2).foldl applyOp t = ops2.foldl applyOp (applyOp t op)
      from rfl]
    exact ih hvh hqh _ rows1 M1

theorem validOpsB_append_left {ops ops2 : List Op}
    (h : validOpsB (ops ++ ops2) = true) : validOpsB ops = true := by
  unfold validOpsB at h ⊢
  rw [List.all_eq_true] at h ⊢
  intro op hop
  exact h op (List.mem_append.mpr (Or.inl hop))

theorem insScores_append (ops ops2 : List Op) :
    insScores (ops ++ ops2) = insScores ops ++ insScores ops2 := by
  unfold insScores
  rw [List.filterMap_append]

/-- Every state reachable by a valid, separation-compatible run presents
some abstract row list over the run's score set. -/
theorem runOps_models {ops : List Op} (hv : validOpsB ops = true)
    (hs : sepOpsB ops = true) :
    ∃ rows, Models (finScores ops) (runOps ops) rows :=
  foldOps_models (sepOpsB_sepSet hs) ops hv (fun _ hq => mem_finScores hq)
    newList [] (models_newList (finScores ops))

/-- A prefix of a valid, separation-compatible run presents some row list
over the full run's score set. -/
theorem runOps_prefix_models {ops ops2 : List Op}
    (hv : validOpsB (ops ++ ops2) = true)
    (hs : sepOpsB (ops ++ ops2) = true) :
    ∃ rows, Models (finScores (ops ++ ops2)) (runOps ops) rows :=
  foldOps_models (sepOpsB_sepSet hs) ops (validOpsB_append_left hv)
    (fun q hq => mem_finScores (by
      rw [insScores_append]
      exact List.mem_append.mpr (Or.inl hq)))
    newList [] (models_newList (finScores (ops ++ ops2)))

theorem runOps_append (ops ops2 : List Op) :
    runOps (ops ++ ops2) = ops2.foldl applyOp (runOps ops) := by
  unfold runOps
  rw [List.foldl_append]

/-! ### Observer bridges: the pointer-graph observers on a modelled state -/

theorem annot_rank_lb : ∀ (l : List Row) (p : ℤ) {x : Row × ℤ},
    x ∈ annotAll l p → p ≤ x.2 := by
  intro l
  induction l with
  | nil =>
    intro p x hx
    exact absurd hx (List.not_mem_nil x)
  | cons a as ih =>
    intro p x hx
    rcases List.mem_cons.mp hx with rfl | hx'
    · exact le_refl _
    · have := ih (p + 1) hx'
      omega

theorem annot_rank_ub : ∀ (l : List Row) (p : ℤ) {x : Row × ℤ},
    x ∈ annotAll l p → x.2 < p + l.length := by
  intro l
  induction l with
  | nil =>
    intro p x hx
    exact absurd hx (List.not_mem_nil x)
  | cons a as ih =>
    intro p x hx
    rcases List.mem_cons.mp hx with rfl | hx'
    · simp only [List.length_cons]
      push_cast
      omega
    · have := ih (p + 1) hx'
      simp only [List.length_cons]
      push_cast
      push_cast at this
      omega

theorem annot_rank_pairwise : ∀ (l : List Row) (p : ℤ),
    (annotAll l p).Pairwise (fun a b => a.2 < b.2) := by
  intro l
  induction l with
  | nil =>
    intro p
    exact List.Pairwise.nil
  | cons a as ih =>
    intro p
    refine List.pairwise_cons.mpr ⟨?_, ih (p + 1)⟩
    intro y hy
    have := annot_rank_lb as (p + 1) hy
    show p < y.2
    omega

theorem annot_rank_inj {l : List Row} {p : ℤ} {x y : Row × ℤ}
    (hx : x ∈ annotAll l p) (hy : y ∈ annotAll l p) (h : x.2 = y.2) :
    x = y := by
  have hp := annot_rank_pairwise l p
  rcases List.append_of_mem hx with ⟨pre, suf, hsplit⟩
  rw [hsplit] at hy hp
  rcases List.mem_append.mp hy with hy' | hy'
  · exfalso
    have := (List.pairwise_append.mp hp).2.2 y hy' x (List.mem_cons_self _ _)
    omega
  · rcases List.mem_cons.mp hy' with rfl | hy2
    · rfl
    · exfalso
      have := (List.pairwise_cons.mp (List.pairwise_append.mp hp).2.1).1 y hy2
      omega

theorem annot_rank_surj : ∀ (l : List Row) (p : ℤ) (r : ℤ), p ≤ r →
    r < p + l.length → ∃ x ∈ annotAll l p, x.2 = r := by
  intro l
  induction l with
  | nil =>
    intro p r h1 h2
    simp only [List.length_nil] at h2
    omega
  | cons a as ih =>
    intro p r h1 h2
    by_cases hr : r = p
    · exact ⟨(a, p), List.mem_cons_self _ _, hr.symm⟩
    · have h3 : p + 1 ≤ r := by omega
      have h4 : r < (p + 1) + as.length := by
        simp only [List.length_cons] at h2
        push_cast at h2 ⊢
        omega
      rcases ih (p + 1) r h3 h4 with ⟨x, hx, hxr⟩
      exact ⟨x, List.mem_cons_of_mem _ hx, hxr⟩

/-- Walking a linked level with enough fuel lists exactly the chain ids. -/
theorem levelWalk_chain {t : SkipList} {L : ℕ} :
    ∀ (entries : List (ℕ × ℤ)) (c : ℕ × ℤ),
      List.Chain' (linkRel t L) (c :: entries) →
      t.nextOf (lastOf entries c).1 L = some 1 →
      (∀ e ∈ entries, e.1 ≠ 1) →
      ∀ fuel, entries.length + 1 ≤ fuel →
      levelWalk t L fuel c.1 = entries.map Prod.fst := by
  intro entries
  induction entries with
  | nil =>
    intro c _ htl _ fuel hf
    rcases fuel with _ | f
    · omega
    have htl' : t.nextOf c.1 L = some 1 := htl
    show levelWalk t L (f + 1) c.1 = []
    unfold levelWalk
    rw [htl']
    rfl
  | cons e es ih =>
    intro c hch htl hne fuel hf
    rcases fuel with _ | f
    · omega
    rcases List.chain'_cons.mp hch with ⟨hce, htlch⟩
    have hnx : t.nextOf c.1 L = some e.1 := hce.1
    show levelWalk t L (f + 1) c.1 = e.1 :: es.map Prod.fst
    unfold levelWalk
    rw [hnx]
    show (if e.1 = 1 then [] else e.1 :: levelWalk t L f e.1) =
      e.1 :: es.map Prod.fst
    rw [if_neg (hne e (List.mem_cons_self _ _))]
    rw [ih e htlch htl (fun e' he' => hne e' (List.mem_cons_of_mem _ he')) f
      (by simp only [List.length_cons] at hf; omega)]

theorem levelIds_models {S : List ℤ} {t : SkipList} {rows : List Row}
    (M : Models S t rows) {L : ℕ} (hL : L < MaxLevel) :
    levelIds t L = (levelEntries rows L).map Prod.fst := by
  unfold levelIds
  refine levelWalk_chain (levelEntries rows L) ((0 : ℕ), (0 : ℤ))
    (M.hlinks L hL) (M.htail L hL) ?_ _ ?_
  · intro e he
    have := levelEntries_id M he
    omega
  · have hlen : (levelEntries rows L).length ≤ rows.length := by
      unfold levelEntries
      rw [List.length_map]
      calc ((annotAll rows 1).filter _).length
          ≤ (annotAll rows 1).length := List.length_filter_le _ _
        _ = rows.length := length_annotAll rows 1
    have := M.hcard
    omega

theorem annot_map_id : ∀ (l : List Row) (p : ℤ),
    (annotAll l p).map (fun x : Row × ℤ => x.1.id) = l.map Row.id := by
  intro l
  induction l with
  | nil => intro p; rfl
  | cons a as ih =>
    intro p
    show a.id :: (annotAll as (p + 1)).map (fun x : Row × ℤ => x.1.id) = _
    rw [ih (p + 1)]
    rfl

theorem levelEntries_zero (rows : List Row) :
    levelEntries rows 0 = (annotAll rows 1).map eOf := by
  unfold levelEntries
  rw [List.filter_eq_self.mpr (fun x _ => decide_eq_true (Nat.zero_le _))]
  rfl

theorem levelIds_zero_models {S : List ℤ} {t : SkipList} {rows : List Row}
    (M : Models S t rows) : levelIds t 0 = rows.map Row.id := by
  rw [levelIds_models M (by decide), levelEntries_zero, List.map_map]
  exact annot_map_id rows 1

/-- Following a linked level with enough fuel reaches the tail. -/
theorem levelClosedFrom_chain {t : SkipList} {L : ℕ} :
    ∀ (entries : List (ℕ × ℤ)) (c : ℕ × ℤ),
      List.Chain' (linkRel t L) (c :: entries) →
      t.nextOf (lastOf entries c).1 L = some 1 →
      ∀ fuel, entries.length + 2 ≤ fuel →
      levelClosedFrom t L fuel c.1 = true := by
  intro entries
  induction entries with
  | nil =>
    intro c _ htl fuel hf
    rcases fuel with _ | f
    · omega
    have htl' : t.nextOf c.1 L = some 1 := htl
    show levelClosedFrom t L (f + 1) c.1 = true
    unfold levelClosedFrom
    by_cases hc : c.1 = 1
    · rw [if_pos hc]
    · rw [if_neg hc, htl']
      rcases f with _ | f2
      · omega
      · show levelClosedFrom t L (f2 + 1) 1 = true
        unfold levelClosedFrom
        rw [if_pos rfl]
  | cons e es ih =>
    intro c hch htl fuel hf
    rcases fuel with _ | f
    · omega
    rcases List.chain'_cons.mp hch with ⟨hce, htlch⟩
    have hnx : t.nextOf c.1 L = some e.1 := hce.1
    show levelClosedFrom t L (f + 1) c.1 = true
    unfold levelClosedFrom
    by_cases hc : c.1 = 1
    · rw [if_pos hc]
    · rw [if_neg hc, hnx]
      exact ih e htlch htl f
        (by simp only [List.length_cons] at hf; omega)

theorem levelClosed_models {S : List ℤ} {t : SkipList} {rows : List Row}
    (M : Models S t rows) {L : ℕ} (hL : L < MaxLevel) :
    levelClosed t L = true := by
  unfold levelClosed
  refine levelClosedFrom_chain (levelEntries rows L) ((0 : ℕ), (0 : ℤ))
    (M.hlinks L hL) (M.htail L hL) _ ?_
  have hlen : (levelEntries rows L).length ≤ rows.length := by
    unfold levelEntries
    rw [List.length_map]
    calc ((annotAll rows 1).filter _).length
        ≤ (annotAll rows 1).length := List.length_filter_le _ _
      _ = rows.length := length_annotAll rows 1
  have := M.hcard
  omega

theorem findIdx_cons_self (i : ℕ) (rest : List ℕ) :
    (i :: rest).findIdx (fun j => decide (j = i)) = 0 := by
  simp [List.findIdx_cons]

theorem findIdx_cons_ne {i a : ℕ} (h : a ≠ i) (rest : List ℕ) :
    (a :: rest).findIdx (fun j => decide (j = i)) =
      rest.findIdx (fun j => decide (j = i)) + 1 := by
  simp [List.findIdx_cons, h]

theorem findIdx_annot : ∀ (l : List Row) (p : ℤ) {x : Row × ℤ},
    x ∈ annotAll l p → (l.map Row.id).Nodup → ∀ suffix : List ℕ,
    (((l.map Row.id ++ suffix).findIdx (fun j => decide (j = x.1.id)) : ℕ) : ℤ) =
      x.2 - p := by
  intro l
  induction l with
  | nil =>
    intro p x hx
    exact absurd hx (List.not_mem_nil x)
  | cons a as ih =>
    intro p x hx hnd suffix
    rcases List.mem_cons.mp hx with rfl | hx'
    · show (((a.id :: (as.map Row.id ++ suffix)).findIdx
        (fun j => decide (j = a.id)) : ℕ) : ℤ) = p - p
      rw [findIdx_cons_self]
      show ((0 : ℕ) : ℤ) = p - p
      omega
    · have hane : a.id ≠ x.1.id := by
        intro hc
        have hxrow : x.1 ∈ as := mem_annotAll_fst hx'
        exact (List.nodup_cons.mp hnd).1
          (by rw [hc]; exact List.mem_map_of_mem _ hxrow)
      show (((a.id :: (as.map Row.id ++ suffix)).findIdx
        (fun j => decide (j = x.1.id)) : ℕ) : ℤ) = x.2 - p
      rw [findIdx_cons_ne hane]
      have h2 := ih (p + 1) hx' (List.nodup_cons.mp hnd).2 suffix
      push_cast
      push_cast at h2
      omega

theorem findIdx_tail_one : ∀ (ids : List ℕ), (∀ j ∈ ids, j ≠ 1) →
    (ids ++ [1]).findIdx (fun j => decide (j = 1)) = ids.length := by
  intro ids
  induction ids with
  | nil =>
    intro _
    exact findIdx_cons_self 1 []
  | cons a as ih =>
    intro h
    rw [List.cons_append, findIdx_cons_ne (h a (List.mem_cons_self _ _)),
      ih (fun j hj => h j (List.mem_cons_of_mem _ hj))]
    rfl

theorem basePos_head (t : SkipList) : basePos t 0 = 0 := by
  unfold basePos
  rw [List.cons_append, findIdx_cons_self]
  rfl

theorem basePos_row {S : List ℤ} {t : SkipList} {rows : List Row}
    (M : Models S t rows) {x : Row × ℤ} (hx : x ∈ annotAll rows 1) :
    basePos t x.1.id = x.2 := by
  unfold basePos
  rw [levelIds_zero_models M, List.cons_append]
  have h0 : (0 : ℕ) ≠ x.1.id := by
    have := M.hid x.1 (mem_annotAll_fst hx)
    omega
  rw [findIdx_cons_ne h0]
  have h2 := findIdx_annot rows 1 hx M.hidnodup [1]
  push_cast
  push_cast at h2
  omega

theorem basePos_tail {S : List ℤ} {t : SkipList} {rows : List Row}
    (M : Models S t rows) : basePos t 1 = rows.length + 1 := by
  unfold basePos
  rw [levelIds_zero_models M, List.cons_append]
  rw [findIdx_cons_ne (by omega : (0 : ℕ) ≠ 1)]
  rw [findIdx_tail_one (rows.map Row.id) (fun j hj => by
    rcases List.mem_map.mp hj with ⟨r, hr, hjr⟩
    have := M.hid r hr
    omega)]
  rw [List.length_map]
  push_cast
  ring

/-- Base position of any entry of any level list, head included. -/
theorem basePos_fullLevel {S : List ℤ} {t : SkipList} {rows : List Row}
    (M : Models S t rows) {L : ℕ} {e : ℕ × ℤ} (he : e ∈ fullLevel rows L) :
    basePos t e.1 = e.2 := by
  rcases List.mem_cons.mp he with rfl | he'
  · exact basePos_head t
  · rcases List.mem_map.mp he' with ⟨x, hxf, hxe⟩
    have hxa : x ∈ annotAll rows 1 := (List.mem_filter.mp hxf).1
    rw [← hxe]
    exact basePos_row M hxa

/-- The span invariant restricted to the links that do not enter the tail:
every level list closes at the tail, and the span of each non-tail link
equals the number of base-level edges it jumps.  (`Delete` leaves the span
of a link into the tail one short on the levels it empties — the head-span
loop of source lines 373–375 runs with the already-reduced `maxLevel` — and
no query ever reads the span of a link into the tail.) -/
def spanInvNTB (t : SkipList) : Bool :=
  (List.range MaxLevel).all (fun L =>
    levelClosed t L &&
    (0 :: levelIds t L).all (fun i =>
      match t.nextOf i L with
      | some j => j == 1 || t.spanOf i L == basePos t j - basePos t i
      | none => false))

theorem chain'_mem_rel {α : Type} {R : α → α → Prop} :
    ∀ (l : List α), List.Chain' R l → ∀ e ∈ l,
      (∃ pre, l = pre ++ [e]) ∨ ∃ e', e' ∈ l ∧ R e e' := by
  intro l
  induction l with
  | nil =>
    intro _ e he
    exact absurd he (List.not_mem_nil e)
  | cons a as ih =>
    intro hch e he
    rcases List.mem_cons.mp he with rfl | he'
    · cases as with
      | nil => exact Or.inl ⟨[], rfl⟩
      | cons b bs =>
        exact Or.inr ⟨b, List.mem_cons_of_mem _ (List.mem_cons_self _ _),
          (List.chain'_cons.mp hch).1⟩
    · rcases ih hch.tail e he' with ⟨pre, hpre⟩ | ⟨e', he'', hR⟩
      · refine Or.inl ⟨a :: pre, ?_⟩
        rw [List.cons_append, hpre]
      · exact Or.inr ⟨e', List.mem_cons_of_mem _ he'', hR⟩

/-- Every modelled state satisfies the non-tail span invariant. -/
theorem spanInvNTB_models {S : List ℤ} {t : SkipList} {rows : List Row}
    (M : Models S t rows) : spanInvNTB t = true := by
  unfold spanInvNTB
  rw [List.all_eq_true]
  intro L hLr
  have hL : L < MaxLevel := by
    have := List.mem_range.mp hLr
    omega
  rw [Bool.and_eq_true]
  refine ⟨levelClosed_models M hL, ?_⟩
  rw [List.all_eq_true]
  intro i hi
  have hi2 : i ∈ (fullLevel rows L).map Prod.fst := by
    unfold fullLevel
    rw [List.map_cons]
    rw [levelIds_models M hL] at hi
    exact hi
  rcases List.mem_map.mp hi2 with ⟨e, hef, hei⟩
  rcases chain'_mem_rel (fullLevel rows L) (M.hlinks L hL) e hef
    with ⟨pre, hpre⟩ | ⟨e', he', hR⟩
  · have hlast : lastOf (fullLevel rows L) ((0 : ℕ), (0 : ℤ)) = e := by
      rw [hpre, lastOf_append]
      rfl
    have htl := M.htail L hL
    have htl2 : t.nextOf e.1 L = some 1 := by
      have h3 : (lastOf (levelEntries rows L) ((0 : ℕ), (0 : ℤ))).1 = e.1 := by
        have h4 : lastOf (fullLevel rows L) ((0 : ℕ), (0 : ℤ)) =
            lastOf (levelEntries rows L) ((0 : ℕ), (0 : ℤ)) := rfl
        rw [← h4, hlast]
      rw [← h3]
      exact htl
    rw [← hei, htl2]
    rfl
  · rw [← hei, hR.1]
    show (e'.1 == 1 || t.spanOf e.1 L == basePos t e'.1 - basePos t e.1) = true
    have h5 : t.spanOf e.1 L = e'.2 - e.2 := hR.2
    rw [h5, basePos_fullLevel M he', basePos_fullLevel M hef]
    simp

theorem adjAllB_of_chain' {f : ℕ → ℕ → Bool} :
    ∀ l : List ℕ, List.Chain' (fun a b => f a b = true) l →
      adjAllB f l = true := by
  intro l
  induction l with
  | nil => intro _; rfl
  | cons a as ih =>
    intro hch
    cases as with
    | nil => rfl
    | cons b bs =>
      rcases List.chain'_cons.mp hch with ⟨hab, htl⟩
      show (f a b && adjAllB f (b :: bs)) = true
      rw [hab, ih htl]
      rfl

theorem keyLtB_fin (a b : ℤ) (na nb : String) :
    keyLtB (EScore.fin a, na) (EScore.fin b, nb) =
      decide (rowLt (a, na) (b, nb)) := by
  rw [Bool.eq_iff_iff, decide_eq_true_eq]
  unfold keyLtB rowLt
  simp only [escLt, Bool.or_eq_true, Bool.and_eq_true, decide_eq_true_eq,
    beq_iff_eq, EScore.fin.injEq]

theorem nameOf_models {S : List ℤ} {t : SkipList} {rows : List Row}
    (M : Models S t rows) {r : Row} (hr : r ∈ rows) : t.nameOf r.id = r.name :=
  M.hname r hr

/-- The base chain of a modelled state is sorted strictly by the exact
(score, key) order. -/
theorem sortedStrictB_models {S : List ℤ} {t : SkipList} {rows : List Row}
    (M : Models S t rows) : sortedStrictB t = true := by
  unfold sortedStrictB
  rw [Bool.and_eq_true]
  refine ⟨levelClosed_models M (by decide), ?_⟩
  rw [levelIds_zero_models M]
  refine adjAllB_of_chain' _ ?_
  rw [List.chain'_map]
  refine chain'_transfer _ ?_ M.hsorted.chain'
  intro a ha b hb hab
  show keyLtB (keyOfId t a.id) (keyOfId t b.id) = true
  have h1 : keyOfId t a.id = (EScore.fin a.score, a.name) := by
    unfold keyOfId
    rw [M.hscore a ha, M.hname a ha]
  have h2 : keyOfId t b.id = (EScore.fin b.score, b.name) := by
    unfold keyOfId
    rw [M.hscore b hb, M.hname b hb]
  rw [h1, h2, keyLtB_fin]
  exact decide_eq_true hab

/-- The base chain of a modelled state over a separated score set is sorted
in the source's own epsilon comparison. -/
theorem sortedEpsB_models {S : List ℤ} {t : SkipList} {rows : List Row}
    (hSep : SepSet S) (M : Models S t rows) : sortedEpsB t = true := by
  unfold sortedEpsB
  rw [Bool.and_eq_true]
  refine ⟨levelClosed_models M (by decide), ?_⟩
  rw [levelIds_zero_models M]
  refine adjAllB_of_chain' _ ?_
  rw [List.chain'_map]
  refine chain'_transfer _ ?_ M.hsorted.chain'
  intro a ha b hb hab
  show (t.get a.id).Less (t.scoreOf b.id) (t.nameOf b.id) = true
  rw [M.hscore b hb, M.hname b hb]
  rw [elemLess_row (M.hscore a ha) (M.hname a ha) b.score b.name
    (hSep _ (M.hS a ha) _ (M.hS b hb))]
  exact decide_eq_true hab

/-- Each live key appears exactly once on the base chain of a modelled
state. -/
theorem namesNodupB_models {S : List ℤ} {t : SkipList} {rows : List Row}
    (M : Models S t rows) : namesNodupB t = true := by
  unfold namesNodupB
  rw [decide_eq_true_eq, levelIds_zero_models M, List.map_map]
  have hmc : rows.map (t.nameOf ∘ Row.id) = rows.map Row.name := by
    apply List.map_congr_left
    intro r hr
    exact M.hname r hr
  rw [hmc]
  exact M.hnamenodup

/-- Every live node's span-accumulated rank equals its base position. -/
theorem rankDescentB_models {S : List ℤ} {t : SkipList} {rows : List Row}
    (hSep : SepSet S) (M : Models S t rows) : rankDescentB t = true := by
  unfold rankDescentB
  rw [List.all_eq_true]
  intro i hi
  rw [levelIds_zero_models M] at hi
  rcases List.mem_map.mp hi with ⟨r, hr, hri⟩
  rcases mem_annotAll_exists rows 1 hr with ⟨x, hx, hx1⟩
  have hsepx : ∀ r' ∈ rows, sepScore r'.score x.1.score := fun r' hr' =>
    hSep _ (M.hS r' hr') _ (M.hS x.1 (by rw [hx1]; exact hr))
  have hGR := GetRank_models_present M hx hsepx
  have hnm : t.nameOf i = x.1.name := by
    rw [← hri, M.hname r hr, hx1]
  have hbp : basePos t i = x.2 := by
    rw [← hri, ← hx1]
    exact basePos_row M hx
  rw [hnm, hGR, hbp]
  simp

/-- Index–structure consistency of a modelled state. -/
theorem consistentB_models {S : List ℤ} {t : SkipList} {rows : List Row}
    (M : Models S t rows) : consistentB t = true := by
  unfold consistentB
  simp only [Bool.and_eq_true]
  refine ⟨⟨⟨⟨⟨levelClosed_models M (by decide), namesNodupB_models M⟩,
    ?_⟩, ?_⟩, ?_⟩, ?_⟩
  · rw [decide_eq_true_eq]
    exact M.hkeysnodup
  · rw [levelIds_zero_models M, List.length_map, beq_iff_eq]
    exact M.helemlen
  · rw [List.all_eq_true]
    intro i hi
    rw [levelIds_zero_models M] at hi
    rcases List.mem_map.mp hi with ⟨r, hr, hri⟩
    rw [← hri, M.hname r hr, M.hscore r hr, M.helemsome r hr]
    simp
  · rw [List.all_eq_true]
    intro p hp
    by_cases hex : ∃ r ∈ rows, r.name = p.1
    · rcases hex with ⟨r, hr, hrn⟩
      rw [List.any_eq_true]
      refine ⟨r.id, ?_, ?_⟩
      · rw [levelIds_zero_models M]
        exact List.mem_map_of_mem _ hr
      · rw [M.hname r hr, hrn]
        simp
    · exfalso
      push_neg at hex
      have hnone := M.helemnone p.1 hex
      unfold elemsLookup at hnone
      rw [Option.map_eq_none'] at hnone
      rw [List.find?_eq_none] at hnone
      have := hnone p hp
      simp at this

/-- The lexicographic predecessor count of a live node is its annotation
rank minus one. -/
theorem lexPredCount_models {S : List ℤ} {t : SkipList} {rows : List Row}
    (M : Models S t rows) {x : Row × ℤ} (hx : x ∈ annotAll rows 1) :
    (lexPredCount t x.1.id : ℤ) = x.2 - 1 := by
  have hxrow : x.1 ∈ rows := mem_annotAll_fst hx
  unfold lexPredCount
  rw [levelIds_zero_models M, List.filter_map, List.length_map]
  have hcong : rows.filter
      ((fun j => keyLtB (keyOfId t j) (keyOfId t x.1.id)) ∘ Row.id) =
      rows.filter (fun r' => decide (rowLt r'.key x.1.key)) := by
    apply List.filter_congr
    intro r' hr'
    show keyLtB (keyOfId t r'.id) (keyOfId t x.1.id) =
      decide (rowLt r'.key x.1.key)
    have h1 : keyOfId t r'.id = (EScore.fin r'.score, r'.name) := by
      unfold keyOfId
      rw [M.hscore r' hr', M.hname r' hr']
    have h2 : keyOfId t x.1.id = (EScore.fin x.1.score, x.1.name) := by
      unfold keyOfId
      rw [M.hscore x.1 hxrow, M.hname x.1 hxrow]
    rw [h1, h2, keyLtB_fin]
    rfl
  rw [hcong]
  rcases List.append_of_mem hxrow with ⟨pre, suf, hsplit⟩
  have hxpos : x = (x.1, 1 + (pre.length : ℤ)) := by
    have hxmem2 : ((x.1, 1 + (pre.length : ℤ)) : Row × ℤ) ∈ annotAll rows 1 := by
      rw [hsplit, annotAll_append]
      exact List.mem_append.mpr (Or.inr (List.mem_cons_self _ _))
    exact annot_id_inj M.hidnodup x hx _ hxmem2 rfl
  have hpw := M.hsorted
  rw [hsplit] at hpw
  rcases List.pairwise_append.mp hpw with ⟨-, hpwx, hcross⟩
  rw [hsplit, List.filter_append, List.filter_cons]
  rw [List.filter_eq_self.mpr (fun r' hr' => decide_eq_true
    (hcross r' hr' x.1 (List.mem_cons_self _ _)))]
  rw [if_neg (show ¬ ((fun r' : Row => decide (rowLt r'.key x.1.key)) x.1 = true)
    from fun hc => rowLt_irrefl x.1.key (of_decide_eq_true hc))]
  rw [List.filter_eq_nil_iff.mpr (fun r' hr' => by
    simp only [decide_eq_true_eq]
    exact rowLt_asymm ((List.pairwise_cons.mp hpwx).1 r' hr'))]
  rw [List.append_nil, hxpos]
  show (pre.length : ℤ) = 1 + (pre.length : ℤ) - 1
  ring

/-- C1 (amended).  On every state reachable by a valid run whose inserted
scores are pairwise separation-compatible, every level list closes at the
tail, the span of every link that does not enter the tail equals the number
of base-level edges it jumps, and the rank of every node as computed by the
span-accumulating descent of `GetRank` equals its base-level position.
(The unrestricted claim is false twice over: on epsilon-incompatible scores
`Delete` misfires and leaves stale spans — see the counterexample — and
even on compatible scores the span of a link into the tail is left one
short on the levels `Delete` empties, because the head-span loop of source
lines 373–375 runs with the already-reduced `maxLevel`.) -/
theorem C1_span_invariant (ops : List Op) (hv : validOpsB ops = true)
    (hs : sepOpsB ops = true) :
    spanInvNTB (runOps ops) = true ∧ rankDescentB (runOps ops) = true := by
  rcases runOps_models hv hs with ⟨rows, M⟩
  exact ⟨spanInvNTB_models M, rankDescentB_models (sepOpsB_sepSet hs) M⟩

/-- Witness for C1 on the separated run `A:0 (level 1), B:100, delete A`. -/
theorem C1_span_invariant_witness :
    validOpsB [.ins "A" (.fin 0) 1, .ins "B" (.fin 100) 0, .del "A"] = true ∧
    sepOpsB [.ins "A" (.fin 0) 1, .ins "B" (.fin 100) 0, .del "A"] = true ∧
    spanInvNTB (runOps [.ins "A" (.fin 0) 1, .ins "B" (.fin 100) 0,
      .del "A"]) = true ∧
    rankDescentB (runOps [.ins "A" (.fin 0) 1, .ins "B" (.fin 100) 0,
      .del "A"]) = true :=
  ⟨by decide, by decide,
    (C1_span_invariant [.ins "A" (.fin 0) 1, .ins "B" (.fin 100) 0, .del "A"]
      (by decide) (by decide)).1,
    (C1_span_invariant [.ins "A" (.fin 0) 1, .ins "B" (.fin 100) 0, .del "A"]
      (by decide) (by decide)).2⟩

/-- C2 (amended).  On every state reachable by a valid,
separation-compatible run, `GetRank` on the key of any chain node returns
`exist = true` and a rank equal to 1 plus the number of chain nodes
strictly preceding it in the (score, key) total order, and `GetRank` on a
key absent from the index returns `(0, false)`.  (Unrestricted, the claim
is false: on epsilon-incompatible scores a key can be present in the index
while the descent misses its node — see the counterexample.) -/
theorem C2_getRank (ops : List Op) (hv : validOpsB ops = true)
    (hs : sepOpsB ops = true) (n : String) :
    (∀ i ∈ levelIds (runOps ops) 0, (runOps ops).nameOf i = n →
      GetRank (runOps ops) n = (1 + (lexPredCount (runOps ops) i : ℤ), true)) ∧
    (elemsLookup (runOps ops).elements n = none →
      GetRank (runOps ops) n = (0, false)) := by
  rcases runOps_models hv hs with ⟨rows, M⟩
  constructor
  · intro i hi hin
    rw [levelIds_zero_models M] at hi
    rcases List.mem_map.mp hi with ⟨r, hr, hri⟩
    rcases mem_annotAll_exists rows 1 hr with ⟨x, hx, hx1⟩
    have hsepx : ∀ r' ∈ rows, sepScore r'.score x.1.score := fun r' hr' =>
      (sepOpsB_sepSet hs) _ (M.hS r' hr') _ (M.hS x.1 (by rw [hx1]; exact hr))
    have hGR := GetRank_models_present M hx hsepx
    have hnm : x.1.name = n := by
      rw [hx1, ← M.hname r hr, hri, hin]
    have hlpc : (lexPredCount (runOps ops) i : ℤ) = x.2 - 1 := by
      rw [← hri, ← hx1]
      exact lexPredCount_models M hx
    rw [← hnm, hGR, hlpc]
    rw [show (1 + (x.2 - 1) : ℤ) = x.2 from by ring]
  · intro hnone
    unfold GetRank
    rw [hnone]

/-- Witness for C2: after the separated run `A:0 (level 1), B:100`,
node 3 carries key "B" at rank 2, and key "Z" is absent. -/
theorem C2_getRank_witness :
    validOpsB [.ins "A" (.fin 0) 1, .ins "B" (.fin 100) 0] = true ∧
    sepOpsB [.ins "A" (.fin 0) 1, .ins "B" (.fin 100) 0] = true ∧
    3 ∈ levelIds (runOps [.ins "A" (.fin 0) 1, .ins "B" (.fin 100) 0]) 0 ∧
    (runOps [.ins "A" (.fin 0) 1, .ins "B" (.fin 100) 0]).nameOf 3 = "B" ∧
    GetRank (runOps [.ins "A" (.fin 0) 1, .ins "B" (.fin 100) 0]) "B" =
      (1 + (lexPredCount (runOps [.ins "A" (.fin 0) 1,
        .ins "B" (.fin 100) 0]) 3 : ℤ), true) ∧
    elemsLookup (runOps [.ins "A" (.fin 0) 1,
      .ins "B" (.fin 100) 0]).elements "Z" = none ∧
    GetRank (runOps [.ins "A" (.fin 0) 1, .ins "B" (.fin 100) 0]) "Z" =
      (0, false) :=
  ⟨by decide, by decide, by decide, by decide,
    (C2_getRank [.ins "A" (.fin 0) 1, .ins "B" (.fin 100) 0]
      (by decide) (by decide) "B").1 3 (by decide) (by decide),
    by decide,
    (C2_getRank [.ins "A" (.fin 0) 1, .ins "B" (.fin 100) 0]
      (by decide) (by decide) "Z").2 (by decide)⟩

/-- C4 (amended).  On every state reachable by a valid,
separation-compatible run, the in-order base-level traversal from the head
visits the real nodes sorted ascending in the source's epsilon comparison
(score up to `Eps`, then key), equivalently strictly ascending in the exact
(score, key) lexicographic order, and each live key appears exactly once.
(Unrestricted, the claim is false: epsilon-incompatible inserts produce a
base chain out of order in both senses — see the counterexample.) -/
theorem C4_total_order (ops : List Op) (hv : validOpsB ops = true)
    (hs : sepOpsB ops = true) :
    sortedEpsB (runOps ops) = true ∧ sortedStrictB (runOps ops) = true ∧
    namesNodupB (runOps ops) = true := by
  rcases runOps_models hv hs with ⟨rows, M⟩
  exact ⟨sortedEpsB_models (sepOpsB_sepSet hs) M, sortedStrictB_models M,
    namesNodupB_models M⟩

/-- Witness for C4 on the separated run `B:100, A:0 (level 1), C:200`. -/
theorem C4_total_order_witness :
    validOpsB [.ins "B" (.fin 100) 0, .ins "A" (.fin 0) 1,
      .ins "C" (.fin 200) 0] = true ∧
    sepOpsB [.ins "B" (.fin 100) 0, .ins "A" (.fin 0) 1,
      .ins "C" (.fin 200) 0] = true ∧
    sortedEpsB (runOps [.ins "B" (.fin 100) 0, .ins "A" (.fin 0) 1,
      .ins "C" (.fin 200) 0]) = true ∧
    sortedStrictB (runOps [.ins "B" (.fin 100) 0, .ins "A" (.fin 0) 1,
      .ins "C" (.fin 200) 0]) = true ∧
    namesNodupB (runOps [.ins "B" (.fin 100) 0, .ins "A" (.fin 0) 1,
      .ins "C" (.fin 200) 0]) = true :=
  ⟨by decide, by decide,
    (C4_total_order [.ins "B" (.fin 100) 0, .ins "A" (.fin 0) 1,
      .ins "C" (.fin 200) 0] (by decide) (by decide)).1,
    (C4_total_order [.ins "B" (.fin 100) 0, .ins "A" (.fin 0) 1,
      .ins "C" (.fin 200) 0] (by decide) (by decide)).2.1,
    (C4_total_order [.ins "B" (.fin 100) 0, .ins "A" (.fin 0) 1,
      .ins "C" (.fin 200) 0] (by decide) (by decide)).2.2⟩

/-- C10 (amended).  On every state reachable by a valid,
separation-compatible run, the key set of the index equals the name set of
the base chain between the sentinels, each chain node's stored score equals
its indexed score, and the node count equals the chain length.
(Unrestricted, the claim is false: an epsilon-incompatible re-score leaves
a stale node on the chain that the index no longer tracks — see the
counterexample.) -/
theorem C10_index_structure (ops : List Op) (hv : validOpsB ops = true)
    (hs : sepOpsB ops = true) : consistentB (runOps ops) = true := by
  rcases runOps_models hv hs with ⟨rows, M⟩
  exact consistentB_models M

/-- Witness for C10 on the separated run `A:0 (level 1), B:100, delete A`. -/
theorem C10_index_structure_witness :
    validOpsB [.ins "A" (.fin 0) 1, .ins "B" (.fin 100) 0, .del "A"] = true ∧
    sepOpsB [.ins "A" (.fin 0) 1, .ins "B" (.fin 100) 0, .del "A"] = true ∧
    consistentB (runOps [.ins "A" (.fin 0) 1, .ins "B" (.fin 100) 0,
      .del "A"]) = true :=
  ⟨by decide, by decide,
    C10_index_structure [.ins "A" (.fin 0) 1, .ins "B" (.fin 100) 0, .del "A"]
      (by decide) (by decide)⟩

theorem absIns_length (rows : List Row) (nid : ℕ) (nm : String) (q : ℤ)
    (h : ℕ) : (absIns rows nid nm q h).length = rows.length + 1 := by
  unfold absIns
  rw [List.length_append, List.length_cons]
  have h2 : (rows.takeWhile (fun r => decide (rowLt r.key (q, nm)))).length +
      (rows.dropWhile (fun r => decide (rowLt r.key (q, nm)))).length =
      rows.length := by
    rw [← List.length_append, List.takeWhile_append_dropWhile]
  omega

theorem absDel_length_of_mem {rows : List Row} {r : Row} {n : String}
    (hr : r ∈ rows) (hrn : r.name = n)
    (hnd : (rows.map Row.name).Nodup) :
    (absDel rows n).length + 1 = rows.length := by
  rcases List.append_of_mem hr with ⟨pre, suf, hsplit⟩
  have hnd2 := hnd
  rw [hsplit, List.map_append, List.map_cons] at hnd2
  have hmid := List.nodup_middle.mp hnd2
  have hnotin : r.name ∉ pre.map Row.name ++ suf.map Row.name :=
    (List.nodup_cons.mp hmid).1
  have habs : absDel rows n = pre ++ suf := by
    unfold absDel
    rw [hsplit, List.filter_append, List.filter_cons]
    rw [if_neg (show ¬ ((fun r' : Row => decide (r'.name ≠ n)) r = true) from by
      simp only [decide_eq_true_eq]
      intro hc
      exact hc hrn)]
    have hfp : ∀ r' ∈ pre, r'.name ≠ n := by
      intro r' hr' hc
      apply hnotin
      rw [hrn, ← hc]
      exact List.mem_append.mpr (Or.inl (List.mem_map_of_mem Row.name hr'))
    have hfs : ∀ r' ∈ suf, r'.name ≠ n := by
      intro r' hr' hc
      apply hnotin
      rw [hrn, ← hc]
      exact List.mem_append.mpr (Or.inr (List.mem_map_of_mem Row.name hr'))
    rw [List.filter_eq_self.mpr (fun r' hr' => decide_eq_true (hfp r' hr')),
      List.filter_eq_self.mpr (fun r' hr' => decide_eq_true (hfs r' hr'))]
  rw [habs, hsplit]
  simp only [List.length_append, List.length_cons]
  omega

/-- The top populated level of a modelled state carries a node exactly when
`maxLevel` is positive, and every level above `maxLevel` is empty. -/
theorem maxTop_levels {S : List ℤ} {t : SkipList} {rows : List Row}
    (M : Models S t rows) :
    (t.maxLevel = 0 ∨ levelIds t t.maxLevel ≠ []) ∧
    (∀ L, t.maxLevel < L → L < MaxLevel → levelIds t L = []) := by
  constructor
  · rcases M.hmaxTop with h0 | ⟨r, hr, hge⟩
    · exact Or.inl h0
    · refine Or.inr ?_
      rw [levelIds_models M M.hmaxLt]
      rcases mem_annotAll_exists rows 1 hr with ⟨x, hx, hx1⟩
      have hxe : (x.1.id, x.2) ∈ levelEntries rows t.maxLevel := by
        unfold levelEntries
        refine List.mem_map.mpr ⟨x, ?_, rfl⟩
        refine List.mem_filter.mpr ⟨hx, ?_⟩
        simp only [decide_eq_true_eq]
        rw [hx1]
        exact hge
      exact List.ne_nil_of_mem (List.mem_map_of_mem Prod.fst hxe)
  · intro L h1 h2
    rw [levelIds_models M h2]
    rw [levelEntries_nil_of_high
      (fun r hr => lt_of_le_of_lt (M.hheight r hr) h1)]
    rfl

/-- `Delete` refines row removal, only keeps existing rows, and never
raises `maxLevel`. -/
theorem delete_state_models {S : List ℤ} (hSep : SepSet S) {t : SkipList}
    {rows : List Row} (M : Models S t rows) (n : String) :
    ∃ rows', Models S (Delete t n) rows' ∧ (∀ r ∈ rows', r ∈ rows) ∧
      (Delete t n).maxLevel ≤ t.maxLevel := by
  by_cases hex : ∃ r ∈ rows, r.name = n
  · rcases hex with ⟨r, hr, hrn⟩
    rcases mem_annotAll_exists rows 1 hr with ⟨x, hx, hx1⟩
    have hsepx : ∀ r' ∈ rows, sepScore r'.score x.1.score := by
      intro r' hr'
      exact hSep _ (M.hS r' hr') _ (M.hS x.1 (by rw [hx1]; exact hr))
    have hD := delete_models M hx hsepx
    rw [hx1, hrn] at hD
    have hsub : ∀ r' ∈ absDel rows n, r' ∈ rows := fun r' hr' =>
      (List.mem_filter.mp hr').1
    refine ⟨absDel rows n, hD, hsub, ?_⟩
    rcases hD.hmaxTop with h0 | ⟨r', hr', hge⟩
    · omega
    · exact le_trans hge (M.hheight r' (hsub r' hr'))
  · push_neg at hex
    have hnone : elemsLookup t.elements n = none := M.helemnone n hex
    have hDel : Delete t n = t := by
      unfold Delete
      rw [hnone]
    rw [hDel]
    exact ⟨rows, M, fun r hr => hr, le_refl _⟩

/-- C8 (amended).  On every state reachable by a valid,
separation-compatible run: an `Insert` of a key absent from the index
raises `maxLevel` by exactly one when the drawn level exceeds it and leaves
it unchanged otherwise; and `Delete` never raises `maxLevel`, leaves every
level above the new `maxLevel` empty, and keeps the new top level populated
unless it is zero.  (The claim that one `Insert` never decreases
`maxLevel` is false even on separated scores: a re-scoring `Insert` embeds
a full `Delete`, which can shrink `maxLevel` by more than the one level
the re-insert can add back — see the counterexample.) -/
theorem C8_maxLevel_dynamics (ops : List Op) (hv : validOpsB ops = true)
    (hs : sepOpsB ops = true) :
    (∀ n s lvl, elemsLookup (runOps ops).elements n = none →
      (Insert (runOps ops) n s lvl).maxLevel = (runOps ops).maxLevel ∨
      (Insert (runOps ops) n s lvl).maxLevel = (runOps ops).maxLevel + 1) ∧
    (∀ n, (Delete (runOps ops) n).maxLevel ≤ (runOps ops).maxLevel ∧
      ((Delete (runOps ops) n).maxLevel = 0 ∨
        levelIds (Delete (runOps ops) n)
          (Delete (runOps ops) n).maxLevel ≠ []) ∧
      (∀ L, (Delete (runOps ops) n).maxLevel < L → L < MaxLevel →
        levelIds (Delete (runOps ops) n) L = [])) := by
  rcases runOps_models hv hs with ⟨rows, M⟩
  constructor
  · intro n s lvl hnone
    by_cases hname : n = HeadNodeName ∨ n = TailNodeName
    · rw [SkipListGo.Insert, if_pos hname]
      exact Or.inl rfl
    by_cases hscore : s = (runOps ops).scoreOf 0 ∨ s = (runOps ops).scoreOf 1
    · rw [SkipListGo.Insert, if_neg hname, if_pos hscore]
      exact Or.inl rfl
    have hIns : Insert (runOps ops) n s lvl =
        insertFresh (runOps ops) n s lvl := by
      rw [SkipListGo.Insert, if_neg hname, if_neg hscore]
      simp only [hnone]
    rw [hIns, maxLevel_insertFresh]
    by_cases hd : (runOps ops).maxLevel < lvl
    · rw [if_pos hd]
      exact Or.inr rfl
    · rw [if_neg hd]
      exact Or.inl rfl
  · intro n
    rcases delete_state_models (sepOpsB_sepSet hs) M n with ⟨rows', M', hsub, hle⟩
    exact ⟨hle, (maxTop_levels M').1, (maxTop_levels M').2⟩

/-- Witness for C8: on the separated one-element run `A:0 (level 1)`, a
fresh insert of "B" at level 0 keeps `maxLevel`, and deleting "A" shrinks
it with the levels above empty. -/
theorem C8_maxLevel_dynamics_witness :
    validOpsB [.ins "A" (.fin 0) 1] = true ∧
    sepOpsB [.ins "A" (.fin 0) 1] = true ∧
    elemsLookup (runOps [.ins "A" (.fin 0) 1]).elements "B" = none ∧
    ((Insert (runOps [.ins "A" (.fin 0) 1]) "B" (.fin 100) 0).maxLevel =
        (runOps [.ins "A" (.fin 0) 1]).maxLevel ∨
      (Insert (runOps [.ins "A" (.fin 0) 1]) "B" (.fin 100) 0).maxLevel =
        (runOps [.ins "A" (.fin 0) 1]).maxLevel + 1) ∧
    (Delete (runOps [.ins "A" (.fin 0) 1]) "A").maxLevel ≤
      (runOps [.ins "A" (.fin 0) 1]).maxLevel :=
  ⟨by decide, by decide, by decide,
    (C8_maxLevel_dynamics [.ins "A" (.fin 0) 1] (by decide) (by decide)).1
      "B" (.fin 100) 0 (by decide),
    ((C8_maxLevel_dynamics [.ins "A" (.fin 0) 1] (by decide) (by decide)).2
      "A").1⟩

/-- C7 (amended).  On every state reachable by a valid,
separation-compatible run whose extension by the re-scoring insert is
still separation-compatible: if `n` is indexed with a score not
epsilon-equal to the new score, the insert deletes the old node and
inserts afresh, after which `GetScore n` returns the new score with
`found = true`, the base chain still carries each key once, and the node
count is unchanged.  (Unrestricted, the claim is false: on
epsilon-incompatible scores the embedded delete misses the stale node,
which stays on the chain under the same key — see the counterexample.) -/
theorem C7_rescore (ops : List Op) (n : String) (q : ℤ) (lvl : ℕ)
    (c : EScore)
    (hv : validOpsB (ops ++ [.ins n (.fin q) lvl]) = true)
    (hs : sepOpsB (ops ++ [.ins n (.fin q) lvl]) = true)
    (hpresent : elemsLookup (runOps ops).elements n = some c)
    (hne : equalFloat c (.fin q) = false) :
    GetScore (runOps (ops ++ [.ins n (.fin q) lvl])) n = (.fin q, true) ∧
    namesNodupB (runOps (ops ++ [.ins n (.fin q) lvl])) = true ∧
    GetNodeCount (runOps (ops ++ [.ins n (.fin q) lvl])) =
      GetNodeCount (runOps ops) := by
  have hSep := sepOpsB_sepSet hs
  rcases runOps_prefix_models hv hs with ⟨rows, M⟩
  have hrun : runOps (ops ++ [.ins n (.fin q) lvl]) =
      Insert (runOps ops) n (.fin q) lvl := by
    rw [runOps_append]
    rfl
  have hq : q ∈ finScores (ops ++ [.ins n (.fin q) lvl]) := mem_finScores (by
    rw [insScores_append]
    exact List.mem_append.mpr (Or.inr (List.mem_cons_self _ _)))
  have hn1 : n ≠ HeadNodeName := by
    intro hc
    have hno : ∀ r ∈ rows, r.name ≠ n := fun r hr => by
      rw [hc]
      exact (M.hnotsent r hr).1
    rw [M.helemnone n hno] at hpresent
    exact Option.noConfusion hpresent
  have hn2 : n ≠ TailNodeName := by
    intro hc
    have hno : ∀ r ∈ rows, r.name ≠ n := fun r hr => by
      rw [hc]
      exact (M.hnotsent r hr).2
    rw [M.helemnone n hno] at hpresent
    exact Option.noConfusion hpresent
  have hname : ¬ (n = HeadNodeName ∨ n = TailNodeName) := by
    rintro (h | h)
    · exact hn1 h
    · exact hn2 h
  have hscore : ¬ ((EScore.fin q) = (runOps ops).scoreOf 0 ∨
      (EScore.fin q) = (runOps ops).scoreOf 1) := by
    rintro (h | h)
    · rw [M.hheadscore] at h
      exact EScore.noConfusion h
    · rw [M.htailscore] at h
      exact EScore.noConfusion h
  have hIns : Insert (runOps ops) n (.fin q) lvl =
      insertFresh (Delete (runOps ops) n) n (.fin q) lvl := by
    rw [SkipListGo.Insert, if_neg hname, if_neg hscore]
    simp only [hpresent]
    rw [if_neg (show ¬ (equalFloat c (EScore.fin q) = true) from by
      rw [hne]
      exact Bool.false_ne_true)]
  have hex : ∃ r ∈ rows, r.name = n := by
    by_contra hno
    push_neg at hno
    rw [M.helemnone n hno] at hpresent
    exact Option.noConfusion hpresent
  rcases hex with ⟨r, hr, hrn⟩
  rcases mem_annotAll_exists rows 1 hr with ⟨x, hx, hx1⟩
  have hsepx : ∀ r' ∈ rows, sepScore r'.score x.1.score := fun r' hr' =>
    hSep _ (M.hS r' hr') _ (M.hS x.1 (by rw [hx1]; exact hr))
  have hD := delete_models M hx hsepx
  rw [hx1, hrn] at hD
  have hfree : ∀ r' ∈ absDel rows n, r'.name ≠ n := fun r' hr' =>
    of_decide_eq_true (List.mem_filter.mp hr').2
  have hsep2 : ∀ r' ∈ absDel rows n, sepScore r'.score q := fun r' hr' =>
    hSep _ (hD.hS r' hr') _ hq
  have hlvl : lvl < MaxLevel := by
    have h3 := hv
    unfold validOpsB at h3
    rw [List.all_eq_true] at h3
    have h2 := h3 (.ins n (.fin q) lvl)
      (List.mem_append.mpr (Or.inr (List.mem_cons_self _ _)))
    exact of_decide_eq_true h2
  have M2 := insert_models hD q n lvl hsep2 hfree hn1 hn2 hq
    (insMaxL_lt hD hlvl)
  rw [hrun, hIns]
  refine ⟨?_, ?_, ?_⟩
  · unfold GetScore
    have hlook2 : elemsLookup
        (insertFresh (Delete (runOps ops) n) n (.fin q) lvl).elements n =
        some (.fin q) := by
      rw [elements_insertFresh]
      exact elemsLookup_elemsSet_self _ _ _
    rw [hlook2]
  · exact namesNodupB_models M2
  · show (insertFresh (Delete (runOps ops) n) n (.fin q) lvl).elements.length =
      (runOps ops).elements.length
    rw [M2.helemlen, M.helemlen, absIns_length]
    exact absDel_length_of_mem hr hrn M.hnamenodup

/-- Witness for C7: re-scoring "A" from 0 to 200 on a separated
two-element state. -/
theorem C7_rescore_witness :
    validOpsB ([.ins "A" (.fin 0) 1, .ins "B" (.fin 100) 0] ++
      [.ins "A" (.fin 200) 0]) = true ∧
    sepOpsB ([.ins "A" (.fin 0) 1, .ins "B" (.fin 100) 0] ++
      [.ins "A" (.fin 200) 0]) = true ∧
    elemsLookup (runOps [.ins "A" (.fin 0) 1,
      .ins "B" (.fin 100) 0]).elements "A" = some (.fin 0) ∧
    equalFloat (.fin 0) (.fin 200) = false ∧
    GetScore (runOps ([.ins "A" (.fin 0) 1, .ins "B" (.fin 100) 0] ++
      [.ins "A" (.fin 200) 0])) "A" = (.fin 200, true) ∧
    namesNodupB (runOps ([.ins "A" (.fin 0) 1, .ins "B" (.fin 100) 0] ++
      [.ins "A" (.fin 200) 0])) = true ∧
    GetNodeCount (runOps ([.ins "A" (.fin 0) 1, .ins "B" (.fin 100) 0] ++
      [.ins "A" (.fin 200) 0])) =
      GetNodeCount (runOps [.ins "A" (.fin 0) 1, .ins "B" (.fin 100) 0]) :=
  ⟨by decide, by decide, by decide, by decide,
    (C7_rescore [.ins "A" (.fin 0) 1, .ins "B" (.fin 100) 0] "A" 200 0
      (.fin 0) (by decide) (by decide) (by decide) (by decide)).1,
    (C7_rescore [.ins "A" (.fin 0) 1, .ins "B" (.fin 100) 0] "A" 200 0
      (.fin 0) (by decide) (by decide) (by decide) (by decide)).2.1,
    (C7_rescore [.ins "A" (.fin 0) 1, .ins "B" (.fin 100) 0] "A" 200 0
      (.fin 0) (by decide) (by decide) (by decide) (by decide)).2.2⟩

/-! ### The rank descent of `FindByRank` -/

/-- The level-`L` rows at base rank at most `r`. -/
def leqRows (rows : List Row) (L : ℕ) (r : ℤ) : List (Row × ℤ) :=
  (annotAll rows 1).filter
    (fun x => decide (L ≤ x.1.height) && decide (x.2 ≤ r))

/-- The level-`L` rows at base rank above `r`. -/
def gtRows (rows : List Row) (L : ℕ) (r : ℤ) : List (Row × ℤ) :=
  (annotAll rows 1).filter
    (fun x => decide (L ≤ x.1.height) && !decide (x.2 ≤ r))

/-- The stop point of the level-`L` rank walk towards rank `r`. -/
def stopR (rows : List Row) (L : ℕ) (r : ℤ) : ℕ × ℤ :=
  lastOf ((leqRows rows L r).map eOf) ((0 : ℕ), (0 : ℤ))

theorem levelRows_split_rank (rows : List Row) (L : ℕ) (r : ℤ) :
    levelRows rows L = leqRows rows L r ++ gtRows rows L r :=
  filter_split_prefix (R := fun a b : Row × ℤ => a.2 < b.2)
    (fun x => decide (x.2 ≤ r)) (fun x => decide (L ≤ x.1.height))
    (annotAll rows 1) (annot_rank_pairwise rows 1)
    (fun a b hR hPb => decide_eq_true
      (le_trans (le_of_lt hR) (of_decide_eq_true hPb)))

theorem mem_leqRows {rows : List Row} {L : ℕ} {r : ℤ} {x : Row × ℤ}
    (h : x ∈ leqRows rows L r) :
    x ∈ annotAll rows 1 ∧ L ≤ x.1.height ∧ x.2 ≤ r := by
  rcases List.mem_filter.mp h with ⟨hmem, hcond⟩
  simp only [Bool.and_eq_true, decide_eq_true_eq] at hcond
  exact ⟨hmem, hcond.1, hcond.2⟩

theorem mem_gtRows {rows : List Row} {L : ℕ} {r : ℤ} {x : Row × ℤ}
    (h : x ∈ gtRows rows L r) :
    x ∈ annotAll rows 1 ∧ L ≤ x.1.height ∧ r < x.2 := by
  rcases List.mem_filter.mp h with ⟨hmem, hcond⟩
  simp only [Bool.and_eq_true, Bool.not_eq_true', decide_eq_false_iff_not,
    decide_eq_true_eq, not_le] at hcond
  exact ⟨hmem, hcond.1, hcond.2⟩

theorem leqRows_eq_filter (rows : List Row) (L : ℕ) (r : ℤ) :
    leqRows rows L r = (levelRows rows L).filter
      (fun x => decide (x.2 ≤ r)) := by
  unfold leqRows levelRows
  rw [List.filter_filter]
  apply List.filter_congr
  intro a _
  rw [Bool.and_comm]

theorem sorted_lastOf_decomp :
    ∀ (l : List (Row × ℤ)), l.Pairwise (fun a b : Row × ℤ => a.2 < b.2) →
      ∀ {e : Row × ℤ}, e ∈ l → (∀ y ∈ l, y.2 ≤ e.2) →
      ∃ l', l = l' ++ [e] := by
  intro l
  induction l with
  | nil =>
    intro _ e he
    exact absurd he (List.not_mem_nil e)
  | cons a as ih =>
    intro hs e he hmax
    rcases List.mem_cons.mp he with rfl | he'
    · cases has : as with
      | nil => exact ⟨[], rfl⟩
      | cons b bs =>
        exfalso
        have h1 := (List.pairwise_cons.mp hs).1 b
          (by rw [has]; exact List.mem_cons_self _ _)
        have h2 := hmax b
          (by rw [has]; exact List.mem_cons_of_mem _ (List.mem_cons_self _ _))
        omega
    · rcases ih (List.pairwise_cons.mp hs).2 he'
        (fun y hy => hmax y (List.mem_cons_of_mem _ hy)) with ⟨l', hl'⟩
      exact ⟨a :: l', by rw [List.cons_append, hl']⟩

/-- The rightward span-budget walk of `FindByRank` along a level list stops
at the last entry whose base rank does not exceed the target. -/
theorem fbrAdvance_chain {t : SkipList} {L : ℕ} (r : ℤ) :
    ∀ (entries : List (ℕ × ℤ)) (c : ℕ × ℤ),
      List.Chain' (linkRel t L) (c :: entries) →
      t.nextOf (lastOf entries c).1 L = some 1 →
      (∀ e ∈ entries, e.1 ≠ 1) →
      (c :: entries).Pairwise (fun a b : ℕ × ℤ => a.2 < b.2) →
      ∀ fuel, entries.length + 1 ≤ fuel →
      fbrAdvance t L r fuel c.1 c.2 =
        lastOf (entries.filter (fun e => decide (e.2 ≤ r))) c := by
  intro entries
  induction entries with
  | nil =>
    intro c _ htl _ _ fuel hf
    rcases fuel with _ | f
    · omega
    have htl' : t.nextOf c.1 L = some 1 := htl
    show fbrAdvance t L r (f + 1) c.1 c.2 = c
    unfold fbrAdvance
    rw [htl']
    rfl
  | cons e es ih =>
    intro c hch htl hne hpw fuel hf
    rcases fuel with _ | f
    · omega
    rcases List.chain'_cons.mp hch with ⟨hce, htlch⟩
    have hnx : t.nextOf c.1 L = some e.1 := hce.1
    have hsp : t.spanOf c.1 L = e.2 - c.2 := hce.2
    show fbrAdvance t L r (f + 1) c.1 c.2 =
      lastOf ((e :: es).filter (fun e' => decide (e'.2 ≤ r))) c
    unfold fbrAdvance
    rw [hnx]
    show (if e.1 ≠ 1 then
        if c.2 + t.spanOf c.1 L ≤ r then
          fbrAdvance t L r f e.1 (c.2 + t.spanOf c.1 L)
        else (c.1, c.2)
      else (c.1, c.2)) =
      lastOf ((e :: es).filter (fun e' => decide (e'.2 ≤ r))) c
    rw [if_pos (hne e (List.mem_cons_self _ _)), hsp,
      show c.2 + (e.2 - c.2) = e.2 from by ring]
    by_cases her : e.2 ≤ r
    · rw [if_pos her]
      have hfc : (e :: es).filter (fun e' => decide (e'.2 ≤ r)) =
          e :: es.filter (fun e' => decide (e'.2 ≤ r)) := by
        rw [List.filter_cons,
          if_pos (show (fun e' : ℕ × ℤ => decide (e'.2 ≤ r)) e = true from
            decide_eq_true her)]
      rw [hfc]
      show fbrAdvance t L r f e.1 e.2 =
        lastOf (es.filter (fun e' => decide (e'.2 ≤ r))) e
      exact ih e htlch htl (fun e' he' => hne e' (List.mem_cons_of_mem _ he'))
        (List.pairwise_cons.mp hpw).2 f
        (by simp only [List.length_cons] at hf; omega)
    · rw [if_neg her]
      have hall : (e :: es).filter (fun e' => decide (e'.2 ≤ r)) = [] := by
        rw [List.filter_eq_nil_iff]
        intro y hy
        simp only [decide_eq_true_eq]
        rcases List.mem_cons.mp hy with rfl | hy'
        · omega
        · have h2 := (List.pairwise_cons.mp
            (List.pairwise_cons.mp hpw).2).1 y hy'
          omega
      rw [hall]
      rfl

/-- The level-`L` rank walk started from the level-`(L+1)` stop point lands
on the level-`L` stop point. -/
theorem fbr_at_level {S : List ℤ} {t : SkipList} {rows : List Row}
    (M : Models S t rows) (r : ℤ) (L : ℕ) (hL : L < MaxLevel) :
    fbrAdvance t L r t.arena.length (stopR rows (L + 1) r).1
      (stopR rows (L + 1) r).2 = stopR rows L r := by
  have hfm : ∀ (l : List (Row × ℤ)),
      (l.map eOf).filter (fun e => decide (e.2 ≤ r)) =
      (l.filter (fun x => decide (x.2 ≤ r))).map eOf := by
    intro l
    rw [List.filter_map]
    congr 1
  by_cases hls : leqRows rows (L + 1) r = []
  · have hc0 : stopR rows (L + 1) r = ((0 : ℕ), (0 : ℤ)) := by
      unfold stopR
      rw [hls]
      rfl
    have hPnil : leqRows rows L 0 = [] := by
      unfold leqRows
      rw [List.filter_eq_nil_iff]
      intro x hx
      have h1 := annot_rank_lb rows 1 hx
      simp only [Bool.and_eq_true, decide_eq_true_eq]
      rintro ⟨-, hcc⟩
      omega
    have hsplit := levelRows_split_rank rows L 0
    rw [hPnil, List.nil_append] at hsplit
    have hent : levelEntries rows L = (gtRows rows L 0).map eOf := by
      rw [levelEntries_eq, hsplit]
    have hch := M.hlinks L hL
    unfold fullLevel at hch
    rw [hent] at hch
    have htl := M.htail L hL
    rw [hent] at htl
    have hids : ∀ e ∈ (gtRows rows L 0).map eOf, e.1 ≠ 1 := by
      intro e he
      rcases List.mem_map.mp he with ⟨x, hx, hxe⟩
      have := M.hid x.1 (mem_annotAll_fst (mem_gtRows hx).1)
      rw [← hxe]
      show x.1.id ≠ 1
      omega
    have hpw : (((0 : ℕ), (0 : ℤ)) :: (gtRows rows L 0).map eOf).Pairwise
        (fun a b : ℕ × ℤ => a.2 < b.2) := by
      refine List.pairwise_cons.mpr ⟨?_, ?_⟩
      · intro e he
        rcases List.mem_map.mp he with ⟨x, hx, hxe⟩
        have h1 := annot_rank_lb rows 1 (mem_gtRows hx).1
        rw [← hxe]
        show (0 : ℤ) < x.2
        omega
      · exact List.Pairwise.map eOf (fun a b hab => hab)
          ((annot_rank_pairwise rows 1).filter _)
    have hfuel : ((gtRows rows L 0).map eOf).length + 1 ≤ t.arena.length := by
      rw [List.length_map]
      have h1 : (gtRows rows L 0).length ≤ rows.length := by
        unfold gtRows
        calc ((annotAll rows 1).filter _).length
            ≤ (annotAll rows 1).length := List.length_filter_le _ _
          _ = rows.length := length_annotAll rows 1
      have := M.hcard
      omega
    rw [hc0]
    rw [fbrAdvance_chain r ((gtRows rows L 0).map eOf)
      ((0 : ℕ), (0 : ℤ)) hch htl hids hpw t.arena.length hfuel]
    rw [hfm (gtRows rows L 0)]
    have hfin : (gtRows rows L 0).filter (fun x => decide (x.2 ≤ r)) =
        leqRows rows L r := by
      rw [leqRows_eq_filter rows L r, hsplit]
    rw [hfin]
    rfl
  · have hmapne : (leqRows rows (L + 1) r).map eOf ≠ [] := fun hc =>
      hls (List.map_eq_nil_iff.mp hc)
    have hceq : stopR rows (L + 1) r =
        eOf (lastOf (leqRows rows (L + 1) r)
          ((⟨0, "", 0, 0⟩ : Row), (0 : ℤ))) := by
      unfold stopR
      rw [lastOf_indep _ _ (eOf ((⟨0, "", 0, 0⟩ : Row), (0 : ℤ))) hmapne]
      exact lastOf_map eOf _ _
    generalize hcR : lastOf (leqRows rows (L + 1) r)
      ((⟨0, "", 0, 0⟩ : Row), (0 : ℤ)) = cRow at hceq
    have hcmem : cRow ∈ leqRows rows (L + 1) r := by
      rw [← hcR]
      exact lastOf_mem _ _ hls
    rcases mem_leqRows hcmem with ⟨hcann, hch1, hcr⟩
    have hcP : cRow ∈ leqRows rows L cRow.2 := by
      unfold leqRows
      refine List.mem_filter.mpr ⟨hcann, ?_⟩
      simp only [Bool.and_eq_true, decide_eq_true_eq]
      exact ⟨by omega, le_refl _⟩
    have hmaxP : ∀ y ∈ leqRows rows L cRow.2, y.2 ≤ cRow.2 := fun y hy =>
      (mem_leqRows hy).2.2
    have hPsorted : (leqRows rows L cRow.2).Pairwise
        (fun a b : Row × ℤ => a.2 < b.2) :=
      (annot_rank_pairwise rows 1).filter _
    rcases sorted_lastOf_decomp _ hPsorted hcP hmaxP with ⟨P', hP'⟩
    have hsplitc := levelRows_split_rank rows L cRow.2
    have hent : levelEntries rows L =
        (leqRows rows L cRow.2).map eOf ++ (gtRows rows L cRow.2).map eOf := by
      rw [levelEntries_eq, hsplitc, List.map_append]
    have hlastP : lastOf ((leqRows rows L cRow.2).map eOf)
        ((0 : ℕ), (0 : ℤ)) = eOf cRow := by
      rw [hP', List.map_append, lastOf_append]
      rfl
    have hch := M.hlinks L hL
    unfold fullLevel at hch
    rw [hent] at hch
    have hsuffix : List.Chain' (linkRel t L)
        (eOf cRow :: (gtRows rows L cRow.2).map eOf) := by
      refine hch.suffix ⟨((0 : ℕ), (0 : ℤ)) :: P'.map eOf, ?_⟩
      show ((0 : ℕ), (0 : ℤ)) ::
          (P'.map eOf ++ (eOf cRow :: (gtRows rows L cRow.2).map eOf)) =
        ((0 : ℕ), (0 : ℤ)) ::
          ((leqRows rows L cRow.2).map eOf ++ (gtRows rows L cRow.2).map eOf)
      rw [hP', List.map_append, List.append_assoc]
      rfl
    have htl := M.htail L hL
    rw [hent, lastOf_append, hlastP] at htl
    have hids : ∀ e ∈ (gtRows rows L cRow.2).map eOf, e.1 ≠ 1 := by
      intro e he
      rcases List.mem_map.mp he with ⟨x, hx, hxe⟩
      have := M.hid x.1 (mem_annotAll_fst (mem_gtRows hx).1)
      rw [← hxe]
      show x.1.id ≠ 1
      omega
    have hpw : (eOf cRow :: (gtRows rows L cRow.2).map eOf).Pairwise
        (fun a b : ℕ × ℤ => a.2 < b.2) := by
      refine List.pairwise_cons.mpr ⟨?_, ?_⟩
      · intro e he
        rcases List.mem_map.mp he with ⟨x, hx, hxe⟩
        have h1 := (mem_gtRows hx).2.2
        rw [← hxe]
        show cRow.2 < x.2
        omega
      · exact List.Pairwise.map eOf (fun a b hab => hab)
          ((annot_rank_pairwise rows 1).filter _)
    have hfuel : ((gtRows rows L cRow.2).map eOf).length + 1 ≤
        t.arena.length := by
      rw [List.length_map]
      have h1 : (gtRows rows L cRow.2).length ≤ rows.length := by
        unfold gtRows
        calc ((annotAll rows 1).filter _).length
            ≤ (annotAll rows 1).length := List.length_filter_le _ _
          _ = rows.length := length_annotAll rows 1
      have := M.hcard
      omega
    rw [hceq]
    rw [fbrAdvance_chain r ((gtRows rows L cRow.2).map eOf) (eOf cRow)
      hsuffix htl hids hpw t.arena.length hfuel]
    rw [hfm (gtRows rows L cRow.2)]
    have hdecomp : leqRows rows L r = leqRows rows L cRow.2 ++
        (gtRows rows L cRow.2).filter (fun x => decide (x.2 ≤ r)) := by
      rw [leqRows_eq_filter rows L r, hsplitc, List.filter_append]
      congr 1
      exact List.filter_eq_self.mpr (fun y hy => decide_eq_true
        (le_trans (mem_leqRows hy).2.2 hcr))
    show lastOf (((gtRows rows L cRow.2).filter
        (fun x => decide (x.2 ≤ r))).map eOf) (eOf cRow) = stopR rows L r
    unfold stopR
    rw [hdecomp, List.map_append, lastOf_append, hlastP]

/-- The rank descent returns the node at the target rank. -/
theorem fbrLevels_desc {S : List ℤ} {t : SkipList} {rows : List Row}
    (M : Models S t rows) {x : Row × ℤ} (hx : x ∈ annotAll rows 1) :
    ∀ L, L ≤ t.maxLevel →
    fbrLevels t x.2 ((List.range (L + 1)).reverse)
      (stopR rows (L + 1) x.2).1 (stopR rows (L + 1) x.2).2 =
      some x.1.id := by
  have hxleq : x ∈ leqRows rows 0 x.2 := by
    unfold leqRows
    refine List.mem_filter.mpr ⟨hx, ?_⟩
    simp
  have hpw0 : (leqRows rows 0 x.2).Pairwise
      (fun a b : Row × ℤ => a.2 < b.2) :=
    (annot_rank_pairwise rows 1).filter _
  rcases sorted_lastOf_decomp _ hpw0
    hxleq (fun y hy => (mem_leqRows hy).2.2) with ⟨l0, hl0⟩
  have hl0' : leqRows rows 0 x.2 = l0 ++ [x] := hl0
  have hstop0 : stopR rows 0 x.2 = eOf x := by
    unfold stopR
    rw [hl0', List.map_append, lastOf_append]
    rfl
  intro L
  induction L with
  | zero =>
    intro h0
    rw [range_reverse_succ 0]
    show fbrLevels t x.2 (0 :: (List.range 0).reverse)
      (stopR rows (0 + 1) x.2).1 (stopR rows (0 + 1) x.2).2 = some x.1.id
    unfold fbrLevels
    simp only [fbr_at_level M x.2 0 (by decide)]
    rw [hstop0]
    rw [if_pos (show (eOf x).2 = x.2 from rfl)]
    rfl
  | succ L ih =>
    intro hL1
    rw [range_reverse_succ (L + 1)]
    show fbrLevels t x.2 ((L + 1) :: (List.range (L + 1)).reverse)
      (stopR rows (L + 1 + 1) x.2).1 (stopR rows (L + 1 + 1) x.2).2 =
      some x.1.id
    unfold fbrLevels
    simp only [fbr_at_level M x.2 (L + 1) (lt_of_le_of_lt hL1 M.hmaxLt)]
    by_cases hstop : (stopR rows (L + 1) x.2).2 = x.2
    · rw [if_pos hstop]
      have hsx : stopR rows (L + 1) x.2 = eOf x := by
        by_cases hls : leqRows rows (L + 1) x.2 = []
        · exfalso
          have h2 : stopR rows (L + 1) x.2 = ((0 : ℕ), (0 : ℤ)) := by
            unfold stopR
            rw [hls]
            rfl
          rw [h2] at hstop
          have h3 : (0 : ℤ) = x.2 := hstop
          have := annot_rank_lb rows 1 hx
          omega
        · have hmapne : (leqRows rows (L + 1) x.2).map eOf ≠ [] := fun hc =>
            hls (List.map_eq_nil_iff.mp hc)
          have hceq : stopR rows (L + 1) x.2 =
              eOf (lastOf (leqRows rows (L + 1) x.2)
                ((⟨0, "", 0, 0⟩ : Row), (0 : ℤ))) := by
            unfold stopR
            rw [lastOf_indep _ _ (eOf ((⟨0, "", 0, 0⟩ : Row), (0 : ℤ)))
              hmapne]
            exact lastOf_map eOf _ _
          have hcmem : lastOf (leqRows rows (L + 1) x.2)
              ((⟨0, "", 0, 0⟩ : Row), (0 : ℤ)) ∈ leqRows rows (L + 1) x.2 :=
            lastOf_mem _ _ hls
          have hcann := (mem_leqRows hcmem).1
          rw [hceq] at hstop
          have hrk : (lastOf (leqRows rows (L + 1) x.2)
              ((⟨0, "", 0, 0⟩ : Row), (0 : ℤ))).2 = x.2 := hstop
          have := annot_rank_inj hcann hx hrk
          rw [hceq, this]
      rw [hsx]
      rfl
    · rw [if_neg hstop]
      exact ih (le_trans (Nat.le_succ L) hL1)

/-- `FindByRank` at a live rank returns that rank's node. -/
theorem FindByRank_models {S : List ℤ} {t : SkipList} {rows : List Row}
    (M : Models S t rows) {x : Row × ℤ} (hx : x ∈ annotAll rows 1) :
    FindByRank t x.2 = some x.1.id := by
  unfold FindByRank
  have hb1 : (1 : ℤ) ≤ x.2 := annot_rank_lb rows 1 hx
  have hb2 : x.2 < 1 + (rows.length : ℤ) := annot_rank_ub rows 1 hx
  have hguard : ¬ (x.2 < 1 ∨ x.2 > (t.elements.length : ℤ)) := by
    rw [M.helemlen]
    omega
  rw [if_neg hguard]
  have hstart : stopR rows (t.maxLevel + 1) x.2 = ((0 : ℕ), (0 : ℤ)) := by
    unfold stopR
    rw [show leqRows rows (t.maxLevel + 1) x.2 = [] from by
      unfold leqRows
      rw [List.filter_eq_nil_iff]
      intro y hy
      simp only [Bool.and_eq_true, decide_eq_true_eq]
      rintro ⟨hcc, -⟩
      have := M.hheight y.1 (mem_annotAll_fst hy)
      omega]
    rfl
  have h := fbrLevels_desc M hx t.maxLevel (le_refl _)
  rw [hstart] at h
  exact h

/-- C3 (amended).  On every state reachable by a valid,
separation-compatible run: `FindByRank` returns absent for every rank
outside `[1, GetNodeCount]`; for every rank inside that range it returns a
node on which `GetRank` reports exactly that rank; and for every key on
which `GetRank` reports `(r, true)`, `FindByRank r` returns that key's
node.  (Unrestricted, the round trip is false: on epsilon-incompatible
scores the stale spans misdirect the rank descent — see the
counterexample.) -/
theorem C3_findByRank_roundtrip (ops : List Op) (hv : validOpsB ops = true)
    (hs : sepOpsB ops = true) :
    (∀ r : ℤ, r < 1 ∨ r > (GetNodeCount (runOps ops) : ℤ) →
      FindByRank (runOps ops) r = none) ∧
    (∀ r : ℤ, 1 ≤ r → r ≤ (GetNodeCount (runOps ops) : ℤ) →
      ∃ i, FindByRank (runOps ops) r = some i ∧
        GetRank (runOps ops) ((runOps ops).nameOf i) = (r, true)) ∧
    (∀ (n : String) (r : ℤ), GetRank (runOps ops) n = (r, true) →
      ∃ i, FindByRank (runOps ops) r = some i ∧
        (runOps ops).nameOf i = n) := by
  rcases runOps_models hv hs with ⟨rows, M⟩
  have hSep := sepOpsB_sepSet hs
  refine ⟨?_, ?_, ?_⟩
  · intro r hr
    unfold FindByRank
    rw [if_pos (show r < 1 ∨ r > ((runOps ops).elements.length : ℤ) from hr)]
  · intro r h1 h2
    have h2' : r < 1 + (rows.length : ℤ) := by
      have h3 : (GetNodeCount (runOps ops) : ℤ) = (rows.length : ℤ) := by
        show ((runOps ops).elements.length : ℤ) = _
        rw [M.helemlen]
      omega
    rcases annot_rank_surj rows 1 r h1 h2' with ⟨x, hx, hxr⟩
    refine ⟨x.1.id, ?_, ?_⟩
    · rw [← hxr]
      exact FindByRank_models M hx
    · have hxrow : x.1 ∈ rows := mem_annotAll_fst hx
      rw [M.hname x.1 hxrow]
      have hsepx : ∀ r' ∈ rows, sepScore r'.score x.1.score := fun r' hr' =>
        hSep _ (M.hS r' hr') _ (M.hS x.1 hxrow)
      rw [GetRank_models_present M hx hsepx, hxr]
  · intro n r hGR
    by_cases hex : ∃ r' ∈ rows, r'.name = n
    · rcases hex with ⟨r', hr', hrn⟩
      rcases mem_annotAll_exists rows 1 hr' with ⟨x, hx, hx1⟩
      have hxrow : x.1 ∈ rows := mem_annotAll_fst hx
      have hsepx : ∀ r'' ∈ rows, sepScore r''.score x.1.score := fun r'' hr'' =>
        hSep _ (M.hS r'' hr'') _ (M.hS x.1 hxrow)
      have hGR2 := GetRank_models_present M hx hsepx
      have hxn : x.1.name = n := by
        rw [hx1, hrn]
      rw [hxn] at hGR2
      rw [hGR2] at hGR
      have hr2 : x.2 = r := (Prod.mk.injEq _ _ _ _).mp hGR |>.1
      refine ⟨x.1.id, ?_, ?_⟩
      · rw [← hr2]
        exact FindByRank_models M hx
      · rw [M.hname x.1 hxrow, hxn]
    · exfalso
      push_neg at hex
      have h3 := GetRank_models_absent M n hex
      rw [h3] at hGR
      have := (Prod.mk.injEq _ _ _ _).mp hGR |>.2
      exact Bool.noConfusion this

/-- Witness for C3 on the separated run `A:0 (level 1), B:100`. -/
theorem C3_findByRank_roundtrip_witness :
    validOpsB [.ins "A" (.fin 0) 1, .ins "B" (.fin 100) 0] = true ∧
    sepOpsB [.ins "A" (.fin 0) 1, .ins "B" (.fin 100) 0] = true ∧
    FindByRank (runOps [.ins "A" (.fin 0) 1, .ins "B" (.fin 100) 0]) 5 =
      none ∧
    (∃ i, FindByRank (runOps [.ins "A" (.fin 0) 1,
        .ins "B" (.fin 100) 0]) 1 = some i ∧
      GetRank (runOps [.ins "A" (.fin 0) 1, .ins "B" (.fin 100) 0])
        ((runOps [.ins "A" (.fin 0) 1, .ins "B" (.fin 100) 0]).nameOf i) =
        (1, true)) ∧
    (∃ i, FindByRank (runOps [.ins "A" (.fin 0) 1,
        .ins "B" (.fin 100) 0]) 2 = some i ∧
      (runOps [.ins "A" (.fin 0) 1, .ins "B" (.fin 100) 0]).nameOf i =
        "B") :=
  ⟨by decide, by decide,
    (C3_findByRank_roundtrip [.ins "A" (.fin 0) 1, .ins "B" (.fin 100) 0]
      (by decide) (by decide)).1 5 (by decide),
    (C3_findByRank_roundtrip [.ins "A" (.fin 0) 1, .ins "B" (.fin 100) 0]
      (by decide) (by decide)).2.1 1 (by decide) (by decide),
    (C3_findByRank_roundtrip [.ins "A" (.fin 0) 1, .ins "B" (.fin 100) 0]
      (by decide) (by decide)).2.2 "B" 2 (by decide)⟩

/-! ### The score descent of `FindGreaterOrEqual` -/

theorem sep_lessThan {a q : ℤ} (h : sepScore a q) :
    lessThan (.fin a) (.fin q) = decide (a < q) := by
  unfold lessThan
  rw [sep_absGtEps h]
  show (decide (a < q) && decide (a ≠ q)) = decide (a < q)
  by_cases hlt : a < q
  · rw [decide_eq_true hlt, decide_eq_true (show a ≠ q from by omega)]
    rfl
  · rw [decide_eq_false hlt]
    rfl

theorem sep_greaterThan {a q : ℤ} (h : sepScore a q) :
    greaterThan (.fin q) (.fin a) = decide (a < q) := by
  unfold greaterThan
  have h2 : absGtEps (.fin q) (.fin a) = decide (q ≠ a) := by
    rcases h with rfl | hh | hh
    · rw [decide_eq_false (fun hc => hc rfl)]
      simp only [absGtEps, sub_self]
      decide
    · have hEps : (0 : ℤ) < Eps := by decide
      rw [decide_eq_true (show q ≠ a from by omega)]
      simp only [absGtEps, Bool.or_eq_true, decide_eq_true_eq]
      exact Or.inr (by omega)
    · have hEps : (0 : ℤ) < Eps := by decide
      rw [decide_eq_true (show q ≠ a from by omega)]
      simp only [absGtEps, Bool.or_eq_true, decide_eq_true_eq]
      exact Or.inl (by omega)
  rw [h2]
  show (decide (a < q) && decide (q ≠ a)) = decide (a < q)
  by_cases hlt : a < q
  · rw [decide_eq_true hlt, decide_eq_true (show q ≠ a from by omega)]
    rfl
  · rw [decide_eq_false hlt]
    rfl

/-- The level-`L` rows with score strictly below `q`. -/
def ltsRows (rows : List Row) (L : ℕ) (q : ℤ) : List (Row × ℤ) :=
  (annotAll rows 1).filter
    (fun x => decide (L ≤ x.1.height) && decide (x.1.score < q))

/-- The level-`L` rows with score at least `q`. -/
def gesRows (rows : List Row) (L : ℕ) (q : ℤ) : List (Row × ℤ) :=
  (annotAll rows 1).filter
    (fun x => decide (L ≤ x.1.height) && !decide (x.1.score < q))

/-- The stop point of the level-`L` score walk towards `q`. -/
def stopS (rows : List Row) (L : ℕ) (q : ℤ) : ℕ × ℤ :=
  lastOf ((ltsRows rows L q).map eOf) ((0 : ℕ), (0 : ℤ))

theorem levelRows_split_score {rows : List Row}
    (hs : rows.Pairwise (fun a b => rowLt a.key b.key)) (L : ℕ) (q : ℤ) :
    levelRows rows L = ltsRows rows L q ++ gesRows rows L q :=
  filter_split_prefix (R := fun a b : Row × ℤ => rowLt a.1.key b.1.key)
    (fun x => decide (x.1.score < q)) (fun x => decide (L ≤ x.1.height))
    (annotAll rows 1)
    (annotAll_pairwise (R := fun a b => rowLt a.key b.key) 1 hs)
    (fun a b hR hPb => decide_eq_true (by
      have h1 : b.1.key.1 < q := of_decide_eq_true hPb
      show a.1.key.1 < q
      rcases hR with h | ⟨h, -⟩
      · have h2 : a.1.key.1 < b.1.key.1 := h
        omega
      · have h2 : a.1.key.1 = b.1.key.1 := h
        omega))

theorem mem_ltsRows {rows : List Row} {L : ℕ} {q : ℤ} {x : Row × ℤ}
    (h : x ∈ ltsRows rows L q) :
    x ∈ annotAll rows 1 ∧ L ≤ x.1.height ∧ x.1.score < q := by
  rcases List.mem_filter.mp h with ⟨hmem, hcond⟩
  simp only [Bool.and_eq_true, decide_eq_true_eq] at hcond
  exact ⟨hmem, hcond.1, hcond.2⟩

theorem mem_gesRows {rows : List Row} {L : ℕ} {q : ℤ} {x : Row × ℤ}
    (h : x ∈ gesRows rows L q) :
    x ∈ annotAll rows 1 ∧ L ≤ x.1.height ∧ q ≤ x.1.score := by
  rcases List.mem_filter.mp h with ⟨hmem, hcond⟩
  simp only [Bool.and_eq_true, Bool.not_eq_true', decide_eq_false_iff_not,
    decide_eq_true_eq, not_lt] at hcond
  exact ⟨hmem, hcond.1, hcond.2⟩

theorem ltsRows_eq_filter (rows : List Row) (L : ℕ) (q : ℤ) :
    ltsRows rows L q = (levelRows rows L).filter
      (fun x => decide (x.1.score < q)) := by
  unfold ltsRows levelRows
  rw [List.filter_filter]
  apply List.filter_congr
  intro a _
  rw [Bool.and_comm]

/-- The rightward score walk of `FindGreaterOrEqual` along a level list
stops at the last entry with score below the target. -/
theorem fgeAdvance_chain {t : SkipList} {L : ℕ} (q : ℤ)
    (htail1 : lessThan (t.scoreOf 1) (.fin q) = false) :
    ∀ (A B : List (ℕ × ℤ)) (c : ℕ × ℤ),
      List.Chain' (linkRel t L) (c :: (A ++ B)) →
      t.nextOf (lastOf (A ++ B) c).1 L = some 1 →
      (∀ e ∈ A, lessThan (t.scoreOf e.1) (.fin q) = true) →
      (∀ e ∈ B, lessThan (t.scoreOf e.1) (.fin q) = false) →
      ∀ fuel, (A ++ B).length + 1 ≤ fuel →
      fgeAdvance t L (.fin q) fuel c.1 = (lastOf A c).1 := by
  intro A
  induction A with
  | nil =>
    intro B c hch htl hA hB fuel hf
    rcases fuel with _ | f
    · omega
    show fgeAdvance t L (.fin q) (f + 1) c.1 = c.1
    unfold fgeAdvance
    cases B with
    | nil =>
      have htl' : t.nextOf c.1 L = some 1 := htl
      rw [htl']
      show (if lessThan (t.scoreOf 1) (.fin q) = true then
        fgeAdvance t L (.fin q) f 1 else c.1) = c.1
      rw [if_neg (by rw [htail1]; exact Bool.false_ne_true)]
    | cons b bs =>
      have hnx : t.nextOf c.1 L = some b.1 := (List.chain'_cons.mp hch).1.1
      rw [hnx]
      show (if lessThan (t.scoreOf b.1) (.fin q) = true then
        fgeAdvance t L (.fin q) f b.1 else c.1) = c.1
      rw [if_neg (by
        rw [hB b (List.mem_cons_self _ _)]
        exact Bool.false_ne_true)]
  | cons a A' ih =>
    intro B c hch htl hA hB fuel hf
    rcases fuel with _ | f
    · omega
    have hnx : t.nextOf c.1 L = some a.1 := (List.chain'_cons.mp hch).1.1
    show fgeAdvance t L (.fin q) (f + 1) c.1 = (lastOf A' a).1
    unfold fgeAdvance
    rw [hnx]
    show (if lessThan (t.scoreOf a.1) (.fin q) = true then
      fgeAdvance t L (.fin q) f a.1 else c.1) = (lastOf A' a).1
    rw [if_pos (hA a (List.mem_cons_self _ _))]
    exact ih B a (List.chain'_cons.mp hch).2 htl
      (fun e he => hA e (List.mem_cons_of_mem _ he)) hB f
      (by simp only [List.length_append, List.length_cons] at hf ⊢
          omega)

end SkipListGo